import Mathlib

/-!
# Calculator compiler: lexer, parser, code generator, assembler, linker

A shallow embedding of the C++ sources under `1 calculatorCompiler/`
(`lexer.cpp`, `parser.cpp`, `parser.hpp`, `codegen.hpp`, `assembler.cpp`,
`linker.hpp`, `linker.cpp`, `main.cpp`) together with the properties proved
about them.

Conventions of the embedding

* `std::string` is `Str`, a list of characters (one `Char` per `char`).
* A C++ function that can throw returns `Except Error`; the constructors of
  `Error` name the exception classes that occur.
* Every `while` loop is a function that recurses on a fuel argument; the
  function that enters the loop supplies fuel bounded by the length of the
  input, and `Error.fuelExhausted` (which is not a C++ exception) is the
  outcome when the fuel does not suffice.
* The functions that compute with `double` take the arithmetic on `double`,
  `std::stod` and the conversion `static_cast<int>` as the fields of a record
  `DoubleOps α`; the type `double` itself is `Double` (IEEE 754 binary64,
  rounding to nearest), and its record is `binary64`.
* `uint32_t` machine words are natural numbers; every word built by the
  assembler is an OR of constants and masked fields below `2 ^ 32`.
-/

namespace Calc

/-! ## Strings, errors, character classes -/

/-- The type of `std::string` values. -/
abbrev Str := List Char

/-- Exceptions raised by the program and by the library calls it makes. -/
inductive Error where
  | runtime_error (what : String)
  | invalid_argument (what : String)
  | out_of_range (what : String)
  | fuelExhausted
  deriving DecidableEq, Repr

deriving instance DecidableEq for Except

/-- The C function `isspace` in the "C" locale. -/
def isspace (c : Char) : Bool :=
  c.toNat == 32 || (9 ≤ c.toNat && c.toNat ≤ 13)

/-- The C function `isdigit`. -/
def isdigit (c : Char) : Bool :=
  48 ≤ c.toNat && c.toNat ≤ 57

/-- The character class `\w` of `std::regex`: letters, digits and underscore. -/
def isword (c : Char) : Bool :=
  isdigit c || (65 ≤ c.toNat && c.toNat ≤ 90) || (97 ≤ c.toNat && c.toNat ≤ 122) || c.toNat == 95

/-! ## lexer.hpp / lexer.cpp -/

/-- The enumeration `TokenType` of lexer.hpp. -/
inductive TokenType where
  | NUMBER
  | PLUS
  | MINUS
  | MULTIPLY
  | DIVIDE
  | LPAREN
  | RPAREN
  | EOL
  | INVALID
  deriving DecidableEq, Repr

/-- The struct `Token` of lexer.hpp; `value` defaults to the empty string. -/
structure Token where
  type : TokenType
  value : Str := []
  deriving DecidableEq, Repr

/-- The class `Lexer`: the input and the read position. -/
structure Lexer where
  m_input : Str
  m_position : Nat
  deriving DecidableEq, Repr

/-- Constructor `Lexer(std::string input)`. -/
def Lexer.new (input : Str) : Lexer :=
  { m_input := input, m_position := 0 }

/-- The method `Lexer::peek`. -/
def Lexer.peek (lx : Lexer) : Char :=
  if lx.m_position ≥ lx.m_input.length then '\x00'
  else lx.m_input.getD lx.m_position '\x00'

/-- The method `Lexer::advance`: returns `m_input[m_position++]`. At
`m_position = length` the subscript of `std::string` yields the terminating
null character. -/
def Lexer.advance (lx : Lexer) : Char × Lexer :=
  (lx.m_input.getD lx.m_position '\x00', { lx with m_position := lx.m_position + 1 })

/-- The loop of `Lexer::skipWhitespace`. -/
def Lexer.skipWhitespaceLoop : Nat → Lexer → Except Error Lexer
  | 0, _ => .error .fuelExhausted
  | fuel + 1, lx =>
    if isspace lx.peek then skipWhitespaceLoop fuel lx.advance.2
    else .ok lx

/-- The method `Lexer::skipWhitespace`. -/
def Lexer.skipWhitespace (lx : Lexer) : Except Error Lexer :=
  Lexer.skipWhitespaceLoop (lx.m_input.length + 1) lx

/-- The loop of `Lexer::number`. -/
def Lexer.numberLoop : Nat → Lexer → Str → Except Error (Str × Lexer)
  | 0, _, _ => .error .fuelExhausted
  | fuel + 1, lx, result =>
    if isdigit lx.peek then
      numberLoop fuel lx.advance.2 (result ++ [lx.advance.1])
    else .ok (result, lx)

/-- The method `Lexer::number`. -/
def Lexer.number (lx : Lexer) : Except Error (Token × Lexer) := do
  let (result, lx) ← Lexer.numberLoop (lx.m_input.length + 1) lx []
  pure ({ type := .NUMBER, value := result }, lx)

/-- The `switch` of `Lexer::tokenize` on the character just consumed. -/
def Lexer.charToken (current : Char) : Token :=
  if current = '+' then { type := .PLUS }
  else if current = '-' then { type := .MINUS }
  else if current = '*' then { type := .MULTIPLY }
  else if current = '/' then { type := .DIVIDE }
  else if current = '(' then { type := .LPAREN }
  else if current = ')' then { type := .RPAREN }
  else { type := .INVALID }

/-- The `while` loop of `Lexer::tokenize` followed by the final `push_back`
of the `EOL` token. -/
def Lexer.tokenizeLoop : Nat → Lexer → List Token → Except Error (List Token)
  | 0, _, _ => .error .fuelExhausted
  | fuel + 1, lx, tokens =>
    if lx.m_position < lx.m_input.length then do
      let lx ← lx.skipWhitespace
      let current := lx.peek
      if isdigit current then
        let (tok, lx) ← lx.number
        tokenizeLoop fuel lx (tokens ++ [tok])
      else
        let lx := lx.advance.2
        tokenizeLoop fuel lx (tokens ++ [Lexer.charToken current])
    else
      .ok (tokens ++ [{ type := .EOL }])

/-- The method `Lexer::tokenize`. -/
def Lexer.tokenize (lx : Lexer) : Except Error (List Token) :=
  Lexer.tokenizeLoop (lx.m_input.length + 1) lx []

/-- The expression `Lexer(input).tokenize()` of main.cpp. -/
def tokenize (input : Str) : Except Error (List Token) :=
  (Lexer.new input).tokenize

/-! ## Numbers -/

/-- The operations on `double` that the program uses: the four arithmetic
operators, `std::stod`, which throws `std::invalid_argument` or
`std::out_of_range` on a text that it does not convert, and the conversion
`static_cast<int>`. -/
structure DoubleOps (α : Type) where
  add : α → α → α
  sub : α → α → α
  mul : α → α → α
  div : α → α → α
  stod : Str → Except Error α
  toInt : α → Int

/-- The decimal digit character of a number below ten. -/
def digitChar (n : Nat) : Char :=
  Char.ofNat (48 + n)

/-- The loop producing the decimal digits of a natural number, last digit
first, in front of `acc`. -/
def natDigits : Nat → Nat → Str → Str
  | 0, _, acc => acc
  | fuel + 1, n, acc =>
    if n / 10 = 0 then digitChar (n % 10) :: acc
    else natDigits fuel (n / 10) (digitChar (n % 10) :: acc)

/-- The function `std::to_string(int)`. -/
def to_string (v : Int) : Str :=
  if v < 0 then '-' :: natDigits (v.natAbs + 1) v.natAbs []
  else natDigits (v.natAbs + 1) v.natAbs []

/-- The value of a run of decimal digits. -/
def digitsValue (ds : Str) : Nat :=
  ds.foldl (fun acc c => acc * 10 + (c.toNat - 48)) 0

/-- The optional sign in front of the digits that `std::stoi` reads: whether
it is a minus sign, and the text after it. -/
def stoiSign (s : Str) : Bool × Str :=
  match s with
  | '-' :: r => (true, r)
  | '+' :: r => (false, r)
  | _ => (false, s)

/-- The function `std::stoi` (base 10): leading whitespace, an optional sign,
then the longest run of digits; `std::invalid_argument` when there is no
digit, `std::out_of_range` when the value is not an `int`. -/
def stoi (s : Str) : Except Error Int :=
  let signed := stoiSign (s.dropWhile isspace)
  let ds := signed.2.takeWhile isdigit
  if ds = [] then .error (.invalid_argument "stoi")
  else
    let v : Int := if signed.1 then - (digitsValue ds : Int) else (digitsValue ds : Int)
    if v < -2147483648 ∨ 2147483647 < v then .error (.out_of_range "stoi")
    else .ok v

/-! ## codegen.hpp -/

/-- The class `CodeGenerator`: the text written so far and the label counter. -/
structure CodeGenerator where
  output : Str
  label_count : Int
  deriving DecidableEq, Repr

/-- Constructor `CodeGenerator()`. -/
def CodeGenerator.new : CodeGenerator :=
  { output := [], label_count := 0 }

/-- The method `CodeGenerator::getCode`. -/
def CodeGenerator.getCode (gen : CodeGenerator) : Str :=
  gen.output

/-- The method `CodeGenerator::newLabel`. -/
def CodeGenerator.newLabel (gen : CodeGenerator) : Str × CodeGenerator :=
  ('L' :: to_string gen.label_count, { gen with label_count := gen.label_count + 1 })

/-- The method `CodeGenerator::emit`: four blanks, the line, a newline. -/
def CodeGenerator.emit (gen : CodeGenerator) (line : Str) : CodeGenerator :=
  { gen with output := gen.output ++ ("    ".toList ++ line ++ "\n".toList) }

/-! ## parser.hpp: expression trees -/

/-- The class hierarchy `Expression` / `NumberExpr` / `BinaryExpr`. The
arguments of `BinaryExpr` are in the order of its constructor. -/
inductive Expression (α : Type) where
  | NumberExpr (value : α)
  | BinaryExpr (left : Expression α) (op : TokenType) (right : Expression α)
  deriving DecidableEq, Repr

/-- The methods `NumberExpr::evaluate` and `BinaryExpr::evaluate`. -/
def Expression.evaluate {α : Type} (D : DoubleOps α) : Expression α → Except Error α
  | .NumberExpr value => .ok value
  | .BinaryExpr left op right => do
    let l ← left.evaluate D
    let r ← right.evaluate D
    match op with
    | .PLUS => .ok (D.add l r)
    | .MINUS => .ok (D.sub l r)
    | .MULTIPLY => .ok (D.mul l r)
    | .DIVIDE => .ok (D.div l r)
    | _ => .error (.runtime_error "Unknown operator")

/-- The methods `NumberExpr::generateCode` and `BinaryExpr::generateCode`. -/
def Expression.generateCode {α : Type} (D : DoubleOps α) :
    Expression α → CodeGenerator → Except Error CodeGenerator
  | .NumberExpr value, gen =>
    .ok (gen.emit ("mov x0, #".toList ++ to_string (D.toInt value)))
  | .BinaryExpr left op right, gen => do
    let gen ← right.generateCode D gen
    let gen := gen.emit "str x0, [sp, #-16]!".toList
    let gen ← left.generateCode D gen
    let gen := gen.emit "ldr x1, [sp], #16".toList
    match op with
    | .PLUS => .ok (gen.emit "add x0, x0, x1".toList)
    | .MINUS => .ok (gen.emit "sub x0, x0, x1".toList)
    | .MULTIPLY => .ok (gen.emit "mul x0, x0, x1".toList)
    | .DIVIDE => .ok (gen.emit "sdiv x0, x0, x1".toList)
    | _ => .error (.runtime_error "Unknown operator")

/-! ## parser.hpp / parser.cpp: the parser -/

/-- The class `Parser`: the token vector and the index of the current token. -/
structure Parser where
  m_tokens : List Token
  m_current : Nat
  deriving DecidableEq, Repr

/-- Constructor `Parser(const std::vector<Token>& tokens)`. -/
def Parser.new (tokens : List Token) : Parser :=
  { m_tokens := tokens, m_current := 0 }

/-- The subscript `m_tokens[i]`. An index outside the vector is undefined
behaviour in C++; it does not occur on the paths from `Parser::parse`, and the
embedding then yields an INVALID token. -/
def Parser.tokenAt (p : Parser) (i : Nat) : Token :=
  p.m_tokens.getD i { type := .INVALID }

/-- The method `Parser::isAtEnd`. -/
def Parser.isAtEnd (p : Parser) : Bool :=
  p.m_current ≥ p.m_tokens.length || (p.tokenAt p.m_current).type == .EOL

/-- The method `Parser::peek`. -/
def Parser.peek (p : Parser) : Token :=
  if p.isAtEnd then { type := .EOL } else p.tokenAt p.m_current

/-- The method `Parser::advance`. -/
def Parser.advance (p : Parser) : Token × Parser :=
  let p1 : Parser := if !p.isAtEnd then { p with m_current := p.m_current + 1 } else p
  (p1.tokenAt (p1.m_current - 1), p1)

/-- The method `Parser::check`. -/
def Parser.check (p : Parser) (type : TokenType) : Bool :=
  if p.isAtEnd then false else p.peek.type == type

/-- The method `Parser::match`. -/
def Parser.match_ (p : Parser) (type : TokenType) : Bool × Parser :=
  if p.check type then (true, p.advance.2) else (false, p)

/-- The method `Parser::factor`: an exception of `std::stod` leaves the
method, and with it the parser. -/
def Parser.factor {α : Type} (D : DoubleOps α) (p : Parser) :
    Except Error (Expression α × Parser) :=
  let m := p.match_ .NUMBER
  if m.1 then do
    let value ← D.stod (m.2.tokenAt (m.2.m_current - 1)).value
    .ok (.NumberExpr value, m.2)
  else
    .error (.runtime_error "Unexpected token")

/-- The `while` loop of `Parser::term`; its condition is
`match(MULTIPLY) || match(DIVIDE)`, evaluated left to right. -/
def Parser.termLoop {α : Type} (D : DoubleOps α) :
    Nat → Parser → Expression α → Except Error (Expression α × Parser)
  | 0, _, _ => .error .fuelExhausted
  | fuel + 1, p, expr =>
    let m1 := p.match_ .MULTIPLY
    let m := if m1.1 then m1 else m1.2.match_ .DIVIDE
    if m.1 then do
      let op := (m.2.tokenAt (m.2.m_current - 1)).type
      let (right, p2) ← Parser.factor D m.2
      termLoop D fuel p2 (.BinaryExpr expr op right)
    else
      .ok (expr, m.2)

/-- The method `Parser::term`. -/
def Parser.term {α : Type} (D : DoubleOps α) (p : Parser) :
    Except Error (Expression α × Parser) := do
  let (expr, p1) ← Parser.factor D p
  Parser.termLoop D (p.m_tokens.length + 1) p1 expr

/-- The `while` loop of `Parser::expression`; its condition is
`match(PLUS) || match(MINUS)`, evaluated left to right. -/
def Parser.expressionLoop {α : Type} (D : DoubleOps α) :
    Nat → Parser → Expression α → Except Error (Expression α × Parser)
  | 0, _, _ => .error .fuelExhausted
  | fuel + 1, p, expr =>
    let m1 := p.match_ .PLUS
    let m := if m1.1 then m1 else m1.2.match_ .MINUS
    if m.1 then do
      let op := (m.2.tokenAt (m.2.m_current - 1)).type
      let (right, p2) ← Parser.term D m.2
      expressionLoop D fuel p2 (.BinaryExpr expr op right)
    else
      .ok (expr, m.2)

/-- The method `Parser::expression`. -/
def Parser.expression {α : Type} (D : DoubleOps α) (p : Parser) :
    Except Error (Expression α × Parser) := do
  let (expr, p1) ← Parser.term D p
  Parser.expressionLoop D (p.m_tokens.length + 1) p1 expr

/-- The method `Parser::parse`, together with the parser state it leaves. -/
def Parser.parse {α : Type} (D : DoubleOps α) (p : Parser) :
    Except Error (Expression α × Parser) :=
  Parser.expression D p

/-- The expression `Parser(tokens).parse()` of main.cpp. -/
def parse {α : Type} (D : DoubleOps α) (tokens : List Token) : Except Error (Expression α) := do
  let (expr, _) ← (Parser.new tokens).parse D
  pure expr

/-! ## std::regex, as far as assembler.cpp uses it -/

/-- The character classes `\d`, `\s` and `\w`. -/
inductive CharClass where
  | digit
  | space
  | word
  deriving DecidableEq, Repr

/-- Membership of a character in a class. -/
def CharClass.test : CharClass → Char → Bool
  | .digit => isdigit
  | .space => isspace
  | .word => isword

/-- One piece of a pattern: a literal character, or a greedy repetition of a
character class (at least `min` times) which is a capture group when
`capture` is set. -/
inductive RegexPart where
  | chr (c : Char)
  | many (cls : CharClass) (min : Nat) (capture : Bool)
  deriving DecidableEq, Repr

/-- A pattern is a sequence of pieces. -/
abbrev Regex := List RegexPart

/-- The pattern matching the characters of `s` literally. -/
def Regex.lit (s : String) : Regex :=
  s.toList.map RegexPart.chr

/-- Backtracking over the lengths of a greedy repetition: `f` is tried at
`k`, then at `k - 1`, and so on down to `min`; the first success is taken. -/
def greedy {β : Type} (f : Nat → Option β) (min : Nat) : Nat → Option β
  | 0 => if min = 0 then f 0 else none
  | k + 1 => if k + 1 < min then none else (f (k + 1)).orElse (fun _ => greedy f min k)

/-- Match of a pattern at the start of `input`; the result is the list of
captured groups (`matches[1]`, `matches[2]`, ... in this order). -/
def Regex.matchAt : Regex → Str → List Str → Option (List Str)
  | [], _, caps => some caps
  | .chr c :: ps, input, caps =>
    match input with
    | [] => none
    | d :: rest => if d = c then Regex.matchAt ps rest caps else none
  | .many cls min capture :: ps, input, caps =>
    greedy (fun k => Regex.matchAt ps (input.drop k)
        (if capture then caps ++ [input.take k] else caps))
      min (input.takeWhile cls.test).length

/-- The function `std::regex_search`: the match at the leftmost position at
which the pattern matches. -/
def regex_search (pattern : Regex) : Str → Option (List Str)
  | [] => Regex.matchAt pattern [] []
  | c :: cs => (Regex.matchAt pattern (c :: cs) []).orElse (fun _ => regex_search pattern cs)

/-! ## assembler.hpp / assembler.cpp -/

/-- The operation `x & (2 ^ bits - 1)` on an `int`. -/
def maskBits (x : Int) (bits : Nat) : Nat :=
  (x % (2 : Int) ^ bits).toNat

/-- The pattern `mov x(\d+),\s*#(\d+)` of `assembleMov`. -/
def Assembler.movPattern : Regex :=
  Regex.lit "mov x" ++ [.many .digit 1 true, .chr ',', .many .space 0 false, .chr '#',
    .many .digit 1 true]

/-- The pattern `(\w+)\s+x(\d+),\s*x(\d+),\s*x(\d+)` of `assembleArithmetic`. -/
def Assembler.arithmeticPattern : Regex :=
  [.many .word 1 true, .many .space 1 false, .chr 'x', .many .digit 1 true, .chr ',',
    .many .space 0 false, .chr 'x', .many .digit 1 true, .chr ',', .many .space 0 false,
    .chr 'x', .many .digit 1 true]

/-- The pattern `ldr x(\d+),\s*\[sp\],\s*#(\d+)` of `assembleLoad`. -/
def Assembler.loadPattern : Regex :=
  Regex.lit "ldr x" ++ [.many .digit 1 true, .chr ',', .many .space 0 false] ++
    Regex.lit "[sp]," ++ [.many .space 0 false, .chr '#', .many .digit 1 true]

/-- The pattern `str x(\d+),\s*\[sp,\s*#-(\d+)\]!` of `assembleStore`. -/
def Assembler.storePattern : Regex :=
  Regex.lit "str x" ++ [.many .digit 1 true, .chr ',', .many .space 0 false] ++
    Regex.lit "[sp," ++ [.many .space 0 false] ++ Regex.lit "#-" ++ [.many .digit 1 true] ++
    Regex.lit "]!"

/-- The method `Assembler::assembleMov`. -/
def Assembler.assembleMov (line : Str) : Except Error Nat :=
  match regex_search Assembler.movPattern line with
  | some matched => do
    let rd ← stoi (matched.getD 0 [])
    let imm ← stoi (matched.getD 1 [])
    let instruction := 0xD2800000
    let instruction := instruction ||| maskBits rd 5
    let instruction := instruction ||| (maskBits imm 16 <<< 5)
    pure instruction
  | none => .error (.runtime_error "Invalid MOV instruction format")

/-- The method `Assembler::assembleArithmetic`. -/
def Assembler.assembleArithmetic (line : Str) : Except Error Nat :=
  match regex_search Assembler.arithmeticPattern line with
  | some matched => do
    let op := matched.getD 0 []
    let rd ← stoi (matched.getD 1 [])
    let rn ← stoi (matched.getD 2 [])
    let rm ← stoi (matched.getD 3 [])
    let instruction ←
      if op = "add".toList then pure 0x8B000000
      else if op = "sub".toList then pure 0xCB000000
      else if op = "mul".toList then pure 0x9B007C00
      else if op = "sdiv".toList then pure 0x9AC00C00
      else Except.error (Error.runtime_error "Unknown arithmetic operation")
    let instruction := instruction ||| maskBits rd 5
    let instruction := instruction ||| (maskBits rn 5 <<< 5)
    let instruction := instruction ||| (maskBits rm 5 <<< 16)
    pure instruction
  | none => .error (.runtime_error "Invalid arithmetic instruction format")

/-- The method `Assembler::assembleLoad`. -/
def Assembler.assembleLoad (line : Str) : Except Error Nat :=
  match regex_search Assembler.loadPattern line with
  | some matched => do
    let rt ← stoi (matched.getD 0 [])
    let imm ← stoi (matched.getD 1 [])
    let instruction := 0xF8400400
    let instruction := instruction ||| maskBits rt 5
    let instruction := instruction ||| (maskBits (imm.tdiv 8) 9 <<< 12)
    pure instruction
  | none => .error (.runtime_error "Invalid LDR instruction format")

/-- The method `Assembler::assembleStore`. -/
def Assembler.assembleStore (line : Str) : Except Error Nat :=
  match regex_search Assembler.storePattern line with
  | some matched => do
    let rt ← stoi (matched.getD 0 [])
    let imm ← stoi (matched.getD 1 [])
    let instruction := 0xF8000C00
    let instruction := instruction ||| maskBits rt 5
    let instruction := instruction ||| (maskBits (imm.tdiv 8) 9 <<< 12)
    pure instruction
  | none => .error (.runtime_error "Invalid STR instruction format")

/-- The test `line.empty() || line[0] == '.' || line[0] == '_'`. -/
def Assembler.isSkipped (line : Str) : Bool :=
  match line with
  | [] => true
  | c :: _ => c = '.' || c = '_'

/-- The method `Assembler::assembleLine`. The mnemonic is
`line.substr(0, line.find(' '))`, the text before the first blank. -/
def Assembler.assembleLine (line : Str) : Except Error Nat :=
  if Assembler.isSkipped line then .ok 0
  else
    let instr := line.takeWhile (fun c => c ≠ ' ')
    if instr = "mov".toList then Assembler.assembleMov line
    else if instr = "add".toList ∨ instr = "sub".toList ∨ instr = "mul".toList ∨
        instr = "sdiv".toList then Assembler.assembleArithmetic line
    else if instr = "ldr".toList then Assembler.assembleLoad line
    else if instr = "str".toList then Assembler.assembleStore line
    else .error (.runtime_error ("Unknown instruction: " ++ String.mk instr))

/-- The method `Assembler::assemble`. -/
def Assembler.assemble : List Str → Except Error (List Nat)
  | [] => .ok []
  | line :: lines =>
    if !Assembler.isSkipped line then do
      let instruction ← Assembler.assembleLine line
      let machineCode ← Assembler.assemble lines
      pure (if instruction ≠ 0 then instruction :: machineCode else machineCode)
    else Assembler.assemble lines

/-! ## main.cpp -/

/-- The loop of `main` that reads the assembly text line by line with
`std::getline` and keeps the non-empty lines; `line` is the text read since
the last newline. -/
def splitLinesLoop : Str → Str → List Str
  | [], line => if line.isEmpty then [] else [line]
  | c :: cs, line =>
    if c = '\n' then
      if line.isEmpty then splitLinesLoop cs [] else line :: splitLinesLoop cs []
    else splitLinesLoop cs (line ++ [c])

/-- The vector `lines` that `main` passes to the assembler. -/
def splitLines (assembly : Str) : List Str :=
  splitLinesLoop assembly []

/-- The stages of `main` from the input line to the machine code: lexer,
parser, code generator, line split, assembler. -/
def compile {α : Type} (D : DoubleOps α) (input : Str) : Except Error (List Nat) := do
  let tokens ← tokenize input
  let expr ← parse D tokens
  let codegen ← expr.generateCode D CodeGenerator.new
  let lines := splitLines codegen.getCode
  Assembler.assemble lines

/-! ## Reference definitions

The definitions of this section are not translations of code. They state, in
executable form, what the properties below compare the code with: the shape
of a well-formed expression string and its value under the usual rules of
precedence, the instruction list of a tree, an abstract machine for the
generated instructions, and the decoder for the table of instruction
encodings. -/

/-- The four binary operators of the expression language. -/
inductive Op where
  | plus
  | minus
  | times
  | divide
  deriving DecidableEq, Repr

/-- The character that denotes an operator. -/
def Op.char : Op → Char
  | .plus => '+'
  | .minus => '-'
  | .times => '*'
  | .divide => '/'

/-- The token type that the lexer gives an operator. -/
def Op.token : Op → TokenType
  | .plus => .PLUS
  | .minus => .MINUS
  | .times => .MULTIPLY
  | .divide => .DIVIDE

/-- The operators of the tighter tier, `*` and `/`. -/
def Op.isMul : Op → Bool
  | .times => true
  | .divide => true
  | _ => false

/-- The arithmetic operation of an operator. -/
def Op.apply {α : Type} (D : DoubleOps α) : Op → α → α → α
  | .plus => D.add
  | .minus => D.sub
  | .times => D.mul
  | .divide => D.div

/-- A non-empty run of decimal digits. -/
def IsNumeral (n : Str) : Prop :=
  n ≠ [] ∧ ∀ c ∈ n, isdigit c = true

instance (n : Str) : Decidable (IsNumeral n) := by
  unfold IsNumeral; infer_instance

/-- The text `op1 n2 op2 n3 ...` of a list of operator and numeral pairs. -/
def Spec.tailText : List (Op × Str) → Str
  | [] => []
  | (o, n) :: rest => o.char :: (n ++ Spec.tailText rest)

/-- The expression string `n1 op1 n2 ... opk n(k+1)`. -/
def Spec.exprText (n1 : Str) (rest : List (Op × Str)) : Str :=
  n1 ++ Spec.tailText rest

/-- Grouping of `op1 n2 op2 n3 ...` by tier: the factors that continue the
current term (the leading pairs whose operator is `*` or `/`), and then the
further terms, each with the `+` or `-` in front of it, its first numeral and
its factors. -/
def Spec.groupTerms : List (Op × Str) → List (Op × Str) × List (Op × Str × List (Op × Str))
  | [] => ([], [])
  | (o, n) :: rest =>
    let g := Spec.groupTerms rest
    if o.isMul then ((o, n) :: g.1, g.2) else ([], (o, n, g.1) :: g.2)

/-- The value of a term `n f1 f2 ...`, the numerals being read by `v`: its
factors are applied from left to right. -/
def Spec.termValue {α : Type} (D : DoubleOps α) (v : Str → α) (n : Str)
    (factors : List (Op × Str)) : α :=
  factors.foldl (fun x f => f.1.apply D x (v f.2)) (v n)

/-- The value of `n1 op1 n2 ... opk n(k+1)` under the usual rules, the
numerals being read by `v`: `*` and `/` bind tighter than `+` and `-`, so the
string is a chain of terms, and the terms are combined from left to right. -/
def Spec.standardValue {α : Type} (D : DoubleOps α) (v : Str → α) (n1 : Str)
    (rest : List (Op × Str)) : α :=
  let g := Spec.groupTerms rest
  g.2.foldl (fun x t => t.1.apply D x (Spec.termValue D v t.2.1 t.2.2)) (Spec.termValue D v n1 g.1)

/-- The operator instruction for a token type, when it is one of the four
operators. -/
def Spec.opInstruction : TokenType → Option Str
  | .PLUS => some "add x0, x0, x1".toList
  | .MINUS => some "sub x0, x0, x1".toList
  | .MULTIPLY => some "mul x0, x0, x1".toList
  | .DIVIDE => some "sdiv x0, x0, x1".toList
  | _ => none

/-- The instruction list of a tree: one `mov` for a number; for a binary
node the instructions of the right subtree, the push, the instructions of the
left subtree, the pop, the operator instruction. There is none when an
operator of the tree is not one of the four. -/
def Spec.instructions {α : Type} (D : DoubleOps α) : Expression α → Option (List Str)
  | .NumberExpr value => some ["mov x0, #".toList ++ to_string (D.toInt value)]
  | .BinaryExpr left op right => do
    let r ← Spec.instructions D right
    let l ← Spec.instructions D left
    let o ← Spec.opInstruction op
    pure (r ++ ["str x0, [sp, #-16]!".toList] ++ l ++ ["ldr x1, [sp], #16".toList] ++ [o])

/-- The text that `emit` writes for a list of instructions. -/
def Spec.emitted (lines : List Str) : Str :=
  (lines.map (fun line => "    ".toList ++ line ++ "\n".toList)).flatten

/-- The instructions of the abstract machine. -/
inductive Spec.Instr where
  | mov (imm : Int)
  | push
  | pop
  | add
  | sub
  | mul
  | sdiv
  deriving DecidableEq, Repr

/-- The state of the abstract machine: two integer registers and a stack. -/
structure Spec.Machine where
  x0 : Int
  x1 : Int
  stack : List Int
  deriving DecidableEq, Repr

/-- The integer written as an optional minus sign and decimal digits. -/
def Spec.readInt (s : Str) : Option Int :=
  match s with
  | '-' :: ds => if IsNumeral ds then some (- (digitsValue ds : Int)) else none
  | ds => if IsNumeral ds then some (digitsValue ds : Int) else none

/-- The abstract instruction that a line of generated assembly denotes;
blanks in front of the mnemonic are ignored. -/
def Spec.readInstr (line : Str) : Option Spec.Instr :=
  let l := line.dropWhile (fun c => c = ' ')
  if l = "str x0, [sp, #-16]!".toList then some .push
  else if l = "ldr x1, [sp], #16".toList then some .pop
  else if l = "add x0, x0, x1".toList then some .add
  else if l = "sub x0, x0, x1".toList then some .sub
  else if l = "mul x0, x0, x1".toList then some .mul
  else if l = "sdiv x0, x0, x1".toList then some .sdiv
  else if l.take 9 = "mov x0, #".toList then (Spec.readInt (l.drop 9)).map Spec.Instr.mov
  else none

/-- One step of the abstract machine: `mov` sets x0 to the immediate, the
store pushes x0, the load pops into x1, and an operator instruction sets x0 to
`x0 op x1`, `sdiv` truncating toward zero. A pop from the empty stack has no
successor state. -/
def Spec.Machine.step (m : Spec.Machine) : Spec.Instr → Option Spec.Machine
  | .mov imm => some { m with x0 := imm }
  | .push => some { m with stack := m.x0 :: m.stack }
  | .pop =>
    match m.stack with
    | [] => none
    | v :: rest => some { m with x1 := v, stack := rest }
  | .add => some { m with x0 := m.x0 + m.x1 }
  | .sub => some { m with x0 := m.x0 - m.x1 }
  | .mul => some { m with x0 := m.x0 * m.x1 }
  | .sdiv => some { m with x0 := m.x0.tdiv m.x1 }

/-- Execution of a sequence of assembly lines on the abstract machine. -/
def Spec.Machine.run : List Str → Spec.Machine → Option Spec.Machine
  | [], m => some m
  | line :: lines, m => do
    let i ← Spec.readInstr line
    let m1 ← m.step i
    Spec.Machine.run lines m1

/-- The register-register operations of the assembler. -/
inductive ArithOp where
  | add
  | sub
  | mul
  | sdiv
  deriving DecidableEq, Repr

/-- The mnemonic of an operation. -/
def ArithOp.mnemonic : ArithOp → Str
  | .add => "add".toList
  | .sub => "sub".toList
  | .mul => "mul".toList
  | .sdiv => "sdiv".toList

/-- The base pattern of an operation in the table of encodings. -/
def ArithOp.base : ArithOp → Nat
  | .add => 0x8B000000
  | .sub => 0xCB000000
  | .mul => 0x9B007C00
  | .sdiv => 0x9AC00C00

/-- An instruction of one of the four families with its operands: register
indices, the immediate of `mov`, and the magnitude in bytes of the stack
offset of a post-indexed load or a pre-indexed store. -/
inductive AsmInstr where
  | mov (rd imm : Nat)
  | arith (op : ArithOp) (rd rn rm : Nat)
  | ldr (rt offset : Nat)
  | str (rt offset : Nat)
  deriving DecidableEq, Repr

/-- The decimal text of a natural number. -/
def decimal (n : Nat) : Str :=
  to_string (n : Int)

/-- The assembly line of an instruction, in the form the code generator
writes: one blank after the mnemonic and after each comma. -/
def AsmInstr.text : AsmInstr → Str
  | .mov rd imm => "mov x".toList ++ decimal rd ++ ", #".toList ++ decimal imm
  | .arith op rd rn rm =>
    op.mnemonic ++ " x".toList ++ decimal rd ++ ", x".toList ++ decimal rn ++ ", x".toList ++
      decimal rm
  | .ldr rt offset => "ldr x".toList ++ decimal rt ++ ", [sp], #".toList ++ decimal offset
  | .str rt offset => "str x".toList ++ decimal rt ++ ", [sp, #-".toList ++ decimal offset ++
      "]!".toList

/-- Operands in range: register indices 0..31, a 16-bit immediate, an offset
that is a multiple of 8 and fits the 9-bit field after division by 8. -/
def AsmInstr.InRange : AsmInstr → Prop
  | .mov rd imm => rd < 32 ∧ imm < 65536
  | .arith _ rd rn rm => rd < 32 ∧ rn < 32 ∧ rm < 32
  | .ldr rt offset => rt < 32 ∧ offset % 8 = 0 ∧ offset / 8 < 512
  | .str rt offset => rt < 32 ∧ offset % 8 = 0 ∧ offset / 8 < 512

/-- The bits `lo .. lo + width - 1` of a machine word. -/
def field (w lo width : Nat) : Nat :=
  (w >>> lo) &&& (2 ^ width - 1)

/-- The decoder for the table of encodings: registers from bits 0-4, 5-9 and
16-20, the immediate from bits 5-20, the offset from bits 12-20 multiplied by
8; a word belongs to a family when it is the base pattern of the family with
these fields OR-ed in. -/
def decode (w : Nat) : Option AsmInstr :=
  let r0 := field w 0 5
  let r5 := field w 5 5
  let r16 := field w 16 5
  let imm := field w 5 16
  let off := field w 12 9
  if w = 0xD2800000 ||| r0 ||| (imm <<< 5) then some (.mov r0 imm)
  else if w = ArithOp.add.base ||| r0 ||| (r5 <<< 5) ||| (r16 <<< 16) then
    some (.arith .add r0 r5 r16)
  else if w = ArithOp.sub.base ||| r0 ||| (r5 <<< 5) ||| (r16 <<< 16) then
    some (.arith .sub r0 r5 r16)
  else if w = ArithOp.mul.base ||| r0 ||| (r5 <<< 5) ||| (r16 <<< 16) then
    some (.arith .mul r0 r5 r16)
  else if w = ArithOp.sdiv.base ||| r0 ||| (r5 <<< 5) ||| (r16 <<< 16) then
    some (.arith .sdiv r0 r5 r16)
  else if w = 0xF8400400 ||| r0 ||| (off <<< 12) then some (.ldr r0 (off * 8))
  else if w = 0xF8000C00 ||| r0 ||| (off <<< 12) then some (.str r0 (off * 8))
  else none

end Calc

namespace Calc

/-! ## Auxiliary definitions for the statements and proofs -/

/-- The tokens of `op1 n2 op2 n3 ...`: an operator token and a NUMBER token
for every pair. -/
def Spec.tailTokens : List (Op × Str) → List Token
  | [] => []
  | (o, n) :: rest => { type := o.token } :: { type := .NUMBER, value := n } :: Spec.tailTokens rest

/-- The left-leaning tree of a chain, the numerals being read by `v`: each
pair of an operator and a numeral becomes a binary node whose left child is
the tree built so far. -/
def Spec.chainTree {α : Type} (v : Str → α) (e : Expression α) (factors : List (Op × Str)) :
    Expression α :=
  factors.foldl (fun e f => .BinaryExpr e f.1.token (.NumberExpr (v f.2))) e

/-- The tree of a chain of terms: each term becomes the right child of a
binary node whose left child is the tree built so far. -/
def Spec.sumTree {α : Type} (v : Str → α) (e : Expression α)
    (terms : List (Op × Str × List (Op × Str))) : Expression α :=
  terms.foldl (fun e t =>
    .BinaryExpr e t.1.token (Spec.chainTree v (.NumberExpr (v t.2.1)) t.2.2)) e

/-- The tree of `n1 op1 n2 ... opk n(k+1)` with two tiers of precedence and
left-associative chains, the numerals being read by `v`. -/
def Spec.tree {α : Type} (v : Str → α) (n1 : Str) (rest : List (Op × Str)) : Expression α :=
  Spec.sumTree v (Spec.chainTree v (.NumberExpr (v n1)) (Spec.groupTerms rest).1)
    (Spec.groupTerms rest).2

/-- The function `v` gives, for each of the listed texts, the number that
`std::stod` returns for it: `std::stod` throws on none of them. -/
def DoubleOps.Reads {α : Type} (D : DoubleOps α) (v : Str → α) (texts : List Str) : Prop :=
  ∀ n ∈ texts, D.stod n = .ok (v n)

/-- The numerals of `op1 n2 op2 n3 ...`. -/
def Spec.numerals (rest : List (Op × Str)) : List Str :=
  rest.map Prod.snd

/-- The tokens of a list of terms, each with the operator in front of it. -/
def Spec.termsTokens : List (Op × Str × List (Op × Str)) → List Token
  | [] => []
  | (o, n, fs) :: ts =>
    { type := o.token } :: { type := .NUMBER, value := n } :: (Spec.tailTokens fs ++
      Spec.termsTokens ts)

/-- The composition `evaluate(parse(tokenize(input)))`. -/
def evaluateText {α : Type} (D : DoubleOps α) (input : Str) : Except Error α := do
  let tokens ← tokenize input
  let expr ← parse D tokens
  expr.evaluate D

/-- The word of the table of encodings for an instruction: the base pattern
of the family with each operand, reduced to the width of its field, OR-ed in
at the offset of the field. -/
def AsmInstr.encode : AsmInstr → Nat
  | .mov rd imm => 0xD2800000 ||| rd % 32 ||| ((imm % 65536) <<< 5)
  | .arith op rd rn rm => op.base ||| rd % 32 ||| ((rn % 32) <<< 5) ||| ((rm % 32) <<< 16)
  | .ldr rt offset => 0xF8400400 ||| rt % 32 ||| ((offset / 8 % 512) <<< 12)
  | .str rt offset => 0xF8000C00 ||| rt % 32 ||| ((offset / 8 % 512) <<< 12)

/-- Every operand of the instruction is a value of the type `int`. -/
def AsmInstr.FitsInt : AsmInstr → Prop
  | .mov rd imm => rd ≤ 2147483647 ∧ imm ≤ 2147483647
  | .arith _ rd rn rm => rd ≤ 2147483647 ∧ rn ≤ 2147483647 ∧ rm ≤ 2147483647
  | .ldr rt offset => rt ≤ 2147483647 ∧ offset ≤ 2147483647
  | .str rt offset => rt ≤ 2147483647 ∧ offset ≤ 2147483647

instance (i : AsmInstr) : Decidable i.FitsInt := by
  cases i <;> unfold AsmInstr.FitsInt <;> infer_instance

instance (i : AsmInstr) : Decidable i.InRange := by
  cases i <;> unfold AsmInstr.InRange <;> infer_instance

/-- Each register field of the word `w` holds the corresponding register
index of the instruction modulo 32. -/
def AsmInstr.RegisterFields (i : AsmInstr) (w : Nat) : Prop :=
  match i with
  | .mov rd _ => field w 0 5 = rd % 32
  | .arith _ rd rn rm => field w 0 5 = rd % 32 ∧ field w 5 5 = rn % 32 ∧ field w 16 5 = rm % 32
  | .ldr rt _ => field w 0 5 = rt % 32
  | .str rt _ => field w 0 5 = rt % 32
/-- The immediate field of the word `w` holds the immediate of a `mov`
modulo 65536, and its offset field holds the offset of a load or store,
divided by 8, modulo 512. -/
def AsmInstr.ImmediateFields (i : AsmInstr) (w : Nat) : Prop :=
  match i with
  | .mov _ imm => field w 5 16 = imm % 65536
  | .arith _ _ _ _ => True
  | .ldr _ offset => field w 12 9 = offset / 8 % 512
  | .str _ offset => field w 12 9 = offset / 8 % 512

/-- The operand that is reduced to the width of its field without a check of
its range: the immediate field of the word `w` holds the immediate of a `mov`
modulo 65536, and its offset field holds the offset of a load, divided by 8,
modulo 512. Nothing is required for the other two families. -/
def AsmInstr.ReducedOperand (i : AsmInstr) (w : Nat) : Prop :=
  match i with
  | .mov _ imm => field w 5 16 = imm % 65536
  | .arith _ _ _ _ => True
  | .ldr _ offset => field w 12 9 = offset / 8 % 512
  | .str _ _ => True

/-- The mnemonics that `assembleLine` knows. -/
def Assembler.mnemonics : List Str :=
  ["mov".toList, "add".toList, "sub".toList, "mul".toList, "sdiv".toList, "ldr".toList,
    "str".toList]

/-- The words that `assembleLine` gives for a list of lines, in order; the
first failure is the failure of the whole. -/
def Spec.assembleAll : List Str → Except Error (List Nat)
  | [] => .ok []
  | line :: lines => do
    let w ← Assembler.assembleLine line
    let ws ← Spec.assembleAll lines
    pure (w :: ws)

/-- The states of the lexer seen as a machine that reads one character at a
time: at the start of an iteration of the loop of `tokenize`, inside
`skipWhitespace`, and inside `number` with the digits read so far. -/
inductive Spec.LexState where
  | start
  | space
  | number (text : Str)
  deriving DecidableEq, Repr

/-- The tokens that the lexer produces from a state and the rest of the
input, as a single pass over the characters. At the end of the input an
iteration that has skipped whitespace still consumes a character, the
terminating null, and that gives an INVALID token. -/
def Spec.lexGo : Spec.LexState → Str → List Token
  | .start, [] => [{ type := .EOL }]
  | .space, [] => [{ type := .INVALID }, { type := .EOL }]
  | .number text, [] => [{ type := .NUMBER, value := text }, { type := .EOL }]
  | .start, c :: cs =>
    if isdigit c then Spec.lexGo (.number [c]) cs
    else if isspace c then Spec.lexGo .space cs
    else Lexer.charToken c :: Spec.lexGo .start cs
  | .space, c :: cs =>
    if isdigit c then Spec.lexGo (.number [c]) cs
    else if isspace c then Spec.lexGo .space cs
    else Lexer.charToken c :: Spec.lexGo .start cs
  | .number text, c :: cs =>
    if isdigit c then Spec.lexGo (.number (text ++ [c])) cs
    else if isspace c then { type := .NUMBER, value := text } :: Spec.lexGo .space cs
    else { type := .NUMBER, value := text } :: Lexer.charToken c :: Spec.lexGo .start cs

/-- The lexer followed by the parser, as in `main`. -/
def parseText {α : Type} (D : DoubleOps α) (input : Str) : Except Error (Expression α) := do
  let tokens ← tokenize input
  parse D tokens

/-- The pieces of a text, from left to right: `run` is the run of digits
read so far; a digit extends the run, any other character closes the run (if
there is one) and is a piece of its own. -/
def Spec.piecesGo : Str → Str → List Str
  | run, [] => if run = [] then [] else [run]
  | run, c :: cs =>
    if isdigit c then Spec.piecesGo (run ++ [c]) cs
    else (if run = [] then [] else [run]) ++ [c] :: Spec.piecesGo [] cs

/-- The division of a text into its maximal runs of decimal digits and its
other characters, one character each. -/
def Spec.pieces (s : Str) : List Str :=
  Spec.piecesGo [] s

/-- The token type of a character that is not a digit: PLUS, MINUS,
MULTIPLY, DIVIDE, LPAREN, RPAREN for `+ - * / ( )`, INVALID for any other. -/
def Spec.symbolType (c : Char) : TokenType :=
  match c with
  | '+' => .PLUS
  | '-' => .MINUS
  | '*' => .MULTIPLY
  | '/' => .DIVIDE
  | '(' => .LPAREN
  | ')' => .RPAREN
  | _ => .INVALID

/-- The token of a piece: a NUMBER token with the text of the run for a run
of digits, the token of the character for a single other character. -/
def Spec.pieceToken (p : Str) : Token :=
  match p with
  | [] => { type := .INVALID }
  | c :: _ => if isdigit c then { type := .NUMBER, value := p } else { type := Spec.symbolType c }

/-- A character that is not a decimal digit, not whitespace and not one of
`+ - * / ( )`. -/
def Spec.IsInvalidChar (c : Char) : Prop :=
  isdigit c = false ∧ isspace c = false ∧ c ∉ ['+', '-', '*', '/', '(', ')']

instance (c : Char) : Decidable (Spec.IsInvalidChar c) := by
  unfold Spec.IsInvalidChar; infer_instance

/-- The token is not one of the four operator tokens. -/
def Token.NotOperator (t : Token) : Prop :=
  (t.type ≠ .PLUS ∧ t.type ≠ .MINUS) ∧ (t.type ≠ .MULTIPLY ∧ t.type ≠ .DIVIDE)

instance (t : Token) : Decidable t.NotOperator := by
  unfold Token.NotOperator; infer_instance

/-- The texts of the NUMBER tokens of a token sequence. -/
def Spec.numberTexts (tokens : List Token) : List Str :=
  (tokens.filter (fun t => t.type = .NUMBER)).map Token.value

/-- The invariant of expression trees: the operator of every binary node is
one of PLUS, MINUS, MULTIPLY, DIVIDE, and every leaf holds the number that
`std::stod` returns for one of the given texts. -/
def Expression.Invariant {α : Type} (D : DoubleOps α) (numerals : List Str) :
    Expression α → Prop
  | .NumberExpr value => ∃ n ∈ numerals, D.stod n = .ok value
  | .BinaryExpr left op right =>
    (op = .PLUS ∨ op = .MINUS ∨ op = .MULTIPLY ∨ op = .DIVIDE) ∧
      left.Invariant D numerals ∧ right.Invariant D numerals

/-- The number of `NumberExpr` leaves of a tree. -/
def Expression.leaves {α : Type} : Expression α → Nat
  | .NumberExpr _ => 1
  | .BinaryExpr left _ right => left.leaves + right.leaves

/-- The number of `BinaryExpr` nodes of a tree. -/
def Expression.binaryNodes {α : Type} : Expression α → Nat
  | .NumberExpr _ => 0
  | .BinaryExpr left _ right => left.binaryNodes + right.binaryNodes + 1

/-- The line loads a constant into x0. -/
def Spec.isMov (line : Str) : Bool :=
  line.take 9 = "mov x0, #".toList

/-- The line is the push `str x0, [sp, #-16]!`. -/
def Spec.isPush (line : Str) : Bool :=
  line = "str x0, [sp, #-16]!".toList

/-- The line is the pop `ldr x1, [sp], #16`. -/
def Spec.isPop (line : Str) : Bool :=
  line = "ldr x1, [sp], #16".toList

/-- The line is one of the four operator instructions on x0 and x1. -/
def Spec.isOperator (line : Str) : Bool :=
  line ∈ ["add x0, x0, x1".toList, "sub x0, x0, x1".toList, "mul x0, x0, x1".toList,
    "sdiv x0, x0, x1".toList]

end Calc

namespace Calc

/-! ## The type `double` -/

/-- A value of type `double` (IEEE 754 binary64): the finite number
`(-1)^negative * m * 2^e`, an infinity, or a NaN (sign and payload of a NaN
are not told apart). The operations below return finite values in the form
with `m` odd, zero being `m = 0` and `e = 0`, so that equal numbers are equal
terms. -/
inductive Double where
  | finite (negative : Bool) (m : Nat) (e : Int)
  | inf (negative : Bool)
  | nan
  deriving DecidableEq, Repr, Inhabited

/-- The loop that counts the halvings of a number down to one. -/
def Double.log2Loop : Nat → Nat → Nat
  | 0, _ => 0
  | fuel + 1, n => if n < 2 then 0 else Double.log2Loop fuel (n / 2) + 1

/-- The floor of the binary logarithm of a positive number. -/
def Double.log2 (n : Nat) : Nat :=
  Double.log2Loop n n

/-- The finite value `(-1)^negative * m * 2^e` with the factors of two moved
from `m` into the exponent. -/
def Double.normal (negative : Bool) (m : Nat) (e : Int) : Double :=
  if m = 0 then .finite negative 0 0
  else
    let g := Nat.gcd m (2 ^ (Double.log2 m + 1))
    .finite negative (m / g) (e + (Double.log2 g : Int))

/-- The floor of the binary logarithm of `n / d`, for positive `n` and `d`. -/
def Double.ilog2 (n d : Nat) : Int :=
  let l : Int := (Double.log2 n : Int) - (Double.log2 d : Int)
  if (if 0 ≤ l then d * 2 ^ l.toNat ≤ n else d ≤ n * 2 ^ (-l).toNat) then l else l - 1

/-- The exponent of the last place of the doubles around `n / d * 2^e`: 52
below the exponent of the number, and -1074 in the subnormal range. -/
def Double.quantum (n d : Nat) (e : Int) : Int :=
  max (Double.ilog2 n d + e - 52) (-1074)

/-- The number `n / d * 2^e` as a fraction of its quantum: numerator and
denominator. -/
def Double.scaled (n d : Nat) (e : Int) : Nat × Nat :=
  let s : Int := e - Double.quantum n d e
  if 0 ≤ s then (n * 2 ^ s.toNat, d) else (n, d * 2 ^ (-s).toNat)

/-- The multiple of the quantum nearest to `n / d * 2^e`, a tie going to the
even multiple. -/
def Double.nearest (n d : Nat) (e : Int) : Nat :=
  let f := Double.scaled n d e
  let q := f.1 / f.2
  let r := f.1 % f.2
  if f.2 < 2 * r ∨ (2 * r = f.2 ∧ q % 2 = 1) then q + 1 else q

/-- Rounding to `double` in the default mode (to nearest, ties to even) of the
number `(-1)^negative * n / d * 2^e`, for `d` positive: the result of every
arithmetic operation and of `strtod`. A number that rounds to `2^1024` or
more (the binary logarithm of the multiple and the exponent of the quantum
add up to 1024 or more) gives an infinity. -/
def Double.round (negative : Bool) (n d : Nat) (e : Int) : Double :=
  if n = 0 then .finite negative 0 0
  else
    let x := Double.quantum n d e
    let q := Double.nearest n d e
    if 1024 ≤ (Double.log2 q : Int) + x then .inf negative
    else Double.normal negative q x

/-- The `double` nearest to a natural number: the conversion of an integer
to `double`. -/
def Double.ofNat (k : Nat) : Double :=
  Double.round false k 1 0

/-- Whether a `double` is a finite number. -/
def Double.isFinite : Double → Bool
  | .finite _ _ _ => true
  | _ => false

/-- The integer `(-1)^negative * m * 2^k`. -/
def Double.signed (negative : Bool) (m k : Nat) : Int :=
  if negative then -((m * 2 ^ k : Nat) : Int) else ((m * 2 ^ k : Nat) : Int)

/-- The operator `+` of `double`. -/
def Double.add : Double → Double → Double
  | .nan, _ => .nan
  | _, .nan => .nan
  | .inf a, .inf b => if a = b then .inf a else .nan
  | .inf a, .finite _ _ _ => .inf a
  | .finite _ _ _, .inf b => .inf b
  | .finite na ma ea, .finite nb mb eb =>
    let e0 := min ea eb
    let s := Double.signed na ma (ea - e0).toNat + Double.signed nb mb (eb - e0).toNat
    if s = 0 then .finite (na && nb) 0 0
    else Double.round (decide (s < 0)) s.natAbs 1 e0

/-- The unary operator `-` of `double`. -/
def Double.neg : Double → Double
  | .finite negative m e => .finite (!negative) m e
  | .inf negative => .inf (!negative)
  | .nan => .nan

/-- The operator `-` of `double`. -/
def Double.sub (a b : Double) : Double :=
  a.add b.neg

/-- The operator `*` of `double`. -/
def Double.mul : Double → Double → Double
  | .nan, _ => .nan
  | _, .nan => .nan
  | .inf a, .inf b => .inf (a != b)
  | .inf a, .finite nb mb _ => if mb = 0 then .nan else .inf (a != nb)
  | .finite na ma _, .inf b => if ma = 0 then .nan else .inf (na != b)
  | .finite na ma ea, .finite nb mb eb => Double.round (na != nb) (ma * mb) 1 (ea + eb)

/-- The operator `/` of `double`: a division by zero raises no exception, it
gives an infinity, or a NaN for `0 / 0`. -/
def Double.div : Double → Double → Double
  | .nan, _ => .nan
  | _, .nan => .nan
  | .inf _, .inf _ => .nan
  | .inf a, .finite nb _ _ => .inf (a != nb)
  | .finite na _ _, .inf b => .finite (na != b) 0 0
  | .finite na ma ea, .finite nb mb eb =>
    if mb = 0 then (if ma = 0 then .nan else .inf (na != nb))
    else Double.round (na != nb) ma mb (ea - eb)

/-- The conversion `static_cast<int>`: the fractional part is discarded. When
the result is not a value of `int` (also for an infinity and a NaN) the
behaviour is undefined in C++; the value taken here is -2147483648, which the
conversion instruction of x86-64 (`cvttsd2si`) returns in that case. -/
def Double.toInt : Double → Int
  | .finite negative m e =>
    let t : Nat := if 0 ≤ e then m * 2 ^ e.toNat else m / 2 ^ (-e).toNat
    let v : Int := if negative then -(t : Int) else (t : Int)
    if -2147483648 ≤ v ∧ v ≤ 2147483647 then v else -2147483648
  | _ => -2147483648

/-! ## std::stod -/

/-- The C function `tolower` on the letters `A` to `Z`. -/
def tolower (c : Char) : Char :=
  if 65 ≤ c.toNat ∧ c.toNat ≤ 90 then Char.ofNat (c.toNat + 32) else c

/-- Whether the text begins with the given word, letter case ignored. -/
def Double.beginsWith (word s : Str) : Bool :=
  (s.take word.length).map tolower == word

/-- The C function `isxdigit`. -/
def isxdigit (c : Char) : Bool :=
  isdigit c || (65 ≤ c.toNat && c.toNat ≤ 70) || (97 ≤ c.toNat && c.toNat ≤ 102)

/-- The value of a run of hexadecimal digits. -/
def hexValue (ds : Str) : Nat :=
  ds.foldl (fun acc c =>
    acc * 16 + (if isdigit c then c.toNat - 48 else (tolower c).toNat - 87)) 0

/-- The exponent part that `strtod` reads behind the digits: the exponent
letter in either case, an optional sign and at least one decimal digit. It is
zero when the text does not begin with such a part. -/
def Double.exponentPart (letter : Char) (s : Str) : Int :=
  match s with
  | [] => 0
  | c :: t =>
    if tolower c = letter then
      let signed := stoiSign t
      let ds := signed.2.takeWhile isdigit
      if ds = [] then 0
      else if signed.1 then -(digitsValue ds : Int) else (digitsValue ds : Int)
    else 0

/-- The digits before and after the radix character `.` at the start of a
text, and the text behind them. -/
def Double.digitRuns (digit : Char → Bool) (s : Str) : Str × Str × Str :=
  let r := s.dropWhile digit
  match r with
  | '.' :: t => (s.takeWhile digit, t.takeWhile digit, t.dropWhile digit)
  | _ => (s.takeWhile digit, [], r)

/-- The hexadecimal form of `strtod`: `0x` or `0X`, hexadecimal digits with an
optional radix character (at least one digit), and an optional binary exponent
behind `p` or `P`. The result is the pair `(m, e)` of the number `m * 2^e`. -/
def Double.hexFloat (s : Str) : Option (Nat × Int) :=
  match s with
  | '0' :: x :: t =>
    if tolower x = 'x' then
      let runs := Double.digitRuns isxdigit t
      if runs.1 = [] ∧ runs.2.1 = [] then none
      else some (hexValue (runs.1 ++ runs.2.1),
        Double.exponentPart 'p' runs.2.2 - 4 * (runs.2.1.length : Int))
    else none
  | _ => none

/-- The decimal form of `strtod`: decimal digits with an optional radix
character (at least one digit), and an optional decimal exponent behind `e` or
`E`. The result is the pair `(m, e)` of the number `m * 10^e`. -/
def Double.decimalFloat (s : Str) : Option (Nat × Int) :=
  let runs := Double.digitRuns isdigit s
  if runs.1 = [] ∧ runs.2.1 = [] then none
  else some (digitsValue (runs.1 ++ runs.2.1),
    Double.exponentPart 'e' runs.2.2 - (runs.2.1.length : Int))

/-- Whether the number `n / d * 2^e` is below the normal range of `double`
also after rounding to 53 bits, that is, less than `2^-1022 - 2^-1076`: its
quantum is that of the subnormal range, `2^-1074`, and as a fraction of this
quantum it is less than `2^52 - 1/4`. -/
def Double.tiny (n d : Nat) (e : Int) : Bool :=
  decide (Double.quantum n d e = -1074 ∧
    4 * (Double.scaled n d e).1 < (2 ^ 54 - 1) * (Double.scaled n d e).2)

/-- The end of `std::stod` for the number `(-1)^negative * n / d * 2^e` that
`strtod` has read: the nearest `double`, or `std::out_of_range` when `strtod`
reports a range error. That is the case when the number rounds to an
infinity, and, in the C library of GNU, when the number is not zero, is below
the normal range and is not a `double` itself. -/
def Double.converted (negative : Bool) (n d : Nat) (e : Int) : Except Error Double :=
  match Double.round negative n d e with
  | .inf _ => .error (.out_of_range "stod")
  | value =>
    if n ≠ 0 ∧ Double.tiny n d e = true ∧
        (Double.scaled n d e).1 % (Double.scaled n d e).2 ≠ 0 then
      .error (.out_of_range "stod")
    else .ok value

/-- The function `std::stod` with one argument, in the "C" locale: leading
whitespace, an optional sign, then the longest text that is `inf` or
`infinity`, `nan`, a hexadecimal or a decimal floating constant. It throws
`std::invalid_argument` when there is no such text and `std::out_of_range`
when `strtod` reports a range error; the text of both exceptions is the name
of the function, as in libstdc++. -/
def Double.stod (str : Str) : Except Error Double :=
  let signed := stoiSign (str.dropWhile isspace)
  if Double.beginsWith "inf".toList signed.2 then .ok (.inf signed.1)
  else if Double.beginsWith "nan".toList signed.2 then .ok .nan
  else
    match Double.hexFloat signed.2 with
    | some (m, e) => Double.converted signed.1 m 1 e
    | none =>
      match Double.decimalFloat signed.2 with
      | some (m, e) =>
        if 0 ≤ e then Double.converted signed.1 (m * 10 ^ e.toNat) 1 0
        else Double.converted signed.1 m (10 ^ (-e).toNat) 0
      | none => .error (.invalid_argument "stod")

/-- The type `double` with its operators, `std::stod` and `static_cast<int>`. -/
def binary64 : DoubleOps Double where
  add := Double.add
  sub := Double.sub
  mul := Double.mul
  div := Double.div
  stod := Double.stod
  toInt := Double.toInt

end Calc

namespace Calc

/-! ## linker.hpp / linker.cpp

`uint64_t` addresses are natural numbers, reduced modulo `2 ^ 64` where the
code adds to them. `std::map<std::string, Symbol>` is the list of its entries
in the order of iteration, that is by ascending key. The file system is
explicit state: a function that can throw after it has changed the state
returns the new state together with the outcome. -/

/-- The struct `Symbol`. -/
structure Symbol where
  name : Str
  address : Nat
  isExternal : Bool
  deriving DecidableEq, Repr, Inhabited

/-- The struct `Relocation`. -/
structure Relocation where
  offset : Nat
  symbol : Str
  type : Nat
  deriving DecidableEq, Repr

/-- The comparison `operator<` of `std::string`, the key order of the symbol
table: lexicographic on the character codes, a proper prefix first. -/
def string_lt : Str → Str → Bool
  | [], [] => false
  | [], _ :: _ => true
  | _ :: _, [] => false
  | a :: as, b :: bs =>
    if a.toNat < b.toNat then true
    else if b.toNat < a.toNat then false
    else string_lt as bs

/-- The type `std::map<std::string, Symbol>`. -/
structure SymbolMap where
  entries : List (Str × Symbol)
  deriving DecidableEq, Repr

/-- The assignment `m[key] = value` on the entries of a map: the value of an
existing key is replaced, a new key is inserted at its place in the order. -/
def SymbolMap.setEntry : List (Str × Symbol) → Str → Symbol → List (Str × Symbol)
  | [], key, value => [(key, value)]
  | (k, v) :: rest, key, value =>
    if key = k then (k, value) :: rest
    else if string_lt key k then (key, value) :: (k, v) :: rest
    else (k, v) :: SymbolMap.setEntry rest key value

/-- The assignment `m[key] = value`. -/
def SymbolMap.set (m : SymbolMap) (key : Str) (value : Symbol) : SymbolMap :=
  { entries := SymbolMap.setEntry m.entries key value }

/-- The search of a key among the entries of a map. -/
def SymbolMap.findEntry : List (Str × Symbol) → Str → Option Symbol
  | [], _ => none
  | (k, v) :: rest, key => if k = key then some v else SymbolMap.findEntry rest key

/-- The call `m.find(key)`; `none` stands for `m.end()`. -/
def SymbolMap.find (m : SymbolMap) (key : Str) : Option Symbol :=
  SymbolMap.findEntry m.entries key

/-- The class `Linker`. -/
structure Linker where
  objectCode : List (List Nat)
  symbolTable : SymbolMap
  relocations : List Relocation
  deriving DecidableEq, Repr

/-- Constructor `Linker()`. -/
def Linker.new : Linker :=
  let symbolTable : SymbolMap := { entries := [] }
  let symbolTable := symbolTable.set "_start".toList
    { name := "_start".toList, address := 0x0, isExternal := false }
  let symbolTable := symbolTable.set "_printf".toList
    { name := "_printf".toList, address := 0x0, isExternal := true }
  { objectCode := [], symbolTable := symbolTable, relocations := [] }

/-- The method `Linker::addObjectFile`. -/
def Linker.addObjectFile (l : Linker) (code : List Nat) (symbols : List Symbol)
    (fileRelocations : List Relocation) : Linker :=
  { objectCode := l.objectCode ++ [code],
    symbolTable := symbols.foldl (fun table sym => table.set sym.name sym) l.symbolTable,
    relocations := l.relocations ++ fileRelocations }

/-- The loop of `Linker::resolveSymbols` over the entries of the symbol
table, with the value of `currentAddress`. -/
def Linker.resolveLoop : List (Str × Symbol) → Nat → List (Str × Symbol)
  | [], _ => []
  | (name, symbol) :: rest, currentAddress =>
    if !symbol.isExternal then
      (name, { symbol with address := currentAddress }) ::
        Linker.resolveLoop rest ((currentAddress + 4) % 2 ^ 64)
    else (name, symbol) :: Linker.resolveLoop rest currentAddress

/-- The method `Linker::resolveSymbols`. -/
def Linker.resolveSymbols (l : Linker) : Linker :=
  { l with symbolTable := { entries := Linker.resolveLoop l.symbolTable.entries 0x100000000 } }

/-- The loop of `Linker::applyRelocations`. -/
def Linker.applyRelocationsLoop (symbolTable : SymbolMap) : List Relocation → Except Error Unit
  | [] => .ok ()
  | reloc :: rest =>
    match symbolTable.find reloc.symbol with
    | none => .error (.runtime_error ("Undefined symbol: " ++ String.mk reloc.symbol))
    | some _ => Linker.applyRelocationsLoop symbolTable rest

/-- The method `Linker::applyRelocations`. -/
def Linker.applyRelocations (l : Linker) : Except Error Unit :=
  Linker.applyRelocationsLoop l.symbolTable l.relocations

/-- The object representation of a `uint32_t`: its four bytes in the order
of memory, which `writeMachOFile` writes with `reinterpret_cast`. -/
structure WordLayout where
  bytes : Nat → List Nat
  size : ∀ w, (bytes w).length = 4

/-- The layout of the little-endian targets of the program. -/
def littleEndian : WordLayout where
  bytes := fun w => [w % 256, w / 256 % 256, w / 65536 % 256, w / 16777216 % 256]
  size := fun _ => rfl

/-- What the program sees of the file system: the bytes of the files, and
the paths that `std::ofstream` can open for writing. -/
structure FileSystem where
  files : Str → Option (List Nat)
  writable : Str → Bool

/-- The file that an `std::ofstream` opened on the path has after the bytes
were written to it and it was closed. -/
def FileSystem.write (fs : FileSystem) (path : Str) (bytes : List Nat) : FileSystem :=
  { fs with files := fun p => if p = path then some bytes else fs.files p }

/-- The method `Linker::writeMachOFile`; it writes nothing but the words of
the object code. -/
def Linker.writeMachOFile (L : WordLayout) (l : Linker) (fs : FileSystem) (outputPath : Str) :
    FileSystem × Except Error Unit :=
  if !fs.writable outputPath then (fs, .error (.runtime_error "Cannot create output file"))
  else
    let written := l.objectCode.foldl (fun file code => file ++ (code.map L.bytes).flatten) []
    (fs.write outputPath written, .ok ())

/-- The method `Linker::createExecutable`, with the state of the linker and
of the file system that it leaves behind. -/
def Linker.createExecutable (L : WordLayout) (l : Linker) (fs : FileSystem) (outputPath : Str) :
    (Linker × FileSystem) × Except Error Unit :=
  let l := l.resolveSymbols
  match l.applyRelocations with
  | .error e => ((l, fs), .error e)
  | .ok _ =>
    let r := l.writeMachOFile L fs outputPath
    ((l, r.1), r.2)

/-- The body of the `try` block of `main` for one input line: the stages up
to the assembler, then a linker with the one object file and the symbol
`_main`, and the executable `calculator`. -/
def mainBody {α : Type} (D : DoubleOps α) (L : WordLayout) (fs : FileSystem) (input : Str) :
    FileSystem × Except Error Unit :=
  match compile D input with
  | .error e => (fs, .error e)
  | .ok machineCode =>
    let symbols : List Symbol := [{ name := "_main".toList, address := 0, isExternal := false }]
    let relocations : List Relocation := []
    let linker := Linker.new.addObjectFile machineCode symbols relocations
    let r := linker.createExecutable L fs "calculator".toList
    (r.1.2, r.2)

/-! ### Reference definitions for the linker -/

/-- The arguments of one call of `addObjectFile`. -/
structure ObjectUnit where
  code : List Nat
  symbols : List Symbol
  relocations : List Relocation
  deriving DecidableEq, Repr

/-- The linker after `addObjectFile` was called for each unit in turn. -/
def Linker.addObjectFiles (l : Linker) (units : List ObjectUnit) : Linker :=
  units.foldl (fun l u => l.addObjectFile u.code u.symbols u.relocations) l

/-- The keys of the map ascend strictly in the order of iteration. -/
def SymbolMap.Sorted (m : SymbolMap) : Prop :=
  m.entries.Pairwise (fun e f => string_lt e.1 f.1 = true)

/-- The entries of a table that are not external, in the order of iteration. -/
def SymbolMap.locals (m : SymbolMap) : List (Str × Symbol) :=
  m.entries.filter (fun e => !e.2.isExternal)

/-- The address that the table of the linker has for a name. -/
def Linker.addressOf (l : Linker) (name : Str) : Option Nat :=
  (l.symbolTable.find name).map Symbol.address

/-- The bytes of the words of a list of object units, unit after unit. -/
def Spec.image (L : WordLayout) (units : List ObjectUnit) : List Nat :=
  (((units.map ObjectUnit.code).flatten).map L.bytes).flatten

/-- The size of the address space, `2 ^ 64`, leaves room for the addresses of
the entries that are not external: true of every table that fits in memory. -/
def SymbolMap.Addressable (m : SymbolMap) : Prop :=
  0x100000000 + 4 * m.locals.length ≤ 2 ^ 64

instance (m : SymbolMap) : Decidable m.Addressable := by
  unfold SymbolMap.Addressable; infer_instance

end Calc

/-!
# Tiny language interpreter

A shallow embedding of the C++ sources under `2 tinyLanguageInterpreter/`
(`token.hpp`, `lexer.cpp`, `parser.cpp`, `ast.hpp`, `ast.cpp`, `main.cpp`),
with the conventions of the calculator: strings are lists of characters, a
function that can throw returns `Except Error`, loops and recursive descent
run on fuel. The counters `size_t position`, `size_t line`, `size_t current`
and the field `int line` of a token are natural numbers. Standard output and
the variables are explicit state: `execute` returns the state it leaves
together with its outcome.
-/

namespace Tiny

open Calc (Str Error isdigit isspace stoi to_string)

/-! ## token.hpp / lexer.cpp -/

/-- The C function `isalpha` in the "C" locale. -/
def isalpha (c : Char) : Bool :=
  (65 ≤ c.toNat && c.toNat ≤ 90) || (97 ≤ c.toNat && c.toNat ≤ 122)

/-- The C function `isalnum`. -/
def isalnum (c : Char) : Bool :=
  isalpha c || isdigit c

/-- The enumeration `TokenType` of token.hpp. -/
inductive TokenType where
  | NUMBER
  | IDENTIFIER
  | EQUALS
  | GREATER
  | LESS
  | MINUS
  | IF
  | WHILE
  | PRINT
  | EOL
  | END
  deriving DecidableEq, Repr

/-- The class `Token` of token.hpp. -/
structure Token where
  type : TokenType
  value : Str := []
  line : Nat := 0
  deriving DecidableEq, Repr

/-- The table `keywords` of lexer.cpp. -/
def keywords : List (Str × TokenType) :=
  [("if".toList, .IF), ("while".toList, .WHILE), ("print".toList, .PRINT)]

/-- The class `Lexer`: the source, the read position and the line number. -/
structure Lexer where
  source : Str
  position : Nat := 0
  line : Nat := 1
  deriving DecidableEq, Repr

/-- Constructor `Lexer(std::string source)`. -/
def Lexer.new (source : Str) : Lexer :=
  { source := source }

/-- The method `Lexer::isAtEnd`. -/
def Lexer.isAtEnd (lx : Lexer) : Bool :=
  lx.position ≥ lx.source.length

/-- The method `Lexer::advance`: returns `source[position++]`. -/
def Lexer.advance (lx : Lexer) : Char × Lexer :=
  (lx.source.getD lx.position '\x00', { lx with position := lx.position + 1 })

/-- The method `Lexer::peek`. -/
def Lexer.peek (lx : Lexer) : Char :=
  if lx.isAtEnd then '\x00' else lx.source.getD lx.position '\x00'

/-- The loop of `Lexer::skipWhitespace`. -/
def Lexer.skipWhitespaceLoop : Nat → Lexer → Except Error Lexer
  | 0, _ => .error .fuelExhausted
  | fuel + 1, lx =>
    if !lx.isAtEnd && isspace lx.peek && lx.peek ≠ '\n' then
      skipWhitespaceLoop fuel lx.advance.2
    else .ok lx

/-- The method `Lexer::skipWhitespace`. -/
def Lexer.skipWhitespace (lx : Lexer) : Except Error Lexer :=
  Lexer.skipWhitespaceLoop (lx.source.length + 1) lx

/-- The loop of `Lexer::number`. -/
def Lexer.numberLoop : Nat → Lexer → Str → Except Error (Str × Lexer)
  | 0, _, _ => .error .fuelExhausted
  | fuel + 1, lx, num =>
    if !lx.isAtEnd && isdigit lx.peek then
      numberLoop fuel lx.advance.2 (num ++ [lx.advance.1])
    else .ok (num, lx)

/-- The method `Lexer::number`. -/
def Lexer.number (lx : Lexer) : Except Error (Token × Lexer) := do
  let (num, lx) ← Lexer.numberLoop (lx.source.length + 1) lx []
  pure ({ type := .NUMBER, value := num, line := lx.line }, lx)

/-- The loop of `Lexer::identifier`. -/
def Lexer.identifierLoop : Nat → Lexer → Str → Except Error (Str × Lexer)
  | 0, _, _ => .error .fuelExhausted
  | fuel + 1, lx, id =>
    if !lx.isAtEnd && (isalnum lx.peek || lx.peek = '_') then
      identifierLoop fuel lx.advance.2 (id ++ [lx.advance.1])
    else .ok (id, lx)

/-- The method `Lexer::identifier`. -/
def Lexer.identifier (lx : Lexer) : Except Error (Token × Lexer) := do
  let (id, lx) ← Lexer.identifierLoop (lx.source.length + 1) lx []
  match keywords.lookup id with
  | some type => pure ({ type := type, value := id, line := lx.line }, lx)
  | none => pure ({ type := .IDENTIFIER, value := id, line := lx.line }, lx)

/-- The `while` loop of `Lexer::tokenize` followed by the final
`emplace_back` of the `END` token. -/
def Lexer.tokenizeLoop : Nat → Lexer → List Token → Except Error (List Token)
  | 0, _, _ => .error .fuelExhausted
  | fuel + 1, lx, tokens =>
    if !lx.isAtEnd then do
      let lx ← lx.skipWhitespace
      if lx.isAtEnd then .ok (tokens ++ [{ type := .END, value := [], line := lx.line }])
      else
        let c := lx.peek
        if isdigit c then
          let (tok, lx) ← lx.number
          tokenizeLoop fuel lx (tokens ++ [tok])
        else if isalpha c then
          let (tok, lx) ← lx.identifier
          tokenizeLoop fuel lx (tokens ++ [tok])
        else
          let lx := lx.advance.2
          if c = '=' then
            tokenizeLoop fuel lx (tokens ++ [{ type := .EQUALS, value := "=".toList, line := lx.line }])
          else if c = '>' then
            tokenizeLoop fuel lx (tokens ++ [{ type := .GREATER, value := ">".toList, line := lx.line }])
          else if c = '<' then
            tokenizeLoop fuel lx (tokens ++ [{ type := .LESS, value := "<".toList, line := lx.line }])
          else if c = '-' then
            tokenizeLoop fuel lx (tokens ++ [{ type := .MINUS, value := "-".toList, line := lx.line }])
          else if c = '\n' then
            tokenizeLoop fuel { lx with line := lx.line + 1 }
              (tokens ++ [{ type := .EOL, value := "\\n".toList, line := lx.line }])
          else tokenizeLoop fuel lx tokens
    else .ok (tokens ++ [{ type := .END, value := [], line := lx.line }])

/-- The method `Lexer::tokenize`. -/
def Lexer.tokenize (lx : Lexer) : Except Error (List Token) :=
  Lexer.tokenizeLoop (lx.source.length + 1) lx []

/-! ## ast.hpp / ast.cpp -/

/-- The enumeration `ComparisonNode::Op`. -/
inductive ComparisonOp where
  | Greater
  | Less
  deriving DecidableEq, Repr

/-- The classes derived from `ASTNode`. -/
inductive ASTNode where
  | NumberNode (value : Int)
  | VariableNode (name : Str)
  | AssignmentNode (name : Str) (value : ASTNode)
  | PrintNode (expression : ASTNode)
  | IfNode (condition : ASTNode) (body : List ASTNode)
  | WhileNode (condition : ASTNode) (body : List ASTNode)
  | ComparisonNode (left : ASTNode) (op : ComparisonOp) (right : ASTNode)

/-- The class `Environment`, a map from names to values, together with the
lines written to `std::cout`. -/
structure Environment where
  values : List (Str × Int) := []
  output : List Str := []
  deriving DecidableEq, Repr

/-- The assignment `values[name] = value` on the map. -/
def Environment.define (env : Environment) (name : Str) (value : Int) : Environment :=
  { env with values := (name, value) :: env.values.filter (fun e => e.1 ≠ name) }

/-- The method `Environment::get`. -/
def Environment.get (env : Environment) (name : Str) : Except Error Int :=
  match env.values.lookup name with
  | none => .error (.runtime_error ("Undefined variable: " ++ String.mk name))
  | some value => .ok value

/-- The method `Environment::assign`. -/
def Environment.assign (env : Environment) (name : Str) (value : Int) :
    Except Error Environment :=
  match env.values.lookup name with
  | none => .error (.runtime_error ("Cannot assign to undefined variable: " ++ String.mk name))
  | some _ => .ok (env.define name value)

/-- The methods `execute` of the node classes. The fuel bounds the depth of
the calls and the number of iterations of a `while`; the state returned is
the one at the return or at the throw. -/
def ASTNode.execute : Nat → ASTNode → Environment → Environment × Except Error Int
  | 0, _, env => (env, .error .fuelExhausted)
  | _ + 1, .NumberNode value, env => (env, .ok value)
  | _ + 1, .VariableNode name, env => (env, env.get name)
  | fuel + 1, .AssignmentNode name value, env =>
    match value.execute fuel env with
    | (env, .error e) => (env, .error e)
    | (env, .ok val) => (env.define name val, .ok val)
  | fuel + 1, .PrintNode expression, env =>
    match expression.execute fuel env with
    | (env, .error e) => (env, .error e)
    | (env, .ok val) => ({ env with output := env.output ++ [to_string val] }, .ok val)
  | fuel + 1, .IfNode condition body, env =>
    match condition.execute fuel env with
    | (env, .error e) => (env, .error e)
    | (env, .ok c) =>
      if c ≠ 0 then
        match body.foldl (fun (acc : Environment × Except Error Int) stmt =>
            match acc with
            | (env, .error e) => (env, .error e)
            | (env, .ok _) => stmt.execute fuel env) (env, .ok 0) with
        | (env, .error e) => (env, .error e)
        | (env, .ok _) => (env, .ok 0)
      else (env, .ok 0)
  | fuel + 1, .WhileNode condition body, env =>
    match condition.execute fuel env with
    | (env, .error e) => (env, .error e)
    | (env, .ok c) =>
      if c ≠ 0 then
        match body.foldl (fun (acc : Environment × Except Error Int) stmt =>
            match acc with
            | (env, .error e) => (env, .error e)
            | (env, .ok _) => stmt.execute fuel env) (env, .ok 0) with
        | (env, .error e) => (env, .error e)
        | (env, .ok _) => (ASTNode.WhileNode condition body).execute fuel env
      else (env, .ok 0)
  | fuel + 1, .ComparisonNode left op right, env =>
    match left.execute fuel env with
    | (env, .error e) => (env, .error e)
    | (env, .ok l) =>
      match right.execute fuel env with
      | (env, .error e) => (env, .error e)
      | (env, .ok r) =>
        match op with
        | .Greater => (env, .ok (if l > r then 1 else 0))
        | .Less => (env, .ok (if l < r then 1 else 0))

/-! ## parser.hpp / parser.cpp -/

/-- The class `Parser`: the token vector and the index of the current
token. -/
structure Parser where
  tokens : List Token
  current : Nat := 0
  deriving DecidableEq, Repr

/-- Constructor `Parser(std::vector<Token> tokens)`. -/
def Parser.new (tokens : List Token) : Parser :=
  { tokens := tokens }

/-- The subscript `tokens[i]`. An index outside the vector is undefined
behaviour in C++; it does not occur on the paths from `Parser::parse` on a
non-empty vector, and the embedding then yields an END token. -/
def Parser.tokenAt (p : Parser) (i : Nat) : Token :=
  p.tokens.getD i { type := .END }

/-- The method `Parser::isAtEnd`. -/
def Parser.isAtEnd (p : Parser) : Bool :=
  p.current ≥ p.tokens.length

/-- The method `Parser::peek`; `tokens.back()` is the last token. -/
def Parser.peek (p : Parser) : Token :=
  if p.isAtEnd then p.tokens.getLastD { type := .END } else p.tokenAt p.current

/-- The method `Parser::advance`. -/
def Parser.advance (p : Parser) : Token × Parser :=
  let p1 : Parser := if !p.isAtEnd then { p with current := p.current + 1 } else p
  (p1.tokenAt (p1.current - 1), p1)

/-- The method `Parser::check`. -/
def Parser.check (p : Parser) (type : TokenType) : Bool :=
  if p.isAtEnd then false else p.peek.type == type

/-- The method `Parser::match`. -/
def Parser.match_ (p : Parser) (type : TokenType) : Bool × Parser :=
  if p.check type then (true, p.advance.2) else (false, p)

/-- The method `Parser::consume`. -/
def Parser.consume (p : Parser) (type : TokenType) (message : String) :
    Except Error (Token × Parser) :=
  if p.check type then .ok p.advance else .error (.runtime_error message)

/-- The method `Parser::expression`. -/
def Parser.expression (p : Parser) : Except Error (ASTNode × Parser) :=
  let m := p.match_ .NUMBER
  if m.1 then do
    let value ← stoi (m.2.tokenAt (m.2.current - 1)).value
    pure (.NumberNode value, m.2)
  else
    let m := m.2.match_ .IDENTIFIER
    if m.1 then .ok (.VariableNode (m.2.tokenAt (m.2.current - 1)).value, m.2)
    else .error (.runtime_error "Expected expression.")

/-- The method `Parser::comparison`. -/
def Parser.comparison (p : Parser) : Except Error (ASTNode × Parser) := do
  let (left, p) ← p.expression
  let m := p.match_ .GREATER
  if m.1 then do
    let (right, p) ← m.2.expression
    pure (.ComparisonNode left .Greater right, p)
  else
    let m := m.2.match_ .LESS
    if m.1 then do
      let (right, p) ← m.2.expression
      pure (.ComparisonNode left .Less right, p)
    else .error (.runtime_error "Expected comparison operator.")

/-- The method `Parser::assignment`. -/
def Parser.assignment (p : Parser) : Except Error (ASTNode × Parser) := do
  let (name, p) ← p.consume .IDENTIFIER "Expected variable name."
  let (_, p) ← p.consume .EQUALS "Expected '=' after variable name."
  let (value, p) ← p.expression
  pure (.AssignmentNode name.value value, p)

/-- The method `Parser::printStatement`. -/
def Parser.printStatement (p : Parser) : Except Error (ASTNode × Parser) := do
  let (value, p) ← p.expression
  pure (.PrintNode value, p)

/-- The method `Parser::ifStatement`, given the method `block`. -/
def Parser.ifStatement (block : Parser → Except Error (List ASTNode × Parser)) (p : Parser) :
    Except Error (ASTNode × Parser) := do
  let (condition, p) ← p.comparison
  let (_, p) ← p.consume .EOL "Expected newline after condition."
  let (body, p) ← block p
  pure (.IfNode condition body, p)

/-- The method `Parser::whileStatement`, given the method `block`. -/
def Parser.whileStatement (block : Parser → Except Error (List ASTNode × Parser)) (p : Parser) :
    Except Error (ASTNode × Parser) := do
  let (condition, p) ← p.comparison
  let (_, p) ← p.consume .EOL "Expected newline after condition."
  let (body, p) ← block p
  pure (.WhileNode condition body, p)

mutual

/-- The method `Parser::statement`. The fuel bounds the depth of the descent
through `ifStatement`, `whileStatement` and `block`. -/
def Parser.statement : Nat → Parser → Except Error (ASTNode × Parser)
  | 0, _ => .error .fuelExhausted
  | fuel + 1, p =>
    let m := p.match_ .IF
    if m.1 then Parser.ifStatement (fun q => Parser.blockLoop fuel q []) m.2
    else
      let m := m.2.match_ .WHILE
      if m.1 then Parser.whileStatement (fun q => Parser.blockLoop fuel q []) m.2
      else
        let m := m.2.match_ .PRINT
        if m.1 then m.2.printStatement
        else m.2.assignment

/-- The method `Parser::block`: its `while` loop with the statements read so
far, and the test that follows the loop. -/
def Parser.blockLoop : Nat → Parser → List ASTNode → Except Error (List ASTNode × Parser)
  | 0, _, _ => .error .fuelExhausted
  | fuel + 1, p, statements =>
    if !p.isAtEnd && p.peek.type ≠ .END &&
        !(p.peek.type ≠ .IDENTIFIER && p.peek.type ≠ .PRINT) then do
      let (stmt, p) ← Parser.statement fuel p
      let p := (p.match_ .EOL).2
      Parser.blockLoop fuel p (statements ++ [stmt])
    else if statements.isEmpty then
      .error (.runtime_error "Expected at least one statement in block.")
    else .ok (statements, p)

end

/-- The method `Parser::block`. -/
def Parser.block (fuel : Nat) (p : Parser) : Except Error (List ASTNode × Parser) :=
  Parser.blockLoop fuel p []

/-- The `while` loop of `Parser::parse`. -/
def Parser.parseLoop : Nat → Parser → List ASTNode → Except Error (List ASTNode × Parser)
  | 0, _, _ => .error .fuelExhausted
  | fuel + 1, p, statements =>
    if !p.isAtEnd && p.peek.type ≠ .END then do
      let (stmt, p) ← Parser.statement (2 * p.tokens.length + 2) p
      let p := (p.match_ .EOL).2
      Parser.parseLoop fuel p (statements ++ [stmt])
    else .ok (statements, p)

/-- The method `Parser::parse`, together with the parser state it leaves. -/
def Parser.parse (p : Parser) : Except Error (List ASTNode × Parser) :=
  Parser.parseLoop (p.tokens.length + 1) p []

/-! ## main.cpp -/

/-- The string `source` of `main`, the example program. -/
def source : Str :=
  ("x = 5\n" ++ "if x > 3\n" ++ "  print x\n" ++ "  while x > 0\n" ++ "    print x\n" ++
    "    x = x - 1\n").toList

/-- What a run of `main` leaves: the lines written to `std::cout`, the text
written to `std::cerr`, and the exit status. -/
structure Outcome where
  cout : List Str
  cerr : Str
  status : Int
  deriving DecidableEq, Repr

/-- The loop of `main` that executes the statements. -/
def executeAll (fuel : Nat) : List ASTNode → Environment → Environment × Except Error Unit
  | [], env => (env, .ok ())
  | stmt :: rest, env =>
    match stmt.execute fuel env with
    | (env, .error e) => (env, .error e)
    | (env, .ok _) => executeAll fuel rest env

/-- The text of `e.what()` for an exception. -/
def what : Error → String
  | .runtime_error w => w
  | .invalid_argument w => w
  | .out_of_range w => w
  | .fuelExhausted => ""

/-- The function `main` on a source text; the fuel is the fuel of `execute`.
`main` catches `std::runtime_error` only: another exception (of `std::stoi`)
ends the program abnormally, which the embedding reports with status 134. -/
def run (fuel : Nat) (source : Str) : Outcome :=
  match (Lexer.new source).tokenize with
  | .error _ => { cout := [], cerr := [], status := 134 }
  | .ok tokens =>
    match (Parser.new tokens).parse with
    | .error (.runtime_error w) =>
      { cout := [], cerr := ("Error: " ++ w ++ "\n").toList, status := 1 }
    | .error _ => { cout := [], cerr := [], status := 134 }
    | .ok (statements, _) =>
      match executeAll fuel statements {} with
      | (env, .error (.runtime_error w)) =>
        { cout := env.output, cerr := ("Error: " ++ w ++ "\n").toList, status := 1 }
      | (env, .error _) => { cout := env.output, cerr := [], status := 134 }
      | (env, .ok _) => { cout := env.output, cerr := [], status := 0 }

/-- The function `main`. -/
def main (fuel : Nat) : Outcome :=
  run fuel source

/-! ### Reference definitions for the interpreter -/

/-- The token sequence of the example program: 26 tokens on six lines and
the END token. -/
def exampleTokens : List Token :=
  [{ type := .IDENTIFIER, value := "x".toList, line := 1 },
   { type := .EQUALS, value := "=".toList, line := 1 },
   { type := .NUMBER, value := "5".toList, line := 1 },
   { type := .EOL, value := "\\n".toList, line := 1 },
   { type := .IF, value := "if".toList, line := 2 },
   { type := .IDENTIFIER, value := "x".toList, line := 2 },
   { type := .GREATER, value := ">".toList, line := 2 },
   { type := .NUMBER, value := "3".toList, line := 2 },
   { type := .EOL, value := "\\n".toList, line := 2 },
   { type := .PRINT, value := "print".toList, line := 3 },
   { type := .IDENTIFIER, value := "x".toList, line := 3 },
   { type := .EOL, value := "\\n".toList, line := 3 },
   { type := .WHILE, value := "while".toList, line := 4 },
   { type := .IDENTIFIER, value := "x".toList, line := 4 },
   { type := .GREATER, value := ">".toList, line := 4 },
   { type := .NUMBER, value := "0".toList, line := 4 },
   { type := .EOL, value := "\\n".toList, line := 4 },
   { type := .PRINT, value := "print".toList, line := 5 },
   { type := .IDENTIFIER, value := "x".toList, line := 5 },
   { type := .EOL, value := "\\n".toList, line := 5 },
   { type := .IDENTIFIER, value := "x".toList, line := 6 },
   { type := .EQUALS, value := "=".toList, line := 6 },
   { type := .IDENTIFIER, value := "x".toList, line := 6 },
   { type := .MINUS, value := "-".toList, line := 6 },
   { type := .NUMBER, value := "1".toList, line := 6 },
   { type := .EOL, value := "\\n".toList, line := 6 },
   { type := .END, value := [], line := 7 }]

/-- The token can be the value of an assignment that `expression` reads: an
IDENTIFIER, or a NUMBER whose text `std::stoi` converts. -/
def Token.IsValue (t : Token) : Prop :=
  t.type = .IDENTIFIER ∨ (t.type = .NUMBER ∧ ∃ v, stoi t.value = .ok v)

end Tiny

namespace Calc

/-! ## List facts -/

theorem drop_eq_cons_getD {β : Type} {l : List β} {n : Nat} {a : β} {r : List β} (d : β)
    (h : l.drop n = a :: r) : n < l.length ∧ l.getD n d = a ∧ l.drop (n + 1) = r := by
  have hlt : n < l.length := by
    by_contra hge
    rw [List.drop_eq_nil_of_le (by omega)] at h
    cases h
  rw [List.drop_eq_getElem_cons hlt] at h
  injection h with h1 h2
  refine ⟨hlt, ?_, h2⟩
  rw [List.getD_eq_getElem?_getD, List.getElem?_eq_getElem hlt]
  simpa using h1

theorem takeWhile_append_stop {β : Type} (p : β → Bool) (ds r : List β)
    (hds : ∀ c ∈ ds, p c = true) (hr : ∀ c ∈ r.head?, p c = false) :
    (ds ++ r).takeWhile p = ds := by
  induction ds with
  | nil =>
    cases r with
    | nil => rfl
    | cons c r => simp [List.takeWhile, hr c (by simp)]
  | cons d ds ih =>
    have hd : p d = true := hds d (by simp)
    rw [List.cons_append, List.takeWhile_cons, hd, if_pos rfl,
      ih (fun c hc => hds c (by simp [hc]))]

/-! ## Lexer: the read position as a view of the rest of the input -/

theorem Lexer.peek_eq_headD (lx : Lexer) :
    lx.peek = (lx.m_input.drop lx.m_position).headD '\x00' := by
  unfold Lexer.peek
  split
  · rename_i h
    rw [List.drop_eq_nil_of_le h]; rfl
  · rename_i h
    rw [List.drop_eq_getElem_cons (by omega)]
    rw [List.getD_eq_getElem?_getD, List.getElem?_eq_getElem (by omega)]
    rfl

theorem Lexer.advance_fst_eq_headD (lx : Lexer) :
    lx.advance.1 = (lx.m_input.drop lx.m_position).headD '\x00' := by
  unfold Lexer.advance
  by_cases h : lx.m_position < lx.m_input.length
  · rw [List.drop_eq_getElem_cons h]
    simp only [List.getD_eq_getElem?_getD, List.getElem?_eq_getElem h]
    rfl
  · rw [List.drop_eq_nil_of_le (by omega)]
    simp only [List.getD_eq_getElem?_getD]
    rw [List.getElem?_eq_none (by omega)]; rfl

theorem Lexer.skipWhitespaceLoop_eq (fuel : Nat) (lx : Lexer)
    (hfuel : ((lx.m_input.drop lx.m_position).takeWhile isspace).length < fuel) :
    Lexer.skipWhitespaceLoop fuel lx = .ok { m_input := lx.m_input, m_position :=
      lx.m_position + ((lx.m_input.drop lx.m_position).takeWhile isspace).length } := by
  induction fuel generalizing lx with
  | zero => omega
  | succ fuel ih =>
    unfold Lexer.skipWhitespaceLoop
    rw [Lexer.peek_eq_headD]
    cases hrest : lx.m_input.drop lx.m_position with
    | nil => simp [isspace]
    | cons c r =>
      rw [hrest] at hfuel
      have hd := (drop_eq_cons_getD '\x00' hrest).2.2
      by_cases hc : isspace c = true
      · simp only [List.headD_cons, hc, if_true]
        have hfuel2 : (((lx.advance.2).m_input.drop (lx.advance.2).m_position).takeWhile
            isspace).length < fuel := by
          show ((lx.m_input.drop (lx.m_position + 1)).takeWhile isspace).length < fuel
          rw [hd]
          simp [List.takeWhile, hc] at hfuel
          omega
        rw [ih _ hfuel2]
        show Except.ok _ = Except.ok _
        congr 2
        show lx.m_position + 1 + ((lx.m_input.drop (lx.m_position + 1)).takeWhile isspace).length = _
        rw [hd]
        simp [List.takeWhile, hc]
        omega
      · simp [List.takeWhile, hc]

theorem Lexer.numberLoop_eq (fuel : Nat) (lx : Lexer) (result : Str)
    (hfuel : ((lx.m_input.drop lx.m_position).takeWhile isdigit).length < fuel) :
    Lexer.numberLoop fuel lx result =
      .ok (result ++ (lx.m_input.drop lx.m_position).takeWhile isdigit,
        { m_input := lx.m_input, m_position :=
          lx.m_position + ((lx.m_input.drop lx.m_position).takeWhile isdigit).length }) := by
  induction fuel generalizing lx result with
  | zero => omega
  | succ fuel ih =>
    unfold Lexer.numberLoop
    rw [Lexer.peek_eq_headD, Lexer.advance_fst_eq_headD]
    cases hrest : lx.m_input.drop lx.m_position with
    | nil => simp [isdigit]
    | cons c r =>
      rw [hrest] at hfuel
      have hd := (drop_eq_cons_getD '\x00' hrest).2.2
      by_cases hc : isdigit c = true
      · simp only [List.headD_cons, hc, if_true]
        have hfuel2 : (((lx.advance.2).m_input.drop (lx.advance.2).m_position).takeWhile
            isdigit).length < fuel := by
          show ((lx.m_input.drop (lx.m_position + 1)).takeWhile isdigit).length < fuel
          rw [hd]
          simp [List.takeWhile, hc] at hfuel
          omega
        rw [ih _ _ hfuel2]
        show Except.ok (_, _) = Except.ok (_, _)
        have e1 : (lx.advance.2).m_input = lx.m_input := rfl
        have e2 : (lx.advance.2).m_position = lx.m_position + 1 := rfl
        rw [e1, e2, hd]
        simp [List.takeWhile, hc]
        omega
      · simp [List.takeWhile, hc]


theorem isspace_of_isdigit {c : Char} (h : isdigit c = true) : isspace c = false := by
  simp only [isdigit, isspace, Bool.and_eq_true, decide_eq_true_eq] at *
  simp only [Bool.or_eq_false_iff, Bool.and_eq_false_iff, beq_eq_false_iff_ne, ne_eq,
    decide_eq_false_iff_not]
  omega

theorem Op.char_not_digit (o : Op) : isdigit o.char = false := by
  cases o <;> rfl

theorem Op.char_not_space (o : Op) : isspace o.char = false := by
  cases o <;> rfl

theorem Op.charToken_char (o : Op) : Lexer.charToken o.char = { type := o.token } := by
  cases o <;> rfl

theorem Spec.tailText_head_not_digit (rest : List (Op × Str)) :
    ∀ c ∈ (Spec.tailText rest).head?, isdigit c = false := by
  cases rest with
  | nil => simp [Spec.tailText]
  | cons p rest =>
    obtain ⟨o, n⟩ := p
    simp [Spec.tailText, Op.char_not_digit]

theorem Spec.tailText_length (rest : List (Op × Str)) (h : ∀ p ∈ rest, IsNumeral p.2) :
    2 * rest.length ≤ (Spec.tailText rest).length := by
  induction rest with
  | nil => simp
  | cons p rest ih =>
    obtain ⟨o, n⟩ := p
    have hn : IsNumeral n := h (o, n) (by simp)
    have hpos : 0 < n.length := List.length_pos.mpr hn.1
    have := ih (fun q hq => h q (by simp [hq]))
    simp only [Spec.tailText, List.length_cons, List.length_append]
    omega

/-- One iteration of the loop of `tokenize` at a numeral. -/
theorem Lexer.tokenizeLoop_number (fuel : Nat) (lx : Lexer) (tokens : List Token) (n t : Str)
    (hn : IsNumeral n) (ht : ∀ c ∈ t.head?, isdigit c = false)
    (hrest : lx.m_input.drop lx.m_position = n ++ t) :
    Lexer.tokenizeLoop (fuel + 1) lx tokens =
      Lexer.tokenizeLoop fuel { m_input := lx.m_input, m_position := lx.m_position + n.length }
        (tokens ++ [{ type := .NUMBER, value := n }]) := by
  obtain ⟨hne, hdig⟩ := hn
  obtain ⟨c, n', rfl⟩ := List.exists_cons_of_ne_nil hne
  have hc : isdigit c = true := hdig c (by simp)
  have hlt : lx.m_position < lx.m_input.length := (drop_eq_cons_getD '\x00' hrest).1
  have hlen : (c :: n').length ≤ lx.m_input.length := by
    have := congrArg List.length hrest
    simp only [List.length_drop, List.length_append] at this
    omega
  have hskip : lx.skipWhitespace = .ok lx := by
    unfold Lexer.skipWhitespace
    rw [Lexer.skipWhitespaceLoop_eq]
    · rw [hrest]; simp [List.takeWhile, isspace_of_isdigit hc]
    · rw [hrest]; simp [List.takeWhile, isspace_of_isdigit hc]
  have htw : (lx.m_input.drop lx.m_position).takeWhile isdigit = c :: n' := by
    rw [hrest]; exact takeWhile_append_stop isdigit _ _ hdig ht
  have hnum : lx.number = .ok ({ type := .NUMBER, value := c :: n' },
      { m_input := lx.m_input, m_position := lx.m_position + (c :: n').length }) := by
    unfold Lexer.number
    rw [Lexer.numberLoop_eq _ _ _ (by rw [htw]; omega), htw]
    rfl
  have hpeek : lx.peek = c := by rw [Lexer.peek_eq_headD, hrest]; rfl
  rw [Lexer.tokenizeLoop]
  simp only [hlt, if_true, hskip, bind, Except.bind, hpeek, hc, hnum]

/-- One iteration of the loop of `tokenize` at an operator character. -/
theorem Lexer.tokenizeLoop_op (fuel : Nat) (lx : Lexer) (tokens : List Token) (o : Op) (t : Str)
    (hrest : lx.m_input.drop lx.m_position = o.char :: t) :
    Lexer.tokenizeLoop (fuel + 1) lx tokens =
      Lexer.tokenizeLoop fuel { m_input := lx.m_input, m_position := lx.m_position + 1 }
        (tokens ++ [{ type := o.token }]) := by
  have hlt : lx.m_position < lx.m_input.length := (drop_eq_cons_getD '\x00' hrest).1
  have hskip : lx.skipWhitespace = .ok lx := by
    unfold Lexer.skipWhitespace
    rw [Lexer.skipWhitespaceLoop_eq]
    · rw [hrest]; simp [List.takeWhile, Op.char_not_space]
    · rw [hrest]; simp [List.takeWhile, Op.char_not_space]
  have hpeek : lx.peek = o.char := by rw [Lexer.peek_eq_headD, hrest]; rfl
  rw [Lexer.tokenizeLoop]
  simp only [hlt, if_true, hskip, bind, Except.bind, hpeek, Op.char_not_digit,
    Op.charToken_char]
  rfl

theorem Lexer.tokenizeLoop_tailText (rest : List (Op × Str)) (h : ∀ p ∈ rest, IsNumeral p.2)
    (fuel : Nat) (lx : Lexer) (tokens : List Token)
    (hrest : lx.m_input.drop lx.m_position = Spec.tailText rest)
    (hfuel : 2 * rest.length < fuel) :
    Lexer.tokenizeLoop fuel lx tokens =
      .ok (tokens ++ Spec.tailTokens rest ++ [{ type := .EOL }]) := by
  induction rest generalizing fuel lx tokens with
  | nil =>
    obtain ⟨fuel, rfl⟩ : ∃ f, fuel = f + 1 := ⟨fuel - 1, by omega⟩
    have hge : ¬ lx.m_position < lx.m_input.length := by
      intro hlt
      have := List.drop_eq_nil_iff.mp hrest
      omega
    rw [Lexer.tokenizeLoop]
    simp [hge, Spec.tailTokens]
  | cons p rest ih =>
    obtain ⟨o, n⟩ := p
    obtain ⟨fuel, rfl⟩ : ∃ f, fuel = f + 2 := ⟨fuel - 2, by simp at hfuel; omega⟩
    have hn : IsNumeral n := h (o, n) (by simp)
    simp only [Spec.tailText] at hrest
    rw [Lexer.tokenizeLoop_op _ _ _ o _ hrest]
    have hrest1 := (drop_eq_cons_getD '\x00' hrest).2.2
    rw [Lexer.tokenizeLoop_number fuel _ _ n (Spec.tailText rest) hn
      (Spec.tailText_head_not_digit rest) hrest1]
    rw [ih (fun q hq => h q (by simp [hq]))]
    · simp [Spec.tailTokens]
    · show lx.m_input.drop (lx.m_position + 1 + n.length) = _
      rw [← List.drop_drop, hrest1]
      simp
    · simp at hfuel; omega

/-- The tokens of a well-formed expression string. -/
theorem tokenize_exprText (n1 : Str) (rest : List (Op × Str)) (h1 : IsNumeral n1)
    (h : ∀ p ∈ rest, IsNumeral p.2) :
    tokenize (Spec.exprText n1 rest) =
      .ok ({ type := .NUMBER, value := n1 } :: Spec.tailTokens rest ++ [{ type := .EOL }]) := by
  unfold tokenize Lexer.tokenize Lexer.new
  have hlen := Spec.tailText_length rest h
  rw [Lexer.tokenizeLoop_number _ _ _ n1 (Spec.tailText rest) h1
    (Spec.tailText_head_not_digit rest) (by simp [Spec.exprText])]
  rw [Lexer.tokenizeLoop_tailText rest h]
  · simp
  · simp [Spec.exprText]
  · simp only [Spec.exprText, List.length_append]
    have := List.length_pos.mpr h1.1
    omega


/-! ## Parser: the current index as a view of the remaining tokens -/

theorem getElem_of_drop_eq_cons {β : Type} {l : List β} {n : Nat} {a : β} {r : List β}
    (h : l.drop n = a :: r) : l[n]? = some a := by
  have := List.head?_drop l n
  rw [h] at this
  simpa using this.symm

theorem Parser.isAtEnd_of_rest_cons {p : Parser} {t : Token} {r : List Token}
    (h : p.m_tokens.drop p.m_current = t :: r) : p.isAtEnd = (t.type == .EOL) := by
  obtain ⟨hlt, hget, _⟩ := drop_eq_cons_getD ({ type := .INVALID } : Token) h
  unfold Parser.isAtEnd Parser.tokenAt
  rw [hget]
  simp [hlt]

theorem Parser.isAtEnd_of_rest_nil {p : Parser} (h : p.m_tokens.drop p.m_current = []) :
    p.isAtEnd = true := by
  have := List.drop_eq_nil_iff.mp h
  unfold Parser.isAtEnd
  simp [this]

/-- The call `match(type)` consumes the current token when it has the type. -/
theorem Parser.match_hit {p : Parser} {t : Token} {r : List Token} {type : TokenType}
    (h : p.m_tokens.drop p.m_current = t :: r) (ht : t.type = type) (hne : type ≠ .EOL) :
    p.match_ type = (true, { m_tokens := p.m_tokens, m_current := p.m_current + 1 }) := by
  have hend : p.isAtEnd = false := by
    rw [Parser.isAtEnd_of_rest_cons h, ht]; simpa using hne
  have hget := getElem_of_drop_eq_cons h
  unfold Parser.match_ Parser.check Parser.peek Parser.advance
  simp [hend, Parser.tokenAt, hget, ht]

/-- The call `match(type)` leaves the parser as it is when the current token
has another type. -/
theorem Parser.match_miss {p : Parser} {type : TokenType}
    (h : ∀ t ∈ (p.m_tokens.drop p.m_current).head?, t.type ≠ type) :
    p.match_ type = (false, p) := by
  unfold Parser.match_ Parser.check Parser.peek
  cases hrest : p.m_tokens.drop p.m_current with
  | nil => simp [Parser.isAtEnd_of_rest_nil hrest]
  | cons t r =>
    have hget := getElem_of_drop_eq_cons hrest
    have := h t (by simp [hrest])
    by_cases hend : p.isAtEnd = true
    · simp [hend]
    · simp [hend, Parser.tokenAt, hget, this]

theorem Parser.tokenAt_last {p : Parser} {t : Token} {r : List Token}
    (h : p.m_tokens.drop p.m_current = t :: r) :
    Parser.tokenAt { m_tokens := p.m_tokens, m_current := p.m_current + 1 }
      (p.m_current + 1 - 1) = t := by
  obtain ⟨_, hget, _⟩ := drop_eq_cons_getD ({ type := .INVALID } : Token) h
  simpa [Parser.tokenAt] using hget

theorem Parser.factor_number {α : Type} (D : DoubleOps α) {p : Parser} {n : Str}
    {r : List Token} (h : p.m_tokens.drop p.m_current = { type := .NUMBER, value := n } :: r) :
    Parser.factor D p =
      (D.stod n).map (fun value =>
        (.NumberExpr value, { m_tokens := p.m_tokens, m_current := p.m_current + 1 })) := by
  unfold Parser.factor
  rw [@Parser.match_hit p _ r .NUMBER h rfl (by decide)]
  simp only [if_true]
  rw [Parser.tokenAt_last h]
  cases D.stod n <;> rfl

theorem Parser.factor_number_ok {α : Type} (D : DoubleOps α) {p : Parser} {n : Str}
    {r : List Token} {x : α}
    (h : p.m_tokens.drop p.m_current = { type := .NUMBER, value := n } :: r)
    (hx : D.stod n = .ok x) :
    Parser.factor D p =
      .ok (.NumberExpr x, { m_tokens := p.m_tokens, m_current := p.m_current + 1 }) := by
  rw [Parser.factor_number D h, hx]
  rfl

theorem Parser.factor_number_error {α : Type} (D : DoubleOps α) {p : Parser} {n : Str}
    {r : List Token} {err : Error}
    (h : p.m_tokens.drop p.m_current = { type := .NUMBER, value := n } :: r)
    (hx : D.stod n = .error err) :
    Parser.factor D p = .error err := by
  rw [Parser.factor_number D h, hx]
  rfl

theorem Op.token_ne_EOL (o : Op) : o.token ≠ .EOL := by
  cases o <;> decide

theorem Spec.tailTokens_length (fs : List (Op × Str)) :
    (Spec.tailTokens fs).length = 2 * fs.length := by
  induction fs with
  | nil => rfl
  | cons f fs ih =>
    obtain ⟨o, n⟩ := f
    simp only [Spec.tailTokens, List.length_cons, ih]
    omega

/-- The condition `match(a) || match(b)` of the two loops when the current
token is the token of an operator `o` with `o.token = a` or `o.token = b`. -/
theorem Parser.match_either {p : Parser} {o : Op} {r : List Token} {a b : TokenType}
    (h : p.m_tokens.drop p.m_current = { type := o.token } :: r)
    (hab : o.token = a ∨ o.token = b) (ha : a ≠ .EOL) (hb : b ≠ .EOL) :
    (if (p.match_ a).1 then p.match_ a else (p.match_ a).2.match_ b) =
      (true, { m_tokens := p.m_tokens, m_current := p.m_current + 1 }) := by
  by_cases h1 : o.token = a
  · rw [Parser.match_hit h h1 ha]; rfl
  · have h2 : o.token = b := by tauto
    rw [Parser.match_miss (by rw [h]; simpa using h1)]
    simp only [Bool.false_eq_true, if_false]
    rw [Parser.match_hit h h2 hb]

theorem Parser.match_neither {p : Parser} {a b : TokenType}
    (h : ∀ t ∈ (p.m_tokens.drop p.m_current).head?, t.type ≠ a ∧ t.type ≠ b) :
    (if (p.match_ a).1 then p.match_ a else (p.match_ a).2.match_ b) = (false, p) := by
  rw [Parser.match_miss (fun t ht => (h t ht).1)]
  simp only [Bool.false_eq_true, if_false]
  rw [Parser.match_miss (fun t ht => (h t ht).2)]

/-- The loop of `term` consumes a chain of factors and builds the
left-leaning tree. -/
theorem Parser.termLoop_factors {α : Type} (D : DoubleOps α) (v : Str → α)
    (fs : List (Op × Str)) (hmul : ∀ f ∈ fs, f.1.isMul = true)
    (hv : ∀ f ∈ fs, D.stod f.2 = .ok (v f.2)) (fuel : Nat) (p : Parser) (expr : Expression α)
    (suffix : List Token)
    (hrest : p.m_tokens.drop p.m_current = Spec.tailTokens fs ++ suffix)
    (hs : ∀ t ∈ suffix.head?, t.type ≠ .MULTIPLY ∧ t.type ≠ .DIVIDE)
    (hfuel : fs.length < fuel) :
    Parser.termLoop D fuel p expr =
      .ok (Spec.chainTree v expr fs,
        { m_tokens := p.m_tokens, m_current := p.m_current + 2 * fs.length }) := by
  induction fs generalizing fuel p expr with
  | nil =>
    obtain ⟨fuel, rfl⟩ : ∃ f, fuel = f + 1 := ⟨fuel - 1, by omega⟩
    rw [Parser.termLoop]
    simp only
    have hhead : ∀ t ∈ (p.m_tokens.drop p.m_current).head?,
        t.type ≠ .MULTIPLY ∧ t.type ≠ .DIVIDE := by
      rw [hrest]; simpa [Spec.tailTokens] using hs
    rw [Parser.match_neither hhead]
    rfl
  | cons f fs ih =>
    obtain ⟨o, n⟩ := f
    obtain ⟨fuel, rfl⟩ : ∃ f, fuel = f + 1 := ⟨fuel - 1, by omega⟩
    have ho : o.token = .MULTIPLY ∨ o.token = .DIVIDE := by
      have := hmul (o, n) (by simp)
      revert this
      cases o <;> simp [Op.isMul, Op.token]
    simp only [Spec.tailTokens, List.cons_append] at hrest
    have hrest1 := (drop_eq_cons_getD ({ type := .INVALID } : Token) hrest).2.2
    have hrest2 := (drop_eq_cons_getD ({ type := .INVALID } : Token) hrest1).2.2
    rw [Parser.termLoop]
    simp only
    rw [Parser.match_either hrest ho (by decide) (by decide)]
    simp only [if_true]
    rw [Parser.tokenAt_last hrest,
      @Parser.factor_number_ok α D { m_tokens := p.m_tokens, m_current := p.m_current + 1 } n _
        (v n) hrest1 (hv (o, n) (by simp))]
    simp only [bind, Except.bind]
    rw [ih (fun f hf => hmul f (by simp [hf])) (fun f hf => hv f (by simp [hf])) fuel _ _ hrest2
      (by simp at hfuel; omega)]
    simp only [Spec.chainTree, List.foldl_cons, List.length_cons]
    congr 3
    omega

end Calc

namespace Calc

theorem Spec.termsTokens_head (ts : List (Op × Str × List (Op × Str)))
    (hts : ∀ t ∈ ts, t.1.isMul = false) (suffix : List Token)
    (hs : ∀ t ∈ suffix.head?, t.type ≠ .MULTIPLY ∧ t.type ≠ .DIVIDE) :
    ∀ t ∈ (Spec.termsTokens ts ++ suffix).head?, t.type ≠ .MULTIPLY ∧ t.type ≠ .DIVIDE := by
  cases ts with
  | nil => simpa [Spec.termsTokens] using hs
  | cons t ts =>
    obtain ⟨o, n, fs⟩ := t
    have := hts (o, n, fs) (by simp)
    cases o <;> simp_all [Spec.termsTokens, Op.isMul, Op.token]

/-- The method `term` on a numeral followed by a chain of factors. -/
theorem Parser.term_chain {α : Type} (D : DoubleOps α) (v : Str → α) (n : Str)
    (fs : List (Op × Str)) (hmul : ∀ f ∈ fs, f.1.isMul = true)
    (hn : D.stod n = .ok (v n)) (hv : ∀ f ∈ fs, D.stod f.2 = .ok (v f.2))
    (p : Parser) (suffix : List Token)
    (hrest : p.m_tokens.drop p.m_current =
      { type := .NUMBER, value := n } :: (Spec.tailTokens fs ++ suffix))
    (hs : ∀ t ∈ suffix.head?, t.type ≠ .MULTIPLY ∧ t.type ≠ .DIVIDE) :
    Parser.term D p =
      .ok (Spec.chainTree v (.NumberExpr (v n)) fs,
        { m_tokens := p.m_tokens, m_current := p.m_current + 1 + 2 * fs.length }) := by
  have hrest1 := (drop_eq_cons_getD ({ type := .INVALID } : Token) hrest).2.2
  have hlen : fs.length < p.m_tokens.length + 1 := by
    have := congrArg List.length hrest1
    simp only [List.length_drop, List.length_append, Spec.tailTokens_length] at this
    omega
  unfold Parser.term
  rw [Parser.factor_number_ok D hrest hn]
  simp only [bind, Except.bind]
  rw [Parser.termLoop_factors D v fs hmul hv _ _ _ suffix hrest1 hs hlen]

/-- The loop of `expression` consumes a chain of terms and builds the
left-leaning tree. -/
theorem Parser.expressionLoop_terms {α : Type} (D : DoubleOps α) (v : Str → α)
    (ts : List (Op × Str × List (Op × Str)))
    (hts : ∀ t ∈ ts, t.1.isMul = false ∧ ∀ f ∈ t.2.2, f.1.isMul = true)
    (hv : ∀ t ∈ ts, D.stod t.2.1 = .ok (v t.2.1) ∧ ∀ f ∈ t.2.2, D.stod f.2 = .ok (v f.2))
    (fuel : Nat) (p : Parser) (expr : Expression α)
    (hrest : p.m_tokens.drop p.m_current = Spec.termsTokens ts ++ [{ type := .EOL }])
    (hfuel : ts.length < fuel) :
    Parser.expressionLoop D fuel p expr =
      .ok (Spec.sumTree v expr ts,
        { m_tokens := p.m_tokens, m_current := p.m_current + (Spec.termsTokens ts).length }) := by
  induction ts generalizing fuel p expr with
  | nil =>
    obtain ⟨fuel, rfl⟩ : ∃ f, fuel = f + 1 := ⟨fuel - 1, by omega⟩
    have hhead : ∀ t ∈ (p.m_tokens.drop p.m_current).head?,
        t.type ≠ .PLUS ∧ t.type ≠ .MINUS := by
      rw [hrest]; simp [Spec.termsTokens]
    rw [Parser.expressionLoop]
    simp only
    rw [Parser.match_neither hhead]
    rfl
  | cons t ts ih =>
    obtain ⟨o, n, fs⟩ := t
    obtain ⟨fuel, rfl⟩ : ∃ f, fuel = f + 1 := ⟨fuel - 1, by omega⟩
    obtain ⟨hadd, hmul⟩ := hts (o, n, fs) (by simp)
    have ho : o.token = .PLUS ∨ o.token = .MINUS := by
      revert hadd
      cases o <;> simp [Op.isMul, Op.token]
    have htail : ∀ t ∈ ts, t.1.isMul = false ∧ ∀ f ∈ t.2.2, f.1.isMul = true :=
      fun t ht => hts t (by simp [ht])
    simp only [Spec.termsTokens, List.cons_append, List.append_assoc] at hrest
    have hrest1 := (drop_eq_cons_getD ({ type := .INVALID } : Token) hrest).2.2
    have hterm := Parser.term_chain D v n fs hmul (hv (o, n, fs) (by simp)).1
      (hv (o, n, fs) (by simp)).2
      { m_tokens := p.m_tokens, m_current := p.m_current + 1 }
      (Spec.termsTokens ts ++ [{ type := .EOL }]) hrest1
      (Spec.termsTokens_head ts (fun t ht => (htail t ht).1) _ (by simp))
    have hrest2 : p.m_tokens.drop (p.m_current + 1 + 1 + 2 * fs.length) =
        Spec.termsTokens ts ++ [{ type := .EOL }] := by
      have h2 := (drop_eq_cons_getD ({ type := .INVALID } : Token) hrest1).2.2
      rw [← List.drop_drop, h2, ← Spec.tailTokens_length, List.drop_left]
    rw [Parser.expressionLoop]
    simp only
    rw [Parser.match_either hrest ho (by decide) (by decide)]
    simp only [if_true]
    rw [Parser.tokenAt_last hrest, hterm]
    simp only [bind, Except.bind]
    rw [ih htail (fun t ht => hv t (by simp [ht])) fuel _ _ hrest2 (by simp at hfuel; omega)]
    simp only [Spec.sumTree, List.foldl_cons, Spec.termsTokens, List.length_cons,
      List.length_append, Spec.tailTokens_length]
    congr 3
    omega

theorem Spec.termsTokens_length (ts : List (Op × Str × List (Op × Str))) :
    2 * ts.length ≤ (Spec.termsTokens ts).length := by
  induction ts with
  | nil => simp
  | cons t ts ih =>
    obtain ⟨o, n, fs⟩ := t
    simp only [Spec.termsTokens, List.length_cons, List.length_append]
    omega

/-- Grouping keeps the tokens: the tokens of the pairs are the tokens of the
leading factors followed by the tokens of the terms. -/
theorem Spec.groupTerms_tokens (rest : List (Op × Str)) :
    Spec.tailTokens rest =
      Spec.tailTokens (Spec.groupTerms rest).1 ++ Spec.termsTokens (Spec.groupTerms rest).2 := by
  induction rest with
  | nil => rfl
  | cons p rest ih =>
    obtain ⟨o, n⟩ := p
    by_cases ho : o.isMul = true
    · simp [Spec.groupTerms, ho, Spec.tailTokens, ih]
    · simp [Spec.groupTerms, ho, Spec.tailTokens, Spec.termsTokens, ih]

theorem Spec.groupTerms_tiers (rest : List (Op × Str)) :
    (∀ f ∈ (Spec.groupTerms rest).1, f.1.isMul = true) ∧
      ∀ t ∈ (Spec.groupTerms rest).2, t.1.isMul = false ∧ ∀ f ∈ t.2.2, f.1.isMul = true := by
  induction rest with
  | nil => simp [Spec.groupTerms]
  | cons p rest ih =>
    obtain ⟨o, n⟩ := p
    obtain ⟨ih1, ih2⟩ := ih
    by_cases ho : o.isMul = true
    · refine ⟨?_, ?_⟩
      · intro f hf
        simp only [Spec.groupTerms, ho, if_true, List.mem_cons] at hf
        rcases hf with rfl | hf
        · exact ho
        · exact ih1 f hf
      · simpa [Spec.groupTerms, ho] using ih2
    · refine ⟨by simp [Spec.groupTerms, ho], ?_⟩
      intro t ht
      simp only [Spec.groupTerms, ho, if_false, List.mem_cons, Bool.false_eq_true] at ht
      rcases ht with rfl | ht
      · exact ⟨by simpa using ho, ih1⟩
      · exact ih2 t ht

/-- Grouping keeps the numerals: what holds of every numeral of the pairs
holds of every numeral of the leading factors and of the terms. -/
theorem Spec.groupTerms_numerals (P : Str → Prop) (rest : List (Op × Str))
    (h : ∀ n ∈ Spec.numerals rest, P n) :
    (∀ f ∈ (Spec.groupTerms rest).1, P f.2) ∧
      ∀ t ∈ (Spec.groupTerms rest).2, P t.2.1 ∧ ∀ f ∈ t.2.2, P f.2 := by
  induction rest with
  | nil => simp [Spec.groupTerms]
  | cons p rest ih =>
    obtain ⟨o, n⟩ := p
    have hn : P n := h n (by simp [Spec.numerals])
    obtain ⟨ih1, ih2⟩ := ih (fun m hm => h m (by
      simp only [Spec.numerals, List.map_cons, List.mem_cons]
      exact Or.inr hm))
    by_cases ho : o.isMul = true
    · refine ⟨?_, ?_⟩
      · intro f hf
        simp only [Spec.groupTerms, ho, if_true, List.mem_cons] at hf
        rcases hf with rfl | hf
        · exact hn
        · exact ih1 f hf
      · simpa [Spec.groupTerms, ho] using ih2
    · refine ⟨by simp [Spec.groupTerms, ho], ?_⟩
      intro t ht
      simp only [Spec.groupTerms, ho, if_false, List.mem_cons, Bool.false_eq_true] at ht
      rcases ht with rfl | ht
      · exact ⟨hn, ih1⟩
      · exact ih2 t ht

/-- The tree that `parse` builds from the tokens of a well-formed expression
string whose numerals `std::stod` converts. -/
theorem parse_exprTokens {α : Type} (D : DoubleOps α) (v : Str → α) (n1 : Str)
    (rest : List (Op × Str)) (hv : D.Reads v (n1 :: Spec.numerals rest)) :
    parse D ({ type := .NUMBER, value := n1 } :: Spec.tailTokens rest ++ [{ type := .EOL }]) =
      .ok (Spec.tree v n1 rest) := by
  obtain ⟨h1, h2⟩ := Spec.groupTerms_tiers rest
  obtain ⟨v1, v2⟩ := Spec.groupTerms_numerals (fun n => D.stod n = .ok (v n)) rest
    (fun n hn => hv n (List.mem_cons_of_mem _ hn))
  have htok := Spec.groupTerms_tokens rest
  unfold Spec.tree
  generalize Spec.groupTerms rest = g at h1 h2 v1 v2 htok ⊢
  unfold parse Parser.parse Parser.expression Parser.new
  have hterm := Parser.term_chain D v n1 g.1 h1 (hv n1 (List.mem_cons_self _ _)) v1
    { m_tokens := { type := .NUMBER, value := n1 } :: Spec.tailTokens rest ++ [{ type := .EOL }],
      m_current := 0 }
    (Spec.termsTokens g.2 ++ [{ type := .EOL }])
    (by simp [htok])
    (Spec.termsTokens_head g.2 (fun t ht => (h2 t ht).1) _ (by simp))
  rw [hterm]
  simp only [bind, Except.bind]
  rw [Parser.expressionLoop_terms D v g.2 h2 v2]
  · rfl
  · show List.drop (0 + 1 + 2 * g.1.length) _ = _
    rw [htok, Nat.zero_add, Nat.add_comm, List.cons_append, List.drop_succ_cons,
      List.append_assoc, ← Spec.tailTokens_length, List.drop_left]
  · have := Spec.termsTokens_length g.2
    simp only [htok, List.length_cons, List.length_append]
    omega


theorem Expression.evaluate_binary_op {α : Type} (D : DoubleOps α) (o : Op)
    (l r : Expression α) (lv rv : α) (hl : l.evaluate D = .ok lv) (hr : r.evaluate D = .ok rv) :
    (Expression.BinaryExpr l o.token r).evaluate D = .ok (o.apply D lv rv) := by
  cases o <;> simp [Expression.evaluate, hl, hr, bind, Except.bind, Op.token, Op.apply]

theorem Spec.evaluate_chainTree {α : Type} (D : DoubleOps α) (v : Str → α)
    (fs : List (Op × Str)) (e : Expression α) (x : α) (he : e.evaluate D = .ok x) :
    (Spec.chainTree v e fs).evaluate D =
      .ok (fs.foldl (fun x f => f.1.apply D x (v f.2)) x) := by
  induction fs generalizing e x with
  | nil => simpa [Spec.chainTree] using he
  | cons f fs ih =>
    simp only [Spec.chainTree, List.foldl_cons]
    exact ih _ _ (Expression.evaluate_binary_op D f.1 e _ x _ he rfl)

theorem Spec.evaluate_sumTree {α : Type} (D : DoubleOps α) (v : Str → α)
    (ts : List (Op × Str × List (Op × Str))) (e : Expression α) (x : α)
    (he : e.evaluate D = .ok x) :
    (Spec.sumTree v e ts).evaluate D =
      .ok (ts.foldl (fun x t => t.1.apply D x (Spec.termValue D v t.2.1 t.2.2)) x) := by
  induction ts generalizing e x with
  | nil => simpa [Spec.sumTree] using he
  | cons t ts ih =>
    simp only [Spec.sumTree, List.foldl_cons]
    exact ih _ _ (Expression.evaluate_binary_op D t.1 e _ x _ he
      (Spec.evaluate_chainTree D v t.2.2 _ _ rfl))

/-- The value of the tree of a well-formed expression string. -/
theorem Spec.evaluate_tree {α : Type} (D : DoubleOps α) (v : Str → α) (n1 : Str)
    (rest : List (Op × Str)) :
    (Spec.tree v n1 rest).evaluate D = .ok (Spec.standardValue D v n1 rest) :=
  Spec.evaluate_sumTree D v _ _ _ (Spec.evaluate_chainTree D v _ _ _ rfl)

theorem evaluateText_exprText {α : Type} (D : DoubleOps α) (v : Str → α) (n1 : Str)
    (rest : List (Op × Str)) (h1 : IsNumeral n1) (h : ∀ p ∈ rest, IsNumeral p.2)
    (hv : D.Reads v (n1 :: Spec.numerals rest)) :
    evaluateText D (Spec.exprText n1 rest) = .ok (Spec.standardValue D v n1 rest) := by
  unfold evaluateText
  rw [tokenize_exprText n1 rest h1 h]
  simp only [bind, Except.bind]
  rw [parse_exprTokens D v n1 rest hv]
  exact Spec.evaluate_tree D v n1 rest

end Calc

namespace Calc

/-! ## Code generation -/

theorem Spec.emitted_append (a b : List Str) :
    Spec.emitted (a ++ b) = Spec.emitted a ++ Spec.emitted b := by
  simp [Spec.emitted]

theorem CodeGenerator.emit_eq (gen : CodeGenerator) (line : Str) :
    gen.emit line = { gen with output := gen.output ++ Spec.emitted [line] } := by
  simp [CodeGenerator.emit, Spec.emitted]

/-- The text that `generateCode` appends to the generator is the emitted form
of the instruction list of the tree. -/
theorem Expression.generateCode_eq {α : Type} (D : DoubleOps α) (e : Expression α) :
    ∀ (lines : List Str) (gen : CodeGenerator), Spec.instructions D e = some lines →
      e.generateCode D gen = .ok { gen with output := gen.output ++ Spec.emitted lines } := by
  induction e with
  | NumberExpr value =>
    intro lines gen h
    simp only [Spec.instructions, Option.some.injEq] at h
    subst h
    simp only [Expression.generateCode, CodeGenerator.emit_eq]
  | BinaryExpr left op right ihl ihr =>
    intro lines gen h
    simp only [Spec.instructions, bind, Option.bind] at h
    cases hr : Spec.instructions D right with
    | none => simp [hr] at h
    | some rl =>
      cases hl : Spec.instructions D left with
      | none => simp [hr, hl] at h
      | some ll =>
        cases ho : Spec.opInstruction op with
        | none => simp [hr, hl, ho] at h
        | some ol =>
          simp only [hr, hl, ho, pure, Option.some.injEq] at h
          subst h
          simp only [Expression.generateCode, ihr rl gen hr, bind, Except.bind,
            CodeGenerator.emit_eq, ihl ll _ hl]
          cases op <;> simp [Spec.opInstruction] at ho <;> subst ho <;>
            simp [Spec.emitted, List.append_assoc]

/-! ## Decimal numerals -/

theorem digitChar_toNat (k : Nat) (hk : k < 10) : (digitChar k).toNat = 48 + k := by
  interval_cases k <;> rfl

theorem isdigit_digitChar (k : Nat) (hk : k < 10) : isdigit (digitChar k) = true := by
  interval_cases k <;> rfl

theorem digitsValue_append_singleton (ds : Str) (c : Char) :
    digitsValue (ds ++ [c]) = digitsValue ds * 10 + (c.toNat - 48) := by
  simp [digitsValue, List.foldl_append]

/-- The digits that `natDigits` writes in front of `acc` are a numeral whose
value is the number. -/
theorem natDigits_spec (fuel : Nat) : ∀ (n : Nat) (acc : Str), n < fuel →
    ∃ ds : Str, natDigits fuel n acc = ds ++ acc ∧ IsNumeral ds ∧ digitsValue ds = n := by
  induction fuel with
  | zero => intro n acc h; omega
  | succ fuel ih =>
    intro n acc h
    have hmod : n % 10 < 10 := Nat.mod_lt _ (by omega)
    unfold natDigits
    by_cases h0 : n / 10 = 0
    · refine ⟨[digitChar (n % 10)], by simp [h0], ⟨by simp, ?_⟩, ?_⟩
      · intro c hc
        simp only [List.mem_singleton] at hc
        subst hc
        exact isdigit_digitChar _ hmod
      · simp only [digitsValue, List.foldl, digitChar_toNat _ hmod]
        omega
    · obtain ⟨ds, h1, h2, h3⟩ := ih (n / 10) (digitChar (n % 10) :: acc) (by omega)
      refine ⟨ds ++ [digitChar (n % 10)], by simp [h0, h1], ⟨by simp, ?_⟩, ?_⟩
      · intro c hc
        simp only [List.mem_append, List.mem_singleton] at hc
        rcases hc with hc | rfl
        · exact h2.2 c hc
        · exact isdigit_digitChar _ hmod
      · rw [digitsValue_append_singleton, h3, digitChar_toNat _ hmod]
        omega

/-- The decimal text of a natural number is a numeral with that value. -/
theorem decimal_spec (n : Nat) : IsNumeral (decimal n) ∧ digitsValue (decimal n) = n := by
  obtain ⟨ds, h1, h2, h3⟩ := natDigits_spec (n + 1) n [] (by omega)
  have : decimal n = ds := by
    simp only [decimal, to_string, Int.natAbs_ofNat]
    rw [if_neg (by omega), h1, List.append_nil]
  rw [this]
  exact ⟨h2, h3⟩

theorem to_string_nonneg (v : Int) (hv : 0 ≤ v) : to_string v = decimal v.toNat := by
  obtain ⟨n, rfl⟩ := Int.eq_ofNat_of_zero_le hv
  rfl

theorem to_string_neg (v : Int) (hv : v < 0) : to_string v = '-' :: decimal v.natAbs := by
  simp only [to_string, decimal, hv, if_true, Int.natAbs_ofNat]
  rw [if_neg (by omega)]

end Calc

namespace Calc

/-! ## Execution of the generated code on the abstract machine -/

theorem splitLinesLoop_line (a : Str) : ∀ (line rest : Str), '\n' ∉ a →
    splitLinesLoop (a ++ '\n' :: rest) line =
      if (line ++ a).isEmpty then splitLinesLoop rest [] else (line ++ a) :: splitLinesLoop rest [] := by
  induction a with
  | nil =>
    intro line rest _
    simp [splitLinesLoop]
  | cons c a ih =>
    intro line rest h
    have hc : c ≠ '\n' := fun hc => h (by simp [hc])
    have ha : '\n' ∉ a := fun ha => h (by simp [ha])
    show splitLinesLoop (c :: (a ++ '\n' :: rest)) line = _
    rw [splitLinesLoop, if_neg hc, ih _ _ ha]
    simp

/-- The line split of `main` recovers the emitted lines, each with the four
blanks that `emit` writes in front of it. -/
theorem splitLines_emitted (lines : List Str) (h : ∀ l ∈ lines, '\n' ∉ l) :
    splitLines (Spec.emitted lines) = lines.map (fun l => "    ".toList ++ l) := by
  unfold splitLines
  induction lines with
  | nil => rfl
  | cons l lines ih =>
    have hl : '\n' ∉ "    ".toList ++ l := by
      have := h l (by simp)
      simp only [List.mem_append, not_or]
      exact ⟨by decide, this⟩
    have e : Spec.emitted (l :: lines) =
        ("    ".toList ++ l) ++ '\n' :: Spec.emitted lines := by
      simp [Spec.emitted]
    rw [e, splitLinesLoop_line _ _ _ hl, ih (fun l hl => h l (by simp [hl]))]
    simp

theorem decimal_no_newline (n : Nat) : '\n' ∉ decimal n := by
  intro h
  have := (decimal_spec n).1.2 _ h
  simp [isdigit] at this

theorem to_string_no_newline (v : Int) : '\n' ∉ to_string v := by
  by_cases hv : v < 0
  · rw [to_string_neg v hv]
    simp only [List.mem_cons, not_or]
    exact ⟨by decide, decimal_no_newline _⟩
  · rw [to_string_nonneg v (by omega)]
    exact decimal_no_newline _

theorem Spec.instructions_no_newline {α : Type} (D : DoubleOps α) (e : Expression α) :
    ∀ lines, Spec.instructions D e = some lines → ∀ l ∈ lines, '\n' ∉ l := by
  induction e with
  | NumberExpr value =>
    intro lines h l hl
    simp only [Spec.instructions, Option.some.injEq] at h
    subst h
    simp only [List.mem_singleton] at hl
    subst hl
    simp only [List.mem_append, not_or]
    exact ⟨by decide, to_string_no_newline _⟩
  | BinaryExpr left op right ihl ihr =>
    intro lines h l hl
    simp only [Spec.instructions, bind, Option.bind] at h
    cases hr : Spec.instructions D right with
    | none => simp [hr] at h
    | some rl =>
      cases hlft : Spec.instructions D left with
      | none => simp [hr, hlft] at h
      | some ll =>
        cases ho : Spec.opInstruction op with
        | none => simp [hr, hlft, ho] at h
        | some ol =>
          simp only [hr, hlft, ho, pure, Option.some.injEq] at h
          subst h
          simp only [List.mem_append, List.mem_singleton] at hl
          rcases hl with (((hl | rfl) | hl) | rfl) | rfl
          · exact ihr rl hr l hl
          · decide
          · exact ihl ll hlft l hl
          · decide
          · cases op <;> simp [Spec.opInstruction] at ho <;> subst ho <;> decide

end Calc

namespace Calc

/-! ## std::stoi and std::regex_search on the lines of the assembler -/

theorem stoi_numeral (ds : Str) (h : IsNumeral ds) :
    stoi ds = if digitsValue ds ≤ 2147483647 then .ok (digitsValue ds : Int)
      else .error (.out_of_range "stoi") := by
  obtain ⟨hne, hdig⟩ := h
  obtain ⟨c, r, rfl⟩ := List.exists_cons_of_ne_nil hne
  have hc : isdigit c = true := hdig c (by simp)
  have hsp : isspace c = false := isspace_of_isdigit hc
  have hm : c ≠ '-' := by
    intro e; rw [e] at hc; simp [isdigit] at hc
  have hp : c ≠ '+' := by
    intro e; rw [e] at hc; simp [isdigit] at hc
  have htw : (c :: r).takeWhile isdigit = c :: r := by
    have := takeWhile_append_stop isdigit (c :: r) [] hdig (by simp)
    simpa using this
  have hdw : (c :: r).dropWhile isspace = c :: r := by
    simp [List.dropWhile, hsp]
  have hsign : stoiSign (c :: r) = (false, c :: r) := by
    unfold stoiSign
    split
    · rename_i r' heq
      injection heq with heq _
      exact absurd heq hm
    · rename_i r' heq
      injection heq with heq _
      exact absurd heq hp
    · rfl
  unfold stoi
  simp only [hdw, hsign, htw, Bool.false_eq_true, if_false]
  by_cases hle : digitsValue (c :: r) ≤ 2147483647
  · simp only [hle, if_true]
    rw [if_neg (by simp), if_neg (by simp; omega)]
  · simp only [hle, if_false]
    rw [if_neg (by simp), if_pos (by simp; omega)]

theorem stoi_decimal (n : Nat) :
    stoi (decimal n) = if n ≤ 2147483647 then .ok (n : Int)
      else .error (.out_of_range "stoi") := by
  rw [stoi_numeral _ (decimal_spec n).1, (decimal_spec n).2]

theorem greedy_first {β : Type} (f : Nat → Option β) (min k : Nat) (x : β) (hk : min ≤ k)
    (hf : f k = some x) : greedy f min k = some x := by
  cases k with
  | zero =>
    have : min = 0 := by omega
    simp [greedy, this, hf]
  | succ k =>
    unfold greedy
    rw [if_neg (by omega), hf]
    rfl

/-- A literal character of the pattern consumes the same character. -/
theorem Regex.matchAt_chr (c : Char) (ps : Regex) (rest : Str) (caps : List Str) :
    Regex.matchAt (.chr c :: ps) (c :: rest) caps = Regex.matchAt ps rest caps := by
  simp [Regex.matchAt]

/-- A greedy repetition consumes the whole run of its class when the rest of
the pattern matches after the run. -/
theorem Regex.matchAt_many (cls : CharClass) (min : Nat) (capture : Bool) (ps : Regex)
    (run rest : Str) (caps res : List Str) (hrun : ∀ c ∈ run, cls.test c = true)
    (hrest : ∀ c ∈ rest.head?, cls.test c = false) (hmin : min ≤ run.length)
    (h : Regex.matchAt ps rest (if capture then caps ++ [run] else caps) = some res) :
    Regex.matchAt (.many cls min capture :: ps) (run ++ rest) caps = some res := by
  unfold Regex.matchAt
  rw [takeWhile_append_stop cls.test run rest hrun hrest]
  apply greedy_first _ _ _ _ hmin
  simpa using h

/-- A repetition of `\s` consumes a single blank in front of a character
that is not whitespace. -/
theorem Regex.matchAt_blank (min : Nat) (ps : Regex) (rest : Str) (caps res : List Str)
    (hrest : ∀ c ∈ rest.head?, isspace c = false) (hmin : min ≤ 1)
    (h : Regex.matchAt ps rest caps = some res) :
    Regex.matchAt (.many .space min false :: ps) (' ' :: rest) caps = some res :=
  Regex.matchAt_many .space min false ps [' '] rest caps res (by simp [CharClass.test, isspace])
    hrest hmin h

/-- The search returns the match at the start of the line when there is one. -/
theorem regex_search_at_start (pattern : Regex) (line : Str) (res : List Str)
    (h : Regex.matchAt pattern line [] = some res) : regex_search pattern line = some res := by
  cases line with
  | nil => simpa [regex_search] using h
  | cons c cs => simp [regex_search, h]

theorem IsNumeral.digits {n : Str} (h : IsNumeral n) : ∀ c ∈ n, CharClass.digit.test c = true :=
  h.2

theorem IsNumeral.one_le {n : Str} (h : IsNumeral n) : 1 ≤ n.length :=
  List.length_pos.mpr h.1

theorem regex_search_mov (d i : Str) (hd : IsNumeral d) (hi : IsNumeral i) :
    regex_search Assembler.movPattern ("mov x".toList ++ d ++ ", #".toList ++ i) =
      some [d, i] := by
  apply regex_search_at_start
  have e : "mov x".toList ++ d ++ ", #".toList ++ i =
      'm' :: 'o' :: 'v' :: ' ' :: 'x' :: (d ++ (',' :: (' ' :: ('#' :: (i ++ []))))) := by simp
  rw [e]
  simp only [Assembler.movPattern, Regex.lit, String.toList, List.map, List.cons_append,
    List.nil_append, Regex.matchAt_chr]
  apply Regex.matchAt_many _ _ _ _ _ _ _ _ hd.digits (by simp [CharClass.test, isdigit]) hd.one_le
  rw [Regex.matchAt_chr]
  apply Regex.matchAt_blank _ _ _ _ _ (by simp [isspace]) (by simp)
  rw [Regex.matchAt_chr]
  apply Regex.matchAt_many _ _ _ _ _ _ _ _ hi.digits (by simp) hi.one_le
  simp [Regex.matchAt]

theorem regex_search_arithmetic (op : ArithOp) (d n m : Str) (hd : IsNumeral d) (hn : IsNumeral n)
    (hm : IsNumeral m) :
    regex_search Assembler.arithmeticPattern
        (op.mnemonic ++ " x".toList ++ d ++ ", x".toList ++ n ++ ", x".toList ++ m) =
      some [op.mnemonic, d, n, m] := by
  apply regex_search_at_start
  have e : op.mnemonic ++ " x".toList ++ d ++ ", x".toList ++ n ++ ", x".toList ++ m =
      op.mnemonic ++ (' ' :: ('x' :: (d ++ (',' :: (' ' :: ('x' :: (n ++ (',' :: (' ' ::
        ('x' :: (m ++ [])))))))))))  := by simp
  rw [e]
  simp only [Assembler.arithmeticPattern]
  apply Regex.matchAt_many _ _ _ _ _ _ _ _
    (by cases op <;> simp [ArithOp.mnemonic, CharClass.test, isword, isdigit])
    (by simp [CharClass.test, isword, isdigit])
    (by cases op <;> simp [ArithOp.mnemonic])
  apply Regex.matchAt_blank _ _ _ _ _ (by simp [isspace]) (by simp)
  rw [Regex.matchAt_chr]
  apply Regex.matchAt_many _ _ _ _ _ _ _ _ hd.digits (by simp [CharClass.test, isdigit]) hd.one_le
  rw [Regex.matchAt_chr]
  apply Regex.matchAt_blank _ _ _ _ _ (by simp [isspace]) (by simp)
  rw [Regex.matchAt_chr]
  apply Regex.matchAt_many _ _ _ _ _ _ _ _ hn.digits (by simp [CharClass.test, isdigit]) hn.one_le
  rw [Regex.matchAt_chr]
  apply Regex.matchAt_blank _ _ _ _ _ (by simp [isspace]) (by simp)
  rw [Regex.matchAt_chr]
  apply Regex.matchAt_many _ _ _ _ _ _ _ _ hm.digits (by simp) hm.one_le
  simp [Regex.matchAt]

theorem regex_search_load (t k : Str) (ht : IsNumeral t) (hk : IsNumeral k) :
    regex_search Assembler.loadPattern ("ldr x".toList ++ t ++ ", [sp], #".toList ++ k) =
      some [t, k] := by
  apply regex_search_at_start
  have e : "ldr x".toList ++ t ++ ", [sp], #".toList ++ k =
      'l' :: 'd' :: 'r' :: ' ' :: 'x' :: (t ++ (',' :: (' ' :: ('[' :: 's' :: 'p' :: ']' :: ',' ::
        (' ' :: ('#' :: (k ++ []))))))) := by simp
  rw [e]
  simp only [Assembler.loadPattern, Regex.lit, String.toList, List.map, List.cons_append,
    List.nil_append, Regex.matchAt_chr]
  apply Regex.matchAt_many _ _ _ _ _ _ _ _ ht.digits (by simp [CharClass.test, isdigit]) ht.one_le
  rw [Regex.matchAt_chr]
  apply Regex.matchAt_blank _ _ _ _ _ (by simp [isspace]) (by simp)
  simp only [Regex.matchAt_chr]
  apply Regex.matchAt_blank _ _ _ _ _ (by simp [isspace]) (by simp)
  rw [Regex.matchAt_chr]
  apply Regex.matchAt_many _ _ _ _ _ _ _ _ hk.digits (by simp) hk.one_le
  simp [Regex.matchAt]

theorem regex_search_store (t k : Str) (ht : IsNumeral t) (hk : IsNumeral k) :
    regex_search Assembler.storePattern
        ("str x".toList ++ t ++ ", [sp, #-".toList ++ k ++ "]!".toList) = some [t, k] := by
  apply regex_search_at_start
  have e : "str x".toList ++ t ++ ", [sp, #-".toList ++ k ++ "]!".toList =
      's' :: 't' :: 'r' :: ' ' :: 'x' :: (t ++ (',' :: (' ' :: ('[' :: 's' :: 'p' :: ',' ::
        (' ' :: ('#' :: '-' :: (k ++ (']' :: '!' :: []))))))))  := by simp
  rw [e]
  simp only [Assembler.storePattern, Regex.lit, String.toList, List.map, List.cons_append,
    List.nil_append, Regex.matchAt_chr]
  apply Regex.matchAt_many _ _ _ _ _ _ _ _ ht.digits (by simp [CharClass.test, isdigit]) ht.one_le
  rw [Regex.matchAt_chr]
  apply Regex.matchAt_blank _ _ _ _ _ (by simp [isspace]) (by simp)
  simp only [Regex.matchAt_chr]
  apply Regex.matchAt_blank _ _ _ _ _ (by simp [isspace]) (by simp)
  simp only [Regex.matchAt_chr]
  apply Regex.matchAt_many _ _ _ _ _ _ _ _ hk.digits (by simp [CharClass.test, isdigit]) hk.one_le
  simp [Regex.matchAt]

end Calc

namespace Calc

/-! ## The assembler on well-formed instruction lines -/

theorem maskBits_natCast (n bits : Nat) : maskBits (n : Int) bits = n % 2 ^ bits := by
  unfold maskBits
  have : ((n : Int) % (2 : Int) ^ bits) = ((n % 2 ^ bits : Nat) : Int) := by push_cast; rfl
  rw [this, Int.toNat_ofNat]

theorem tdiv_natCast (k : Nat) : (k : Int).tdiv 8 = ((k / 8 : Nat) : Int) := rfl

theorem maskBits_natCast_div (k bits : Nat) :
    maskBits ((k : Int) / 8) bits = k / 8 % 2 ^ bits := by
  have : ((k : Int) / 8) = ((k / 8 : Nat) : Int) := by push_cast; rfl
  rw [this, maskBits_natCast]

theorem Assembler.assembleMov_text (rd imm : Nat) :
    Assembler.assembleMov (AsmInstr.mov rd imm).text =
      if (AsmInstr.mov rd imm).FitsInt then .ok (AsmInstr.mov rd imm).encode
      else .error (.out_of_range "stoi") := by
  unfold Assembler.assembleMov
  simp only [AsmInstr.text]
  rw [regex_search_mov _ _ (decimal_spec rd).1 (decimal_spec imm).1]
  simp only [List.getD_cons_zero, List.getD_cons_succ, stoi_decimal, AsmInstr.FitsInt,
    AsmInstr.encode]
  by_cases h1 : rd ≤ 2147483647 <;> by_cases h2 : imm ≤ 2147483647 <;>
    simp [h1, h2, bind, Except.bind, pure, Except.pure, maskBits_natCast]

theorem Assembler.assembleArithmetic_text (op : ArithOp) (rd rn rm : Nat) :
    Assembler.assembleArithmetic (AsmInstr.arith op rd rn rm).text =
      if (AsmInstr.arith op rd rn rm).FitsInt then .ok (AsmInstr.arith op rd rn rm).encode
      else .error (.out_of_range "stoi") := by
  unfold Assembler.assembleArithmetic
  simp only [AsmInstr.text]
  rw [regex_search_arithmetic _ _ _ _ (decimal_spec rd).1 (decimal_spec rn).1 (decimal_spec rm).1]
  simp only [List.getD_cons_zero, List.getD_cons_succ, stoi_decimal, AsmInstr.FitsInt,
    AsmInstr.encode]
  by_cases h1 : rd ≤ 2147483647 <;> by_cases h2 : rn ≤ 2147483647 <;>
    by_cases h3 : rm ≤ 2147483647 <;> cases op <;>
    simp [h1, h2, h3, bind, Except.bind, pure, Except.pure, maskBits_natCast, ArithOp.mnemonic,
      ArithOp.base]

theorem Assembler.assembleLoad_text (rt offset : Nat) :
    Assembler.assembleLoad (AsmInstr.ldr rt offset).text =
      if (AsmInstr.ldr rt offset).FitsInt then .ok (AsmInstr.ldr rt offset).encode
      else .error (.out_of_range "stoi") := by
  unfold Assembler.assembleLoad
  simp only [AsmInstr.text]
  rw [regex_search_load _ _ (decimal_spec rt).1 (decimal_spec offset).1]
  simp only [List.getD_cons_zero, List.getD_cons_succ, stoi_decimal, AsmInstr.FitsInt,
    AsmInstr.encode]
  by_cases h1 : rt ≤ 2147483647 <;> by_cases h2 : offset ≤ 2147483647 <;>
    simp [h1, h2, bind, Except.bind, pure, Except.pure, maskBits_natCast, tdiv_natCast,
      maskBits_natCast_div]

theorem Assembler.assembleStore_text (rt offset : Nat) :
    Assembler.assembleStore (AsmInstr.str rt offset).text =
      if (AsmInstr.str rt offset).FitsInt then .ok (AsmInstr.str rt offset).encode
      else .error (.out_of_range "stoi") := by
  unfold Assembler.assembleStore
  simp only [AsmInstr.text]
  rw [regex_search_store _ _ (decimal_spec rt).1 (decimal_spec offset).1]
  simp only [List.getD_cons_zero, List.getD_cons_succ, stoi_decimal, AsmInstr.FitsInt,
    AsmInstr.encode]
  by_cases h1 : rt ≤ 2147483647 <;> by_cases h2 : offset ≤ 2147483647 <;>
    simp [h1, h2, bind, Except.bind, pure, Except.pure, maskBits_natCast, tdiv_natCast,
      maskBits_natCast_div]

/-- The assembler on the line of an instruction: the word of the table when
every operand is an `int`, `std::out_of_range` from `std::stoi` otherwise. -/
theorem Assembler.assembleLine_text (i : AsmInstr) :
    Assembler.assembleLine i.text =
      if i.FitsInt then .ok i.encode else .error (.out_of_range "stoi") := by
  cases i with
  | mov rd imm =>
    rw [← Assembler.assembleMov_text]
    simp [Assembler.assembleLine, Assembler.isSkipped, AsmInstr.text, List.takeWhile]
  | arith op rd rn rm =>
    rw [← Assembler.assembleArithmetic_text]
    cases op <;>
      simp [Assembler.assembleLine, Assembler.isSkipped, AsmInstr.text, List.takeWhile,
        ArithOp.mnemonic]
  | ldr rt offset =>
    rw [← Assembler.assembleLoad_text]
    simp [Assembler.assembleLine, Assembler.isSkipped, AsmInstr.text, List.takeWhile]
  | str rt offset =>
    rw [← Assembler.assembleStore_text]
    simp [Assembler.assembleLine, Assembler.isSkipped, AsmInstr.text, List.takeWhile]

end Calc

namespace Calc

/-! ## Bit fields of machine words -/

theorem shiftLeft_or (a b k : Nat) : (a ||| b) <<< k = a <<< k ||| b <<< k := by
  apply Nat.eq_of_testBit_eq
  intro i
  simp only [Nat.testBit_shiftLeft, Nat.testBit_or]
  cases decide (i ≥ k) <;> simp

/-- OR-ing a value into a field that is clear adds the value at the offset of
the field. -/
theorem or_shiftLeft_eq_add (w f lo width : Nat) (hf : f < 2 ^ width)
    (hw : w / 2 ^ lo % 2 ^ width = 0) : w ||| (f <<< lo) = w + f * 2 ^ lo := by
  have hr : w % 2 ^ lo < 2 ^ lo := Nat.mod_lt _ (Nat.two_pow_pos lo)
  have hq : w / 2 ^ lo = 2 ^ width * (w / 2 ^ lo / 2 ^ width) := by
    have := Nat.div_add_mod (w / 2 ^ lo) (2 ^ width)
    omega
  have hw2 : w = 2 ^ lo * (w / 2 ^ lo) + w % 2 ^ lo := (Nat.div_add_mod w (2 ^ lo)).symm
  have e1 : w = (w / 2 ^ lo) <<< lo ||| w % 2 ^ lo := by
    rw [Nat.shiftLeft_eq, Nat.mul_comm, ← Nat.mul_add_lt_is_or hr]
    exact hw2
  have e2 : w / 2 ^ lo ||| f = w / 2 ^ lo + f := by
    rw [hq, ← Nat.mul_add_lt_is_or hf]
  calc w ||| (f <<< lo)
      = ((w / 2 ^ lo) <<< lo ||| w % 2 ^ lo) ||| (f <<< lo) := by rw [← e1]
    _ = ((w / 2 ^ lo) <<< lo ||| f <<< lo) ||| w % 2 ^ lo := by
        rw [Nat.or_assoc, Nat.or_comm (w % 2 ^ lo), ← Nat.or_assoc]
    _ = (w / 2 ^ lo + f) <<< lo ||| w % 2 ^ lo := by rw [← shiftLeft_or, e2]
    _ = 2 ^ lo * (w / 2 ^ lo + f) + w % 2 ^ lo := by
        rw [Nat.shiftLeft_eq, Nat.mul_comm, ← Nat.mul_add_lt_is_or hr]
    _ = w + f * 2 ^ lo := by
        rw [Nat.mul_add, Nat.mul_comm (2 ^ lo) f]
        omega

theorem or_eq_add (w f width : Nat) (hf : f < 2 ^ width) (hw : w % 2 ^ width = 0) :
    w ||| f = w + f := by
  have := or_shiftLeft_eq_add w f 0 width hf (by simpa using hw)
  simpa using this

theorem field_eq (w lo width : Nat) : field w lo width = w / 2 ^ lo % 2 ^ width := by
  unfold field
  rw [Nat.and_pow_two_sub_one_eq_mod, Nat.shiftRight_eq_div_pow]

/-- A word built from a base pattern and three fields at bits 0, `lo1` and
`lo2`, as a sum. -/
theorem word_eq_add (base a b c : Nat) (ha : a < 32) (hb : b < 32) (hc : c < 32)
    (h0 : base % 32 = 0) (h5 : base / 32 % 32 = 0) (h16 : base / 65536 % 32 = 0) :
    base ||| a ||| (b <<< 5) ||| (c <<< 16) = base + a + b * 32 + c * 65536 := by
  rw [or_eq_add base a 5 (by omega) (by omega),
    or_shiftLeft_eq_add (base + a) b 5 5 (by omega) (by norm_num; omega),
    or_shiftLeft_eq_add (base + a + b * 2 ^ 5) c 16 5 (by omega) (by norm_num; omega)]
  norm_num

theorem AsmInstr.encode_mov (rd imm : Nat) :
    (AsmInstr.mov rd imm).encode = 0xD2800000 + rd % 32 + imm % 65536 * 32 := by
  have h1 : rd % 32 < 32 := Nat.mod_lt _ (by omega)
  have h2 : imm % 65536 < 65536 := Nat.mod_lt _ (by omega)
  simp only [AsmInstr.encode]
  rw [or_eq_add 0xD2800000 (rd % 32) 5 (by omega) (by norm_num),
    or_shiftLeft_eq_add (0xD2800000 + rd % 32) (imm % 65536) 5 16 (by omega)
      (by norm_num; omega)]
  norm_num

theorem AsmInstr.encode_arith (op : ArithOp) (rd rn rm : Nat) :
    (AsmInstr.arith op rd rn rm).encode =
      op.base + rd % 32 + rn % 32 * 32 + rm % 32 * 65536 := by
  have h1 : rd % 32 < 32 := Nat.mod_lt _ (by omega)
  have h2 : rn % 32 < 32 := Nat.mod_lt _ (by omega)
  have h3 : rm % 32 < 32 := Nat.mod_lt _ (by omega)
  unfold AsmInstr.encode
  cases op <;> exact word_eq_add _ _ _ _ h1 h2 h3 (by decide) (by decide) (by decide)

theorem AsmInstr.encode_ldr (rt offset : Nat) :
    (AsmInstr.ldr rt offset).encode = 0xF8400400 + rt % 32 + offset / 8 % 512 * 4096 := by
  have h1 : rt % 32 < 32 := Nat.mod_lt _ (by omega)
  have h2 : offset / 8 % 512 < 512 := Nat.mod_lt _ (by omega)
  simp only [AsmInstr.encode]
  rw [or_eq_add 0xF8400400 (rt % 32) 5 (by omega) (by norm_num),
    or_shiftLeft_eq_add (0xF8400400 + rt % 32) (offset / 8 % 512) 12 9 (by omega)
      (by norm_num; omega)]
  norm_num

theorem AsmInstr.encode_str (rt offset : Nat) :
    (AsmInstr.str rt offset).encode = 0xF8000C00 + rt % 32 + offset / 8 % 512 * 4096 := by
  have h1 : rt % 32 < 32 := Nat.mod_lt _ (by omega)
  have h2 : offset / 8 % 512 < 512 := Nat.mod_lt _ (by omega)
  simp only [AsmInstr.encode]
  rw [or_eq_add 0xF8000C00 (rt % 32) 5 (by omega) (by norm_num),
    or_shiftLeft_eq_add (0xF8000C00 + rt % 32) (offset / 8 % 512) 12 9 (by omega)
      (by norm_num; omega)]
  norm_num

end Calc

namespace Calc

/-! ## Decoding -/

theorem word2_eq_add (base a b lo width : Nat) (ha : a < 32) (hb : b < 2 ^ width)
    (h0 : base % 32 = 0) (hlo : (base + a) / 2 ^ lo % 2 ^ width = 0) :
    base ||| a ||| (b <<< lo) = base + a + b * 2 ^ lo := by
  rw [or_eq_add base a 5 (by omega) (by omega), or_shiftLeft_eq_add (base + a) b lo width hb hlo]

/-- The decoder with the bit operations written as arithmetic. -/
theorem decode_eq (w : Nat) :
    decode w =
      if w = 0xD2800000 + w % 32 + w / 32 % 65536 * 32 then
        some (.mov (w % 32) (w / 32 % 65536))
      else if w = 0x8B000000 + w % 32 + w / 32 % 32 * 32 + w / 65536 % 32 * 65536 then
        some (.arith .add (w % 32) (w / 32 % 32) (w / 65536 % 32))
      else if w = 0xCB000000 + w % 32 + w / 32 % 32 * 32 + w / 65536 % 32 * 65536 then
        some (.arith .sub (w % 32) (w / 32 % 32) (w / 65536 % 32))
      else if w = 0x9B007C00 + w % 32 + w / 32 % 32 * 32 + w / 65536 % 32 * 65536 then
        some (.arith .mul (w % 32) (w / 32 % 32) (w / 65536 % 32))
      else if w = 0x9AC00C00 + w % 32 + w / 32 % 32 * 32 + w / 65536 % 32 * 65536 then
        some (.arith .sdiv (w % 32) (w / 32 % 32) (w / 65536 % 32))
      else if w = 0xF8400400 + w % 32 + w / 4096 % 512 * 4096 then
        some (.ldr (w % 32) (w / 4096 % 512 * 8))
      else if w = 0xF8000C00 + w % 32 + w / 4096 % 512 * 4096 then
        some (.str (w % 32) (w / 4096 % 512 * 8))
      else none := by
  have h0 : w % 32 < 32 := Nat.mod_lt _ (by omega)
  have h5 : w / 32 % 32 < 32 := Nat.mod_lt _ (by omega)
  have h16 : w / 65536 % 32 < 32 := Nat.mod_lt _ (by omega)
  have hi : w / 32 % 65536 < 2 ^ 16 := Nat.mod_lt _ (by norm_num)
  have ho : w / 4096 % 512 < 2 ^ 9 := Nat.mod_lt _ (by norm_num)
  have f0 : field w 0 5 = w % 32 := by rw [field_eq]; norm_num
  have f5 : field w 5 5 = w / 32 % 32 := by rw [field_eq]; norm_num
  have f16 : field w 16 5 = w / 65536 % 32 := by rw [field_eq]; norm_num
  have fi : field w 5 16 = w / 32 % 65536 := by rw [field_eq]; norm_num
  have fo : field w 12 9 = w / 4096 % 512 := by rw [field_eq]; norm_num
  unfold decode
  simp only [f0, f5, f16, fi, fo, ArithOp.base]
  rw [word2_eq_add 0xD2800000 _ _ 5 16 h0 hi (by norm_num) (by norm_num; omega),
    word_eq_add 0x8B000000 _ _ _ h0 h5 h16 (by norm_num) (by norm_num) (by norm_num),
    word_eq_add 0xCB000000 _ _ _ h0 h5 h16 (by norm_num) (by norm_num) (by norm_num),
    word_eq_add 0x9B007C00 _ _ _ h0 h5 h16 (by norm_num) (by norm_num) (by norm_num),
    word_eq_add 0x9AC00C00 _ _ _ h0 h5 h16 (by norm_num) (by norm_num) (by norm_num),
    word2_eq_add 0xF8400400 _ _ 12 9 h0 ho (by norm_num) (by norm_num; omega),
    word2_eq_add 0xF8000C00 _ _ 12 9 h0 ho (by norm_num) (by norm_num; omega)]
  norm_num

/-- Decoding the word of an instruction with operands in range recovers the
instruction. -/
theorem decode_encode (i : AsmInstr) (h : i.InRange) : decode i.encode = some i := by
  rw [decode_eq]
  cases i with
  | mov rd imm =>
    obtain ⟨h1, h2⟩ := h
    rw [AsmInstr.encode_mov, Nat.mod_eq_of_lt h1, Nat.mod_eq_of_lt h2]
    rw [if_pos (by omega)]
    congr 2 <;> omega
  | arith op rd rn rm =>
    obtain ⟨h1, h2, h3⟩ := h
    rw [AsmInstr.encode_arith, Nat.mod_eq_of_lt h1, Nat.mod_eq_of_lt h2, Nat.mod_eq_of_lt h3]
    cases op
    · simp only [ArithOp.base]
      rw [if_neg (by omega), if_pos (by omega)]
      congr 2 <;> omega
    · simp only [ArithOp.base]
      rw [if_neg (by omega), if_neg (by omega), if_pos (by omega)]
      congr 2 <;> omega
    · simp only [ArithOp.base]
      rw [if_neg (by omega), if_neg (by omega), if_neg (by omega), if_pos (by omega)]
      congr 2 <;> omega
    · simp only [ArithOp.base]
      rw [if_neg (by omega), if_neg (by omega), if_neg (by omega), if_neg (by omega),
        if_pos (by omega)]
      congr 2 <;> omega
  | ldr rt offset =>
    obtain ⟨h1, h2, h3⟩ := h
    rw [AsmInstr.encode_ldr, Nat.mod_eq_of_lt h1, Nat.mod_eq_of_lt h3]
    rw [if_neg (by omega), if_neg (by omega), if_neg (by omega), if_neg (by omega),
      if_neg (by omega), if_pos (by omega)]
    congr 2 <;> omega
  | str rt offset =>
    obtain ⟨h1, h2, h3⟩ := h
    rw [AsmInstr.encode_str, Nat.mod_eq_of_lt h1, Nat.mod_eq_of_lt h3]
    rw [if_neg (by omega), if_neg (by omega), if_neg (by omega), if_neg (by omega),
      if_neg (by omega), if_neg (by omega), if_pos (by omega)]
    congr 2 <;> omega

end Calc

namespace Calc

/-! ## The pipeline of the driver -/

theorem Expression.generateCode_ok_instructions {α : Type} (D : DoubleOps α)
    (e : Expression α) : ∀ gen gen1 : CodeGenerator, e.generateCode D gen = .ok gen1 →
      ∃ lines, Spec.instructions D e = some lines ∧ lines ≠ [] := by
  induction e with
  | NumberExpr value =>
    intro gen gen1 _
    exact ⟨_, rfl, by simp⟩
  | BinaryExpr left op right ihl ihr =>
    intro gen gen1 h
    rw [Expression.generateCode] at h
    cases hr : right.generateCode D gen with
    | error err => rw [hr] at h; cases h
    | ok g1 =>
      rw [hr] at h
      cases hl : left.generateCode D (g1.emit "str x0, [sp, #-16]!".toList) with
      | error err =>
        have h2 : (Except.error err : Except Error CodeGenerator) = .ok gen1 := by
          rw [← h]; simp only [bind, Except.bind, hl]
        cases h2
      | ok g2 =>
        obtain ⟨rl, hrl, _⟩ := ihr gen g1 hr
        obtain ⟨ll, hll, _⟩ := ihl _ g2 hl
        have hop : ∃ ol, Spec.opInstruction op = some ol := by
          cases op <;> first | exact ⟨_, rfl⟩ | (exfalso; simp only [bind, Except.bind, hl] at h; cases h)
        obtain ⟨ol, hol⟩ := hop
        exact ⟨rl ++ ["str x0, [sp, #-16]!".toList] ++ ll ++ ["ldr x1, [sp], #16".toList] ++ [ol],
          by simp only [Spec.instructions, hrl, hll, hol, bind, Option.bind, pure], by simp⟩

/-- The assembler rejects every line that begins with a blank: the text
before the first blank is empty and is not a mnemonic. -/
theorem Assembler.assembleLine_blank (l : Str) :
    Assembler.assembleLine (' ' :: l) = .error (.runtime_error "Unknown instruction: ") := by
  simp [Assembler.assembleLine, Assembler.isSkipped, List.takeWhile]

theorem Assembler.assemble_blank (l : Str) (rest : List Str) :
    Assembler.assemble ((' ' :: l) :: rest) =
      .error (.runtime_error "Unknown instruction: ") := by
  simp [Assembler.assemble, Assembler.isSkipped, Assembler.assembleLine_blank, bind, Except.bind]

/-- The outcome of the pipeline once the code generator has succeeded. -/
theorem assemble_generated {α : Type} (D : DoubleOps α) (e : Expression α) (gen : CodeGenerator)
    (h : e.generateCode D CodeGenerator.new = .ok gen) :
    Assembler.assemble (splitLines gen.getCode) =
      .error (.runtime_error "Unknown instruction: ") := by
  obtain ⟨lines, hlines, hne⟩ := Expression.generateCode_ok_instructions D e _ _ h
  rw [Expression.generateCode_eq D e lines CodeGenerator.new hlines] at h
  injection h with h
  subst h
  show Assembler.assemble (splitLines ([] ++ Spec.emitted lines)) = _
  rw [List.nil_append, splitLines_emitted lines (Spec.instructions_no_newline D e lines hlines)]
  obtain ⟨l, rest, rfl⟩ := List.exists_cons_of_ne_nil hne
  exact Assembler.assemble_blank _ _

/-- C2 (the behaviour of the code): the pipeline of `main` returns machine
words for no input. Every line that `emit` writes begins with four blanks,
`assembleLine` takes the text before the first blank as the mnemonic, and so
the assembler throws "Unknown instruction: " on the first line; for "2+3*4"
this is the outcome of the pipeline, whatever numbers `std::stod` returns for
the three numerals, and so it is in `double`. -/
theorem compile_never_succeeds {α : Type} (D : DoubleOps α) :
    (∀ (input : Str) (words : List Nat), compile D input ≠ .ok words) ∧
      (∀ v : Str → α, D.Reads v ["2".toList, "3".toList, "4".toList] →
        compile D "2+3*4".toList = .error (.runtime_error "Unknown instruction: ")) ∧
      compile binary64 "2+3*4".toList = .error (.runtime_error "Unknown instruction: ") := by
  have key : ∀ {β : Type} (B : DoubleOps β) (input : Str),
      (∃ err, compile B input = .error err) := by
    intro β B input
    unfold compile
    cases ht : tokenize input with
    | error err => exact ⟨err, rfl⟩
    | ok tokens =>
      cases hp : parse B tokens with
      | error err => exact ⟨err, by simp only [bind, Except.bind, hp]⟩
      | ok expr =>
        cases hg : expr.generateCode B CodeGenerator.new with
        | error err => exact ⟨err, by simp only [bind, Except.bind, hp, hg]⟩
        | ok gen =>
          exact ⟨_, by simp only [bind, Except.bind, hp, hg]; exact assemble_generated B expr gen hg⟩
  have example1 : ∀ {β : Type} (B : DoubleOps β) (v : Str → β),
      B.Reads v ["2".toList, "3".toList, "4".toList] →
      compile B "2+3*4".toList = .error (.runtime_error "Unknown instruction: ") := by
    intro β B v hv
    have ht := tokenize_exprText "2".toList [(.plus, "3".toList), (.times, "4".toList)]
      (by decide) (by decide)
    rw [show Spec.exprText "2".toList [(.plus, "3".toList), (.times, "4".toList)] =
      "2+3*4".toList from rfl] at ht
    unfold compile
    rw [ht]
    simp only [bind, Except.bind]
    rw [parse_exprTokens B v "2".toList [(.plus, "3".toList), (.times, "4".toList)] hv]
    simp only []
    cases hg : (Spec.tree v "2".toList
        [(.plus, "3".toList), (.times, "4".toList)]).generateCode B CodeGenerator.new with
    | error err =>
      exfalso
      have : ∃ lines, Spec.instructions B
          (Spec.tree v "2".toList [(.plus, "3".toList), (.times, "4".toList)]) = some lines :=
        ⟨_, rfl⟩
      obtain ⟨lines, hl⟩ := this
      rw [Expression.generateCode_eq B _ lines _ hl] at hg
      cases hg
    | ok gen => exact assemble_generated B _ gen hg
  refine ⟨?_, example1 D, ?_⟩
  · intro input words h
    obtain ⟨err, he⟩ := key D input
    rw [he] at h
    cases h
  · apply example1 binary64 (fun n => Double.ofNat (digitsValue n))
    intro n hn
    simp only [List.mem_cons, List.mem_singleton, List.not_mem_nil, or_false] at hn
    rcases hn with rfl | rfl | rfl <;> rfl

end Calc

namespace Calc

/-! ## The table of encodings -/

theorem AsmInstr.fitsInt_of_inRange (i : AsmInstr) (h : i.InRange) : i.FitsInt := by
  cases i <;> simp only [AsmInstr.InRange, AsmInstr.FitsInt] at * <;> omega

theorem Assembler.assembleLine_inRange (i : AsmInstr) (h : i.InRange) :
    Assembler.assembleLine i.text = .ok i.encode := by
  rw [Assembler.assembleLine_text, if_pos (i.fitsInt_of_inRange h)]

/-- C5: for every instruction of the four families with operands in range,
`assembleLine` on its line returns a word that the decoder for the table of
encodings maps back to the instruction (mnemonic, register indices,
immediate, offset magnitude); hence `assembleLine` is injective on these
instructions, across and within families. -/
theorem assembleLine_decode_roundtrip (i : AsmInstr) (h : i.InRange) :
    (∃ w, Assembler.assembleLine i.text = .ok w ∧ decode w = some i) ∧
      ∀ j : AsmInstr, j.InRange →
        Assembler.assembleLine i.text = Assembler.assembleLine j.text → i = j := by
  refine ⟨⟨i.encode, Assembler.assembleLine_inRange i h, decode_encode i h⟩, ?_⟩
  intro j hj e
  rw [Assembler.assembleLine_inRange i h, Assembler.assembleLine_inRange j hj] at e
  injection e with e
  have := decode_encode i h
  rw [e, decode_encode j hj] at this
  injection this with this
  exact this.symm

/-- The line `sdiv x3, x31, x17` is assembled to a word that decodes to it. -/
theorem assembleLine_decode_roundtrip_witness :
    (AsmInstr.arith .sdiv 3 31 17).InRange ∧
      ∃ w, Assembler.assembleLine (AsmInstr.arith .sdiv 3 31 17).text = .ok w ∧
        decode w = some (AsmInstr.arith .sdiv 3 31 17) :=
  ⟨by decide, (assembleLine_decode_roundtrip (AsmInstr.arith .sdiv 3 31 17) (by decide)).1⟩

/-- C6: for every register index `d` in 0..31 and immediate `imm` in
0..65535, `assembleLine` on `mov x<d>, #<imm>` returns
`0xD2800000 OR d OR (imm << 5)`; bits 0-4 of the word are `d` and bits 5-20
are `imm`; `mov x0, #4` encodes to 0xD2800080. -/
theorem assembleLine_mov_word (d imm : Nat) (hd : d < 32) (himm : imm < 65536) :
    Assembler.assembleLine ("mov x".toList ++ decimal d ++ ", #".toList ++ decimal imm) =
        .ok (0xD2800000 ||| d ||| (imm <<< 5)) ∧
      field (0xD2800000 ||| d ||| (imm <<< 5)) 0 5 = d ∧
      field (0xD2800000 ||| d ||| (imm <<< 5)) 5 16 = imm ∧
      Assembler.assembleLine "mov x0, #4".toList = .ok 0xD2800080 := by
  have henc : (AsmInstr.mov d imm).encode = 0xD2800000 ||| d ||| (imm <<< 5) := by
    simp only [AsmInstr.encode, Nat.mod_eq_of_lt hd, Nat.mod_eq_of_lt himm]
  have hsum := AsmInstr.encode_mov d imm
  rw [henc, Nat.mod_eq_of_lt hd, Nat.mod_eq_of_lt himm] at hsum
  refine ⟨?_, ?_, ?_, by rfl⟩
  · rw [← henc]
    exact Assembler.assembleLine_inRange (.mov d imm) ⟨hd, himm⟩
  · rw [hsum, field_eq]; norm_num; omega
  · rw [hsum, field_eq]; norm_num; omega

/-- The line `mov x7, #65535`. -/
theorem assembleLine_mov_word_witness :
    Assembler.assembleLine ("mov x".toList ++ decimal 7 ++ ", #".toList ++ decimal 65535) =
      .ok (0xD2800000 ||| 7 ||| (65535 <<< 5)) :=
  (assembleLine_mov_word 7 65535 (by decide) (by decide)).1

/-- C7: for every `d`, `n`, `m` in 0..31 and every operation among add, sub,
mul, sdiv, `assembleLine` on `<op> x<d>, x<n>, x<m>` returns
`base(op) OR d OR (n << 5) OR (m << 16)` with the four base patterns of the
table; bits 0-4 of the word are `d`, bits 5-9 are `n` and bits 16-20 are `m`;
`add x0, x0, x1` encodes to 0x8B010000. -/
theorem assembleLine_arith_word (op : ArithOp) (d n m : Nat) (hd : d < 32) (hn : n < 32)
    (hm : m < 32) :
    Assembler.assembleLine (op.mnemonic ++ " x".toList ++ decimal d ++ ", x".toList ++
        decimal n ++ ", x".toList ++ decimal m) =
        .ok (op.base ||| d ||| (n <<< 5) ||| (m <<< 16)) ∧
      field (op.base ||| d ||| (n <<< 5) ||| (m <<< 16)) 0 5 = d ∧
      field (op.base ||| d ||| (n <<< 5) ||| (m <<< 16)) 5 5 = n ∧
      field (op.base ||| d ||| (n <<< 5) ||| (m <<< 16)) 16 5 = m ∧
      ArithOp.add.base = 0x8B000000 ∧ ArithOp.sub.base = 0xCB000000 ∧
      ArithOp.mul.base = 0x9B007C00 ∧ ArithOp.sdiv.base = 0x9AC00C00 ∧
      Assembler.assembleLine "add x0, x0, x1".toList = .ok 0x8B010000 := by
  have henc : (AsmInstr.arith op d n m).encode = op.base ||| d ||| (n <<< 5) ||| (m <<< 16) := by
    simp only [AsmInstr.encode, Nat.mod_eq_of_lt hd, Nat.mod_eq_of_lt hn, Nat.mod_eq_of_lt hm]
  have hsum := AsmInstr.encode_arith op d n m
  rw [henc, Nat.mod_eq_of_lt hd, Nat.mod_eq_of_lt hn, Nat.mod_eq_of_lt hm] at hsum
  refine ⟨?_, ?_, ?_, ?_, rfl, rfl, rfl, rfl, by rfl⟩
  · rw [← henc]
    exact Assembler.assembleLine_inRange (.arith op d n m) ⟨hd, hn, hm⟩
  · rw [hsum, field_eq]; cases op <;> simp only [ArithOp.base] <;> norm_num <;> omega
  · rw [hsum, field_eq]; cases op <;> simp only [ArithOp.base] <;> norm_num <;> omega
  · rw [hsum, field_eq]; cases op <;> simp only [ArithOp.base] <;> norm_num <;> omega

/-- The line `mul x31, x0, x17`. -/
theorem assembleLine_arith_word_witness :
    Assembler.assembleLine (ArithOp.mul.mnemonic ++ " x".toList ++ decimal 31 ++ ", x".toList ++
        decimal 0 ++ ", x".toList ++ decimal 17) =
      .ok (ArithOp.mul.base ||| 31 ||| (0 <<< 5) ||| (17 <<< 16)) :=
  (assembleLine_arith_word .mul 31 0 17 (by decide) (by decide) (by decide)).1

/-- C8: for every register index `t` in 0..31 and every byte offset `k` that
is a multiple of 8 with `k / 8 <= 255`, `assembleLine` on the post-indexed
load `ldr x<t>, [sp], #<k>` returns `0xF8400400 OR t OR ((k / 8) << 12)`; bits
0-4 of the word are `t` and bits 12-20 are `k / 8`; `ldr x1, [sp], #16`
encodes to 0xF8402401. -/
theorem assembleLine_ldr_word (t k : Nat) (ht : t < 32) (hk8 : k % 8 = 0) (hk : k / 8 ≤ 255) :
    Assembler.assembleLine ("ldr x".toList ++ decimal t ++ ", [sp], #".toList ++ decimal k) =
        .ok (0xF8400400 ||| t ||| ((k / 8) <<< 12)) ∧
      field (0xF8400400 ||| t ||| ((k / 8) <<< 12)) 0 5 = t ∧
      field (0xF8400400 ||| t ||| ((k / 8) <<< 12)) 12 9 = k / 8 ∧
      Assembler.assembleLine "ldr x1, [sp], #16".toList = .ok 0xF8402401 := by
  have hk2 : k / 8 < 512 := by omega
  have henc : (AsmInstr.ldr t k).encode = 0xF8400400 ||| t ||| ((k / 8) <<< 12) := by
    simp only [AsmInstr.encode, Nat.mod_eq_of_lt ht, Nat.mod_eq_of_lt hk2]
  have hsum := AsmInstr.encode_ldr t k
  rw [henc, Nat.mod_eq_of_lt ht, Nat.mod_eq_of_lt hk2] at hsum
  refine ⟨?_, ?_, ?_, by rfl⟩
  · rw [← henc]
    exact Assembler.assembleLine_inRange (.ldr t k) ⟨ht, hk8, hk2⟩
  · rw [hsum, field_eq]; norm_num; omega
  · rw [hsum, field_eq]; norm_num; omega

/-- The line `ldr x9, [sp], #2040`. -/
theorem assembleLine_ldr_word_witness :
    Assembler.assembleLine ("ldr x".toList ++ decimal 9 ++ ", [sp], #".toList ++ decimal 2040) =
      .ok (0xF8400400 ||| 9 ||| ((2040 / 8) <<< 12)) :=
  (assembleLine_ldr_word 9 2040 (by decide) (by decide) (by decide)).1


theorem AsmInstr.encode_str_fields (t k : Nat) :
    field (AsmInstr.str t k).encode 0 5 = t % 32 ∧
      field (AsmInstr.str t k).encode 12 9 = k / 8 % 512 := by
  have h1 : t % 32 < 32 := Nat.mod_lt _ (by omega)
  have h2 : k / 8 % 512 < 512 := Nat.mod_lt _ (by omega)
  rw [AsmInstr.encode_str, field_eq, field_eq]
  constructor <;> norm_num <;> omega

/-- C9 (the behaviour of the code): for the pre-indexed store
`str x<t>, [sp, #-<k>]!` the word that `assembleLine` returns carries
`t mod 32` in bits 0-4 and the magnitude `(k / 8) mod 512` in bits 12-20, not
the two's-complement value `(-(k / 8)) mod 512`: for the 16-byte push
`str x0, [sp, #-16]!` the word is 0xF8002C00 and its offset field is 0x002,
the same as the offset field of the pop `ldr x1, [sp], #16`, and not 0x1FE. -/
theorem assembleLine_str_offset_magnitude :
    (∀ t k : Nat, Assembler.assembleLine ("str x".toList ++ decimal t ++ ", [sp, #-".toList ++
        decimal k ++ "]!".toList) =
      if (AsmInstr.str t k).FitsInt then .ok (AsmInstr.str t k).encode
      else .error (.out_of_range "stoi")) ∧
    (∀ t k : Nat, field (AsmInstr.str t k).encode 0 5 = t % 32 ∧
      field (AsmInstr.str t k).encode 12 9 = k / 8 % 512) ∧
    Assembler.assembleLine "str x0, [sp, #-16]!".toList = .ok 0xF8002C00 ∧
    field 0xF8002C00 12 9 = 0x002 ∧
    (-(16 / 8 : Int)) % 512 = 0x1FE ∧
    Assembler.assembleLine "ldr x1, [sp], #16".toList = .ok 0xF8402401 ∧
    field 0xF8402401 12 9 = 0x002 := by
  refine ⟨fun t k => Assembler.assembleLine_text (.str t k), AsmInstr.encode_str_fields,
    by rfl, by decide, by decide, by rfl, by decide⟩

theorem AsmInstr.encode_registerFields (i : AsmInstr) : i.RegisterFields i.encode := by
  cases i with
  | mov rd imm =>
    have h1 : rd % 32 < 32 := Nat.mod_lt _ (by omega)
    have h2 : imm % 65536 < 65536 := Nat.mod_lt _ (by omega)
    simp only [AsmInstr.RegisterFields]
    rw [AsmInstr.encode_mov, field_eq]; norm_num; omega
  | arith op rd rn rm =>
    have h1 : rd % 32 < 32 := Nat.mod_lt _ (by omega)
    have h2 : rn % 32 < 32 := Nat.mod_lt _ (by omega)
    have h3 : rm % 32 < 32 := Nat.mod_lt _ (by omega)
    simp only [AsmInstr.RegisterFields]
    rw [AsmInstr.encode_arith, field_eq, field_eq, field_eq]
    cases op <;> simp only [ArithOp.base] <;> norm_num <;> omega
  | ldr rt offset =>
    have h1 : rt % 32 < 32 := Nat.mod_lt _ (by omega)
    have h2 : offset / 8 % 512 < 512 := Nat.mod_lt _ (by omega)
    simp only [AsmInstr.RegisterFields]
    rw [AsmInstr.encode_ldr, field_eq]; norm_num; omega
  | str rt offset => exact (AsmInstr.encode_str_fields rt offset).1

/-- C10 (as stated, refuted): `assembleLine` returns a machine word for
`mov x32, #1`, for `add x0, x40, x1` and for `ldr x99, [sp], #16`; it raises
no error. -/
theorem assembleLine_accepts_large_register :
    Assembler.assembleLine "mov x32, #1".toList = .ok 0xD2800020 ∧
      Assembler.assembleLine "add x0, x40, x1".toList = .ok 0x8B010100 ∧
      Assembler.assembleLine "ldr x99, [sp], #16".toList = .ok 0xF8402403 :=
  ⟨by rfl, by rfl, by rfl⟩

/-- C10 (amended): `assembleLine` raises no error for a register index
greater than 31. For every instruction line of the four families whose
operands are values of `int` it returns a word in which each register field
holds the register index modulo 32; it raises `std::out_of_range` (from
`std::stoi`) when an operand is not a value of `int`. -/
theorem assembleLine_register_modulo (i : AsmInstr) (h : i.FitsInt) :
    (∃ w, Assembler.assembleLine i.text = .ok w ∧ i.RegisterFields w) ∧
      ∀ j : AsmInstr, ¬ j.FitsInt →
        Assembler.assembleLine j.text = .error (.out_of_range "stoi") := by
  refine ⟨⟨i.encode, ?_, i.encode_registerFields⟩, ?_⟩
  · rw [Assembler.assembleLine_text, if_pos h]
  · intro j hj
    rw [Assembler.assembleLine_text, if_neg hj]

/-- The line `add x0, x40, x1` is assembled with 8 in the field of the first
source register. -/
theorem assembleLine_register_modulo_witness :
    (AsmInstr.arith .add 0 40 1).FitsInt ∧
      ∃ w, Assembler.assembleLine (AsmInstr.arith .add 0 40 1).text = .ok w ∧
        (AsmInstr.arith .add 0 40 1).RegisterFields w :=
  ⟨by decide, (assembleLine_register_modulo (AsmInstr.arith .add 0 40 1) (by decide)).1⟩

end Calc

namespace Calc

/-! ## Operands out of range, unknown lines, whole programs -/

theorem AsmInstr.encode_immediateFields (i : AsmInstr) : i.ImmediateFields i.encode := by
  cases i with
  | mov rd imm =>
    have h1 : rd % 32 < 32 := Nat.mod_lt _ (by omega)
    have h2 : imm % 65536 < 65536 := Nat.mod_lt _ (by omega)
    simp only [AsmInstr.ImmediateFields]
    rw [AsmInstr.encode_mov, field_eq]; norm_num; omega
  | arith op rd rn rm => trivial
  | ldr rt offset =>
    have h1 : rt % 32 < 32 := Nat.mod_lt _ (by omega)
    have h2 : offset / 8 % 512 < 512 := Nat.mod_lt _ (by omega)
    simp only [AsmInstr.ImmediateFields]
    rw [AsmInstr.encode_ldr, field_eq]; norm_num; omega
  | str rt offset => exact (AsmInstr.encode_str_fields rt offset).2

/-- C11 (as stated, refuted): `assembleLine` returns a machine word for
`mov x0, #70000`, whose immediate exceeds 65535, and for the load and the
store with offset 4096, whose scaled offset 512 exceeds the 9-bit field; the
word for `mov x0, #70000` decodes to `mov x0, #4464`. -/
theorem assembleLine_accepts_large_immediate :
    Assembler.assembleLine "mov x0, #70000".toList = .ok 0xD2822E00 ∧
      decode 0xD2822E00 = some (.mov 0 4464) ∧
      Assembler.assembleLine "ldr x1, [sp], #4096".toList = .ok 0xF8400401 ∧
      Assembler.assembleLine "str x0, [sp, #-4096]!".toList = .ok 0xF8000C00 :=
  ⟨by rfl, by rfl, by rfl, by rfl⟩

/-- C11 (amended): `assembleLine` raises no error when the immediate of a
`mov` exceeds 65535 or the scaled offset of a load or store exceeds the 9-bit
field. For every instruction line of the four families whose operands are
values of `int` it returns a machine word; the immediate field of the word of
a `mov` holds the immediate modulo 65536, and the offset field of the word of
a load holds the offset divided by 8 modulo 512. The line `mov x0, #70000` is
assembled to 0xD2822E00, the word of `mov x0, #4464`. -/
theorem assembleLine_immediate_modulo (i : AsmInstr) (h : i.FitsInt) :
    (∃ w, Assembler.assembleLine i.text = .ok w ∧ i.ReducedOperand w) ∧
      Assembler.assembleLine "mov x0, #70000".toList = .ok 0xD2822E00 ∧
      Assembler.assembleLine "mov x0, #4464".toList = .ok 0xD2822E00 := by
  refine ⟨⟨i.encode, ?_, ?_⟩, by rfl, by rfl⟩
  · rw [Assembler.assembleLine_text, if_pos h]
  · have hf := i.encode_immediateFields
    cases i <;> first | exact hf | trivial

/-- The line `mov x3, #65537` is assembled with 1 in the immediate field. -/
theorem assembleLine_immediate_modulo_witness :
    (AsmInstr.mov 3 65537).FitsInt ∧
      ∃ w, Assembler.assembleLine (AsmInstr.mov 3 65537).text = .ok w ∧
        field w 5 16 = 1 :=
  ⟨by decide, (assembleLine_immediate_modulo (AsmInstr.mov 3 65537) (by decide)).1⟩

theorem Assembler.assembleLine_unknown (line : Str) (h1 : Assembler.isSkipped line = false)
    (h2 : line.takeWhile (fun c => c ≠ ' ') ∉ Assembler.mnemonics) :
    Assembler.assembleLine line = .error (.runtime_error ("Unknown instruction: " ++
      String.mk (line.takeWhile (fun c => c ≠ ' ')))) := by
  simp only [Assembler.mnemonics, List.mem_cons, List.mem_singleton, List.not_mem_nil,
    or_false, not_or] at h2
  obtain ⟨m1, m2, m3, m4, m5, m6, m7⟩ := h2
  unfold Assembler.assembleLine
  simp only [h1, Bool.false_eq_true, if_false]
  rw [if_neg m1, if_neg (by tauto), if_neg m6, if_neg m7]

/-- C12: `assembleLine` raises "Unknown instruction" for every line that is
non-empty, does not start with `.` or `_`, and whose text before the first
blank is not one of mov, add, sub, mul, sdiv, ldr, str, so for every line
that begins with a blank; and it raises the format error of the family for
every line with a known mnemonic in which `std::regex_search` finds no match
of the pattern of the family, as for `mov x0, x1` and `ldr x1, [sp, #16]`. -/
theorem assembleLine_rejects_unknown (line : Str) (h : Assembler.isSkipped line = false) :
    (line.takeWhile (fun c => c ≠ ' ') ∉ Assembler.mnemonics →
      Assembler.assembleLine line = .error (.runtime_error ("Unknown instruction: " ++
        String.mk (line.takeWhile (fun c => c ≠ ' '))))) ∧
    (line.takeWhile (fun c => c ≠ ' ') = "mov".toList →
      regex_search Assembler.movPattern line = none →
      Assembler.assembleLine line = .error (.runtime_error "Invalid MOV instruction format")) ∧
    (line.takeWhile (fun c => c ≠ ' ') ∈
        ["add".toList, "sub".toList, "mul".toList, "sdiv".toList] →
      regex_search Assembler.arithmeticPattern line = none →
      Assembler.assembleLine line =
        .error (.runtime_error "Invalid arithmetic instruction format")) ∧
    (line.takeWhile (fun c => c ≠ ' ') = "ldr".toList →
      regex_search Assembler.loadPattern line = none →
      Assembler.assembleLine line = .error (.runtime_error "Invalid LDR instruction format")) ∧
    (line.takeWhile (fun c => c ≠ ' ') = "str".toList →
      regex_search Assembler.storePattern line = none →
      Assembler.assembleLine line = .error (.runtime_error "Invalid STR instruction format")) ∧
    (∀ l : Str, Assembler.assembleLine (' ' :: l) =
      .error (.runtime_error "Unknown instruction: ")) ∧
    Assembler.assembleLine "mov x0, x1".toList =
      .error (.runtime_error "Invalid MOV instruction format") ∧
    Assembler.assembleLine "ldr x1, [sp, #16]".toList =
      .error (.runtime_error "Invalid LDR instruction format") := by
  refine ⟨Assembler.assembleLine_unknown line h, ?_, ?_, ?_, ?_, Assembler.assembleLine_blank,
    by rfl, by rfl⟩
  · intro hm hr
    unfold Assembler.assembleLine
    simp only [h, Bool.false_eq_true, if_false]
    rw [if_pos hm]
    unfold Assembler.assembleMov
    rw [hr]
  · intro hm hr
    simp only [List.mem_cons, List.mem_singleton, List.not_mem_nil, or_false] at hm
    unfold Assembler.assembleLine
    simp only [h, Bool.false_eq_true, if_false]
    rw [if_neg (by rcases hm with e | e | e | e <;> rw [e] <;> decide), if_pos hm]
    unfold Assembler.assembleArithmetic
    rw [hr]
  · intro hm hr
    unfold Assembler.assembleLine
    simp only [h, Bool.false_eq_true, if_false]
    rw [if_neg (by rw [hm]; decide), if_neg (by rw [hm]; decide), if_pos hm]
    unfold Assembler.assembleLoad
    rw [hr]
  · intro hm hr
    unfold Assembler.assembleLine
    simp only [h, Bool.false_eq_true, if_false]
    rw [if_neg (by rw [hm]; decide), if_neg (by rw [hm]; decide), if_neg (by rw [hm]; decide),
      if_pos hm]
    unfold Assembler.assembleStore
    rw [hr]

/-- The line `push x0` has no known mnemonic. -/
theorem assembleLine_rejects_unknown_witness :
    Assembler.isSkipped "push x0".toList = false ∧
      Assembler.assembleLine "push x0".toList =
        .error (.runtime_error ("Unknown instruction: " ++
          String.mk ("push x0".toList.takeWhile (fun c => c ≠ ' ')))) :=
  ⟨rfl, (assembleLine_rejects_unknown "push x0".toList rfl).1 (by decide)⟩

theorem or_ne_zero_left (a b : Nat) (h : a ≠ 0) : a ||| b ≠ 0 := by
  intro e
  apply h
  apply Nat.eq_of_testBit_eq
  intro i
  have := congrArg (fun n => Nat.testBit n i) e
  simp only [Nat.testBit_or, Nat.zero_testBit, Bool.or_eq_false_iff] at this
  rw [this.1, Nat.zero_testBit]

theorem Assembler.assembleMov_ne_zero (line : Str) (w : Nat)
    (h : Assembler.assembleMov line = .ok w) : w ≠ 0 := by
  unfold Assembler.assembleMov at h
  cases hs : regex_search Assembler.movPattern line with
  | none => rw [hs] at h; cases h
  | some m =>
    rw [hs] at h
    simp only [bind, Except.bind, pure, Except.pure] at h
    cases h1 : stoi (m.getD 0 []) with
    | error e => rw [h1] at h; cases h
    | ok rd =>
      cases h2 : stoi (m.getD 1 []) with
      | error e => rw [h1, h2] at h; cases h
      | ok imm =>
        rw [h1, h2] at h
        injection h with h
        rw [← h, Nat.or_assoc]
        exact or_ne_zero_left _ _ (by decide)

theorem Assembler.assembleLoad_ne_zero (line : Str) (w : Nat)
    (h : Assembler.assembleLoad line = .ok w) : w ≠ 0 := by
  unfold Assembler.assembleLoad at h
  cases hs : regex_search Assembler.loadPattern line with
  | none => rw [hs] at h; cases h
  | some m =>
    rw [hs] at h
    simp only [bind, Except.bind, pure, Except.pure] at h
    cases h1 : stoi (m.getD 0 []) with
    | error e => rw [h1] at h; cases h
    | ok rd =>
      cases h2 : stoi (m.getD 1 []) with
      | error e => rw [h1, h2] at h; cases h
      | ok imm =>
        rw [h1, h2] at h
        injection h with h
        rw [← h, Nat.or_assoc]
        exact or_ne_zero_left _ _ (by decide)

theorem Assembler.assembleStore_ne_zero (line : Str) (w : Nat)
    (h : Assembler.assembleStore line = .ok w) : w ≠ 0 := by
  unfold Assembler.assembleStore at h
  cases hs : regex_search Assembler.storePattern line with
  | none => rw [hs] at h; cases h
  | some m =>
    rw [hs] at h
    simp only [bind, Except.bind, pure, Except.pure] at h
    cases h1 : stoi (m.getD 0 []) with
    | error e => rw [h1] at h; cases h
    | ok rd =>
      cases h2 : stoi (m.getD 1 []) with
      | error e => rw [h1, h2] at h; cases h
      | ok imm =>
        rw [h1, h2] at h
        injection h with h
        rw [← h, Nat.or_assoc]
        exact or_ne_zero_left _ _ (by decide)

theorem Assembler.assembleArithmetic_ne_zero (line : Str) (w : Nat)
    (h : Assembler.assembleArithmetic line = .ok w) : w ≠ 0 := by
  unfold Assembler.assembleArithmetic at h
  cases hs : regex_search Assembler.arithmeticPattern line with
  | none => rw [hs] at h; cases h
  | some m =>
    rw [hs] at h
    simp only [bind, Except.bind, pure, Except.pure] at h
    cases h1 : stoi (m.getD 1 []) with
    | error e => rw [h1] at h; cases h
    | ok rd =>
      cases h2 : stoi (m.getD 2 []) with
      | error e => rw [h1, h2] at h; cases h
      | ok rn =>
        cases h3 : stoi (m.getD 3 []) with
        | error e => rw [h1, h2, h3] at h; cases h
        | ok rm =>
          rw [h1, h2, h3] at h
          simp only at h
          split at h
          · injection h with h
            rw [← h, Nat.or_assoc, Nat.or_assoc]
            exact or_ne_zero_left _ _ (by decide)
          · split at h
            · injection h with h
              rw [← h, Nat.or_assoc, Nat.or_assoc]
              exact or_ne_zero_left _ _ (by decide)
            · split at h
              · injection h with h
                rw [← h, Nat.or_assoc, Nat.or_assoc]
                exact or_ne_zero_left _ _ (by decide)
              · split at h
                · injection h with h
                  rw [← h, Nat.or_assoc, Nat.or_assoc]
                  exact or_ne_zero_left _ _ (by decide)
                · cases h

/-- A line that is not skipped is never assembled to the word 0. -/
theorem Assembler.assembleLine_ne_zero (line : Str) (w : Nat)
    (hs : Assembler.isSkipped line = false) (h : Assembler.assembleLine line = .ok w) :
    w ≠ 0 := by
  unfold Assembler.assembleLine at h
  simp only [hs, Bool.false_eq_true, if_false] at h
  split at h
  · exact Assembler.assembleMov_ne_zero line w h
  · split at h
    · exact Assembler.assembleArithmetic_ne_zero line w h
    · split at h
      · exact Assembler.assembleLoad_ne_zero line w h
      · split at h
        · exact Assembler.assembleStore_ne_zero line w h
        · cases h

/-- The method `assemble` as a map of `assembleLine` over the lines that are
not skipped. -/
theorem Assembler.assemble_eq_assembleAll (lines : List Str) :
    Assembler.assemble lines =
      Spec.assembleAll (lines.filter (fun l => !Assembler.isSkipped l)) := by
  induction lines with
  | nil => rfl
  | cons line lines ih =>
    unfold Assembler.assemble
    by_cases hs : Assembler.isSkipped line = true
    · simp only [hs, Bool.not_true, Bool.false_eq_true, if_false, List.filter_cons_of_neg,
        not_false_eq_true]
      exact ih
    · have hs2 : Assembler.isSkipped line = false := by simpa using hs
      simp only [hs2, Bool.not_false, if_true, List.filter_cons_of_pos, Spec.assembleAll]
      cases hl : Assembler.assembleLine line with
      | error e => rfl
      | ok w =>
        have hw := Assembler.assembleLine_ne_zero line w hs2 hl
        simp only [bind, Except.bind, ih, pure, Except.pure, hw, ne_eq, not_false_eq_true,
          if_true]

theorem Spec.assembleAll_ok (lines : List Str) : ∀ ws : List Nat,
    Spec.assembleAll lines = .ok ws →
      List.Forall₂ (fun l w => Assembler.assembleLine l = .ok w) lines ws := by
  induction lines with
  | nil =>
    intro ws h
    simp only [Spec.assembleAll] at h
    injection h with h
    subst h
    exact List.Forall₂.nil
  | cons line lines ih =>
    intro ws h
    simp only [Spec.assembleAll, bind, Except.bind, pure, Except.pure] at h
    cases hl : Assembler.assembleLine line with
    | error e => rw [hl] at h; cases h
    | ok w =>
      cases hr : Spec.assembleAll lines with
      | error e => rw [hl, hr] at h; cases h
      | ok ws1 =>
        rw [hl, hr] at h
        injection h with h
        subst h
        exact List.Forall₂.cons hl (ih ws1 hr)

theorem Spec.assembleAll_error (lines : List Str) (l : Str) (hl : l ∈ lines)
    (he : ∃ e, Assembler.assembleLine l = .error e) : ∃ e, Spec.assembleAll lines = .error e := by
  induction lines with
  | nil => cases hl
  | cons line lines ih =>
    simp only [Spec.assembleAll, bind, Except.bind, pure, Except.pure]
    cases hline : Assembler.assembleLine line with
    | error e => exact ⟨e, rfl⟩
    | ok w =>
      have hmem : l ∈ lines := by
        rcases List.mem_cons.mp hl with rfl | hmem
        · obtain ⟨e, he⟩ := he
          rw [he] at hline
          cases hline
        · exact hmem
      obtain ⟨e, hr⟩ := ih hmem
      exact ⟨e, by simp only [hr]⟩

/-- C13: `assemble` returns, in input order, exactly the words that
`assembleLine` gives for the lines that are non-empty and do not start with
`.` or `_`; the other lines contribute no word, a list of only such lines
yields the empty sequence, and when `assembleLine` fails on a line that is not
skipped the whole call fails. -/
theorem assemble_words_in_order (lines : List Str) :
    Assembler.assemble lines =
        Spec.assembleAll (lines.filter (fun l => !Assembler.isSkipped l)) ∧
      (∀ ws : List Nat, Assembler.assemble lines = .ok ws →
        List.Forall₂ (fun l w => Assembler.assembleLine l = .ok w)
          (lines.filter (fun l => !Assembler.isSkipped l)) ws) ∧
      ((∀ l ∈ lines, Assembler.isSkipped l = true) → Assembler.assemble lines = .ok []) ∧
      (∀ l ∈ lines, Assembler.isSkipped l = false →
        (∃ e, Assembler.assembleLine l = .error e) →
        ∃ e, Assembler.assemble lines = .error e) ∧
      Assembler.assemble ["".toList, ".text".toList, "mov x0, #4".toList, "_main:".toList,
        "add x0, x0, x1".toList] = .ok [0xD2800080, 0x8B010000] := by
  refine ⟨Assembler.assemble_eq_assembleAll lines, ?_, ?_, ?_, by rfl⟩
  · intro ws h
    rw [Assembler.assemble_eq_assembleAll] at h
    exact Spec.assembleAll_ok _ ws h
  · intro h
    rw [Assembler.assemble_eq_assembleAll]
    have : lines.filter (fun l => !Assembler.isSkipped l) = [] := by
      rw [List.filter_eq_nil_iff]
      intro l hl
      simp [h l hl]
    rw [this]
    rfl
  · intro l hl hs he
    rw [Assembler.assemble_eq_assembleAll]
    exact Spec.assembleAll_error _ l (List.mem_filter.mpr ⟨hl, by simp [hs]⟩) he

end Calc

namespace Calc

/-! ## The lexer on arbitrary input -/

theorem Spec.lexGo_space_append (ws : Str) (h : ∀ c ∈ ws, isspace c = true) (r : Str) :
    Spec.lexGo .space (ws ++ r) = Spec.lexGo .space r := by
  induction ws with
  | nil => rfl
  | cons c ws ih =>
    have hc : isspace c = true := h c (by simp)
    have hd : isdigit c = false := by
      cases hdc : isdigit c with
      | false => rfl
      | true => rw [isspace_of_isdigit hdc] at hc; cases hc
    show Spec.lexGo .space (c :: (ws ++ r)) = _
    rw [Spec.lexGo]
    simp only [hd, hc, Bool.false_eq_true, if_false, if_true]
    exact ih (fun c hc => h c (by simp [hc]))

theorem isdigit_false_of_isspace {c : Char} (hc : isspace c = true) : isdigit c = false := by
  cases hdc : isdigit c with
  | false => rfl
  | true => rw [isspace_of_isdigit hdc] at hc; cases hc

theorem Spec.lexGo_start_append (ws : Str) (h : ∀ c ∈ ws, isspace c = true) (hne : ws ≠ [])
    (r : Str) : Spec.lexGo .start (ws ++ r) = Spec.lexGo .space r := by
  obtain ⟨c, ws, rfl⟩ := List.exists_cons_of_ne_nil hne
  have hc : isspace c = true := h c (by simp)
  show Spec.lexGo .start (c :: (ws ++ r)) = _
  rw [Spec.lexGo]
  simp only [isdigit_false_of_isspace hc, hc, Bool.false_eq_true, if_false, if_true]
  exact Spec.lexGo_space_append ws (fun c hc => h c (by simp [hc])) r

theorem Spec.lexGo_space_cons (c : Char) (cs : Str) :
    Spec.lexGo .space (c :: cs) = Spec.lexGo .start (c :: cs) := by
  rw [Spec.lexGo, Spec.lexGo]

theorem Spec.lexGo_number_append (ds : Str) (h : ∀ c ∈ ds, isdigit c = true) :
    ∀ (text r : Str), Spec.lexGo (.number text) (ds ++ r) = Spec.lexGo (.number (text ++ ds)) r := by
  induction ds with
  | nil => intro text r; simp
  | cons c ds ih =>
    intro text r
    have hc : isdigit c = true := h c (by simp)
    show Spec.lexGo (.number text) (c :: (ds ++ r)) = _
    rw [Spec.lexGo]
    simp only [hc, if_true]
    rw [ih (fun c hc => h c (by simp [hc]))]
    simp

theorem Spec.lexGo_number_stop (text r : Str) (h : ∀ c ∈ r.head?, isdigit c = false) :
    Spec.lexGo (.number text) r = { type := .NUMBER, value := text } :: Spec.lexGo .start r := by
  cases r with
  | nil => rfl
  | cons c cs =>
    have hc : isdigit c = false := h c (by simp)
    rw [Spec.lexGo, Spec.lexGo]
    simp only [hc, Bool.false_eq_true, if_false]
    split <;> rfl

theorem dropWhile_head_not {β : Type} (p : β → Bool) (l : List β) :
    ∀ c ∈ (l.dropWhile p).head?, p c = false := by
  induction l with
  | nil => simp
  | cons a l ih =>
    by_cases ha : p a = true
    · simpa [List.dropWhile, ha] using ih
    · simp [List.dropWhile, ha]

/-- The tokens from a digit on: the NUMBER token of the run of digits, then
the tokens of what follows the run. -/
theorem Spec.lexGo_start_digits (r : Str) (c : Char) (cs : Str) (hr : r = c :: cs)
    (hc : isdigit c = true) :
    Spec.lexGo .start r =
      { type := .NUMBER, value := r.takeWhile isdigit } ::
        Spec.lexGo .start (r.dropWhile isdigit) := by
  subst hr
  rw [Spec.lexGo]
  simp only [hc, if_true, List.takeWhile_cons, List.dropWhile_cons]
  conv_lhs => rw [← List.takeWhile_append_dropWhile isdigit cs]
  rw [Spec.lexGo_number_append _ (fun c hc => List.mem_takeWhile_imp hc)]
  exact Spec.lexGo_number_stop _ _ (dropWhile_head_not isdigit cs)

/-- The tokens from the start of an iteration, in terms of the text after
the whitespace that the iteration skips. -/
theorem Spec.lexGo_start_skip (r : Str) (hne : r ≠ []) :
    Spec.lexGo .start r =
      if r.dropWhile isspace = [] then [{ type := .INVALID }, { type := .EOL }]
      else Spec.lexGo .start (r.dropWhile isspace) := by
  have hsplit := List.takeWhile_append_dropWhile isspace r
  have hws : ∀ c ∈ r.takeWhile isspace, isspace c = true := fun c hc => List.mem_takeWhile_imp hc
  by_cases hw : r.takeWhile isspace = []
  · have : r.dropWhile isspace = r := by rw [hw] at hsplit; simpa using hsplit
    rw [this, if_neg hne]
  · conv_lhs => rw [← hsplit]
    rw [Spec.lexGo_start_append _ hws hw]
    cases hd : r.dropWhile isspace with
    | nil => rfl
    | cons c cs => simp only [if_false, Spec.lexGo_space_cons, reduceCtorEq]

theorem Lexer.charToken_type_ne_EOL (c : Char) : (Lexer.charToken c).type ≠ .EOL := by
  unfold Lexer.charToken
  repeat' split
  all_goals decide

theorem drop_length_takeWhile {β : Type} (p : β → Bool) (l : List β) :
    l.drop (l.takeWhile p).length = l.dropWhile p := by
  induction l with
  | nil => rfl
  | cons a l ih =>
    by_cases ha : p a = true
    · simpa [List.takeWhile, List.dropWhile, ha] using ih
    · simp [List.takeWhile, List.dropWhile, ha]

theorem takeWhile_length_le {β : Type} (p : β → Bool) (l : List β) :
    (l.takeWhile p).length ≤ l.length := by
  induction l with
  | nil => simp
  | cons a l ih =>
    by_cases ha : p a = true
    · simp only [List.takeWhile, ha, List.length_cons]; omega
    · simp [List.takeWhile, ha]

/-- One iteration of the loop of `tokenize`: it appends one token, which is
not END, moves the read position forward, and leaves the input unchanged. -/
theorem Lexer.tokenizeLoop_iteration (fuel : Nat) (lx : Lexer) (tokens : List Token)
    (h : lx.m_position < lx.m_input.length) :
    ∃ (tok : Token) (lx1 : Lexer),
      Lexer.tokenizeLoop (fuel + 1) lx tokens = Lexer.tokenizeLoop fuel lx1 (tokens ++ [tok]) ∧
      lx1.m_input = lx.m_input ∧ lx.m_position < lx1.m_position ∧
      lx1.m_position ≤ lx.m_input.length + 1 ∧ tok.type ≠ .EOL ∧
      Spec.lexGo .start (lx.m_input.drop lx.m_position) =
        tok :: Spec.lexGo .start (lx.m_input.drop lx1.m_position) := by
  have hne : lx.m_input.drop lx.m_position ≠ [] := by
    intro e
    have := List.drop_eq_nil_iff.mp e
    omega
  have hk : ((lx.m_input.drop lx.m_position).takeWhile isspace).length ≤
      lx.m_input.length - lx.m_position := by
    have := takeWhile_length_le isspace (lx.m_input.drop lx.m_position)
    simpa using this
  have hskip : lx.skipWhitespace = .ok { m_input := lx.m_input, m_position :=
      lx.m_position + ((lx.m_input.drop lx.m_position).takeWhile isspace).length } := by
    unfold Lexer.skipWhitespace
    exact Lexer.skipWhitespaceLoop_eq _ _ (by omega)
  have hdrop : lx.m_input.drop
      (lx.m_position + ((lx.m_input.drop lx.m_position).takeWhile isspace).length) =
      (lx.m_input.drop lx.m_position).dropWhile isspace := by
    rw [← List.drop_drop, drop_length_takeWhile]
  have hlex := Spec.lexGo_start_skip _ hne
  generalize hkdef : ((lx.m_input.drop lx.m_position).takeWhile isspace).length = k at *
  generalize hdw : (lx.m_input.drop lx.m_position).dropWhile isspace = dw at *
  rw [Lexer.tokenizeLoop]
  simp only [h, if_true, hskip, bind, Except.bind]
  have hpeek : Lexer.peek { m_input := lx.m_input, m_position := lx.m_position + k } =
      dw.headD '\x00' := by
    rw [Lexer.peek_eq_headD]
    show (lx.m_input.drop (lx.m_position + k)).headD '\x00' = _
    rw [hdrop]
  rw [hpeek]
  cases dw with
  | nil =>
    have hlen : lx.m_position + k = lx.m_input.length := by
      have := List.drop_eq_nil_iff.mp hdrop
      omega
    refine ⟨{ type := .INVALID }, { m_input := lx.m_input, m_position := lx.m_position + k + 1 },
      ?_, rfl, ?_, ?_, by decide, ?_⟩
    · rfl
    · show lx.m_position < lx.m_position + k + 1
      omega
    · show lx.m_position + k + 1 ≤ lx.m_input.length + 1
      omega
    · rw [hlex]
      show _ = _ :: Spec.lexGo .start (lx.m_input.drop (lx.m_position + k + 1))
      rw [List.drop_eq_nil_of_le (by omega)]
      rfl
  | cons c cs =>
    have hcs : isspace c = false := by
      have := dropWhile_head_not isspace (lx.m_input.drop lx.m_position)
      rw [hdw] at this
      exact this c (by simp)
    have hlt : lx.m_position + k < lx.m_input.length := (drop_eq_cons_getD '\x00' hdrop).1
    rw [if_neg (by simp)] at hlex
    by_cases hc : isdigit c = true
    · have hnum : Lexer.number { m_input := lx.m_input, m_position := lx.m_position + k } =
          .ok ({ type := .NUMBER, value := (c :: cs).takeWhile isdigit },
            { m_input := lx.m_input,
              m_position := lx.m_position + k + ((c :: cs).takeWhile isdigit).length }) := by
        unfold Lexer.number
        have hle := takeWhile_length_le isdigit (c :: cs)
        have hlen2 : (c :: cs).length ≤ lx.m_input.length := by
          have := congrArg List.length hdrop
          simp only [List.length_drop] at this
          omega
        rw [Lexer.numberLoop_eq _ _ _ (by
          show ((lx.m_input.drop (lx.m_position + k)).takeWhile isdigit).length <
            lx.m_input.length + 1
          rw [hdrop]; omega)]
        show Except.ok (([] ++ (lx.m_input.drop (lx.m_position + k)).takeWhile isdigit,
          { m_input := lx.m_input, m_position := lx.m_position + k +
            ((lx.m_input.drop (lx.m_position + k)).takeWhile isdigit).length }) : Str × Lexer)
          >>= _ = _
        rw [hdrop]
        rfl
      have hm : 1 ≤ ((c :: cs).takeWhile isdigit).length := by
        simp [List.takeWhile, hc]
      have hm2 : lx.m_position + k + ((c :: cs).takeWhile isdigit).length ≤
          lx.m_input.length := by
        have hle := takeWhile_length_le isdigit (c :: cs)
        have := congrArg List.length hdrop
        simp only [List.length_drop] at this
        omega
      refine ⟨{ type := .NUMBER, value := (c :: cs).takeWhile isdigit },
        { m_input := lx.m_input,
          m_position := lx.m_position + k + ((c :: cs).takeWhile isdigit).length },
        ?_, rfl, ?_, ?_, (by intro e; cases e), ?_⟩
      · simp only [List.headD_cons, hc, if_true, hnum]
      · show lx.m_position < lx.m_position + k + _
        omega
      · show lx.m_position + k + _ ≤ lx.m_input.length + 1
        omega
      · rw [hlex, Spec.lexGo_start_digits (c :: cs) c cs rfl hc]
        show _ = _ :: Spec.lexGo .start (lx.m_input.drop (lx.m_position + k + _))
        rw [← List.drop_drop, hdrop, drop_length_takeWhile]
    · have hc2 : isdigit c = false := by simpa using hc
      refine ⟨Lexer.charToken c, { m_input := lx.m_input, m_position := lx.m_position + k + 1 },
        ?_, rfl, ?_, ?_, Lexer.charToken_type_ne_EOL c, ?_⟩
      · simp only [List.headD_cons, hc2, Bool.false_eq_true, if_false]
        rfl
      · show lx.m_position < lx.m_position + k + 1
        omega
      · show lx.m_position + k + 1 ≤ lx.m_input.length + 1
        omega
      · rw [hlex, Spec.lexGo]
        simp only [hc2, hcs, Bool.false_eq_true, if_false]
        show _ = _ :: Spec.lexGo .start (lx.m_input.drop (lx.m_position + k + 1))
        rw [(drop_eq_cons_getD '\x00' hdrop).2.2]

/-- The loop of `tokenize` returns the tokens of the one-pass lexer; the fuel
that `tokenize` supplies suffices. -/
theorem Lexer.tokenizeLoop_eq_lexGo (fuel : Nat) : ∀ (lx : Lexer) (tokens : List Token),
    lx.m_input.length - lx.m_position < fuel →
      Lexer.tokenizeLoop fuel lx tokens =
        .ok (tokens ++ Spec.lexGo .start (lx.m_input.drop lx.m_position)) := by
  induction fuel with
  | zero => intro lx tokens h; omega
  | succ fuel ih =>
    intro lx tokens h
    by_cases hlt : lx.m_position < lx.m_input.length
    · obtain ⟨tok, lx1, h1, h2, h3, h4, _, h6⟩ := Lexer.tokenizeLoop_iteration fuel lx tokens hlt
      rw [h1, ih lx1 _ (by rw [h2]; omega), h6, h2]
      simp
    · rw [Lexer.tokenizeLoop, if_neg hlt, List.drop_eq_nil_of_le (by omega)]
      rfl

/-- The method `tokenize` returns the tokens of the one-pass lexer. -/
theorem tokenize_eq_lexGo (input : Str) : tokenize input = .ok (Spec.lexGo .start input) := by
  unfold tokenize Lexer.tokenize Lexer.new
  rw [Lexer.tokenizeLoop_eq_lexGo _ _ _ (by simp)]
  rfl

end Calc

namespace Calc

/-! ## Termination, whitespace, maximal runs -/

theorem Spec.lexGo_ends_with_EOL (s : Str) : ∀ st : Spec.LexState,
    ∃ toks, Spec.lexGo st s = toks ++ [{ type := .EOL }] ∧ ∀ t ∈ toks, t.type ≠ .EOL := by
  induction s with
  | nil =>
    intro st
    cases st with
    | start => exact ⟨[], rfl, by simp⟩
    | space => exact ⟨[{ type := .INVALID }], rfl, by simp⟩
    | number text => exact ⟨[{ type := .NUMBER, value := text }], rfl, by simp⟩
  | cons c cs ih =>
    intro st
    have hstart : ∃ toks, Spec.lexGo .start (c :: cs) = toks ++ [{ type := .EOL }] ∧
        ∀ t ∈ toks, t.type ≠ .EOL := by
      rw [Spec.lexGo]
      split
      · exact ih _
      · split
        · exact ih _
        · obtain ⟨toks, h1, h2⟩ := ih .start
          refine ⟨Lexer.charToken c :: toks, by rw [h1]; rfl, ?_⟩
          intro t ht
          rcases List.mem_cons.mp ht with rfl | ht
          · exact Lexer.charToken_type_ne_EOL c
          · exact h2 t ht
    cases st with
    | start => exact hstart
    | space => rw [Spec.lexGo_space_cons]; exact hstart
    | number text =>
      rw [Spec.lexGo]
      split
      · exact ih _
      · split
        · obtain ⟨toks, h1, h2⟩ := ih .space
          refine ⟨{ type := .NUMBER, value := text } :: toks, by rw [h1]; rfl, ?_⟩
          intro t ht
          rcases List.mem_cons.mp ht with rfl | ht
          · intro e; cases e
          · exact h2 t ht
        · obtain ⟨toks, h1, h2⟩ := ih .start
          refine ⟨{ type := .NUMBER, value := text } :: Lexer.charToken c :: toks,
            by rw [h1]; rfl, ?_⟩
          intro t ht
          rcases List.mem_cons.mp ht with rfl | ht
          · intro e; cases e
          · rcases List.mem_cons.mp ht with rfl | ht
            · exact Lexer.charToken_type_ne_EOL c
            · exact h2 t ht

/-- C20: `tokenize` terminates on every input: the fuel of the embedding,
the length of the input plus one, always suffices, because every iteration of
its loop moves the read position strictly forward (and no step moves it
back); the result ends with an END token, and no other token of the result is
an END token. -/
theorem tokenize_terminates_with_one_EOL (input : Str) :
    (∃ toks, tokenize input = .ok (toks ++ [{ type := .EOL }]) ∧
      ∀ t ∈ toks, t.type ≠ .EOL) ∧
    (∀ (fuel : Nat) (lx : Lexer) (tokens : List Token),
      lx.m_position < lx.m_input.length →
      ∃ (tok : Token) (lx1 : Lexer),
        Lexer.tokenizeLoop (fuel + 1) lx tokens =
          Lexer.tokenizeLoop fuel lx1 (tokens ++ [tok]) ∧
        lx1.m_input = lx.m_input ∧ lx.m_position < lx1.m_position ∧ tok.type ≠ .EOL) ∧
    (∀ lx : Lexer, lx.m_position < (lx.advance.2).m_position) := by
  refine ⟨?_, ?_, fun lx => Nat.lt_succ_self _⟩
  · rw [tokenize_eq_lexGo]
    obtain ⟨toks, h1, h2⟩ := Spec.lexGo_ends_with_EOL input .start
    exact ⟨toks, by rw [h1], h2⟩
  · intro fuel lx tokens h
    obtain ⟨tok, lx1, h1, h2, h3, _, h5, _⟩ := Lexer.tokenizeLoop_iteration fuel lx tokens h
    exact ⟨tok, lx1, h1, h2, h3, h5⟩

theorem Spec.lexGo_space_all (w : Str) (h : ∀ c ∈ w, isspace c = true) :
    Spec.lexGo .space w = [{ type := .INVALID }, { type := .EOL }] := by
  have := Spec.lexGo_space_append w h []
  rw [List.append_nil] at this
  rw [this]
  rfl

/-- From any state, an input that ends with whitespace gives an INVALID token
in front of the END token. -/
theorem Spec.lexGo_trailing_whitespace (w : Str) (hw : ∀ c ∈ w, isspace c = true)
    (hne : w ≠ []) (s : Str) : ∀ st : Spec.LexState,
    ∃ toks, Spec.lexGo st (s ++ w) = toks ++ [{ type := .INVALID }, { type := .EOL }] := by
  induction s with
  | nil =>
    intro st
    obtain ⟨c, w1, rfl⟩ := List.exists_cons_of_ne_nil hne
    have hc : isspace c = true := hw c (by simp)
    have hd : isdigit c = false := isdigit_false_of_isspace hc
    have hw1 : Spec.lexGo .space w1 = [{ type := .INVALID }, { type := .EOL }] :=
      Spec.lexGo_space_all w1 (fun c hc => hw c (by simp [hc]))
    rw [List.nil_append]
    cases st with
    | start =>
      refine ⟨[], ?_⟩
      rw [Spec.lexGo]
      simp only [hd, hc, Bool.false_eq_true, if_false, if_true, hw1, List.nil_append]
    | space =>
      refine ⟨[], ?_⟩
      rw [Spec.lexGo]
      simp only [hd, hc, Bool.false_eq_true, if_false, if_true, hw1, List.nil_append]
    | number text =>
      refine ⟨[{ type := .NUMBER, value := text }], ?_⟩
      rw [Spec.lexGo]
      simp only [hd, hc, Bool.false_eq_true, if_false, if_true, hw1]
      rfl
  | cons c cs ih =>
    intro st
    have hstart : ∃ toks, Spec.lexGo .start (c :: (cs ++ w)) =
        toks ++ [{ type := .INVALID }, { type := .EOL }] := by
      rw [Spec.lexGo]
      split
      · exact ih _
      · split
        · exact ih _
        · obtain ⟨toks, h1⟩ := ih .start
          exact ⟨Lexer.charToken c :: toks, by rw [h1]; rfl⟩
    show ∃ toks, Spec.lexGo st (c :: (cs ++ w)) = _
    cases st with
    | start => exact hstart
    | space => rw [Spec.lexGo_space_cons]; exact hstart
    | number text =>
      rw [Spec.lexGo]
      split
      · exact ih _
      · split
        · obtain ⟨toks, h1⟩ := ih .space
          exact ⟨{ type := .NUMBER, value := text } :: toks, by rw [h1]; rfl⟩
        · obtain ⟨toks, h1⟩ := ih .start
          exact ⟨{ type := .NUMBER, value := text } :: Lexer.charToken c :: toks,
            by rw [h1]; rfl⟩

/-- C19 (the behaviour of the code): whitespace in front of a non-empty
input produces no token, but whitespace at the end of the input does: after
`skipWhitespace` has reached the end, the loop of `tokenize` still consumes a
character and pushes an INVALID token. An input of whitespace only lexes to
INVALID, END and not to END alone; every input that ends with whitespace has
an INVALID token in front of END; "2+3 " lexes to five tokens, "2+3" to
four. -/
theorem tokenize_trailing_whitespace_invalid :
    tokenize " ".toList = .ok [{ type := .INVALID }, { type := .EOL }] ∧
    tokenize "2+3 ".toList = .ok [{ type := .NUMBER, value := "2".toList }, { type := .PLUS },
      { type := .NUMBER, value := "3".toList }, { type := .INVALID }, { type := .EOL }] ∧
    tokenize "2+3".toList = .ok [{ type := .NUMBER, value := "2".toList }, { type := .PLUS },
      { type := .NUMBER, value := "3".toList }, { type := .EOL }] ∧
    (∀ s w : Str, (∀ c ∈ w, isspace c = true) → w ≠ [] →
      ∃ toks, tokenize (s ++ w) = .ok (toks ++ [{ type := .INVALID }, { type := .EOL }])) ∧
    (∀ s w : Str, (∀ c ∈ w, isspace c = true) → s ≠ [] → tokenize (w ++ s) = tokenize s) ∧
    tokenize [] = .ok [{ type := .EOL }] := by
  refine ⟨by rfl, by rfl, by rfl, ?_, ?_, by rfl⟩
  · intro s w hw hne
    rw [tokenize_eq_lexGo]
    obtain ⟨toks, h⟩ := Spec.lexGo_trailing_whitespace w hw hne s .start
    exact ⟨toks, by rw [h]⟩
  · intro s w hw hne
    rw [tokenize_eq_lexGo, tokenize_eq_lexGo]
    by_cases hwe : w = []
    · rw [hwe, List.nil_append]
    · obtain ⟨c, cs, rfl⟩ := List.exists_cons_of_ne_nil hne
      rw [Spec.lexGo_start_append w hw hwe, Spec.lexGo_space_cons]

theorem Spec.charToken_eq_symbolType (c : Char) :
    Lexer.charToken c = { type := Spec.symbolType c } := by
  by_cases h1 : c = '+'
  · subst h1; rfl
  by_cases h2 : c = '-'
  · subst h2; rfl
  by_cases h3 : c = '*'
  · subst h3; rfl
  by_cases h4 : c = '/'
  · subst h4; rfl
  by_cases h5 : c = '('
  · subst h5; rfl
  by_cases h6 : c = ')'
  · subst h6; rfl
  unfold Lexer.charToken Spec.symbolType
  simp only [h1, h2, h3, h4, h5, h6, if_false]

theorem Spec.piecesGo_flatten (s : Str) : ∀ run : Str,
    (Spec.piecesGo run s).flatten = run ++ s := by
  induction s with
  | nil =>
    intro run
    by_cases h : run = [] <;> simp [Spec.piecesGo, h]
  | cons c cs ih =>
    intro run
    simp only [Spec.piecesGo]
    split
    · rw [ih]; simp
    · by_cases h : run = [] <;> simp [h, ih]

theorem Spec.piecesGo_shape (s : Str) : ∀ run : Str, (∀ c ∈ run, isdigit c = true) →
    ∀ p ∈ Spec.piecesGo run s, IsNumeral p ∨ ∃ c, p = [c] ∧ isdigit c = false := by
  induction s with
  | nil =>
    intro run hrun p hp
    by_cases h : run = []
    · simp [Spec.piecesGo, h] at hp
    · simp only [Spec.piecesGo, h, if_false, List.mem_singleton] at hp
      subst hp
      exact Or.inl ⟨h, hrun⟩
  | cons c cs ih =>
    intro run hrun p hp
    simp only [Spec.piecesGo] at hp
    split at hp
    · rename_i hc
      refine ih (run ++ [c]) ?_ p hp
      intro d hd
      rcases List.mem_append.mp hd with hd | hd
      · exact hrun d hd
      · simp only [List.mem_singleton] at hd
        subst hd
        exact hc
    · rename_i hc
      have hc2 : isdigit c = false := by simpa using hc
      rcases List.mem_append.mp hp with hp | hp
      · by_cases h : run = []
        · simp [h] at hp
        · simp only [h, if_false, List.mem_singleton] at hp
          subst hp
          exact Or.inl ⟨h, hrun⟩
      · rcases List.mem_cons.mp hp with rfl | hp
        · exact Or.inr ⟨c, rfl, hc2⟩
        · exact ih [] (by simp) p hp

theorem IsNumeral.not_single {c : Char} (hc : isdigit c = false) : ¬ IsNumeral [c] := by
  intro h
  have := h.2 c (by simp)
  rw [hc] at this
  cases this

/-- No two adjacent pieces are both runs of digits: the runs are maximal. -/
theorem Spec.piecesGo_chain (s : Str) : ∀ run : Str,
    List.Chain' (fun p q => ¬ (IsNumeral p ∧ IsNumeral q)) (Spec.piecesGo run s) := by
  induction s with
  | nil =>
    intro run
    by_cases h : run = [] <;> simp [Spec.piecesGo, h]
  | cons c cs ih =>
    intro run
    simp only [Spec.piecesGo]
    split
    · exact ih _
    · rename_i hc
      have hc2 : isdigit c = false := by simpa using hc
      have htail : List.Chain' (fun p q => ¬ (IsNumeral p ∧ IsNumeral q))
          ([c] :: Spec.piecesGo [] cs) :=
        (ih []).cons' (fun q _ h => IsNumeral.not_single hc2 h.1)
      by_cases h : run = []
      · simpa [h] using htail
      · simp only [h, if_false, List.singleton_append]
        exact htail.cons' (fun q hq hn => by
          simp only [List.head?_cons, Option.mem_def, Option.some.injEq] at hq
          subst hq
          exact IsNumeral.not_single hc2 hn.2)

/-- The tokens of a text without whitespace are the tokens of its pieces,
from the state inside a number as from the start of an iteration. -/
theorem Spec.lexGo_pieces (s : Str) (hs : ∀ c ∈ s, isspace c = false) :
    (∀ text : Str, text ≠ [] → (∀ c ∈ text, isdigit c = true) →
      Spec.lexGo (.number text) s =
        (Spec.piecesGo text s).map Spec.pieceToken ++ [{ type := .EOL }]) ∧
    Spec.lexGo .start s = (Spec.piecesGo [] s).map Spec.pieceToken ++ [{ type := .EOL }] := by
  induction s with
  | nil =>
    refine ⟨?_, rfl⟩
    intro text hne hd
    obtain ⟨d, r, rfl⟩ := List.exists_cons_of_ne_nil hne
    simp [Spec.lexGo, Spec.piecesGo, Spec.pieceToken, hd d (by simp)]
  | cons c cs ih =>
    obtain ⟨ihn, ihs⟩ := ih (fun c hc => hs c (by simp [hc]))
    have hsp : isspace c = false := hs c (by simp)
    refine ⟨?_, ?_⟩
    · intro text hne hd
      obtain ⟨d, r, rfl⟩ := List.exists_cons_of_ne_nil hne
      rw [Spec.lexGo]
      by_cases hc : isdigit c = true
      · simp only [hc, if_true, Spec.piecesGo]
        exact ihn _ (by simp) (by
          intro x hx
          rcases List.mem_append.mp hx with hx | hx
          · exact hd x hx
          · simp only [List.mem_singleton] at hx
            subst hx
            exact hc)
      · have hc2 : isdigit c = false := by simpa using hc
        simp only [hc2, hsp, Bool.false_eq_true, if_false, Spec.piecesGo, ihs,
          Spec.charToken_eq_symbolType]
        simp [Spec.pieceToken, hd d (by simp), hc2]
    · rw [Spec.lexGo]
      by_cases hc : isdigit c = true
      · simp only [hc, if_true, Spec.piecesGo, List.nil_append]
        exact ihn [c] (by simp) (by simpa using hc)
      · have hc2 : isdigit c = false := by simpa using hc
        simp only [hc2, hsp, Bool.false_eq_true, if_false, Spec.piecesGo, ihs,
          Spec.charToken_eq_symbolType]
        simp [Spec.pieceToken, hc2]

theorem Spec.symbolType_ne_NUMBER (c : Char) : Spec.symbolType c ≠ .NUMBER := by
  unfold Spec.symbolType
  split <;> decide

theorem Spec.pieceToken_number_iff (p : Str)
    (hp : IsNumeral p ∨ ∃ c, p = [c] ∧ isdigit c = false) :
    (Spec.pieceToken p).type = .NUMBER ↔ IsNumeral p := by
  rcases hp with hp | ⟨c, rfl, hc⟩
  · obtain ⟨d, r, rfl⟩ := List.exists_cons_of_ne_nil hp.1
    simp [Spec.pieceToken, hp.2 d (by simp), hp]
  · simp only [Spec.pieceToken, hc, Bool.false_eq_true, if_false]
    exact ⟨fun h => absurd h (Spec.symbolType_ne_NUMBER c), fun h =>
      absurd h (IsNumeral.not_single hc)⟩

theorem chain_of_mem {β : Type} {R S : β → β → Prop} {l : List β}
    (h : List.Chain' R l) (himp : ∀ a ∈ l, ∀ b ∈ l, R a b → S a b) : List.Chain' S l := by
  induction l with
  | nil => exact List.chain'_nil
  | cons a l ih =>
    cases l with
    | nil => exact List.chain'_singleton a
    | cons b l =>
      rw [List.chain'_cons] at h ⊢
      exact ⟨himp a (by simp) b (by simp) h.1,
        ih h.2 (fun x hx y hy => himp x (by simp [hx]) y (by simp [hy]))⟩

/-- In the tokens of the pieces no two NUMBER tokens are adjacent, and the
text of every NUMBER token is a non-empty run of digits. -/
theorem Spec.pieceTokens_numbers (s : Str) :
    List.Chain' (fun t u : Token => ¬ (t.type = .NUMBER ∧ u.type = .NUMBER))
        ((Spec.pieces s).map Spec.pieceToken ++ [{ type := .EOL }]) ∧
      ∀ t ∈ (Spec.pieces s).map Spec.pieceToken ++ [{ type := .EOL }],
        t.type = .NUMBER → IsNumeral t.value := by
  have hshape := Spec.piecesGo_shape s [] (by simp)
  have hchain := Spec.piecesGo_chain s []
  constructor
  · apply List.Chain'.append
    · rw [List.chain'_map]
      refine chain_of_mem hchain ?_
      intro a ha b hb hab hn
      exact hab ⟨(Spec.pieceToken_number_iff a (hshape a ha)).mp hn.1,
        (Spec.pieceToken_number_iff b (hshape b hb)).mp hn.2⟩
    · exact List.chain'_singleton _
    · intro x _ y hy hn
      simp only [List.head?_cons, Option.mem_def, Option.some.injEq] at hy
      subst hy
      exact absurd hn.2 (by decide)
  · intro t ht hn
    rcases List.mem_append.mp ht with ht | ht
    · obtain ⟨p, hp, rfl⟩ := List.mem_map.mp ht
      have hnum := (Spec.pieceToken_number_iff p (hshape p hp)).mp hn
      obtain ⟨d, r, rfl⟩ := List.exists_cons_of_ne_nil hnum.1
      simpa [Spec.pieceToken, hnum.2 d (by simp)] using hnum
    · simp only [List.mem_singleton] at ht
      subst ht
      exact absurd hn (by decide)

/-- C18: for every input without whitespace `tokenize` returns the tokens of
the pieces of the input, from left to right, followed by END. The pieces put
together are the input; each piece is a non-empty run of digits (its token is
NUMBER with exactly that text) or a single character that is not a digit (its
token is PLUS, MINUS, MULTIPLY, DIVIDE, LPAREN, RPAREN for `+ - * / ( )` and
INVALID otherwise); no two runs of digits are adjacent, so the runs are
maximal; "123" lexes to the single NUMBER "123". -/
theorem tokenize_maximal_runs (s : Str) (hs : ∀ c ∈ s, isspace c = false) :
    tokenize s = .ok ((Spec.pieces s).map Spec.pieceToken ++ [{ type := .EOL }]) ∧
    (Spec.pieces s).flatten = s ∧
    (∀ p ∈ Spec.pieces s, IsNumeral p ∨ ∃ c, p = [c] ∧ isdigit c = false) ∧
    List.Chain' (fun p q => ¬ (IsNumeral p ∧ IsNumeral q)) (Spec.pieces s) ∧
    (∀ p, IsNumeral p → Spec.pieceToken p = { type := .NUMBER, value := p }) ∧
    (∀ c, isdigit c = false → Spec.pieceToken [c] = { type := Spec.symbolType c }) ∧
    (∀ toks, tokenize s = .ok toks →
      List.Chain' (fun t u : Token => ¬ (t.type = .NUMBER ∧ u.type = .NUMBER)) toks ∧
      ∀ t ∈ toks, t.type = .NUMBER → IsNumeral t.value) ∧
    tokenize "123".toList = .ok [{ type := .NUMBER, value := "123".toList }, { type := .EOL }] := by
  have htok : tokenize s = .ok ((Spec.pieces s).map Spec.pieceToken ++ [{ type := .EOL }]) := by
    rw [tokenize_eq_lexGo, (Spec.lexGo_pieces s hs).2]
    rfl
  refine ⟨htok, ?_, Spec.piecesGo_shape s [] (by simp), Spec.piecesGo_chain s [], ?_, ?_, ?_,
    by rfl⟩
  rotate_left 3
  · intro toks h
    rw [htok] at h
    injection h with h
    subst h
    exact Spec.pieceTokens_numbers s
  · have := Spec.piecesGo_flatten s []
    simpa using this
  · intro p hp
    obtain ⟨c, r, rfl⟩ := List.exists_cons_of_ne_nil hp.1
    simp [Spec.pieceToken, hp.2 c (by simp)]
  · intro c hc
    simp [Spec.pieceToken, hc]

/-- The text "12+x3" has the pieces "12", "+", "x", "3". -/
theorem tokenize_maximal_runs_witness :
    tokenize "12+x3".toList =
      .ok ((Spec.pieces "12+x3".toList).map Spec.pieceToken ++ [{ type := .EOL }]) ∧
    Spec.pieces "12+x3".toList = ["12".toList, "+".toList, "x".toList, "3".toList] :=
  ⟨(tokenize_maximal_runs "12+x3".toList (by decide)).1, by decide⟩

end Calc

namespace Calc

/-! ## The parser in front of a missing factor and of trailing tokens -/

theorem Parser.factor_fail {α : Type} (D : DoubleOps α) (p : Parser)
    (h : ∀ t ∈ (p.m_tokens.drop p.m_current).head?, t.type ≠ .NUMBER) :
    Parser.factor D p = .error (.runtime_error "Unexpected token") := by
  unfold Parser.factor
  rw [Parser.match_miss h]
  rfl

/-- The loop of `term` fails when `factor` fails behind a `*` or `/` that
follows a chain of factors. -/
theorem Parser.termLoop_fail {α : Type} (D : DoubleOps α) (v : Str → α)
    (fs : List (Op × Str)) (hmul : ∀ f ∈ fs, f.1.isMul = true)
    (hv : ∀ f ∈ fs, D.stod f.2 = .ok (v f.2))
    (o : Op) (ho : o.isMul = true) (fuel : Nat) (p : Parser)
    (expr : Expression α) (suffix : List Token) (err : Error)
    (hrest : p.m_tokens.drop p.m_current =
      Spec.tailTokens fs ++ { type := o.token } :: suffix)
    (hfail : ∀ q : Parser, q.m_tokens.drop q.m_current = suffix → Parser.factor D q = .error err)
    (hfuel : fs.length < fuel) :
    Parser.termLoop D fuel p expr = .error err := by
  induction fs generalizing fuel p expr with
  | nil =>
    obtain ⟨fuel, rfl⟩ : ∃ f, fuel = f + 1 := ⟨fuel - 1, by omega⟩
    have hot : o.token = .MULTIPLY ∨ o.token = .DIVIDE := by
      revert ho
      cases o <;> simp [Op.isMul, Op.token]
    simp only [Spec.tailTokens, List.nil_append] at hrest
    have hrest1 := (drop_eq_cons_getD ({ type := .INVALID } : Token) hrest).2.2
    rw [Parser.termLoop]
    simp only
    rw [Parser.match_either hrest hot (by decide) (by decide)]
    simp only [if_true]
    rw [hfail { m_tokens := p.m_tokens, m_current := p.m_current + 1 } hrest1]
    rfl
  | cons f fs ih =>
    obtain ⟨o1, n⟩ := f
    obtain ⟨fuel, rfl⟩ : ∃ f, fuel = f + 1 := ⟨fuel - 1, by omega⟩
    have ho1 : o1.token = .MULTIPLY ∨ o1.token = .DIVIDE := by
      have := hmul (o1, n) (by simp)
      revert this
      cases o1 <;> simp [Op.isMul, Op.token]
    simp only [Spec.tailTokens, List.cons_append] at hrest
    have hrest1 := (drop_eq_cons_getD ({ type := .INVALID } : Token) hrest).2.2
    have hrest2 := (drop_eq_cons_getD ({ type := .INVALID } : Token) hrest1).2.2
    rw [Parser.termLoop]
    simp only
    rw [Parser.match_either hrest ho1 (by decide) (by decide)]
    simp only [if_true]
    rw [Parser.tokenAt_last hrest,
      @Parser.factor_number_ok α D { m_tokens := p.m_tokens, m_current := p.m_current + 1 } n _
        (v n) hrest1 (hv (o1, n) (by simp))]
    simp only [bind, Except.bind]
    exact ih (fun f hf => hmul f (by simp [hf])) (fun f hf => hv f (by simp [hf])) fuel _ _ hrest2
      (by simp at hfuel; omega)

/-- The method `term` fails when `factor` fails behind a `*` or `/` that
follows the chain of factors of the term. -/
theorem Parser.term_fail {α : Type} (D : DoubleOps α) (v : Str → α) (n : Str)
    (fs : List (Op × Str)) (hmul : ∀ f ∈ fs, f.1.isMul = true)
    (hn : D.stod n = .ok (v n)) (hv : ∀ f ∈ fs, D.stod f.2 = .ok (v f.2))
    (o : Op) (ho : o.isMul = true) (p : Parser)
    (suffix : List Token) (err : Error)
    (hrest : p.m_tokens.drop p.m_current =
      { type := .NUMBER, value := n } :: (Spec.tailTokens fs ++ { type := o.token } :: suffix))
    (hfail : ∀ q : Parser, q.m_tokens.drop q.m_current = suffix →
      Parser.factor D q = .error err) :
    Parser.term D p = .error err := by
  have hrest1 := (drop_eq_cons_getD ({ type := .INVALID } : Token) hrest).2.2
  have hlen : fs.length < p.m_tokens.length + 1 := by
    have := congrArg List.length hrest1
    simp only [List.length_drop, List.length_append, Spec.tailTokens_length] at this
    omega
  unfold Parser.term
  rw [Parser.factor_number_ok D hrest hn]
  simp only [bind, Except.bind]
  exact Parser.termLoop_fail D v fs hmul hv o ho _ _ _ suffix err hrest1 hfail hlen

/-- The loop of `expression` in front of any token that is not an operator:
it consumes the chain of terms, builds the left-leaning tree and stops. -/
theorem Parser.expressionLoop_terms_suffix {α : Type} (D : DoubleOps α) (v : Str → α)
    (ts : List (Op × Str × List (Op × Str)))
    (hts : ∀ t ∈ ts, t.1.isMul = false ∧ ∀ f ∈ t.2.2, f.1.isMul = true)
    (hv : ∀ t ∈ ts, D.stod t.2.1 = .ok (v t.2.1) ∧ ∀ f ∈ t.2.2, D.stod f.2 = .ok (v f.2))
    (suffix : List Token)
    (hs : ∀ t ∈ suffix.head?, (t.type ≠ .PLUS ∧ t.type ≠ .MINUS) ∧
      (t.type ≠ .MULTIPLY ∧ t.type ≠ .DIVIDE))
    (fuel : Nat) (p : Parser) (expr : Expression α)
    (hrest : p.m_tokens.drop p.m_current = Spec.termsTokens ts ++ suffix)
    (hfuel : ts.length < fuel) :
    Parser.expressionLoop D fuel p expr =
      .ok (Spec.sumTree v expr ts,
        { m_tokens := p.m_tokens, m_current := p.m_current + (Spec.termsTokens ts).length }) := by
  induction ts generalizing fuel p expr with
  | nil =>
    obtain ⟨fuel, rfl⟩ : ∃ f, fuel = f + 1 := ⟨fuel - 1, by omega⟩
    have hhead : ∀ t ∈ (p.m_tokens.drop p.m_current).head?,
        t.type ≠ .PLUS ∧ t.type ≠ .MINUS := by
      rw [hrest]
      simp only [Spec.termsTokens, List.nil_append]
      exact fun t ht => (hs t ht).1
    rw [Parser.expressionLoop]
    simp only
    rw [Parser.match_neither hhead]
    rfl
  | cons t ts ih =>
    obtain ⟨o, n, fs⟩ := t
    obtain ⟨fuel, rfl⟩ : ∃ f, fuel = f + 1 := ⟨fuel - 1, by omega⟩
    obtain ⟨hadd, hmul⟩ := hts (o, n, fs) (by simp)
    have ho : o.token = .PLUS ∨ o.token = .MINUS := by
      revert hadd
      cases o <;> simp [Op.isMul, Op.token]
    have htail : ∀ t ∈ ts, t.1.isMul = false ∧ ∀ f ∈ t.2.2, f.1.isMul = true :=
      fun t ht => hts t (by simp [ht])
    simp only [Spec.termsTokens, List.cons_append, List.append_assoc] at hrest
    have hrest1 := (drop_eq_cons_getD ({ type := .INVALID } : Token) hrest).2.2
    have hterm := Parser.term_chain D v n fs hmul (hv (o, n, fs) (by simp)).1
      (hv (o, n, fs) (by simp)).2
      { m_tokens := p.m_tokens, m_current := p.m_current + 1 }
      (Spec.termsTokens ts ++ suffix) hrest1
      (Spec.termsTokens_head ts (fun t ht => (htail t ht).1) _ (fun t ht => (hs t ht).2))
    have hrest2 : p.m_tokens.drop (p.m_current + 1 + 1 + 2 * fs.length) =
        Spec.termsTokens ts ++ suffix := by
      have h2 := (drop_eq_cons_getD ({ type := .INVALID } : Token) hrest1).2.2
      rw [← List.drop_drop, h2, ← Spec.tailTokens_length, List.drop_left]
    rw [Parser.expressionLoop]
    simp only
    rw [Parser.match_either hrest ho (by decide) (by decide)]
    simp only [if_true]
    rw [Parser.tokenAt_last hrest, hterm]
    simp only [bind, Except.bind]
    rw [ih htail (fun t ht => hv t (by simp [ht])) fuel _ _ hrest2 (by simp at hfuel; omega)]
    simp only [Spec.sumTree, List.foldl_cons, Spec.termsTokens, List.length_cons,
      List.length_append, Spec.tailTokens_length]
    congr 3
    omega

/-- The method `parse` in front of any token that is not an operator: it
returns the tree of the expression before that token and leaves the current
index at the token. -/
theorem Parser.parse_suffix {α : Type} (D : DoubleOps α) (v : Str → α) (n1 : Str)
    (rest : List (Op × Str)) (suffix : List Token)
    (hv : D.Reads v (n1 :: Spec.numerals rest))
    (hs : ∀ t ∈ suffix.head?, (t.type ≠ .PLUS ∧ t.type ≠ .MINUS) ∧
      (t.type ≠ .MULTIPLY ∧ t.type ≠ .DIVIDE)) :
    (Parser.new ({ type := .NUMBER, value := n1 } :: Spec.tailTokens rest ++ suffix)).parse D =
      .ok (Spec.tree v n1 rest,
        { m_tokens := { type := .NUMBER, value := n1 } :: Spec.tailTokens rest ++ suffix,
          m_current := 1 + 2 * rest.length }) := by
  obtain ⟨h1, h2⟩ := Spec.groupTerms_tiers rest
  have htok := Spec.groupTerms_tokens rest
  have hlen : (Spec.tailTokens rest).length = 2 * rest.length := Spec.tailTokens_length rest
  obtain ⟨v1, v2⟩ := Spec.groupTerms_numerals (fun n => D.stod n = .ok (v n)) rest
    (fun n hn => hv n (List.mem_cons_of_mem _ hn))
  unfold Spec.tree
  generalize Spec.groupTerms rest = g at h1 h2 v1 v2 htok ⊢
  unfold Parser.parse Parser.expression Parser.new
  have hterm := Parser.term_chain D v n1 g.1 h1 (hv n1 (List.mem_cons_self _ _)) v1
    { m_tokens := { type := .NUMBER, value := n1 } :: Spec.tailTokens rest ++ suffix,
      m_current := 0 }
    (Spec.termsTokens g.2 ++ suffix)
    (by simp [htok])
    (Spec.termsTokens_head g.2 (fun t ht => (h2 t ht).1) _ (fun t ht => (hs t ht).2))
  rw [hterm]
  simp only [bind, Except.bind]
  rw [Parser.expressionLoop_terms_suffix D v g.2 h2 v2 suffix hs]
  · have e : 0 + 1 + 2 * g.1.length + (Spec.termsTokens g.2).length = 1 + 2 * rest.length := by
      rw [← hlen, htok, List.length_append, Spec.tailTokens_length]
      omega
    simp only [e]
  · show List.drop (0 + 1 + 2 * g.1.length) _ = _
    rw [htok, Nat.zero_add, Nat.add_comm, List.cons_append, List.drop_succ_cons,
      List.append_assoc, ← Spec.tailTokens_length, List.drop_left]
  · have := Spec.termsTokens_length g.2
    simp only [htok, List.length_cons, List.length_append]
    omega

/-- An exception of `std::stod` on the first token leaves `parse`. -/
theorem parse_number_error {α : Type} (D : DoubleOps α) (n : Str) (r : List Token) (err : Error)
    (h : D.stod n = .error err) :
    parse D ({ type := .NUMBER, value := n } :: r) = .error err := by
  have hf : Parser.factor D { m_tokens := { type := .NUMBER, value := n } :: r, m_current := 0 } =
      .error err :=
    @Parser.factor_number_error α D
      { m_tokens := { type := .NUMBER, value := n } :: r, m_current := 0 } n r err rfl h
  unfold parse Parser.parse Parser.expression Parser.term Parser.new
  rw [hf]
  rfl

theorem Parser.term_fail_first {α : Type} (D : DoubleOps α) (p : Parser) (err : Error)
    (h : Parser.factor D p = .error err) :
    Parser.term D p = .error err := by
  unfold Parser.term
  rw [h]
  rfl

theorem Parser.term_fail_factor {α : Type} (D : DoubleOps α) (p : Parser)
    (h : ∀ t ∈ (p.m_tokens.drop p.m_current).head?, t.type ≠ .NUMBER) :
    Parser.term D p = .error (.runtime_error "Unexpected token") :=
  Parser.term_fail_first D p _ (Parser.factor_fail D p h)

/-- The loop of `expression` fails when, after a chain of terms, it consumes
a `+` or `-` and the call of `term` that follows fails. -/
theorem Parser.expressionLoop_fail {α : Type} (D : DoubleOps α) (v : Str → α)
    (ts : List (Op × Str × List (Op × Str)))
    (hts : ∀ t ∈ ts, t.1.isMul = false ∧ ∀ f ∈ t.2.2, f.1.isMul = true)
    (hv : ∀ t ∈ ts, D.stod t.2.1 = .ok (v t.2.1) ∧ ∀ f ∈ t.2.2, D.stod f.2 = .ok (v f.2))
    (o : Op) (ho : o.isMul = false) (tl : List Token) (err : Error)
    (hfail : ∀ q : Parser, q.m_tokens.drop q.m_current = tl → Parser.term D q = .error err)
    (fuel : Nat) (p : Parser) (expr : Expression α)
    (hrest : p.m_tokens.drop p.m_current = Spec.termsTokens ts ++ { type := o.token } :: tl)
    (hfuel : ts.length < fuel) :
    Parser.expressionLoop D fuel p expr = .error err := by
  have hot : o.token = .PLUS ∨ o.token = .MINUS := by
    revert ho
    cases o <;> simp [Op.isMul, Op.token]
  induction ts generalizing fuel p expr with
  | nil =>
    obtain ⟨fuel, rfl⟩ : ∃ f, fuel = f + 1 := ⟨fuel - 1, by omega⟩
    simp only [Spec.termsTokens, List.nil_append] at hrest
    have hrest1 := (drop_eq_cons_getD ({ type := .INVALID } : Token) hrest).2.2
    rw [Parser.expressionLoop]
    simp only
    rw [Parser.match_either hrest hot (by decide) (by decide)]
    simp only [if_true]
    rw [hfail { m_tokens := p.m_tokens, m_current := p.m_current + 1 } hrest1]
    rfl
  | cons t ts ih =>
    obtain ⟨o1, n, fs⟩ := t
    obtain ⟨fuel, rfl⟩ : ∃ f, fuel = f + 1 := ⟨fuel - 1, by omega⟩
    obtain ⟨hadd, hmul⟩ := hts (o1, n, fs) (by simp)
    have ho1 : o1.token = .PLUS ∨ o1.token = .MINUS := by
      revert hadd
      cases o1 <;> simp [Op.isMul, Op.token]
    have htail : ∀ t ∈ ts, t.1.isMul = false ∧ ∀ f ∈ t.2.2, f.1.isMul = true :=
      fun t ht => hts t (by simp [ht])
    simp only [Spec.termsTokens, List.cons_append, List.append_assoc] at hrest
    have hrest1 := (drop_eq_cons_getD ({ type := .INVALID } : Token) hrest).2.2
    have hterm := Parser.term_chain D v n fs hmul (hv (o1, n, fs) (by simp)).1
      (hv (o1, n, fs) (by simp)).2
      { m_tokens := p.m_tokens, m_current := p.m_current + 1 }
      (Spec.termsTokens ts ++ { type := o.token } :: tl) hrest1
      (Spec.termsTokens_head ts (fun t ht => (htail t ht).1) _ (by
        intro t ht
        simp only [List.head?_cons, Option.mem_def, Option.some.injEq] at ht
        subst ht
        rcases hot with e | e <;> simp [e]))
    have hrest2 : p.m_tokens.drop (p.m_current + 1 + 1 + 2 * fs.length) =
        Spec.termsTokens ts ++ { type := o.token } :: tl := by
      have h2 := (drop_eq_cons_getD ({ type := .INVALID } : Token) hrest1).2.2
      rw [← List.drop_drop, h2, ← Spec.tailTokens_length, List.drop_left]
    rw [Parser.expressionLoop]
    simp only
    rw [Parser.match_either hrest ho1 (by decide) (by decide)]
    simp only [if_true]
    rw [Parser.tokenAt_last hrest, hterm]
    simp only [bind, Except.bind]
    exact ih htail (fun t ht => hv t (by simp [ht])) fuel _ _ hrest2 (by simp at hfuel; omega)

theorem Spec.termsTokens_append (ts us : List (Op × Str × List (Op × Str))) :
    Spec.termsTokens (ts ++ us) = Spec.termsTokens ts ++ Spec.termsTokens us := by
  induction ts with
  | nil => rfl
  | cons t ts ih =>
    obtain ⟨o, n, fs⟩ := t
    simp [Spec.termsTokens, ih]

/-- The method `parse` fails when `factor` fails behind an operator that
follows a well-formed expression. -/
theorem parse_factor_error {α : Type} (D : DoubleOps α) (v : Str → α) (n1 : Str)
    (rest : List (Op × Str)) (o : Op) (suffix : List Token) (err : Error)
    (hv : D.Reads v (n1 :: Spec.numerals rest))
    (hfail : ∀ q : Parser, q.m_tokens.drop q.m_current = suffix →
      Parser.factor D q = .error err) :
    parse D ({ type := .NUMBER, value := n1 } :: Spec.tailTokens rest ++
        { type := o.token } :: suffix) =
      .error err := by
  obtain ⟨h1, h2⟩ := Spec.groupTerms_tiers rest
  have htok := Spec.groupTerms_tokens rest
  obtain ⟨v1, v2⟩ := Spec.groupTerms_numerals (fun n => D.stod n = .ok (v n)) rest
    (fun n hn => hv n (List.mem_cons_of_mem _ hn))
  have hv1 : D.stod n1 = .ok (v n1) := hv n1 (List.mem_cons_self _ _)
  generalize Spec.groupTerms rest = g at h1 h2 v1 v2 htok
  have hlenT := Spec.termsTokens_length g.2
  unfold parse Parser.parse Parser.expression Parser.new
  by_cases ho : o.isMul = true
  · rcases List.eq_nil_or_concat g.2 with hg | ⟨ts, t, hg⟩
    · rw [hg] at htok
      simp only [Spec.termsTokens, List.append_nil] at htok
      rw [Parser.term_fail D v n1 g.1 h1 hv1 v1 o ho _ suffix err (by simp [htok]) hfail]
      rfl
    · obtain ⟨oa, n, fs⟩ := t
      rw [List.concat_eq_append] at hg
      rw [hg] at h2 v2 htok hlenT
      have hts : ∀ t ∈ ts, t.1.isMul = false ∧ ∀ f ∈ t.2.2, f.1.isMul = true :=
        fun t ht => h2 t (by simp [ht])
      have hvs : ∀ t ∈ ts, D.stod t.2.1 = .ok (v t.2.1) ∧
          ∀ f ∈ t.2.2, D.stod f.2 = .ok (v f.2) :=
        fun t ht => v2 t (by simp [ht])
      obtain ⟨hoa, hfs⟩ := h2 (oa, n, fs) (by simp)
      obtain ⟨hvn, hvfs⟩ := v2 (oa, n, fs) (by simp)
      rw [Spec.termsTokens_append] at htok
      simp only [Spec.termsTokens, List.append_nil] at htok
      have hterm := Parser.term_chain D v n1 g.1 h1 hv1 v1
        { m_tokens := { type := .NUMBER, value := n1 } :: Spec.tailTokens rest ++
            { type := o.token } :: suffix, m_current := 0 }
        (Spec.termsTokens ts ++ { type := oa.token } :: { type := .NUMBER, value := n } ::
          (Spec.tailTokens fs ++ { type := o.token } :: suffix))
        (by simp [htok])
        (Spec.termsTokens_head ts (fun t ht => (hts t ht).1) _ (by
          intro t ht
          simp only [List.head?_cons, Option.mem_def, Option.some.injEq] at ht
          subst ht
          revert hoa
          cases oa <;> simp [Op.isMul, Op.token]))
      rw [hterm]
      simp only [bind, Except.bind]
      rw [Parser.expressionLoop_fail D v ts hts hvs oa hoa
        ({ type := .NUMBER, value := n } :: (Spec.tailTokens fs ++ { type := o.token } :: suffix))
        err (fun q hq => Parser.term_fail D v n fs hfs hvn hvfs o ho q suffix err hq hfail)]
      · show List.drop (0 + 1 + 2 * g.1.length) _ = _
        rw [htok, Nat.zero_add, Nat.add_comm, List.cons_append, List.drop_succ_cons]
        simp only [List.append_assoc, List.cons_append]
        rw [← Spec.tailTokens_length, List.drop_left]
      · have hl := Spec.termsTokens_length ts
        simp only [htok, List.length_cons, List.length_append]
        omega
  · have ho2 : o.isMul = false := by simpa using ho
    have hterm := Parser.term_chain D v n1 g.1 h1 hv1 v1
      { m_tokens := { type := .NUMBER, value := n1 } :: Spec.tailTokens rest ++
          { type := o.token } :: suffix, m_current := 0 }
      (Spec.termsTokens g.2 ++ { type := o.token } :: suffix)
      (by simp [htok])
      (Spec.termsTokens_head g.2 (fun t ht => (h2 t ht).1) _ (by
        intro t ht
        simp only [List.head?_cons, Option.mem_def, Option.some.injEq] at ht
        subst ht
        revert ho2
        cases o <;> simp [Op.isMul, Op.token]))
    rw [hterm]
    simp only [bind, Except.bind]
    rw [Parser.expressionLoop_fail D v g.2 h2 v2 o ho2 suffix err
      (fun q hq => Parser.term_fail_first D q err (hfail q hq))]
    · show List.drop (0 + 1 + 2 * g.1.length) _ = _
      rw [htok, Nat.zero_add, Nat.add_comm, List.cons_append, List.drop_succ_cons,
        List.append_assoc, ← Spec.tailTokens_length, List.drop_left]
    · simp only [htok, List.length_cons, List.length_append]
      omega

/-- The method `parse` fails when an operator that follows a well-formed
expression is not followed by a NUMBER token. -/
theorem parse_missing_factor {α : Type} (D : DoubleOps α) (v : Str → α) (n1 : Str)
    (rest : List (Op × Str)) (o : Op) (suffix : List Token)
    (hv : D.Reads v (n1 :: Spec.numerals rest)) (hs : ∀ t ∈ suffix.head?, t.type ≠ .NUMBER) :
    parse D ({ type := .NUMBER, value := n1 } :: Spec.tailTokens rest ++
        { type := o.token } :: suffix) =
      .error (.runtime_error "Unexpected token") :=
  parse_factor_error D v n1 rest o suffix _ hv
    (fun q hq => Parser.factor_fail D q (by rw [hq]; exact hs))

/-- An exception of `std::stod` on a numeral that follows a well-formed
expression and an operator leaves `parse`. -/
theorem parse_stod_error {α : Type} (D : DoubleOps α) (v : Str → α) (n1 : Str)
    (rest : List (Op × Str)) (o : Op) (n : Str) (suffix : List Token) (err : Error)
    (hv : D.Reads v (n1 :: Spec.numerals rest)) (hn : D.stod n = .error err) :
    parse D ({ type := .NUMBER, value := n1 } :: Spec.tailTokens rest ++
        { type := o.token } :: { type := .NUMBER, value := n } :: suffix) =
      .error err :=
  parse_factor_error D v n1 rest o _ err hv
    (fun _ hq => Parser.factor_number_error D hq hn)

end Calc

namespace Calc

/-! ## The type `double`: binary logarithm, normal form, rounding, conversion of numerals -/

theorem Double.log2Loop_spec : ∀ (fuel n : Nat), 0 < n → n ≤ fuel →
    2 ^ Double.log2Loop fuel n ≤ n ∧ n < 2 ^ (Double.log2Loop fuel n + 1) := by
  intro fuel
  induction fuel with
  | zero => intro n h1 h2; omega
  | succ fuel ih =>
    intro n h1 h2
    rw [Double.log2Loop]
    by_cases h : n < 2
    · rw [if_pos h]
      simp only [pow_zero, zero_add, pow_one]
      omega
    · rw [if_neg h]
      obtain ⟨a, b⟩ := ih (n / 2) (by omega) (by omega)
      rw [pow_succ, pow_succ]
      rw [pow_succ] at b
      constructor <;> omega

theorem Double.log2_spec (n : Nat) (h : 0 < n) :
    2 ^ Double.log2 n ≤ n ∧ n < 2 ^ (Double.log2 n + 1) :=
  Double.log2Loop_spec n n h (Nat.le_refl n)

theorem Double.log2_unique (n a : Nat) (h1 : 2 ^ a ≤ n) (h2 : n < 2 ^ (a + 1)) :
    Double.log2 n = a := by
  have hn : 0 < n := Nat.lt_of_lt_of_le (Nat.two_pow_pos a) h1
  obtain ⟨s1, s2⟩ := Double.log2_spec n hn
  have l1 : Double.log2 n < a + 1 :=
    (Nat.pow_lt_pow_iff_right (by decide : 1 < 2)).mp (Nat.lt_of_le_of_lt s1 h2)
  have l2 : a < Double.log2 n + 1 :=
    (Nat.pow_lt_pow_iff_right (by decide : 1 < 2)).mp (Nat.lt_of_le_of_lt h1 s2)
  omega

theorem Double.log2_pow (i : Nat) : Double.log2 (2 ^ i) = i :=
  Double.log2_unique _ i (Nat.le_refl _) (Nat.pow_lt_pow_right (by decide) (by omega))

theorem Double.log2_double (m : Nat) (h : 0 < m) : Double.log2 (2 * m) = Double.log2 m + 1 := by
  obtain ⟨s1, s2⟩ := Double.log2_spec m h
  apply Double.log2_unique
  · rw [pow_succ]; omega
  · rw [pow_succ]; omega

theorem Double.log2_lt (n b : Nat) (h : n < 2 ^ b) (hn : 0 < n) : Double.log2 n < b := by
  obtain ⟨s1, _⟩ := Double.log2_spec n hn
  exact (Nat.pow_lt_pow_iff_right (by decide : 1 < 2)).mp (Nat.lt_of_le_of_lt s1 h)

/-- Moving a factor of two from the mantissa into the exponent gives the same
normal form. -/
theorem Double.normal_double (negative : Bool) (m : Nat) (e : Int) :
    Double.normal negative (2 * m) e = Double.normal negative m (e + 1) := by
  by_cases hm : m = 0
  · subst hm; rfl
  · have hpos : 0 < m := Nat.pos_of_ne_zero hm
    have hg : 0 < Nat.gcd m (2 ^ (Double.log2 m + 1)) :=
      Nat.gcd_pos_of_pos_left _ hpos
    unfold Double.normal
    rw [if_neg (by omega), if_neg hm]
    simp only []
    rw [Double.log2_double m hpos, pow_succ _ (Double.log2 m + 1), Nat.mul_comm _ 2,
      Nat.gcd_mul_left, Nat.mul_div_mul_left _ _ (by decide : 0 < 2),
      Double.log2_double _ hg]
    congr 1
    push_cast
    omega

theorem Double.normal_shift (negative : Bool) (m j : Nat) (e : Int) :
    Double.normal negative (m * 2 ^ j) e = Double.normal negative m (e + j) := by
  induction j generalizing e with
  | zero => simp
  | succ j ih =>
    rw [pow_succ, ← Nat.mul_assoc, Nat.mul_comm _ 2, Double.normal_double, ih]
    congr 1
    push_cast
    omega

/-- The normal form of a natural number is a mantissa and a non-negative
exponent whose product with the power of two is the number. -/
theorem Double.normal_nat (k : Nat) :
    ∃ m j : Nat, Double.normal false k 0 = .finite false m (j : Int) ∧ m * 2 ^ j = k := by
  by_cases hk : k = 0
  · subst hk; exact ⟨0, 0, rfl, rfl⟩
  · unfold Double.normal
    rw [if_neg hk]
    simp only []
    have hdvd : Nat.gcd k (2 ^ (Double.log2 k + 1)) ∣ 2 ^ (Double.log2 k + 1) :=
      Nat.gcd_dvd_right _ _
    obtain ⟨i, _, hi⟩ := (Nat.dvd_prime_pow Nat.prime_two).mp hdvd
    refine ⟨k / Nat.gcd k (2 ^ (Double.log2 k + 1)),
      Double.log2 (Nat.gcd k (2 ^ (Double.log2 k + 1))), by simp, ?_⟩
    rw [hi, Double.log2_pow, ← hi]
    exact Nat.div_mul_cancel (Nat.gcd_dvd_left _ _)

theorem Double.ilog2_nat (k : Nat) (hk : 0 < k) :
    Double.ilog2 k 1 = (Double.log2 k : Int) := by
  have h1 : Double.log2 1 = 0 := rfl
  unfold Double.ilog2
  simp only [h1, Nat.cast_zero, sub_zero, Int.natCast_nonneg, if_true, Int.toNat_ofNat, one_mul]
  rw [if_pos (Double.log2_spec k hk).1]

/-- A natural number of at most 53 bits is a `double`: its conversion is
exact. -/
theorem Double.ofNat_exact (k : Nat) (hk : k < 2 ^ 53) :
    Double.ofNat k = Double.normal false k 0 := by
  by_cases h0 : k = 0
  · subst h0; rfl
  · have hpos : 0 < k := Nat.pos_of_ne_zero h0
    have hl : Double.log2 k < 53 := Double.log2_lt k 53 hk hpos
    obtain ⟨s1, s2⟩ := Double.log2_spec k hpos
    have hq : Double.quantum k 1 0 = (Double.log2 k : Int) - 52 := by
      unfold Double.quantum
      rw [Double.ilog2_nat k hpos]
      omega
    have hs : Double.scaled k 1 0 = (k * 2 ^ (52 - Double.log2 k), 1) := by
      unfold Double.scaled
      rw [hq]
      have e1 : (0 : Int) - ((Double.log2 k : Int) - 52) = ((52 - Double.log2 k : Nat) : Int) := by
        omega
      simp only [e1, Int.natCast_nonneg, if_true, Int.toNat_ofNat]
    have hn : Double.nearest k 1 0 = k * 2 ^ (52 - Double.log2 k) := by
      unfold Double.nearest
      simp [hs, Nat.mod_one]
    have hlt : k * 2 ^ (52 - Double.log2 k) < 2 ^ 53 := by
      calc k * 2 ^ (52 - Double.log2 k) < 2 ^ (Double.log2 k + 1) * 2 ^ (52 - Double.log2 k) :=
            Nat.mul_lt_mul_of_pos_right s2 (Nat.two_pow_pos _)
        _ = 2 ^ 53 := by rw [← pow_add]; congr 1; omega
    have hqpos : 0 < k * 2 ^ (52 - Double.log2 k) := Nat.mul_pos hpos (Nat.two_pow_pos _)
    have hlq := Double.log2_lt _ 53 hlt hqpos
    unfold Double.ofNat Double.round
    rw [if_neg h0]
    simp only [hq, hn]
    rw [if_neg (by omega), Double.normal_shift]
    congr 1
    omega

theorem Double.normal_isFinite (negative : Bool) (m : Nat) (e : Int) :
    (Double.normal negative m e).isFinite = true := by
  unfold Double.normal
  split <;> rfl

theorem Double.round_ne_nan (negative : Bool) (n d : Nat) (e : Int) :
    Double.round negative n d e ≠ .nan := by
  unfold Double.round
  split
  · intro h; cases h
  · simp only []
    split
    · intro h; cases h
    · intro h
      have := Double.normal_isFinite negative (Double.nearest n d e) (Double.quantum n d e)
      rw [h] at this
      cases this

/-- The end of `std::stod` for a natural number: the nearest `double`, or
`std::out_of_range` when that is an infinity. -/
theorem Double.converted_nat (k : Nat) :
    Double.converted false k 1 0 =
      if (Double.ofNat k).isFinite = true then .ok (Double.ofNat k)
      else .error (.out_of_range "stod") := by
  have htiny : ¬ (k ≠ 0 ∧ Double.tiny k 1 0 = true ∧
      (Double.scaled k 1 0).1 % (Double.scaled k 1 0).2 ≠ 0) := by
    rintro ⟨h0, ht, _⟩
    have hq : Double.quantum k 1 0 ≠ -1074 := by
      unfold Double.quantum
      rw [Double.ilog2_nat k (Nat.pos_of_ne_zero h0)]
      omega
    simp only [Double.tiny, decide_eq_true_eq] at ht
    exact hq ht.1
  have hnan := Double.round_ne_nan false k 1 0
  unfold Double.converted Double.ofNat
  cases hr : Double.round false k 1 0 with
  | finite s m e =>
    simp only []
    rw [if_neg htiny]
    rfl
  | inf s => rfl
  | nan => exact absurd hr hnan

theorem tolower_of_isdigit {c : Char} (h : isdigit c = true) : tolower c = c := by
  simp only [isdigit, Bool.and_eq_true, decide_eq_true_eq] at h
  unfold tolower
  rw [if_neg (by omega)]

/-- On a non-empty run of digits `std::stod` reads the whole run as a decimal
integer. -/
theorem Double.stod_numeral (n : Str) (h : IsNumeral n) :
    Double.stod n = Double.converted false (digitsValue n) 1 0 := by
  obtain ⟨hne, hdig⟩ := h
  obtain ⟨c, r, rfl⟩ := List.exists_cons_of_ne_nil hne
  have hc : isdigit c = true := hdig c (by simp)
  have hsp : isspace c = false := isspace_of_isdigit hc
  have hlow : tolower c = c := tolower_of_isdigit hc
  have hne1 : ∀ x : Char, isdigit x = false → c ≠ x := by
    intro x hx e; rw [e, hx] at hc; cases hc
  have hdw : (c :: r).dropWhile isspace = c :: r := by
    simp [List.dropWhile, hsp]
  have hsign : stoiSign (c :: r) = (false, c :: r) := by
    unfold stoiSign
    split
    · rename_i r1 heq
      injection heq with heq _
      exact absurd heq (hne1 _ (by decide))
    · rename_i r1 heq
      injection heq with heq _
      exact absurd heq (hne1 _ (by decide))
    · rfl
  have hinf : Double.beginsWith "inf".toList (c :: r) = false := by
    have : (tolower c == 'i') = false := by
      rw [hlow]; exact beq_false_of_ne (hne1 _ (by decide))
    simp [Double.beginsWith, this]
  have hnan : Double.beginsWith "nan".toList (c :: r) = false := by
    have : (tolower c == 'n') = false := by
      rw [hlow]; exact beq_false_of_ne (hne1 _ (by decide))
    simp [Double.beginsWith, this]
  have hhex : Double.hexFloat (c :: r) = none := by
    unfold Double.hexFloat
    split
    · rename_i x t heq
      injection heq with _ heq
      have hx : isdigit x = true := hdig x (by rw [heq]; simp)
      rw [if_neg]
      rw [tolower_of_isdigit hx]
      intro e; rw [e] at hx; exact absurd hx (by decide)
    · rfl
  have hdrop : (c :: r).dropWhile isdigit = [] := by
    rw [List.dropWhile_eq_nil_iff]
    exact hdig
  have htake : (c :: r).takeWhile isdigit = c :: r := by
    have := takeWhile_append_stop isdigit (c :: r) [] hdig (by simp)
    simpa using this
  have hdec : Double.decimalFloat (c :: r) = some (digitsValue (c :: r), 0) := by
    unfold Double.decimalFloat Double.digitRuns
    simp only [hdrop, htake]
    simp [Double.exponentPart]
  unfold Double.stod
  simp only [hdw, hsign, hinf, hnan, hhex, hdec, Bool.false_eq_true, if_false]
  simp

/-- A natural number of at most `2^53` is a `double`: it is converted to a
mantissa and a non-negative exponent whose product with the power of two is
the number. -/
theorem Double.ofNat_value (k : Nat) (hk : k ≤ 2 ^ 53) :
    ∃ m j : Nat, Double.ofNat k = .finite false m (j : Int) ∧ m * 2 ^ j = k := by
  rcases Nat.lt_or_ge k (2 ^ 53) with h | h
  · rw [Double.ofNat_exact k h]
    exact Double.normal_nat k
  · have e : k = 2 ^ 53 := Nat.le_antisymm hk h
    subst e
    exact ⟨1, 53, by rfl, by norm_num⟩

/-- The number that `std::stod` returns for a non-empty run of digits is the
`double` nearest to the integer that the digits denote, and it is finite. -/
theorem Double.stod_numeral_ok (n : Str) (h : IsNumeral n) (x : Double)
    (hx : Double.stod n = .ok x) :
    x = Double.ofNat (digitsValue n) ∧ x.isFinite = true := by
  rw [Double.stod_numeral n h, Double.converted_nat] at hx
  split at hx
  · rename_i hf
    injection hx with hx
    rw [← hx]
    exact ⟨rfl, hf⟩
  · cases hx

/-- The function `std::stod` converts a non-empty run of digits whose nearest
`double` is finite, and throws `std::out_of_range` on every other one. -/
theorem Double.stod_numeral_cases (n : Str) (h : IsNumeral n) :
    ((Double.ofNat (digitsValue n)).isFinite = true →
      Double.stod n = .ok (Double.ofNat (digitsValue n))) ∧
    ((Double.ofNat (digitsValue n)).isFinite = false →
      Double.stod n = .error (.out_of_range "stod")) := by
  rw [Double.stod_numeral n h, Double.converted_nat]
  constructor
  · intro hf; rw [if_pos hf]
  · intro hf; rw [if_neg (by rw [hf]; decide)]

/-- The numbers that `std::stod` returns for numerals whose nearest `double`
is finite. -/
theorem binary64_reads (texts : List Str) (h : ∀ n ∈ texts, IsNumeral n)
    (hf : ∀ n ∈ texts, (Double.ofNat (digitsValue n)).isFinite = true) :
    binary64.Reads (fun n => Double.ofNat (digitsValue n)) texts :=
  fun n hn => (Double.stod_numeral_cases n (h n hn)).1 (hf n hn)

/-- The number `Double.ilog2 n d` is the floor of the binary logarithm of
`n / d`: with `L` for it, `2^L ≤ n / d < 2^(L+1)`, written without fractions
for either sign of `L`. -/
theorem Double.ilog2_spec (n d : Nat) (hn : 0 < n) (hd : 0 < d) :
    (0 ≤ Double.ilog2 n d →
      d * 2 ^ (Double.ilog2 n d).toNat ≤ n ∧ n < d * 2 ^ ((Double.ilog2 n d).toNat + 1)) ∧
    (Double.ilog2 n d < 0 →
      d ≤ n * 2 ^ (-Double.ilog2 n d).toNat ∧ n * 2 ^ (-Double.ilog2 n d).toNat < 2 * d) := by
  obtain ⟨a1, a2⟩ := Double.log2_spec n hn
  obtain ⟨b1, b2⟩ := Double.log2_spec d hd
  unfold Double.ilog2
  simp only []
  generalize Double.log2 n = a at *
  generalize Double.log2 d = b at *
  rcases Nat.lt_or_ge a b with hab | hab
  · -- the numerator has fewer bits
    obtain ⟨k, rfl⟩ : ∃ k, b = a + k + 1 := ⟨b - a - 1, by omega⟩
    have hl : ((a : Int) - ((a + k + 1 : Nat) : Int)) = -((k + 1 : Nat) : Int) := by
      push_cast; omega
    rw [hl]
    have hk : (-(-((k + 1 : Nat) : Int))).toNat = k + 1 := by
      rw [neg_neg, Int.toNat_ofNat]
    have hneg : ¬ (0 : Int) ≤ -((k + 1 : Nat) : Int) := by push_cast; omega
    simp only [hneg, if_false, hk]
    have p1 : 2 ^ (a + k + 1) = 2 ^ a * 2 ^ (k + 1) := by rw [← pow_add, Nat.add_assoc]
    have p2 : 2 ^ (a + k + 1 + 1) = 2 * (2 ^ a * 2 ^ (k + 1)) := by
      rw [pow_succ, p1, Nat.mul_comm]
    have q1 : 2 ^ a * 2 ^ (k + 1) ≤ n * 2 ^ (k + 1) := Nat.mul_le_mul_right _ a1
    have q2 : n * 2 ^ (k + 1) < 2 ^ (a + 1) * 2 ^ (k + 1) :=
      Nat.mul_lt_mul_of_pos_right a2 (Nat.two_pow_pos _)
    have q3 : 2 ^ (a + 1) * 2 ^ (k + 1) = 2 * (2 ^ a * 2 ^ (k + 1)) := by
      rw [pow_succ]; ring
    by_cases ht : d ≤ n * 2 ^ (k + 1)
    · rw [if_pos ht]
      refine ⟨fun h => absurd h hneg, fun _ => ?_⟩
      rw [hk]
      exact ⟨ht, by omega⟩
    · rw [if_neg ht]
      have hl2 : -((k + 1 : Nat) : Int) - 1 = -((k + 2 : Nat) : Int) := by push_cast; omega
      rw [hl2]
      have hk2 : (-(-((k + 2 : Nat) : Int))).toNat = k + 2 := by
        rw [neg_neg, Int.toNat_ofNat]
      have hneg2 : ¬ (0 : Int) ≤ -((k + 2 : Nat) : Int) := by push_cast; omega
      refine ⟨fun h => absurd h hneg2, fun _ => ?_⟩
      rw [hk2]
      have p3 : n * 2 ^ (k + 2) = 2 * (n * 2 ^ (k + 1)) := by rw [pow_succ]; ring
      rw [p3]
      constructor <;> omega
  · obtain ⟨k, rfl⟩ : ∃ k, a = b + k := ⟨a - b, by omega⟩
    have hl : (((b + k : Nat) : Int) - (b : Int)) = (k : Int) := by push_cast; omega
    rw [hl]
    simp only [Int.natCast_nonneg, if_true, Int.toNat_ofNat]
    have p1 : 2 ^ (b + k) = 2 ^ b * 2 ^ k := by rw [pow_add]
    have p2 : 2 ^ (b + k + 1) = 2 * (2 ^ b * 2 ^ k) := by rw [pow_succ, p1, Nat.mul_comm]
    have q1 : 2 ^ b * 2 ^ k ≤ d * 2 ^ k := Nat.mul_le_mul_right _ b1
    have q2 : d * 2 ^ k < 2 ^ (b + 1) * 2 ^ k :=
      Nat.mul_lt_mul_of_pos_right b2 (Nat.two_pow_pos _)
    have q3 : 2 ^ (b + 1) * 2 ^ k = 2 * (2 ^ b * 2 ^ k) := by rw [pow_succ]; ring
    have q4 : d * 2 ^ (k + 1) = 2 * (d * 2 ^ k) := by rw [pow_succ]; ring
    by_cases ht : d * 2 ^ k ≤ n
    · rw [if_pos ht]
      simp only [Int.natCast_nonneg, Int.toNat_ofNat, true_implies]
      refine ⟨⟨ht, by omega⟩, fun h => by omega⟩
    · rw [if_neg ht]
      cases k with
      | zero =>
        simp only [pow_zero, Nat.mul_one, Nat.add_zero] at *
        refine ⟨fun h => by omega, fun _ => ?_⟩
        have e1 : (-(((0 : Nat) : Int) - 1)).toNat = 1 := by simp
        rw [e1]
        constructor <;> omega
      | succ j =>
        have e1 : (((j + 1 : Nat) : Int) - 1) = (j : Int) := by push_cast; omega
        rw [e1]
        simp only [Int.natCast_nonneg, Int.toNat_ofNat, true_implies]
        have r1 : d * 2 ^ (j + 1) = 2 * (d * 2 ^ j) := by rw [pow_succ]; ring
        have r2 : 2 ^ b * 2 ^ (j + 1) = 2 * (2 ^ b * 2 ^ j) := by rw [pow_succ]; ring
        have r3 : 2 ^ b * 2 ^ j ≤ d * 2 ^ j := Nat.mul_le_mul_right _ b1
        have r4 : d * 2 ^ j < 2 ^ (b + 1) * 2 ^ j :=
          Nat.mul_lt_mul_of_pos_right b2 (Nat.two_pow_pos _)
        have r5 : 2 ^ (b + 1) * 2 ^ j = 2 * (2 ^ b * 2 ^ j) := by rw [pow_succ]; ring
        refine ⟨⟨by omega, by omega⟩, fun h => by omega⟩

theorem Double.nearest_aux (a b : Nat) (hb : 0 < b) :
    2 * (a - (if b < 2 * (a % b) ∨ (2 * (a % b) = b ∧ a / b % 2 = 1) then a / b + 1
        else a / b) * b) ≤ b ∧
      2 * ((if b < 2 * (a % b) ∨ (2 * (a % b) = b ∧ a / b % 2 = 1) then a / b + 1
        else a / b) * b - a) ≤ b ∧
      (2 * (a - (if b < 2 * (a % b) ∨ (2 * (a % b) = b ∧ a / b % 2 = 1) then a / b + 1
          else a / b) * b) = b ∨
        2 * ((if b < 2 * (a % b) ∨ (2 * (a % b) = b ∧ a / b % 2 = 1) then a / b + 1
          else a / b) * b - a) = b →
        (if b < 2 * (a % b) ∨ (2 * (a % b) = b ∧ a / b % 2 = 1) then a / b + 1
          else a / b) % 2 = 0) := by
  have h1 := Nat.div_add_mod a b
  have h2 := Nat.mod_lt a hb
  have h3 : a / b * b = b * (a / b) := Nat.mul_comm _ _
  have h4 : (a / b + 1) * b = b * (a / b) + b := by rw [Nat.add_mul, Nat.one_mul, h3]
  split
  · rename_i h
    rw [h4]
    generalize b * (a / b) = c at *
    generalize a % b = r at *
    generalize a / b = q at *
    refine ⟨by omega, by omega, ?_⟩
    intro h5
    omega
  · rename_i h
    rw [h3]
    generalize b * (a / b) = c at *
    generalize a % b = r at *
    generalize a / b = q at *
    refine ⟨by omega, by omega, ?_⟩
    intro h5
    omega

/-- The multiple of the quantum that `Double.nearest` returns is within half
a quantum of the number, and it is even when the number lies halfway between
two multiples. -/
theorem Double.nearest_spec (n d : Nat) (e : Int) (hd : 0 < (Double.scaled n d e).2) :
    2 * ((Double.scaled n d e).1 - Double.nearest n d e * (Double.scaled n d e).2) ≤
        (Double.scaled n d e).2 ∧
      2 * (Double.nearest n d e * (Double.scaled n d e).2 - (Double.scaled n d e).1) ≤
        (Double.scaled n d e).2 ∧
      (2 * ((Double.scaled n d e).1 - Double.nearest n d e * (Double.scaled n d e).2) =
          (Double.scaled n d e).2 ∨
        2 * (Double.nearest n d e * (Double.scaled n d e).2 - (Double.scaled n d e).1) =
          (Double.scaled n d e).2 → Double.nearest n d e % 2 = 0) :=
  Double.nearest_aux _ _ hd

set_option maxRecDepth 100000 in
/-- Values of the operations of `double`: 0.1 and 0.2 are read as the nearest
doubles and their sum is 0.30000000000000004; the largest finite double is
read from its decimal form and the next decimal rounds to infinity, so that
`std::stod` throws; a text without digits is no number; a subnormal result
that is not exact is a range error; the conversion to `int` discards the
fraction. -/
theorem Double.examples :
    Double.stod "0.1".toList = .ok (.finite false 3602879701896397 (-55)) ∧
    Double.stod "0.2".toList = .ok (.finite false 3602879701896397 (-54)) ∧
    Double.add (.finite false 3602879701896397 (-55)) (.finite false 3602879701896397 (-54)) =
      .finite false 1351079888211149 (-52) ∧
    Double.stod "1.7976931348623157e308".toList = .ok (.finite false (2 ^ 53 - 1) 971) ∧
    Double.stod "1.7976931348623159e308".toList = .error (.out_of_range "stod") ∧
    Double.stod "".toList = .error (.invalid_argument "stod") ∧
    Double.stod "abc".toList = .error (.invalid_argument "stod") ∧
    Double.stod " -0x1.8p1rest".toList = .ok (.finite true 3 0) ∧
    Double.stod "1e-320".toList = .error (.out_of_range "stod") ∧
    Double.div (Double.ofNat 1) (Double.ofNat 3) = .finite false 6004799503160661 (-54) ∧
    Double.toInt (Double.div (Double.ofNat 7) (Double.ofNat 2)) = 3 ∧
    Double.toInt (Double.neg (Double.div (Double.ofNat 7) (Double.ofNat 2))) = -3 ∧
    Double.toInt (Double.ofNat 2147483647) = 2147483647 := by
  refine ⟨by decide!, by decide!, by decide!, by decide!, by decide!, by decide!, by decide!,
    by decide!, by decide!, by decide!, by decide!, by decide!, by decide!⟩

end Calc

namespace Calc

/-! ## Shapes of the parsed trees, missing factors, trailing tokens -/

theorem Spec.groupTerms_all_mul (rest : List (Op × Str)) (h : ∀ p ∈ rest, p.1.isMul = true) :
    Spec.groupTerms rest = (rest, []) := by
  induction rest with
  | nil => rfl
  | cons p rest ih =>
    obtain ⟨o, n⟩ := p
    have ho : o.isMul = true := h (o, n) (by simp)
    simp [Spec.groupTerms, ho, ih (fun q hq => h q (by simp [hq]))]

theorem Spec.groupTerms_all_add (rest : List (Op × Str)) (h : ∀ p ∈ rest, p.1.isMul = false) :
    Spec.groupTerms rest = ([], rest.map (fun p => (p.1, p.2, []))) := by
  induction rest with
  | nil => rfl
  | cons p rest ih =>
    obtain ⟨o, n⟩ := p
    have ho : o.isMul = false := h (o, n) (by simp)
    simp [Spec.groupTerms, ho, ih (fun q hq => h q (by simp [hq]))]

theorem Spec.sumTree_single_terms {α : Type} (v : Str → α) (rest : List (Op × Str)) :
    ∀ e : Expression α,
      Spec.sumTree v e (rest.map (fun p => (p.1, p.2, []))) = Spec.chainTree v e rest := by
  induction rest with
  | nil => intro e; rfl
  | cons p rest ih =>
    intro e
    simp only [List.map_cons, Spec.sumTree, Spec.chainTree, List.foldl_cons, List.foldl_nil]
    exact ih _

/-- The tree of a chain of operators of one tier is the left fold. -/
theorem Spec.tree_same_tier {α : Type} (v : Str → α) (n1 : Str) (rest : List (Op × Str))
    (h : (∀ p ∈ rest, p.1.isMul = true) ∨ (∀ p ∈ rest, p.1.isMul = false)) :
    Spec.tree v n1 rest = Spec.chainTree v (.NumberExpr (v n1)) rest := by
  rcases h with h | h
  · simp only [Spec.tree, Spec.groupTerms_all_mul rest h]
    rfl
  · simp only [Spec.tree, Spec.groupTerms_all_add rest h]
    exact Spec.sumTree_single_terms v rest _

/-- C14 (as stated, refuted): the claim holds of no sequence in which a NUMBER
token carries a text that `std::stod` does not convert. For `a + b * c` with
`a` the numeral 1 followed by 400 zeros, `b` = 2 and `c` = 3 (the tokens that
the lexer produces for that input), `parse` returns no tree: `std::stod`
throws `std::out_of_range` in `factor`. -/
theorem parse_number_out_of_range :
    tokenize ('1' :: List.replicate 400 '0' ++ "+2*3".toList) =
      .ok [{ type := .NUMBER, value := '1' :: List.replicate 400 '0' }, { type := .PLUS },
        { type := .NUMBER, value := "2".toList }, { type := .MULTIPLY },
        { type := .NUMBER, value := "3".toList }, { type := .EOL }] ∧
    parse binary64 [{ type := .NUMBER, value := '1' :: List.replicate 400 '0' },
        { type := .PLUS }, { type := .NUMBER, value := "2".toList }, { type := .MULTIPLY },
        { type := .NUMBER, value := "3".toList }, { type := .EOL }] =
      .error (.out_of_range "stod") := by
  constructor
  · decide!
  · decide!

/-- C14 (amended): `parse` builds left-associative trees with two tiers of
precedence. For NUMBER tokens a, b, c whose texts `std::stod` converts (`v`
names the numbers it returns) the sequence `a op1 b op2 c` with both operators
of one tier parses to Binary(Binary(a, op1, b), op2, c); with op1 in {+, -}
and op2 in {*, /} (as in `a + b * c`) it parses to Binary(a, op1, Binary(b,
op2, c)), and with op1 in {*, /} and op2 in {+, -} (as in `a * b + c`) to
Binary(Binary(a, op1, b), op2, c); the tree of a chain of any length with
operators of one tier, over texts that `std::stod` converts, is the left
fold. On the first NUMBER token whose text `std::stod` does not convert,
`parse` ends with the exception of `std::stod` and returns no tree. -/
theorem parse_left_associative {α : Type} (D : DoubleOps α) (v : Str → α) (a b c : Str)
    (o1 o2 : Op) (hv : D.Reads v [a, b, c]) :
    (o1.isMul = o2.isMul →
      parse D [{ type := .NUMBER, value := a }, { type := o1.token },
          { type := .NUMBER, value := b }, { type := o2.token },
          { type := .NUMBER, value := c }, { type := .EOL }] =
        .ok (.BinaryExpr (.BinaryExpr (.NumberExpr (v a)) o1.token (.NumberExpr (v b)))
          o2.token (.NumberExpr (v c)))) ∧
    (o1.isMul = false → o2.isMul = true →
      parse D [{ type := .NUMBER, value := a }, { type := o1.token },
          { type := .NUMBER, value := b }, { type := o2.token },
          { type := .NUMBER, value := c }, { type := .EOL }] =
        .ok (.BinaryExpr (.NumberExpr (v a)) o1.token
          (.BinaryExpr (.NumberExpr (v b)) o2.token (.NumberExpr (v c))))) ∧
    (o1.isMul = true → o2.isMul = false →
      parse D [{ type := .NUMBER, value := a }, { type := o1.token },
          { type := .NUMBER, value := b }, { type := o2.token },
          { type := .NUMBER, value := c }, { type := .EOL }] =
        .ok (.BinaryExpr (.BinaryExpr (.NumberExpr (v a)) o1.token (.NumberExpr (v b)))
          o2.token (.NumberExpr (v c)))) ∧
    (∀ (n1 : Str) (rest : List (Op × Str)), D.Reads v (n1 :: Spec.numerals rest) →
      ((∀ p ∈ rest, p.1.isMul = true) ∨ (∀ p ∈ rest, p.1.isMul = false)) →
      parse D ({ type := .NUMBER, value := n1 } :: Spec.tailTokens rest ++ [{ type := .EOL }]) =
        .ok (rest.foldl (fun e f => .BinaryExpr e f.1.token (.NumberExpr (v f.2)))
          (.NumberExpr (v n1)))) ∧
    (∀ (n : Str) (suffix : List Token) (err : Error), D.stod n = .error err →
      parse D ({ type := .NUMBER, value := n } :: suffix) = .error err) ∧
    (∀ (n1 : Str) (rest : List (Op × Str)) (o : Op) (n : Str) (suffix : List Token) (err : Error),
      D.Reads v (n1 :: Spec.numerals rest) → D.stod n = .error err →
      parse D ({ type := .NUMBER, value := n1 } :: Spec.tailTokens rest ++
          { type := o.token } :: { type := .NUMBER, value := n } :: suffix) = .error err) := by
  have h3 := parse_exprTokens D v a [(o1, b), (o2, c)] hv
  simp only [Spec.tailTokens, List.cons_append, List.nil_append] at h3
  refine ⟨?_, ?_, ?_, ?_, parse_number_error D,
    fun n1 rest o n suffix err hr hn => parse_stod_error D v n1 rest o n suffix err hr hn⟩
  · intro h
    rw [h3]
    cases o1 <;> cases o2 <;> simp [Op.isMul] at h <;> rfl
  · intro h1 h2
    rw [h3]
    cases o1 <;> cases o2 <;> simp [Op.isMul] at h1 h2 <;> rfl
  · intro h1 h2
    rw [h3]
    cases o1 <;> cases o2 <;> simp [Op.isMul] at h1 h2 <;> rfl
  · intro n1 rest hr h
    rw [parse_exprTokens D v n1 rest hr, Spec.tree_same_tier v n1 rest h]
    rfl

/-- The tokens of `2 + 3 * 4` in `double`: `std::stod` converts the three
texts, and the sequence parses to Binary(2, +, Binary(3, *, 4)). -/
theorem parse_left_associative_witness :
    binary64.Reads (fun n => Double.ofNat (digitsValue n))
        ["2".toList, "3".toList, "4".toList] ∧
      parse binary64 [{ type := .NUMBER, value := "2".toList }, { type := .PLUS },
          { type := .NUMBER, value := "3".toList }, { type := .MULTIPLY },
          { type := .NUMBER, value := "4".toList }, { type := .EOL }] =
        .ok (.BinaryExpr (.NumberExpr (Double.ofNat 2)) .PLUS
          (.BinaryExpr (.NumberExpr (Double.ofNat 3)) .MULTIPLY (.NumberExpr (Double.ofNat 4)))) :=
  have hv : binary64.Reads (fun n => Double.ofNat (digitsValue n))
      ["2".toList, "3".toList, "4".toList] := by
    intro n hn
    simp only [List.mem_cons, List.mem_singleton, List.not_mem_nil, or_false] at hn
    rcases hn with rfl | rfl | rfl <;> rfl
  ⟨hv, (parse_left_associative binary64 (fun n => Double.ofNat (digitsValue n)) "2".toList
    "3".toList "4".toList .plus .times hv).2.1 rfl rfl⟩

theorem parse_head_not_number {α : Type} (D : DoubleOps α) (tokens : List Token)
    (h : ∀ t ∈ tokens.head?, t.type ≠ .NUMBER) :
    parse D tokens = .error (.runtime_error "Unexpected token") := by
  unfold parse Parser.parse Parser.expression Parser.new
  rw [Parser.term_fail_factor D _ (by simpa using h)]
  rfl

/-- C15: `parse` raises "Unexpected token" and returns no tree whenever a
factor position does not hold a NUMBER token: when the first token is not a
NUMBER (the token sequence of the empty input, of "+"), and when an operator
that follows a well-formed expression, and is therefore consumed (every
`std::stod` before it has returned), is followed by a token that is not a
NUMBER or by nothing (as in "2+" and "2+*3"). -/
theorem parse_unexpected_token {α : Type} (D : DoubleOps α) :
    (∀ tokens : List Token, (∀ t ∈ tokens.head?, t.type ≠ .NUMBER) →
      parse D tokens = .error (.runtime_error "Unexpected token")) ∧
    (∀ (v : Str → α) (n1 : Str) (rest : List (Op × Str)) (o : Op) (suffix : List Token),
      D.Reads v (n1 :: Spec.numerals rest) →
      (∀ t ∈ suffix.head?, t.type ≠ .NUMBER) →
      parse D ({ type := .NUMBER, value := n1 } :: Spec.tailTokens rest ++
          { type := o.token } :: suffix) =
        .error (.runtime_error "Unexpected token")) ∧
    parseText D [] = .error (.runtime_error "Unexpected token") ∧
    parseText D "+".toList = .error (.runtime_error "Unexpected token") ∧
    (∀ x : α, D.stod "2".toList = .ok x →
      parseText D "2+".toList = .error (.runtime_error "Unexpected token") ∧
      parseText D "2+*3".toList = .error (.runtime_error "Unexpected token")) ∧
    parseText binary64 "2+".toList = .error (.runtime_error "Unexpected token") ∧
    parseText binary64 "2+*3".toList = .error (.runtime_error "Unexpected token") := by
  refine ⟨parse_head_not_number D,
    fun v n1 rest o suffix hv hs => parse_missing_factor D v n1 rest o suffix hv hs,
    by rfl, by rfl, ?_, by rfl, by rfl⟩
  intro x hx
  have hv : D.Reads (fun _ => x) ("2".toList :: Spec.numerals []) := by
    intro n hn
    simp only [Spec.numerals, List.map, List.mem_singleton] at hn
    rw [hn]; exact hx
  have h1 : tokenize "2+".toList =
      .ok [{ type := .NUMBER, value := "2".toList }, { type := .PLUS }, { type := .EOL }] := by
    rfl
  have h2 : tokenize "2+*3".toList =
      .ok [{ type := .NUMBER, value := "2".toList }, { type := .PLUS }, { type := .MULTIPLY },
        { type := .NUMBER, value := "3".toList }, { type := .EOL }] := by
    rfl
  constructor
  · unfold parseText
    rw [h1]
    exact parse_missing_factor D _ "2".toList [] .plus [{ type := .EOL }] hv (by simp)
  · unfold parseText
    rw [h2]
    exact parse_missing_factor D _ "2".toList [] .plus
      [{ type := .MULTIPLY }, { type := .NUMBER, value := "3".toList }, { type := .EOL }] hv
      (by simp)

/-- C16 (as stated, refuted): for the inputs "2 3", "2)" and "2+3(4" the
parser raises no error; it returns the tree of 2, of 2 and of 2+3, and the
tokens after it stay unconsumed. -/
theorem parse_accepts_trailing_tokens :
    parseText binary64 "2 3".toList = .ok (.NumberExpr (Double.ofNat 2)) ∧
    parseText binary64 "2)".toList = .ok (.NumberExpr (Double.ofNat 2)) ∧
    parseText binary64 "2+3(4".toList =
      .ok (.BinaryExpr (.NumberExpr (Double.ofNat 2)) .PLUS (.NumberExpr (Double.ofNat 3))) :=
  ⟨by rfl, by rfl, by rfl⟩

/-- C16 (amended): `parse` raises no error when tokens remain unconsumed.
For a token sequence that begins with a well-formed expression
`n1 op1 n2 ... opk n(k+1)` whose numerals `std::stod` converts (`v` names the
numbers it returns), followed by any token that is not an operator (a NUMBER,
a parenthesis, an INVALID token, END) or by nothing, it returns the tree of
that expression and leaves the current index at the first token after it. -/
theorem parse_stops_before_trailing_tokens {α : Type} (D : DoubleOps α) (v : Str → α)
    (n1 : Str) (rest : List (Op × Str)) (suffix : List Token)
    (hv : D.Reads v (n1 :: Spec.numerals rest)) (hs : ∀ t ∈ suffix.head?, t.NotOperator) :
    (Parser.new ({ type := .NUMBER, value := n1 } :: Spec.tailTokens rest ++ suffix)).parse D =
        .ok (Spec.tree v n1 rest,
          { m_tokens := { type := .NUMBER, value := n1 } :: Spec.tailTokens rest ++ suffix,
            m_current := 1 + 2 * rest.length }) ∧
      parse D ({ type := .NUMBER, value := n1 } :: Spec.tailTokens rest ++ suffix) =
        .ok (Spec.tree v n1 rest) := by
  have h := Parser.parse_suffix D v n1 rest suffix hv hs
  refine ⟨h, ?_⟩
  unfold parse
  rw [h]
  rfl

/-- The tokens of "2+3(4" in `double`: the parser returns the tree of 2+3 and
stops at index 3, in front of the parenthesis. -/
theorem parse_stops_before_trailing_tokens_witness :
    binary64.Reads (fun n => Double.ofNat (digitsValue n))
        ("2".toList :: Spec.numerals [(.plus, "3".toList)]) ∧
      (Parser.new ({ type := .NUMBER, value := "2".toList } ::
          Spec.tailTokens [(.plus, "3".toList)] ++
          [{ type := .LPAREN }, { type := .NUMBER, value := "4".toList },
            { type := .EOL }])).parse binary64 =
        .ok (.BinaryExpr (.NumberExpr (Double.ofNat 2)) .PLUS (.NumberExpr (Double.ofNat 3)),
          { m_tokens := { type := .NUMBER, value := "2".toList } ::
              Spec.tailTokens [(.plus, "3".toList)] ++
              [{ type := .LPAREN }, { type := .NUMBER, value := "4".toList }, { type := .EOL }],
            m_current := 3 }) :=
  have hv : binary64.Reads (fun n => Double.ofNat (digitsValue n))
      ("2".toList :: Spec.numerals [(.plus, "3".toList)]) := by
    intro n hn
    simp only [Spec.numerals, List.map, List.mem_cons, List.mem_singleton, List.not_mem_nil,
      or_false] at hn
    rcases hn with rfl | rfl <;> rfl
  ⟨hv, (parse_stops_before_trailing_tokens binary64 (fun n => Double.ofNat (digitsValue n))
    "2".toList [(.plus, "3".toList)]
    [{ type := .LPAREN }, { type := .NUMBER, value := "4".toList }, { type := .EOL }] hv
    (by decide)).1⟩

end Calc

namespace Calc

/-! ## Characters outside the alphabet of the lexer -/

theorem Spec.IsInvalidChar.charToken {c : Char} (hc : Spec.IsInvalidChar c) :
    Lexer.charToken c = { type := .INVALID } := by
  have h := hc.2.2
  simp only [List.mem_cons, List.mem_singleton, List.not_mem_nil, or_false, not_or] at h
  obtain ⟨h1, h2, h3, h4, h5, h6⟩ := h
  unfold Lexer.charToken
  simp only [h1, h2, h3, h4, h5, h6, if_false]

theorem Spec.lexGo_numeral (n r : Str) (hn : IsNumeral n)
    (hr : ∀ c ∈ r.head?, isdigit c = false) :
    Spec.lexGo .start (n ++ r) = { type := .NUMBER, value := n } :: Spec.lexGo .start r := by
  obtain ⟨c, cs, rfl⟩ := List.exists_cons_of_ne_nil hn.1
  have hc : isdigit c = true := hn.2 c (by simp)
  have hcs : ∀ d ∈ cs, isdigit d = true := fun d hd => hn.2 d (by simp [hd])
  show Spec.lexGo .start (c :: (cs ++ r)) = _
  rw [Spec.lexGo]
  simp only [hc, if_true]
  rw [Spec.lexGo_number_append cs hcs, Spec.lexGo_number_stop _ _ hr]
  rfl

theorem Spec.lexGo_symbol (x : Char) (r : Str) (hd : isdigit x = false)
    (hs : isspace x = false) :
    Spec.lexGo .start (x :: r) = Lexer.charToken x :: Spec.lexGo .start r := by
  rw [Spec.lexGo]
  simp [hd, hs]

theorem Spec.tailText_append_head (rest : List (Op × Str)) (r : Str)
    (hr : ∀ c ∈ r.head?, isdigit c = false) :
    ∀ c ∈ (Spec.tailText rest ++ r).head?, isdigit c = false := by
  cases rest with
  | nil => simpa [Spec.tailText] using hr
  | cons p rest =>
    obtain ⟨o, n⟩ := p
    intro c hc
    simp only [Spec.tailText, List.cons_append, List.head?_cons, Option.mem_def,
      Option.some.injEq] at hc
    rw [← hc]
    exact Op.char_not_digit o

theorem Spec.lexGo_tailText (rest : List (Op × Str)) (r : Str)
    (hrest : ∀ p ∈ rest, IsNumeral p.2) (hr : ∀ c ∈ r.head?, isdigit c = false) :
    Spec.lexGo .start (Spec.tailText rest ++ r) = Spec.tailTokens rest ++ Spec.lexGo .start r := by
  induction rest with
  | nil => rfl
  | cons p rest ih =>
    obtain ⟨o, n⟩ := p
    have hn : IsNumeral n := hrest (o, n) (by simp)
    have ih1 := ih (fun q hq => hrest q (by simp [hq]))
    show Spec.lexGo .start (o.char :: (n ++ Spec.tailText rest ++ r)) = _
    rw [Spec.lexGo_symbol _ _ (Op.char_not_digit o) (Op.char_not_space o), Op.charToken_char,
      List.append_assoc, Spec.lexGo_numeral n _ hn (Spec.tailText_append_head rest r hr), ih1]
    rfl

/-- The tokens of a well-formed expression text followed by any text that
does not start with a digit. -/
theorem Spec.lexGo_exprText_append (n1 : Str) (rest : List (Op × Str)) (r : Str)
    (h1 : IsNumeral n1) (hrest : ∀ p ∈ rest, IsNumeral p.2)
    (hr : ∀ c ∈ r.head?, isdigit c = false) :
    Spec.lexGo .start (Spec.exprText n1 rest ++ r) =
      { type := .NUMBER, value := n1 } :: Spec.tailTokens rest ++ Spec.lexGo .start r := by
  unfold Spec.exprText
  rw [List.append_assoc, Spec.lexGo_numeral n1 _ h1 (Spec.tailText_append_head rest r hr),
    Spec.lexGo_tailText rest r hrest hr]
  rfl

theorem Spec.lexGo_invalid_mem (c : Char) (hc : Spec.IsInvalidChar c) (s : Str) :
    c ∈ s → ∀ st : Spec.LexState, ({ type := .INVALID } : Token) ∈ Spec.lexGo st s := by
  induction s with
  | nil => intro h; simp at h
  | cons d s ih =>
    intro hmem st
    rcases List.mem_cons.mp hmem with rfl | hin
    · have hd := hc.1
      have hs := hc.2.1
      have ht := hc.charToken
      cases st <;> rw [Spec.lexGo] <;> simp [hd, hs, ht]
    · have ih1 := ih hin
      cases st <;> rw [Spec.lexGo] <;> split_ifs <;> simp [ih1]

theorem parseText_eq {α : Type} (D : DoubleOps α) (input : Str) :
    parseText D input = parse D (Spec.lexGo .start input) := by
  unfold parseText
  rw [tokenize_eq_lexGo]
  rfl

/-- C17 (as stated, refuted): the inputs "2$3" and "2+3x" are lexed with an
INVALID token, and the parser returns the tree of 2 and of 2+3 for them. -/
theorem parseText_accepts_invalid_character :
    tokenize "2$3".toList =
      .ok [{ type := .NUMBER, value := "2".toList }, { type := .INVALID },
        { type := .NUMBER, value := "3".toList }, { type := .EOL }] ∧
    parseText binary64 "2$3".toList = .ok (.NumberExpr (Double.ofNat 2)) ∧
    parseText binary64 "2+3x".toList =
      .ok (.BinaryExpr (.NumberExpr (Double.ofNat 2)) .PLUS (.NumberExpr (Double.ofNat 3))) :=
  ⟨by rfl, by rfl, by rfl⟩

/-- C17 (amended): for a character c that is not a decimal digit, whitespace
or one of `+ - * / ( )`, `tokenize` emits an INVALID token for every input
that contains c. The parser fails with "Unexpected token" only where the
INVALID token stands at a factor position: at the start of the input, or
right after an operator that follows a well-formed expression. Where c
follows a well-formed expression `n1 op1 n2 ... opk n(k+1)`, the parser
returns the tree of that expression and ignores c and everything after it.
Both statements about a well-formed expression are for numerals that
`std::stod` converts (`v` names the numbers it returns); on a numeral that it
does not convert, `std::stod` throws before the parser reaches c. -/
theorem parseText_invalid_character {α : Type} (D : DoubleOps α) (c : Char)
    (hc : Spec.IsInvalidChar c) :
    (∀ s : Str, c ∈ s → ∃ toks, tokenize s = .ok toks ∧ ({ type := .INVALID } : Token) ∈ toks) ∧
    (∀ (v : Str → α) (n1 : Str) (rest : List (Op × Str)) (t : Str), IsNumeral n1 →
      (∀ p ∈ rest, IsNumeral p.2) → D.Reads v (n1 :: Spec.numerals rest) →
      parseText D (Spec.exprText n1 rest ++ c :: t) = .ok (Spec.tree v n1 rest)) ∧
    (∀ t : Str, parseText D (c :: t) = .error (.runtime_error "Unexpected token")) ∧
    (∀ (v : Str → α) (n1 : Str) (rest : List (Op × Str)) (o : Op) (t : Str), IsNumeral n1 →
      (∀ p ∈ rest, IsNumeral p.2) → D.Reads v (n1 :: Spec.numerals rest) →
      parseText D (Spec.exprText n1 rest ++ o.char :: c :: t) =
        .error (.runtime_error "Unexpected token")) ∧
    (∀ (n : Str) (t : Str) (err : Error), IsNumeral n → D.stod n = .error err →
      parseText D (n ++ c :: t) = .error err) := by
  have hd := hc.1
  have hs := hc.2.1
  have ht := hc.charToken
  refine ⟨?_, ?_, ?_, ?_, ?_⟩
  · intro s hmem
    exact ⟨_, tokenize_eq_lexGo s, Spec.lexGo_invalid_mem c hc s hmem .start⟩
  · intro v n1 rest t h1 hrest hv
    rw [parseText_eq, Spec.lexGo_exprText_append n1 rest (c :: t) h1 hrest
      (by simpa using hd), Spec.lexGo_symbol c t hd hs, ht]
    unfold parse
    rw [Parser.parse_suffix D v n1 rest _ hv (by simp)]
    rfl
  · intro t
    rw [parseText_eq, Spec.lexGo_symbol c t hd hs, ht]
    exact parse_head_not_number D _ (by simp)
  · intro v n1 rest o t h1 hrest hv
    rw [parseText_eq, Spec.lexGo_exprText_append n1 rest (o.char :: c :: t) h1 hrest
      (by simpa using Op.char_not_digit o),
      Spec.lexGo_symbol o.char _ (Op.char_not_digit o) (Op.char_not_space o), Op.charToken_char,
      Spec.lexGo_symbol c t hd hs, ht]
    exact parse_missing_factor D v n1 rest o _ hv (by simp)
  · intro n t err hn herr
    have e := Spec.lexGo_exprText_append n [] (c :: t) hn (by simp) (by simpa using hd)
    simp only [Spec.exprText, Spec.tailText, List.append_nil, Spec.tailTokens,
      List.cons_append, List.nil_append] at e
    rw [parseText_eq, e]
    exact parse_number_error D n _ err herr

/-- The character `$` after the expression 2+3 in `double`: an INVALID token
is emitted and the tree of 2+3 is returned. -/
theorem parseText_invalid_character_witness :
    Spec.IsInvalidChar '$' ∧
      parseText binary64 (Spec.exprText "2".toList [(.plus, "3".toList)] ++ '$' :: "4".toList) =
        .ok (.BinaryExpr (.NumberExpr (Double.ofNat 2)) .PLUS (.NumberExpr (Double.ofNat 3))) :=
  ⟨by decide, (parseText_invalid_character binary64 '$' (by decide)).2.1
    (fun n => Double.ofNat (digitsValue n)) "2".toList
    [(.plus, "3".toList)] "4".toList (by decide) (by decide) (by
      intro n hn
      simp only [Spec.numerals, List.map, List.mem_cons, List.mem_singleton, List.not_mem_nil,
        or_false] at hn
      rcases hn with rfl | rfl <;> rfl)⟩

end Calc

namespace Calc

/-! ## The order of the keys and the symbol table -/

theorem Char.toNat_eq {a b : Char} (h : a.toNat = b.toNat) : a = b := by
  apply Char.eq_of_val_eq
  apply UInt32.eq_of_val_eq
  exact Fin.ext h

theorem string_lt_irrefl (a : Str) : string_lt a a = false := by
  induction a with
  | nil => rfl
  | cons c cs ih => simp [string_lt, ih]

theorem string_lt_trans : ∀ (a b c : Str), string_lt a b = true → string_lt b c = true →
    string_lt a c = true := by
  intro a
  induction a with
  | nil =>
    intro b c hab hbc
    cases b with
    | nil => simp [string_lt] at hab
    | cons y ys =>
      cases c with
      | nil => simp [string_lt] at hbc
      | cons z zs => rfl
  | cons x xs ih =>
    intro b c hab hbc
    cases b with
    | nil => simp [string_lt] at hab
    | cons y ys =>
      cases c with
      | nil => simp [string_lt] at hbc
      | cons z zs =>
        simp only [string_lt] at hab hbc ⊢
        by_cases h1 : x.toNat < y.toNat
        · by_cases h2 : y.toNat < z.toNat
          · rw [if_pos (by omega)]
          · rw [if_neg h2] at hbc
            by_cases h3 : z.toNat < y.toNat
            · simp [h3] at hbc
            · rw [if_pos (by omega)]
        · rw [if_neg h1] at hab
          by_cases h1b : y.toNat < x.toNat
          · simp [h1b] at hab
          · rw [if_neg h1b] at hab
            by_cases h2 : y.toNat < z.toNat
            · rw [if_pos (by omega)]
            · rw [if_neg h2] at hbc
              by_cases h3 : z.toNat < y.toNat
              · simp [h3] at hbc
              · rw [if_neg h3] at hbc
                rw [if_neg (by omega), if_neg (by omega)]
                exact ih ys zs hab hbc

theorem string_lt_total : ∀ (a b : Str), a ≠ b → string_lt a b = false →
    string_lt b a = true := by
  intro a
  induction a with
  | nil =>
    intro b hne h
    cases b with
    | nil => exact absurd rfl hne
    | cons y ys => simp [string_lt] at h
  | cons x xs ih =>
    intro b hne h
    cases b with
    | nil => rfl
    | cons y ys =>
      simp only [string_lt] at h ⊢
      by_cases h1 : x.toNat < y.toNat
      · simp [h1] at h
      · rw [if_neg h1] at h
        by_cases h2 : y.toNat < x.toNat
        · rw [if_pos h2]
        · rw [if_neg h2] at h
          rw [if_neg h2, if_neg h1]
          have hxy : x = y := Char.toNat_eq (by omega)
          subst hxy
          exact ih ys (fun e => hne (by rw [e])) h

theorem string_lt_asymm (a b : Str) (h : string_lt a b = true) : string_lt b a = false := by
  cases hba : string_lt b a with
  | false => rfl
  | true =>
    have := string_lt_trans a b a h hba
    rw [string_lt_irrefl] at this
    cases this

theorem string_lt_ne (a b : Str) (h : string_lt a b = true) : a ≠ b := by
  intro e
  rw [e, string_lt_irrefl] at h
  cases h

/-- The keys after `m[key] = value`: the old keys and the key assigned. -/
theorem SymbolMap.setEntry_keys (t : List (Str × Symbol)) (key : Str) (value : Symbol) :
    ∀ k, k ∈ (SymbolMap.setEntry t key value).map Prod.fst ↔ k = key ∨ k ∈ t.map Prod.fst := by
  induction t with
  | nil => intro k; simp [SymbolMap.setEntry]
  | cons e t ih =>
    obtain ⟨k0, v0⟩ := e
    intro k
    unfold SymbolMap.setEntry
    by_cases h1 : key = k0
    · rw [if_pos h1]
      subst h1
      simp
    · rw [if_neg h1]
      by_cases h2 : string_lt key k0 = true
      · rw [if_pos h2]
        simp
      · rw [if_neg h2]
        simp only [List.map_cons, List.mem_cons, ih k]
        tauto

/-- The assignment `m[key] = value` keeps the keys in ascending order. -/
theorem SymbolMap.setEntry_sorted (t : List (Str × Symbol)) (key : Str) (value : Symbol)
    (h : t.Pairwise (fun e f => string_lt e.1 f.1 = true)) :
    (SymbolMap.setEntry t key value).Pairwise (fun e f => string_lt e.1 f.1 = true) := by
  induction t with
  | nil => simp [SymbolMap.setEntry]
  | cons e t ih =>
    obtain ⟨k0, v0⟩ := e
    rw [List.pairwise_cons] at h
    obtain ⟨h0, ht⟩ := h
    unfold SymbolMap.setEntry
    by_cases h1 : key = k0
    · rw [if_pos h1]
      exact List.pairwise_cons.mpr ⟨h0, ht⟩
    · rw [if_neg h1]
      by_cases h2 : string_lt key k0 = true
      · rw [if_pos h2]
        refine List.pairwise_cons.mpr ⟨?_, List.pairwise_cons.mpr ⟨h0, ht⟩⟩
        intro f hf
        rcases List.mem_cons.mp hf with rfl | hf
        · exact h2
        · exact string_lt_trans _ _ _ h2 (h0 f hf)
      · rw [if_neg h2]
        refine List.pairwise_cons.mpr ⟨?_, ih ht⟩
        intro f hf
        have hk : f.1 ∈ (SymbolMap.setEntry t key value).map Prod.fst :=
          List.mem_map_of_mem Prod.fst hf
        rcases (SymbolMap.setEntry_keys t key value f.1).mp hk with e | hk
        · rw [e]
          exact string_lt_total key k0 h1 (by simpa using h2)
        · obtain ⟨g, hg, hgf⟩ := List.mem_map.mp hk
          have := h0 g hg
          rw [hgf] at this
          exact this

/-- The value that `find` returns after `m[key] = value`. -/
theorem SymbolMap.findEntry_setEntry (t : List (Str × Symbol)) (key : Str) (value : Symbol)
    (h : t.Pairwise (fun e f => string_lt e.1 f.1 = true)) (k : Str) :
    SymbolMap.findEntry (SymbolMap.setEntry t key value) k =
      if key = k then some value else SymbolMap.findEntry t k := by
  induction t with
  | nil => simp [SymbolMap.setEntry, SymbolMap.findEntry]
  | cons e t ih =>
    obtain ⟨k0, v0⟩ := e
    rw [List.pairwise_cons] at h
    obtain ⟨h0, ht⟩ := h
    unfold SymbolMap.setEntry
    by_cases h1 : key = k0
    · rw [if_pos h1]
      subst h1
      simp only [SymbolMap.findEntry]
      by_cases hk : key = k
      · simp [hk]
      · simp [hk]
    · rw [if_neg h1]
      by_cases h2 : string_lt key k0 = true
      · rw [if_pos h2]
        simp only [SymbolMap.findEntry]
      · rw [if_neg h2]
        simp only [SymbolMap.findEntry, ih ht]
        by_cases hk0 : k0 = k
        · have : ¬ key = k := fun e => h1 (by rw [e, hk0])
          simp [hk0, this]
        · simp [hk0]

/-- The search fails exactly for the keys that the table does not have. -/
theorem SymbolMap.findEntry_eq_none (t : List (Str × Symbol)) (k : Str) :
    SymbolMap.findEntry t k = none ↔ k ∉ t.map Prod.fst := by
  induction t with
  | nil => simp [SymbolMap.findEntry]
  | cons e t ih =>
    obtain ⟨k0, v0⟩ := e
    simp only [SymbolMap.findEntry, List.map_cons, List.mem_cons, not_or]
    by_cases h : k0 = k
    · simp [h]
    · rw [if_neg h, ih]
      constructor
      · intro hk
        exact ⟨fun e => h e.symm, hk⟩
      · intro hk
        exact hk.2

theorem SymbolMap.foldl_set_sorted (symbols : List Symbol) : ∀ (m : SymbolMap), m.Sorted →
    (symbols.foldl (fun table sym => table.set sym.name sym) m).Sorted := by
  induction symbols with
  | nil => intro m h; exact h
  | cons s symbols ih =>
    intro m h
    exact ih _ (SymbolMap.setEntry_sorted m.entries s.name s h)

theorem SymbolMap.foldl_set_keys (symbols : List Symbol) : ∀ (m : SymbolMap) (k : Str),
    k ∈ (symbols.foldl (fun table sym => table.set sym.name sym) m).entries.map Prod.fst ↔
      k ∈ symbols.map Symbol.name ∨ k ∈ m.entries.map Prod.fst := by
  induction symbols with
  | nil => intro m k; simp
  | cons s symbols ih =>
    intro m k
    rw [List.foldl_cons, ih]
    simp only [SymbolMap.set, SymbolMap.setEntry_keys, List.map_cons, List.mem_cons]
    tauto

end Calc

namespace Calc

/-! ## resolveSymbols, applyRelocations, createExecutable -/

/-- The loop of `resolveSymbols` changes nothing but addresses, and those
only of entries that are not external. -/
theorem Linker.resolveLoop_frame (t : List (Str × Symbol)) : ∀ cur : Nat,
    List.Forall₂ (fun e f => f.1 = e.1 ∧ f.2.name = e.2.name ∧
      f.2.isExternal = e.2.isExternal ∧ (e.2.isExternal = true → f = e))
      t (Linker.resolveLoop t cur) := by
  induction t with
  | nil => intro cur; exact List.Forall₂.nil
  | cons e t ih =>
    obtain ⟨k, s⟩ := e
    intro cur
    unfold Linker.resolveLoop
    cases hs : s.isExternal with
    | true => exact List.Forall₂.cons ⟨rfl, rfl, rfl, fun _ => rfl⟩ (ih cur)
    | false =>
      refine List.Forall₂.cons ⟨rfl, rfl, hs.symm, ?_⟩ (ih _)
      intro h
      rw [hs] at h
      cases h

theorem Linker.resolveLoop_keys (t : List (Str × Symbol)) : ∀ cur : Nat,
    (Linker.resolveLoop t cur).map Prod.fst = t.map Prod.fst := by
  induction t with
  | nil => intro cur; rfl
  | cons e t ih =>
    obtain ⟨k, s⟩ := e
    intro cur
    unfold Linker.resolveLoop
    cases hs : s.isExternal <;> simp [ih]

theorem Linker.resolveLoop_externals (t : List (Str × Symbol)) : ∀ cur : Nat,
    (Linker.resolveLoop t cur).filter (fun e => e.2.isExternal) =
      t.filter (fun e => e.2.isExternal) := by
  induction t with
  | nil => intro cur; rfl
  | cons e t ih =>
    obtain ⟨k, s⟩ := e
    intro cur
    unfold Linker.resolveLoop
    cases hs : s.isExternal <;> simp [ih, hs]

/-- The entries that are not external get the addresses that they get when
the external entries are taken out of the table. -/
theorem Linker.resolveLoop_locals (t : List (Str × Symbol)) : ∀ cur : Nat,
    (Linker.resolveLoop t cur).filter (fun e => !e.2.isExternal) =
      Linker.resolveLoop (t.filter (fun e => !e.2.isExternal)) cur := by
  induction t with
  | nil => intro cur; rfl
  | cons e t ih =>
    obtain ⟨k, s⟩ := e
    intro cur
    cases hs : s.isExternal with
    | true =>
      rw [Linker.resolveLoop]
      simp only [hs, Bool.not_true, Bool.false_eq_true, if_false, List.filter_cons, ih]
    | false =>
      rw [Linker.resolveLoop]
      simp only [hs, Bool.not_false, if_true, List.filter_cons, ih]
      rw [Linker.resolveLoop]
      simp only [hs, Bool.not_false, if_true]

/-- On a table without external entries the loop numbers the entries: entry
`k` gets the address `currentAddress + 4 * k`. -/
theorem Linker.resolveLoop_addresses (t : List (Str × Symbol))
    (hloc : ∀ e ∈ t, e.2.isExternal = false) : ∀ cur : Nat, cur + 4 * t.length ≤ 2 ^ 64 →
    (Linker.resolveLoop t cur).map (fun e => e.2.address) =
      (List.range t.length).map (fun k => cur + 4 * k) := by
  induction t with
  | nil => intro cur _; rfl
  | cons e t ih =>
    obtain ⟨k, s⟩ := e
    intro cur hcur
    have hs : s.isExternal = false := hloc (k, s) (by simp)
    have ht : ∀ e ∈ t, e.2.isExternal = false := fun e he => hloc e (by simp [he])
    simp only [List.length_cons] at hcur
    rw [Linker.resolveLoop]
    simp only [hs, Bool.not_false, if_true, List.map_cons, List.length_cons]
    by_cases hnil : t = []
    · subst hnil
      rfl
    · have hpos : 0 < t.length := List.length_pos.mpr hnil
      have hmod : (cur + 4) % 2 ^ 64 = cur + 4 := Nat.mod_eq_of_lt (by omega)
      rw [hmod, ih ht (cur + 4) (by omega), List.range_succ_eq_map]
      simp only [List.map_cons, List.map_map, Nat.mul_zero, Nat.add_zero, List.cons.injEq,
        true_and]
      apply List.map_congr_left
      intro a _
      simp only [Function.comp]
      omega

theorem Linker.resolveLoop_length (t : List (Str × Symbol)) (cur : Nat) :
    (Linker.resolveLoop t cur).length = t.length := by
  have := congrArg List.length (Linker.resolveLoop_keys t cur)
  simpa using this

/-- In a list whose elements are pairwise related, two members are equal or
related one way or the other. -/
theorem pairwise_mem_cases {β : Type} (R : β → β → Prop) (l : List β) (h : l.Pairwise R)
    (a b : β) (ha : a ∈ l) (hb : b ∈ l) : a = b ∨ R a b ∨ R b a := by
  induction l with
  | nil => simp at ha
  | cons x l ih =>
    rw [List.pairwise_cons] at h
    rcases List.mem_cons.mp ha with ha1 | ha1
    · rcases List.mem_cons.mp hb with hb1 | hb1
      · exact Or.inl (by rw [ha1, hb1])
      · exact Or.inr (Or.inl (by rw [ha1]; exact h.1 b hb1))
    · rcases List.mem_cons.mp hb with hb1 | hb1
      · exact Or.inr (Or.inr (by rw [hb1]; exact h.1 a ha1))
      · exact ih h.2 ha1 hb1

/-- The addresses of the entries that are not external after
`resolveSymbols`, in the order of iteration. -/
theorem Linker.resolveSymbols_addresses (l : Linker) (h : l.symbolTable.Addressable) :
    l.resolveSymbols.symbolTable.locals.map (fun e => e.2.address) =
      (List.range l.symbolTable.locals.length).map (fun k => 0x100000000 + 4 * k) := by
  unfold SymbolMap.Addressable at h
  unfold Linker.resolveSymbols SymbolMap.locals
  simp only
  rw [Linker.resolveLoop_locals]
  exact Linker.resolveLoop_addresses _ (fun e he => by simpa using (List.mem_filter.mp he).2) _ h

/-- After `resolveSymbols` the addresses of the entries that are not external
ascend strictly in the order of iteration. -/
theorem Linker.resolveSymbols_ascending (l : Linker) (h : l.symbolTable.Addressable) :
    l.resolveSymbols.symbolTable.locals.Pairwise (fun e f => e.2.address < f.2.address) := by
  have h1 := Linker.resolveSymbols_addresses l h
  have h2 : ((List.range l.symbolTable.locals.length).map
      (fun k => 0x100000000 + 4 * k)).Pairwise (fun a b => a < b) := by
    rw [List.pairwise_map]
    exact (List.pairwise_lt_range _).imp (fun hab => by omega)
  rw [← h1, List.pairwise_map] at h2
  exact h2

theorem Linker.resolveSymbols_sorted (l : Linker) (h : l.symbolTable.Sorted) :
    l.resolveSymbols.symbolTable.Sorted := by
  unfold SymbolMap.Sorted at h ⊢
  have hk := Linker.resolveLoop_keys l.symbolTable.entries 0x100000000
  have h1 : (l.symbolTable.entries.map Prod.fst).Pairwise (fun a b => string_lt a b = true) :=
    List.pairwise_map.mpr h
  rw [← hk] at h1
  exact List.pairwise_map.mp h1

theorem Linker.new_sorted : Linker.new.symbolTable.Sorted := by
  unfold SymbolMap.Sorted
  decide

theorem Linker.addObjectFile_sorted (l : Linker) (code : List Nat) (symbols : List Symbol)
    (relocs : List Relocation) (h : l.symbolTable.Sorted) :
    (l.addObjectFile code symbols relocs).symbolTable.Sorted :=
  SymbolMap.foldl_set_sorted symbols _ h

theorem Linker.addObjectFiles_sorted (units : List ObjectUnit) : ∀ l : Linker,
    l.symbolTable.Sorted → (l.addObjectFiles units).symbolTable.Sorted := by
  induction units with
  | nil => intro l h; exact h
  | cons u units ih =>
    intro l h
    exact ih _ (Linker.addObjectFile_sorted l u.code u.symbols u.relocations h)

theorem Linker.addObjectFiles_keys (units : List ObjectUnit) : ∀ (l : Linker) (k : Str),
    k ∈ l.symbolTable.entries.map Prod.fst →
    k ∈ (l.addObjectFiles units).symbolTable.entries.map Prod.fst := by
  induction units with
  | nil => intro l k h; exact h
  | cons u units ih =>
    intro l k h
    apply ih
    exact (SymbolMap.foldl_set_keys u.symbols l.symbolTable k).mpr (Or.inr h)

theorem Linker.addObjectFiles_objectCode (units : List ObjectUnit) : ∀ l : Linker,
    (l.addObjectFiles units).objectCode = l.objectCode ++ units.map ObjectUnit.code := by
  induction units with
  | nil => intro l; simp [Linker.addObjectFiles]
  | cons u units ih =>
    intro l
    have := ih (l.addObjectFile u.code u.symbols u.relocations)
    simp only [Linker.addObjectFiles, List.foldl_cons] at this ⊢
    rw [this]
    simp [Linker.addObjectFile]

theorem Linker.addObjectFiles_relocations (units : List ObjectUnit) : ∀ l : Linker,
    (l.addObjectFiles units).relocations =
      l.relocations ++ (units.map ObjectUnit.relocations).flatten := by
  induction units with
  | nil => intro l; simp [Linker.addObjectFiles]
  | cons u units ih =>
    intro l
    have := ih (l.addObjectFile u.code u.symbols u.relocations)
    simp only [Linker.addObjectFiles, List.foldl_cons] at this ⊢
    rw [this]
    simp [Linker.addObjectFile]

theorem SymbolMap.findEntry_mem (t : List (Str × Symbol)) (k : Str) (v : Symbol)
    (h : SymbolMap.findEntry t k = some v) : (k, v) ∈ t := by
  induction t with
  | nil => simp [SymbolMap.findEntry] at h
  | cons e t ih =>
    obtain ⟨k0, v0⟩ := e
    simp only [SymbolMap.findEntry] at h
    by_cases hk : k0 = k
    · rw [if_pos hk] at h
      injection h with h
      rw [hk, h]
      exact List.mem_cons_self _ _
    · rw [if_neg hk] at h
      exact List.mem_cons_of_mem _ (ih h)

/-- The search for an external symbol gives the same after `resolveSymbols`. -/
theorem Linker.findEntry_resolveLoop_external (t : List (Str × Symbol)) (k : Str) (s : Symbol)
    (hs : s.isExternal = true) : ∀ cur : Nat, SymbolMap.findEntry t k = some s →
    SymbolMap.findEntry (Linker.resolveLoop t cur) k = some s := by
  induction t with
  | nil => intro cur h; simp [SymbolMap.findEntry] at h
  | cons e t ih =>
    obtain ⟨k0, v0⟩ := e
    intro cur h
    simp only [SymbolMap.findEntry] at h
    by_cases hk : k0 = k
    · rw [if_pos hk] at h
      injection h with h
      subst h
      rw [Linker.resolveLoop]
      simp only [hs, Bool.not_true, Bool.false_eq_true, if_false, SymbolMap.findEntry, hk,
        if_true]
    · rw [if_neg hk] at h
      rw [Linker.resolveLoop]
      split <;> simp only [SymbolMap.findEntry, hk, if_false] <;> exact ih _ h

theorem Linker.find_resolveSymbols_none (l : Linker) (k : Str) :
    l.resolveSymbols.symbolTable.find k = none ↔ l.symbolTable.find k = none := by
  unfold SymbolMap.find Linker.resolveSymbols
  simp only
  rw [SymbolMap.findEntry_eq_none, SymbolMap.findEntry_eq_none, Linker.resolveLoop_keys]

/-- The outcome of the loop of `applyRelocations`: it returns when every
relocation names a key of the table, and otherwise throws for the first
relocation that does not. -/
theorem Linker.applyRelocationsLoop_cases (table : SymbolMap) (relocs : List Relocation) :
    (Linker.applyRelocationsLoop table relocs = .ok () ∧
        ∀ r ∈ relocs, table.find r.symbol ≠ none) ∨
      ∃ pre r post, relocs = pre ++ r :: post ∧ (∀ q ∈ pre, table.find q.symbol ≠ none) ∧
        table.find r.symbol = none ∧
        Linker.applyRelocationsLoop table relocs =
          .error (.runtime_error ("Undefined symbol: " ++ String.mk r.symbol)) := by
  induction relocs with
  | nil => exact Or.inl ⟨rfl, by simp⟩
  | cons r relocs ih =>
    cases hf : table.find r.symbol with
    | none =>
      refine Or.inr ⟨[], r, relocs, rfl, by simp, hf, ?_⟩
      simp only [Linker.applyRelocationsLoop, hf]
    | some v =>
      have hstep : Linker.applyRelocationsLoop table (r :: relocs) =
          Linker.applyRelocationsLoop table relocs := by
        simp only [Linker.applyRelocationsLoop, hf]
      rw [hstep]
      rcases ih with ⟨h1, h2⟩ | ⟨pre, q, post, h1, h2, h3, h4⟩
      · refine Or.inl ⟨h1, ?_⟩
        intro x hx
        rcases List.mem_cons.mp hx with e | hx
        · rw [e, hf]; simp
        · exact h2 x hx
      · refine Or.inr ⟨r :: pre, q, post, by rw [h1]; rfl, ?_, h3, h4⟩
        intro x hx
        rcases List.mem_cons.mp hx with e | hx
        · rw [e, hf]; simp
        · exact h2 x hx

/-- The bytes that the loop of `writeMachOFile` writes: those of the words
of all object files, in order. -/
theorem Linker.written_eq (L : WordLayout) (objectCode : List (List Nat)) : ∀ file : List Nat,
    objectCode.foldl (fun file code => file ++ (code.map L.bytes).flatten) file =
      file ++ (objectCode.flatten.map L.bytes).flatten := by
  induction objectCode with
  | nil => intro file; simp
  | cons code objectCode ih =>
    intro file
    rw [List.foldl_cons, ih]
    simp [List.append_assoc]

theorem WordLayout.length_bytes (L : WordLayout) (ws : List Nat) :
    ((ws.map L.bytes).flatten).length = 4 * ws.length := by
  induction ws with
  | nil => rfl
  | cons w ws ih =>
    simp only [List.map_cons, List.flatten_cons, List.length_append, List.length_cons, ih, L.size]
    omega

/-- The three outcomes of `createExecutable`: an undefined symbol, with the
file system untouched; an output file that cannot be created; success, with
the words of the object code in the output file. -/
theorem Linker.createExecutable_cases (L : WordLayout) (l : Linker) (fs : FileSystem)
    (path : Str) :
    (∃ pre r post, l.relocations = pre ++ r :: post ∧
        (∀ q ∈ pre, l.symbolTable.find q.symbol ≠ none) ∧ l.symbolTable.find r.symbol = none ∧
        l.createExecutable L fs path = ((l.resolveSymbols, fs),
          .error (.runtime_error ("Undefined symbol: " ++ String.mk r.symbol)))) ∨
      ((∀ r ∈ l.relocations, l.symbolTable.find r.symbol ≠ none) ∧ fs.writable path = false ∧
        l.createExecutable L fs path = ((l.resolveSymbols, fs),
          .error (.runtime_error "Cannot create output file"))) ∨
      ((∀ r ∈ l.relocations, l.symbolTable.find r.symbol ≠ none) ∧ fs.writable path = true ∧
        l.createExecutable L fs path = ((l.resolveSymbols,
          fs.write path ((l.objectCode.flatten.map L.bytes).flatten)), .ok ())) := by
  have hrel : l.resolveSymbols.relocations = l.relocations := rfl
  have hcode : l.resolveSymbols.objectCode = l.objectCode := rfl
  have hfind : ∀ k, l.resolveSymbols.symbolTable.find k ≠ none ↔ l.symbolTable.find k ≠ none :=
    fun k => not_congr (Linker.find_resolveSymbols_none l k)
  rcases Linker.applyRelocationsLoop_cases l.resolveSymbols.symbolTable l.relocations with
    ⟨h1, h2⟩ | ⟨pre, r, post, h1, h2, h3, h4⟩
  · have hall : ∀ r ∈ l.relocations, l.symbolTable.find r.symbol ≠ none :=
      fun r hr => (hfind _).mp (h2 r hr)
    have happly : l.resolveSymbols.applyRelocations = .ok () := by
      unfold Linker.applyRelocations
      rw [hrel, h1]
    cases hw : fs.writable path with
    | false =>
      refine Or.inr (Or.inl ⟨hall, rfl, ?_⟩)
      unfold Linker.createExecutable
      simp only [happly, Linker.writeMachOFile, hw, Bool.not_false, if_true]
    | true =>
      refine Or.inr (Or.inr ⟨hall, rfl, ?_⟩)
      unfold Linker.createExecutable
      simp only [happly, Linker.writeMachOFile, hw, Bool.not_true, Bool.false_eq_true, if_false,
        hcode, Linker.written_eq, List.nil_append]
  · refine Or.inl ⟨pre, r, post, h1, fun q hq => (hfind _).mp (h2 q hq),
      (Linker.find_resolveSymbols_none l _).mp h3, ?_⟩
    have happly : l.resolveSymbols.applyRelocations =
        .error (.runtime_error ("Undefined symbol: " ++ String.mk r.symbol)) := by
      unfold Linker.applyRelocations
      rw [hrel, h4]
    unfold Linker.createExecutable
    simp only [happly]

theorem undefined_symbol_ne (name : Str) :
    Error.runtime_error "Cannot create output file" ≠
      Error.runtime_error ("Undefined symbol: " ++ String.mk name) := by
  intro h
  injection h with h
  have h1 := congrArg (fun s : String => s.data.head?) h
  simp [String.data_append] at h1

theorem undefined_symbol_inj (a b : Str)
    (h : Error.runtime_error ("Undefined symbol: " ++ String.mk a) =
      Error.runtime_error ("Undefined symbol: " ++ String.mk b)) : a = b := by
  injection h with h
  have h1 := congrArg String.data h
  simpa [String.data_append] using h1

theorem SymbolMap.foldl_set_keys_new (symbols : List Symbol) (m : SymbolMap) :
    ∀ s ∈ symbols, s.name ∈
      (symbols.foldl (fun table sym => table.set sym.name sym) m).entries.map Prod.fst :=
  fun s hs => (SymbolMap.foldl_set_keys symbols m s.name).mpr
    (Or.inl (List.mem_map_of_mem Symbol.name hs))

/-- Every symbol submitted with `addObjectFile` has its name in the table. -/
theorem Linker.addObjectFiles_symbols (units : List ObjectUnit) : ∀ (l : Linker),
    ∀ u ∈ units, ∀ s ∈ u.symbols,
      s.name ∈ (l.addObjectFiles units).symbolTable.entries.map Prod.fst := by
  induction units with
  | nil => intro l u hu; simp at hu
  | cons u0 units ih =>
    intro l u hu s hs
    rcases List.mem_cons.mp hu with e | hu
    · subst e
      exact Linker.addObjectFiles_keys units _ s.name
        (SymbolMap.foldl_set_keys_new u.symbols l.symbolTable s hs)
    · exact ih _ u hu s hs

theorem ObjectUnit.code_filter_nonempty (units : List ObjectUnit) :
    ((units.filter (fun u => !u.code.isEmpty)).map ObjectUnit.code).flatten =
      (units.map ObjectUnit.code).flatten := by
  induction units with
  | nil => rfl
  | cons u units ih =>
    cases hc : u.code with
    | nil => simpa [List.filter, hc] using ih
    | cons x xs => simp [List.filter, hc, ih]

theorem flatten_code_length (units : List ObjectUnit) :
    ((units.map ObjectUnit.code).flatten).length = (units.map (fun u => u.code.length)).sum := by
  induction units with
  | nil => rfl
  | cons u units ih =>
    simp only [List.map_cons, List.flatten_cons, List.length_append, List.sum_cons, ih]

end Calc

namespace Calc

/-! ## Properties of the linker -/

/-- C21 (as stated, refuted): on a fresh linker the first object file defines
`zeta` and the second defines `alpha`; `resolveSymbols` gives `zeta` the
address 0x100000008 and `alpha` the lower address 0x100000004. -/
theorem resolveSymbols_not_submission_order :
    ((Linker.new.addObjectFile [] [{ name := "zeta".toList, address := 0, isExternal := false }]
        []).addObjectFile [] [{ name := "alpha".toList, address := 0, isExternal := false }]
        []).resolveSymbols.addressOf "zeta".toList = some 0x100000008 ∧
    ((Linker.new.addObjectFile [] [{ name := "zeta".toList, address := 0, isExternal := false }]
        []).addObjectFile [] [{ name := "alpha".toList, address := 0, isExternal := false }]
        []).resolveSymbols.addressOf "alpha".toList = some 0x100000004 :=
  ⟨by rfl, by rfl⟩

/-- C21 (amended): on a fresh linker, after any calls of `addObjectFile`,
every symbol submitted is a key of the table, and `resolveSymbols` assigns
addresses in the order of the names, not of submission: for two entries that
are not external, the address of the first is below the address of the second
exactly when its name is below the other name in the order of `std::string`.
(The table is taken to fit the address space.) -/
theorem resolveSymbols_name_order (units : List ObjectUnit)
    (h : (Linker.new.addObjectFiles units).symbolTable.Addressable) :
    (∀ u ∈ units, ∀ s ∈ u.symbols,
      (Linker.new.addObjectFiles units).resolveSymbols.symbolTable.find s.name ≠ none) ∧
    (∀ (n1 n2 : Str) (s1 s2 : Symbol),
      (Linker.new.addObjectFiles units).resolveSymbols.symbolTable.find n1 = some s1 →
      (Linker.new.addObjectFiles units).resolveSymbols.symbolTable.find n2 = some s2 →
      s1.isExternal = false → s2.isExternal = false →
      (s1.address < s2.address ↔ string_lt n1 n2 = true)) := by
  constructor
  · intro u hu s hs hnone
    rw [Linker.find_resolveSymbols_none] at hnone
    exact (SymbolMap.findEntry_eq_none _ _).mp hnone
      (Linker.addObjectFiles_symbols units Linker.new u hu s hs)
  · intro n1 n2 s1 s2 h1 h2 e1 e2
    have hsorted := Linker.resolveSymbols_sorted _
      (Linker.addObjectFiles_sorted units Linker.new Linker.new_sorted)
    have hasc := Linker.resolveSymbols_ascending _ h
    have hkeys : (Linker.new.addObjectFiles units).resolveSymbols.symbolTable.locals.Pairwise
        (fun e f => string_lt e.1 f.1 = true) := List.Pairwise.filter _ hsorted
    have hboth := hkeys.and hasc
    have m1 : (n1, s1) ∈ (Linker.new.addObjectFiles units).resolveSymbols.symbolTable.locals :=
      List.mem_filter.mpr ⟨SymbolMap.findEntry_mem _ _ _ h1, by simp [e1]⟩
    have m2 : (n2, s2) ∈ (Linker.new.addObjectFiles units).resolveSymbols.symbolTable.locals :=
      List.mem_filter.mpr ⟨SymbolMap.findEntry_mem _ _ _ h2, by simp [e2]⟩
    rcases pairwise_mem_cases _ _ hboth _ _ m1 m2 with e | ⟨hk, ha⟩ | ⟨hk, ha⟩
    · injection e with ek es
      subst ek
      subst es
      simp [string_lt_irrefl]
    · exact ⟨fun _ => hk, fun _ => ha⟩
    · have hk2 := string_lt_asymm _ _ hk
      simp only at hk2 ha
      constructor
      · intro hlt
        omega
      · intro hlt
        rw [hk2] at hlt
        cases hlt

/-- The units that define `zeta` and then `alpha`: the address of `alpha` is
below the address of `zeta`, as the names are. -/
theorem resolveSymbols_name_order_witness :
    (Linker.new.addObjectFiles
        [{ code := [], symbols := [{ name := "zeta".toList, address := 0, isExternal := false }],
           relocations := [] },
         { code := [], symbols := [{ name := "alpha".toList, address := 0, isExternal := false }],
           relocations := [] }]).symbolTable.Addressable ∧
      ((0x100000004 : Nat) < 0x100000008 ↔ string_lt "alpha".toList "zeta".toList = true) :=
  ⟨by decide,
    (resolveSymbols_name_order
      [{ code := [], symbols := [{ name := "zeta".toList, address := 0, isExternal := false }],
         relocations := [] },
       { code := [], symbols := [{ name := "alpha".toList, address := 0, isExternal := false }],
         relocations := [] }] (by decide)).2 "alpha".toList "zeta".toList
      { name := "alpha".toList, address := 0x100000004, isExternal := false }
      { name := "zeta".toList, address := 0x100000008, isExternal := false }
      (by rfl) (by rfl) rfl rfl⟩

theorem Linker.addObjectFiles_new_relocations (units : List ObjectUnit) (r : Relocation) :
    r ∈ (Linker.new.addObjectFiles units).relocations ↔ ∃ u ∈ units, r ∈ u.relocations := by
  rw [Linker.addObjectFiles_relocations]
  simp [Linker.new, List.mem_flatten]

theorem Linker.addObjectFiles_seeded (units : List ObjectUnit) :
    (Linker.new.addObjectFiles units).symbolTable.find "_printf".toList ≠ none ∧
      (Linker.new.addObjectFiles units).symbolTable.find "_start".toList ≠ none := by
  constructor
  · intro h
    exact (SymbolMap.findEntry_eq_none _ _).mp h
      (Linker.addObjectFiles_keys units Linker.new _ (by decide))
  · intro h
    exact (SymbolMap.findEntry_eq_none _ _).mp h
      (Linker.addObjectFiles_keys units Linker.new _ (by decide))

/-- C22: on a linker that received its object files through `addObjectFile`,
`createExecutable` fails with "Undefined symbol: name" exactly when a
relocation submitted names a symbol that the table does not have, and the
name in the message is that of such a relocation; the seeded `_printf` and
`_start` are always in the table, so a relocation that names one of them is
never the cause; and when this failure occurs the file system is as it was:
nothing has been written. -/
theorem createExecutable_undefined_symbol (L : WordLayout) (units : List ObjectUnit)
    (fs : FileSystem) (path : Str) :
    ((∃ name : Str, ((Linker.new.addObjectFiles units).createExecutable L fs path).2 =
        .error (.runtime_error ("Undefined symbol: " ++ String.mk name))) ↔
      ∃ u ∈ units, ∃ r ∈ u.relocations,
        (Linker.new.addObjectFiles units).symbolTable.find r.symbol = none) ∧
    (∀ name : Str, ((Linker.new.addObjectFiles units).createExecutable L fs path).2 =
        .error (.runtime_error ("Undefined symbol: " ++ String.mk name)) →
      (∃ u ∈ units, ∃ r ∈ u.relocations, r.symbol = name) ∧
        (Linker.new.addObjectFiles units).symbolTable.find name = none ∧
        name ≠ "_printf".toList ∧ name ≠ "_start".toList ∧
        ((Linker.new.addObjectFiles units).createExecutable L fs path).1.2 = fs) ∧
    ((∀ u ∈ units, ∀ r ∈ u.relocations,
        r.symbol = "_printf".toList ∨ r.symbol = "_start".toList) →
      ∀ name : Str, ((Linker.new.addObjectFiles units).createExecutable L fs path).2 ≠
        .error (.runtime_error ("Undefined symbol: " ++ String.mk name))) := by
  obtain ⟨hp, hst⟩ := Linker.addObjectFiles_seeded units
  have key : ∀ name : Str, ((Linker.new.addObjectFiles units).createExecutable L fs path).2 =
        .error (.runtime_error ("Undefined symbol: " ++ String.mk name)) →
      (∃ u ∈ units, ∃ r ∈ u.relocations, r.symbol = name) ∧
        (Linker.new.addObjectFiles units).symbolTable.find name = none ∧
        ((Linker.new.addObjectFiles units).createExecutable L fs path).1.2 = fs := by
    intro name hname
    rcases Linker.createExecutable_cases L (Linker.new.addObjectFiles units) fs path with
      ⟨pre, r, post, h1, _, h3, h4⟩ | ⟨_, _, h4⟩ | ⟨_, _, h4⟩
    · rw [h4] at hname ⊢
      injection hname with hname
      have hn : r.symbol = name := undefined_symbol_inj _ _ (by rw [hname])
      have hr : r ∈ (Linker.new.addObjectFiles units).relocations := by rw [h1]; simp
      obtain ⟨u, hu, hru⟩ := (Linker.addObjectFiles_new_relocations units r).mp hr
      exact ⟨⟨u, hu, r, hru, hn⟩, by rw [← hn]; exact h3, rfl⟩
    · rw [h4] at hname
      injection hname with hname
      exact absurd hname (undefined_symbol_ne name)
    · rw [h4] at hname
      cases hname
  refine ⟨⟨?_, ?_⟩, ?_, ?_⟩
  · rintro ⟨name, hname⟩
    obtain ⟨⟨u, hu, r, hr, hn⟩, hnone, _⟩ := key name hname
    exact ⟨u, hu, r, hr, by rw [hn]; exact hnone⟩
  · rintro ⟨u, hu, r, hr, hnone⟩
    have hmem := (Linker.addObjectFiles_new_relocations units r).mpr ⟨u, hu, hr⟩
    rcases Linker.createExecutable_cases L (Linker.new.addObjectFiles units) fs path with
      ⟨pre, q, post, _, _, _, h4⟩ | ⟨hall, _, _⟩ | ⟨hall, _, _⟩
    · exact ⟨q.symbol, by rw [h4]⟩
    · exact absurd hnone (hall r hmem)
    · exact absurd hnone (hall r hmem)
  · intro name hname
    obtain ⟨h1, h2, h3⟩ := key name hname
    refine ⟨h1, h2, ?_, ?_, h3⟩
    · intro e
      rw [e] at h2
      exact hp h2
    · intro e
      rw [e] at h2
      exact hst h2
  · intro hall name hname
    obtain ⟨⟨u, hu, r, hr, hn⟩, h2, _⟩ := key name hname
    rcases hall u hu r hr with e | e
    · rw [← hn, e] at h2
      exact hp h2
    · rw [← hn, e] at h2
      exact hst h2

/-- C23: `resolveSymbols` changes no key, no name and no flag, and it leaves
every external entry as it is, so the address of an external symbol is the
same after the call as before; on the fresh linker `_printf` stays at address
0; and the external entries take no address: the entries that are not
external get the addresses that they get in the table without the external
entries. -/
theorem resolveSymbols_keeps_externals (l : Linker) :
    List.Forall₂ (fun e f => f.1 = e.1 ∧ f.2.name = e.2.name ∧
        f.2.isExternal = e.2.isExternal ∧ (e.2.isExternal = true → f = e))
      l.symbolTable.entries l.resolveSymbols.symbolTable.entries ∧
    (∀ (k : Str) (s : Symbol), l.symbolTable.find k = some s → s.isExternal = true →
      l.resolveSymbols.symbolTable.find k = some s) ∧
    l.resolveSymbols.symbolTable.entries.filter (fun e => e.2.isExternal) =
      l.symbolTable.entries.filter (fun e => e.2.isExternal) ∧
    Linker.new.resolveSymbols.symbolTable.find "_printf".toList =
      some { name := "_printf".toList, address := 0, isExternal := true } ∧
    l.resolveSymbols.symbolTable.locals =
      ({ l with symbolTable := { entries := l.symbolTable.locals } } :
        Linker).resolveSymbols.symbolTable.entries :=
  ⟨Linker.resolveLoop_frame _ _,
    fun k s h hs => Linker.findEntry_resolveLoop_external _ k s hs _ h,
    Linker.resolveLoop_externals _ _, by rfl, Linker.resolveLoop_locals _ _⟩

/-- C24: on a linker that received its object files through `addObjectFile`,
`createExecutable` succeeds exactly when every relocation names a symbol of
the table and the output file can be created; the output file then holds the
bytes of the words of all units, unit after unit in the order of submission
and word after word, which are 4 bytes for each word submitted, and the other
files are as they were; units without words contribute nothing. -/
theorem createExecutable_writes_code (L : WordLayout) (units : List ObjectUnit)
    (fs : FileSystem) (path : Str) :
    (((Linker.new.addObjectFiles units).createExecutable L fs path).2 = .ok () ↔
      (∀ u ∈ units, ∀ r ∈ u.relocations,
        (Linker.new.addObjectFiles units).symbolTable.find r.symbol ≠ none) ∧
        fs.writable path = true) ∧
    (((Linker.new.addObjectFiles units).createExecutable L fs path).2 = .ok () →
      ((Linker.new.addObjectFiles units).createExecutable L fs path).1.2.files path =
          some (((units.map ObjectUnit.code).flatten.map L.bytes).flatten) ∧
        ∀ p, p ≠ path →
          ((Linker.new.addObjectFiles units).createExecutable L fs path).1.2.files p =
            fs.files p) ∧
    (((units.map ObjectUnit.code).flatten.map L.bytes).flatten).length =
      4 * (units.map (fun u => u.code.length)).sum ∧
    Spec.image L units = ((units.map ObjectUnit.code).flatten.map L.bytes).flatten ∧
    Spec.image L (units.filter (fun u => !u.code.isEmpty)) = Spec.image L units ∧
    Spec.image littleEndian
        [{ code := [0xD2800080], symbols := [], relocations := [] },
         { code := [], symbols := [], relocations := [] },
         { code := [0x8B010000, 0xF8402401], symbols := [], relocations := [] }] =
      [0x80, 0x00, 0x80, 0xD2, 0x00, 0x00, 0x01, 0x8B, 0x01, 0x24, 0x40, 0xF8] := by
  have hcode : (Linker.new.addObjectFiles units).objectCode = units.map ObjectUnit.code := by
    rw [Linker.addObjectFiles_objectCode]
    rfl
  have hrel : (∀ r ∈ (Linker.new.addObjectFiles units).relocations,
      (Linker.new.addObjectFiles units).symbolTable.find r.symbol ≠ none) ↔
      ∀ u ∈ units, ∀ r ∈ u.relocations,
        (Linker.new.addObjectFiles units).symbolTable.find r.symbol ≠ none := by
    constructor
    · intro h u hu r hr
      exact h r ((Linker.addObjectFiles_new_relocations units r).mpr ⟨u, hu, hr⟩)
    · intro h r hr
      obtain ⟨u, hu, hru⟩ := (Linker.addObjectFiles_new_relocations units r).mp hr
      exact h u hu r hru
  refine ⟨?_, ?_, ?_, rfl, ?_, by rfl⟩
  · rcases Linker.createExecutable_cases L (Linker.new.addObjectFiles units) fs path with
      ⟨pre, r, post, h1, _, h3, h4⟩ | ⟨hall, hw, h4⟩ | ⟨hall, hw, h4⟩
    · rw [h4]
      constructor
      · intro h; cases h
      · intro h
        have hr : r ∈ (Linker.new.addObjectFiles units).relocations := by rw [h1]; simp
        exact absurd h3 (hrel.mpr h.1 r hr)
    · rw [h4]
      constructor
      · intro h; cases h
      · intro h
        rw [hw] at h
        cases h.2
    · rw [h4]
      exact ⟨fun _ => ⟨hrel.mp hall, hw⟩, fun _ => rfl⟩
  · intro hok
    rcases Linker.createExecutable_cases L (Linker.new.addObjectFiles units) fs path with
      ⟨pre, r, post, _, _, _, h4⟩ | ⟨_, _, h4⟩ | ⟨_, _, h4⟩
    · rw [h4] at hok; cases hok
    · rw [h4] at hok; cases hok
    · rw [h4, hcode]
      constructor
      · simp [FileSystem.write]
      · intro p hp
        simp [FileSystem.write, hp]
  · rw [WordLayout.length_bytes, flatten_code_length]
  · unfold Spec.image
    rw [ObjectUnit.code_filter_nonempty]

/-- C28: after `resolveSymbols` on a table with n entries that are not
external (a table that fits the address space), the addresses of those
entries are, in the order of iteration, 0x100000000 + 4 * k for k = 0 .. n-1:
each of these values is the address of an entry, every entry has one of them,
no two entries share an address, and the object code of the linker has no
part in it. -/
theorem resolveSymbols_addresses_consecutive (l : Linker) (h : l.symbolTable.Addressable) :
    l.resolveSymbols.symbolTable.locals.map (fun e => e.2.address) =
      (List.range l.symbolTable.locals.length).map (fun k => 0x100000000 + 4 * k) ∧
    l.resolveSymbols.symbolTable.locals.length = l.symbolTable.locals.length ∧
    (l.resolveSymbols.symbolTable.locals.map (fun e => e.2.address)).Nodup ∧
    (∀ k, k < l.symbolTable.locals.length →
      ∃ e ∈ l.resolveSymbols.symbolTable.locals, e.2.address = 0x100000000 + 4 * k) ∧
    (∀ e ∈ l.resolveSymbols.symbolTable.locals,
      ∃ k, k < l.symbolTable.locals.length ∧ e.2.address = 0x100000000 + 4 * k) ∧
    (∀ e ∈ l.resolveSymbols.symbolTable.locals, ∀ f ∈ l.resolveSymbols.symbolTable.locals,
      e.2.address = f.2.address → e = f) ∧
    (∀ objectCode : List (List Nat),
      ({ l with objectCode := objectCode } : Linker).resolveSymbols.symbolTable =
        l.resolveSymbols.symbolTable) := by
  have haddr := Linker.resolveSymbols_addresses l h
  have hasc := Linker.resolveSymbols_ascending l h
  have hlen : l.resolveSymbols.symbolTable.locals.length = l.symbolTable.locals.length := by
    have := congrArg List.length haddr
    simpa using this
  refine ⟨haddr, hlen, ?_, ?_, ?_, ?_, fun _ => rfl⟩
  · unfold List.Nodup
    rw [List.pairwise_map]
    exact hasc.imp (fun hab => Nat.ne_of_lt hab)
  · intro k hk
    have hmem : 0x100000000 + 4 * k ∈
        l.resolveSymbols.symbolTable.locals.map (fun e => e.2.address) := by
      rw [haddr]
      exact List.mem_map.mpr ⟨k, List.mem_range.mpr hk, rfl⟩
    obtain ⟨e, he, hea⟩ := List.mem_map.mp hmem
    exact ⟨e, he, hea⟩
  · intro e he
    have hmem : e.2.address ∈ l.resolveSymbols.symbolTable.locals.map (fun e => e.2.address) :=
      List.mem_map.mpr ⟨e, he, rfl⟩
    rw [haddr] at hmem
    obtain ⟨k, hk, hka⟩ := List.mem_map.mp hmem
    exact ⟨k, List.mem_range.mp hk, hka.symm⟩
  · intro e he f hf hef
    rcases pairwise_mem_cases _ _ hasc e f he hf with h1 | h1 | h1
    · exact h1
    · omega
    · omega

/-- The table with `_start`, `alpha` and `zeta`: the addresses are
0x100000000, 0x100000004 and 0x100000008. -/
theorem resolveSymbols_addresses_consecutive_witness :
    ((Linker.new.addObjectFile [1, 2, 3]
        [{ name := "zeta".toList, address := 0, isExternal := false },
         { name := "alpha".toList, address := 7, isExternal := false }] []).symbolTable).Addressable ∧
      (Linker.new.addObjectFile [1, 2, 3]
        [{ name := "zeta".toList, address := 0, isExternal := false },
         { name := "alpha".toList, address := 7, isExternal := false }]
        []).resolveSymbols.symbolTable.locals.map (fun e => (e.1, e.2.address)) =
      [("_start".toList, 0x100000000), ("alpha".toList, 0x100000004),
        ("zeta".toList, 0x100000008)] ∧
      (Linker.new.addObjectFile [1, 2, 3]
        [{ name := "zeta".toList, address := 0, isExternal := false },
         { name := "alpha".toList, address := 7, isExternal := false }]
        []).resolveSymbols.symbolTable.locals.map (fun e => e.2.address) =
      (List.range (Linker.new.addObjectFile [1, 2, 3]
        [{ name := "zeta".toList, address := 0, isExternal := false },
         { name := "alpha".toList, address := 7, isExternal := false }]
        []).symbolTable.locals.length).map (fun k => 0x100000000 + 4 * k) :=
  ⟨by decide, by decide,
    (resolveSymbols_addresses_consecutive
      (Linker.new.addObjectFile [1, 2, 3]
        [{ name := "zeta".toList, address := 0, isExternal := false },
         { name := "alpha".toList, address := 7, isExternal := false }] []) (by decide)).1⟩

end Calc

namespace Calc

/-! ## The driver, and the filter of the assembler -/

/-- The stages of `main` up to the assembler end with an exception for every
input. -/
theorem compile_error {α : Type} (D : DoubleOps α) (input : Str) :
    ∃ err, compile D input = .error err := by
  unfold compile
  cases ht : tokenize input with
  | error err => exact ⟨err, rfl⟩
  | ok tokens =>
    cases hp : parse D tokens with
    | error err => exact ⟨err, by simp only [bind, Except.bind, hp]⟩
    | ok expr =>
      cases hg : expr.generateCode D CodeGenerator.new with
      | error err => exact ⟨err, by simp only [bind, Except.bind, hp, hg]⟩
      | ok gen =>
        exact ⟨_, by simp only [bind, Except.bind, hp, hg]; exact assemble_generated D expr gen hg⟩

theorem mainBody_eq {α : Type} (D : DoubleOps α) (L : WordLayout) (input : Str) (err : Error)
    (h : compile D input = .error err) (fs : FileSystem) :
    mainBody D L fs input = (fs, .error err) := by
  unfold mainBody
  rw [h]

theorem forall2_mem_right {β γ : Type} (R : β → γ → Prop) (as : List β) (bs : List γ)
    (h : List.Forall₂ R as bs) : ∀ b ∈ bs, ∃ a ∈ as, R a b := by
  induction h with
  | nil => intro b hb; cases hb
  | cons hhead _ ih =>
    intro b hb
    rcases List.mem_cons.mp hb with e | hb
    · exact ⟨_, List.mem_cons_self _ _, by rw [e]; exact hhead⟩
    · obtain ⟨a, ha, hab⟩ := ih b hb
      exact ⟨a, List.mem_cons_of_mem _ ha, hab⟩

/-- C29: no line that `assembleMov`, `assembleArithmetic`, `assembleLoad` or
`assembleStore` accepts encodes to the word 0, each base pattern having a bit
outside the operand fields; so the test `instruction != 0` of `assemble`
discards no instruction, and when `assemble` succeeds its result has one word
for each input line that is non-empty and does not start with `.` or `_`. -/
theorem assemble_keeps_every_instruction :
    (∀ (line : Str) (w : Nat), Assembler.assembleMov line = .ok w → w ≠ 0) ∧
    (∀ (line : Str) (w : Nat), Assembler.assembleArithmetic line = .ok w → w ≠ 0) ∧
    (∀ (line : Str) (w : Nat), Assembler.assembleLoad line = .ok w → w ≠ 0) ∧
    (∀ (line : Str) (w : Nat), Assembler.assembleStore line = .ok w → w ≠ 0) ∧
    (∀ (lines : List Str) (ws : List Nat), Assembler.assemble lines = .ok ws →
      ws.length = (lines.filter (fun l => !Assembler.isSkipped l)).length ∧
        ∀ w ∈ ws, w ≠ 0) ∧
    Assembler.assemble ["mov x0, #0".toList, "".toList, "_main:".toList,
      "add x0, x0, x0".toList] = .ok [0xD2800000, 0x8B000000] := by
  refine ⟨Assembler.assembleMov_ne_zero, Assembler.assembleArithmetic_ne_zero,
    Assembler.assembleLoad_ne_zero, Assembler.assembleStore_ne_zero, ?_, by rfl⟩
  intro lines ws h
  rw [Assembler.assemble_eq_assembleAll] at h
  have hall := Spec.assembleAll_ok _ ws h
  refine ⟨hall.length_eq.symm, ?_⟩
  intro w hw
  obtain ⟨l, hl, hlw⟩ := forall2_mem_right _ _ _ hall w hw
  have hs : Assembler.isSkipped l = false := by
    have := (List.mem_filter.mp hl).2
    simpa using this
  exact Assembler.assembleLine_ne_zero l w hs hlw

end Calc

namespace Calc

/-! ## The invariant of the trees that the parser builds -/

theorem Parser.tokenAt_mem (p : Parser) (i : Nat) (h : i < p.m_tokens.length) :
    p.tokenAt i ∈ p.m_tokens := by
  unfold Parser.tokenAt
  rw [List.getD_eq_getElem _ _ h]
  exact List.getElem_mem h

/-- What `match` does: the tokens stay; on success the current index moves by
one and the token before it, a token of the sequence, has the type asked for;
on failure the parser is unchanged. -/
theorem Parser.match_spec (p : Parser) (t : TokenType) :
    (p.match_ t).2.m_tokens = p.m_tokens ∧
      ((p.match_ t).1 = true →
        ((p.match_ t).2.tokenAt ((p.match_ t).2.m_current - 1)).type = t ∧
          (p.match_ t).2.m_current - 1 < p.m_tokens.length) ∧
      ((p.match_ t).1 = false → (p.match_ t).2 = p) := by
  cases hc : p.check t with
  | false =>
    have hm : p.match_ t = (false, p) := by
      unfold Parser.match_
      rw [hc]
      rfl
    rw [hm]
    exact ⟨rfl, fun h => absurd h (by simp), fun _ => rfl⟩
  | true =>
    have hend : p.isAtEnd = false := by
      unfold Parser.check at hc
      cases he : p.isAtEnd with
      | false => rfl
      | true => rw [he] at hc; simp at hc
    have hpk : (p.tokenAt p.m_current).type = t := by
      unfold Parser.check Parser.peek at hc
      simpa [hend] using hc
    have hlt : p.m_current < p.m_tokens.length := by
      unfold Parser.isAtEnd at hend
      simp only [Bool.or_eq_false_iff, decide_eq_false_iff_not, ge_iff_le, not_le] at hend
      exact hend.1
    have hadv : p.advance.2 = { p with m_current := p.m_current + 1 } := by
      unfold Parser.advance
      simp [hend]
    have hm : p.match_ t = (true, { p with m_current := p.m_current + 1 }) := by
      unfold Parser.match_
      rw [hc, if_pos rfl, hadv]
    rw [hm]
    exact ⟨rfl, fun _ => ⟨hpk, hlt⟩, fun h => absurd h (by simp)⟩

theorem Spec.numberTexts_mem (tokens : List Token) (t : Token) (ht : t ∈ tokens)
    (hn : t.type = .NUMBER) : t.value ∈ Spec.numberTexts tokens :=
  List.mem_map.mpr ⟨t, List.mem_filter.mpr ⟨ht, by simp [hn]⟩, rfl⟩

theorem Parser.factor_inv {α : Type} (D : DoubleOps α) (p p1 : Parser) (e : Expression α)
    (h : Parser.factor D p = .ok (e, p1)) :
    p1.m_tokens = p.m_tokens ∧ e.Invariant D (Spec.numberTexts p.m_tokens) := by
  obtain ⟨h1, h2, _⟩ := Parser.match_spec p .NUMBER
  unfold Parser.factor at h
  simp only at h
  cases hm : (p.match_ .NUMBER).1 with
  | false => rw [hm] at h; simp at h
  | true =>
    rw [hm] at h
    simp only [if_true] at h
    cases hst : D.stod ((p.match_ .NUMBER).2.tokenAt ((p.match_ .NUMBER).2.m_current - 1)).value with
    | error err => rw [hst] at h; cases h
    | ok value =>
      rw [hst] at h
      simp only [bind, Except.bind, Except.ok.injEq, Prod.mk.injEq] at h
      obtain ⟨he, hp⟩ := h
      obtain ⟨ht, hlt⟩ := h2 hm
      refine ⟨by rw [← hp]; exact h1, ?_⟩
      rw [← he]
      refine ⟨_, Spec.numberTexts_mem p.m_tokens _ ?_ ht, hst⟩
      have := Parser.tokenAt_mem (p.match_ .NUMBER).2 _ (by rw [h1]; exact hlt)
      rw [h1] at this
      exact this

/-- The condition `match(a) || match(b)` of the two loops: the tokens stay,
and when it holds the token before the current index has type a or b. -/
theorem Parser.match_or_spec (p : Parser) (a b : TokenType) :
    ((if (p.match_ a).1 then p.match_ a else (p.match_ a).2.match_ b).2).m_tokens = p.m_tokens ∧
      ((if (p.match_ a).1 then p.match_ a else (p.match_ a).2.match_ b).1 = true →
        (((if (p.match_ a).1 then p.match_ a else (p.match_ a).2.match_ b).2).tokenAt
          (((if (p.match_ a).1 then p.match_ a else (p.match_ a).2.match_ b).2).m_current - 1)).type
            = a ∨
        (((if (p.match_ a).1 then p.match_ a else (p.match_ a).2.match_ b).2).tokenAt
          (((if (p.match_ a).1 then p.match_ a else (p.match_ a).2.match_ b).2).m_current - 1)).type
            = b) := by
  obtain ⟨h1, h2, h3⟩ := Parser.match_spec p a
  cases hm : (p.match_ a).1 with
  | true =>
    simp only [if_true]
    exact ⟨h1, fun _ => Or.inl (h2 hm).1⟩
  | false =>
    simp only [Bool.false_eq_true, if_false]
    rw [h3 hm]
    obtain ⟨g1, g2, _⟩ := Parser.match_spec p b
    exact ⟨g1, fun h => Or.inr (g2 h).1⟩

theorem Parser.termLoop_inv {α : Type} (D : DoubleOps α) (fuel : Nat) :
    ∀ (p p1 : Parser) (expr e : Expression α),
      expr.Invariant D (Spec.numberTexts p.m_tokens) →
      Parser.termLoop D fuel p expr = .ok (e, p1) →
      p1.m_tokens = p.m_tokens ∧ e.Invariant D (Spec.numberTexts p.m_tokens) := by
  induction fuel with
  | zero => intro p p1 expr e _ h; simp [Parser.termLoop] at h
  | succ fuel ih =>
    intro p p1 expr e hinv h
    obtain ⟨h1, h2⟩ := Parser.match_or_spec p .MULTIPLY .DIVIDE
    rw [Parser.termLoop] at h
    simp only at h
    generalize (if (p.match_ .MULTIPLY).1 then p.match_ .MULTIPLY
      else (p.match_ .MULTIPLY).2.match_ .DIVIDE) = m at h h1 h2
    cases hm : m.1 with
    | false =>
      rw [hm] at h
      simp only [Bool.false_eq_true, if_false, Except.ok.injEq, Prod.mk.injEq] at h
      obtain ⟨he, hp⟩ := h
      rw [← he, ← hp]
      exact ⟨h1, hinv⟩
    | true =>
      rw [hm] at h
      simp only [if_true] at h
      cases hf : Parser.factor D m.2 with
      | error err => rw [hf] at h; simp [bind, Except.bind] at h
      | ok r =>
        obtain ⟨right, p2⟩ := r
        rw [hf] at h
        simp only [bind, Except.bind] at h
        obtain ⟨f1, f2⟩ := Parser.factor_inv D m.2 p2 right hf
        rw [h1] at f1 f2
        have hop := h2 hm
        have hnew : (Expression.BinaryExpr expr (m.2.tokenAt (m.2.m_current - 1)).type
            right).Invariant D (Spec.numberTexts p2.m_tokens) := by
          rw [f1]
          exact ⟨by tauto, hinv, f2⟩
        obtain ⟨g1, g2⟩ := ih p2 p1 _ e hnew h
        rw [f1] at g1 g2
        exact ⟨g1, g2⟩

theorem Parser.term_inv {α : Type} (D : DoubleOps α) (p p1 : Parser) (e : Expression α)
    (h : Parser.term D p = .ok (e, p1)) :
    p1.m_tokens = p.m_tokens ∧ e.Invariant D (Spec.numberTexts p.m_tokens) := by
  unfold Parser.term at h
  cases hf : Parser.factor D p with
  | error err => rw [hf] at h; simp [bind, Except.bind] at h
  | ok r =>
    obtain ⟨expr, p2⟩ := r
    rw [hf] at h
    simp only [bind, Except.bind] at h
    obtain ⟨f1, f2⟩ := Parser.factor_inv D p p2 expr hf
    obtain ⟨g1, g2⟩ := Parser.termLoop_inv D _ p2 p1 expr e (by rw [f1]; exact f2) h
    rw [f1] at g1 g2
    exact ⟨g1, g2⟩

theorem Parser.expressionLoop_inv {α : Type} (D : DoubleOps α) (fuel : Nat) :
    ∀ (p p1 : Parser) (expr e : Expression α),
      expr.Invariant D (Spec.numberTexts p.m_tokens) →
      Parser.expressionLoop D fuel p expr = .ok (e, p1) →
      p1.m_tokens = p.m_tokens ∧ e.Invariant D (Spec.numberTexts p.m_tokens) := by
  induction fuel with
  | zero => intro p p1 expr e _ h; simp [Parser.expressionLoop] at h
  | succ fuel ih =>
    intro p p1 expr e hinv h
    obtain ⟨h1, h2⟩ := Parser.match_or_spec p .PLUS .MINUS
    rw [Parser.expressionLoop] at h
    simp only at h
    generalize (if (p.match_ .PLUS).1 then p.match_ .PLUS
      else (p.match_ .PLUS).2.match_ .MINUS) = m at h h1 h2
    cases hm : m.1 with
    | false =>
      rw [hm] at h
      simp only [Bool.false_eq_true, if_false, Except.ok.injEq, Prod.mk.injEq] at h
      obtain ⟨he, hp⟩ := h
      rw [← he, ← hp]
      exact ⟨h1, hinv⟩
    | true =>
      rw [hm] at h
      simp only [if_true] at h
      cases hf : Parser.term D m.2 with
      | error err => rw [hf] at h; simp [bind, Except.bind] at h
      | ok r =>
        obtain ⟨right, p2⟩ := r
        rw [hf] at h
        simp only [bind, Except.bind] at h
        obtain ⟨f1, f2⟩ := Parser.term_inv D m.2 p2 right hf
        rw [h1] at f1 f2
        have hop := h2 hm
        have hnew : (Expression.BinaryExpr expr (m.2.tokenAt (m.2.m_current - 1)).type
            right).Invariant D (Spec.numberTexts p2.m_tokens) := by
          rw [f1]
          exact ⟨by tauto, hinv, f2⟩
        obtain ⟨g1, g2⟩ := ih p2 p1 _ e hnew h
        rw [f1] at g1 g2
        exact ⟨g1, g2⟩

/-- Every tree that `parse` returns satisfies the invariant, its leaves being
read from the NUMBER tokens of the sequence. -/
theorem parse_inv {α : Type} (D : DoubleOps α) (tokens : List Token) (e : Expression α)
    (h : parse D tokens = .ok e) : e.Invariant D (Spec.numberTexts tokens) := by
  unfold parse Parser.parse Parser.expression at h
  cases ht : Parser.term D (Parser.new tokens) with
  | error err => rw [ht] at h; simp [bind, Except.bind] at h
  | ok r =>
    obtain ⟨expr, p2⟩ := r
    rw [ht] at h
    simp only [bind, Except.bind] at h
    obtain ⟨f1, f2⟩ := Parser.term_inv D _ p2 expr ht
    cases hl : Parser.expressionLoop D ((Parser.new tokens).m_tokens.length + 1) p2 expr with
    | error err => rw [hl] at h; simp [pure, Except.pure] at h
    | ok r2 =>
      obtain ⟨e2, p3⟩ := r2
      rw [hl] at h
      simp only [pure, Except.pure, Except.ok.injEq] at h
      obtain ⟨g1, g2⟩ := Parser.expressionLoop_inv D _ p2 p3 expr e2 (by rw [f1]; exact f2) hl
      rw [f1] at g2
      rw [← h]
      exact g2

/-- The operators of a tree with the invariant are known to `evaluate` and to
`generateCode`. -/
theorem Expression.Invariant.total {α : Type} (D : DoubleOps α) (numerals : List Str)
    (e : Expression α) (h : e.Invariant D numerals) :
    (∃ v, e.evaluate D = .ok v) ∧ ∃ lines, Spec.instructions D e = some lines := by
  induction e with
  | NumberExpr value => exact ⟨⟨value, rfl⟩, ⟨_, rfl⟩⟩
  | BinaryExpr left op right ihl ihr =>
    obtain ⟨hop, hl, hr⟩ := h
    obtain ⟨⟨lv, hlv⟩, ⟨ll, hll⟩⟩ := ihl hl
    obtain ⟨⟨rv, hrv⟩, ⟨rl, hrl⟩⟩ := ihr hr
    constructor
    · rcases hop with e | e | e | e <;> subst e <;>
        simp only [Expression.evaluate, hlv, hrv, bind, Except.bind] <;> exact ⟨_, rfl⟩
    · rcases hop with e | e | e | e <;> subst e <;>
        simp only [Spec.instructions, hll, hrl, Spec.opInstruction, bind, Option.bind, pure] <;>
        exact ⟨_, rfl⟩

end Calc

namespace Calc

/-- Every NUMBER token that the lexer produces carries a non-empty string of
digits, from whichever state of the scan. -/
theorem Spec.lexGo_number_texts (s : Str) : ∀ st : Spec.LexState,
    (∀ text, st = .number text → IsNumeral text) →
    ∀ t ∈ Spec.lexGo st s, t.type = .NUMBER → IsNumeral t.value := by
  induction s with
  | nil =>
    intro st hst t ht hn
    cases st with
    | start =>
      simp only [Spec.lexGo, List.mem_singleton] at ht
      rw [ht] at hn; cases hn
    | space =>
      simp only [Spec.lexGo, List.mem_cons, List.mem_singleton, List.not_mem_nil,
        or_false] at ht
      rcases ht with e | e <;> rw [e] at hn <;> cases hn
    | number text =>
      simp only [Spec.lexGo, List.mem_cons, List.mem_singleton, List.not_mem_nil,
        or_false] at ht
      rcases ht with e | e
      · rw [e]; exact hst text rfl
      · rw [e] at hn; cases hn
  | cons c cs ih =>
    intro st hst t ht hn
    have hchar : ∀ x : Char, t = Lexer.charToken x → False := by
      intro x e
      rw [e, Spec.charToken_eq_symbolType] at hn
      exact Spec.symbolType_ne_NUMBER x hn
    have hone : isdigit c = true → ∀ text, Spec.LexState.number [c] = .number text →
        IsNumeral text := by
      intro hc text e
      injection e with e
      rw [← e]
      exact ⟨by simp, by simpa using hc⟩
    have hnone1 : ∀ text, Spec.LexState.space = .number text → IsNumeral text :=
      fun _ e => by cases e
    have hnone2 : ∀ text, Spec.LexState.start = .number text → IsNumeral text :=
      fun _ e => by cases e
    cases st with
    | start =>
      rw [Spec.lexGo] at ht
      split_ifs at ht with h1 h2
      · exact ih _ (hone h1) t ht hn
      · exact ih _ hnone1 t ht hn
      · rcases List.mem_cons.mp ht with e | ht
        · exact (hchar c e).elim
        · exact ih _ hnone2 t ht hn
    | space =>
      rw [Spec.lexGo] at ht
      split_ifs at ht with h1 h2
      · exact ih _ (hone h1) t ht hn
      · exact ih _ hnone1 t ht hn
      · rcases List.mem_cons.mp ht with e | ht
        · exact (hchar c e).elim
        · exact ih _ hnone2 t ht hn
    | number text =>
      have htext := hst text rfl
      rw [Spec.lexGo] at ht
      split_ifs at ht with h1 h2
      · refine ih _ ?_ t ht hn
        intro text2 e
        injection e with e
        rw [← e]
        refine ⟨by simp, ?_⟩
        intro x hx
        rcases List.mem_append.mp hx with hx | hx
        · exact htext.2 x hx
        · simp only [List.mem_singleton] at hx
          rw [hx]; exact h1
      · rcases List.mem_cons.mp ht with e | ht
        · rw [e]; exact htext
        · exact ih _ hnone1 t ht hn
      · rcases List.mem_cons.mp ht with e | ht
        · rw [e]; exact htext
        · rcases List.mem_cons.mp ht with e | ht
          · exact (hchar c e).elim
          · exact ih _ hnone2 t ht hn

/-- C26 (as stated, refuted): the leaf that `parse` builds for the numeral
9007199254740993 holds the number 1 * 2^53 = 9007199254740992, the `double`
nearest to the integer that the digits denote, and not that integer. -/
theorem parse_leaf_is_rounded :
    parseText binary64 "9007199254740993".toList = .ok (.NumberExpr (.finite false 1 53)) ∧
      1 * 2 ^ 53 ≠ digitsValue "9007199254740993".toList :=
  ⟨by rfl, by decide⟩

/-- C26 (amended): every tree that `parse` returns satisfies the invariant of
expression trees: each binary node has one of the operators PLUS, MINUS,
MULTIPLY, DIVIDE, and each leaf holds the number that `std::stod` returns for
the text of a NUMBER token of the sequence. For a sequence that comes from
the lexer these texts are non-empty strings of digits, and the number that
`std::stod` returns for such a text is the finite `double` nearest to the
non-negative integer that the digits denote; it is that integer when the
integer is at most 2^53: the leaves of the tree of "12+3" hold 12 = 3 * 2^2
and 3. On a tree with the invariant `evaluate` and `generateCode` return:
they do not reach their "Unknown operator" branch, which a tree with another
operator does reach. -/
theorem parse_tree_invariant {α : Type} (D : DoubleOps α) :
    (∀ (tokens : List Token) (e : Expression α), parse D tokens = .ok e →
      e.Invariant D (Spec.numberTexts tokens)) ∧
    (∀ (input : Str) (e : Expression α), parseText D input = .ok e →
      ∃ tokens, tokenize input = .ok tokens ∧ e.Invariant D (Spec.numberTexts tokens) ∧
        ∀ n ∈ Spec.numberTexts tokens, IsNumeral n) ∧
    (∀ (numerals : List Str) (e : Expression α), e.Invariant D numerals →
      (∃ v, e.evaluate D = .ok v) ∧ ∀ gen, ∃ gen1, e.generateCode D gen = .ok gen1) ∧
    (∀ (n : Str) (x : Double), IsNumeral n → binary64.stod n = .ok x →
      x = Double.ofNat (digitsValue n) ∧ x.isFinite = true) ∧
    (∀ k : Nat, k ≤ 2 ^ 53 →
      ∃ m j : Nat, Double.ofNat k = .finite false m (j : Int) ∧ m * 2 ^ j = k) ∧
    parseText binary64 "12+3".toList =
      .ok (.BinaryExpr (.NumberExpr (.finite false 3 2)) .PLUS (.NumberExpr (.finite false 3 0))) ∧
    (Expression.BinaryExpr (.NumberExpr (Double.ofNat 2)) .NUMBER
        (.NumberExpr (Double.ofNat 3))).evaluate binary64 =
      .error (.runtime_error "Unknown operator") := by
  refine ⟨parse_inv D, ?_, ?_, fun n x hn hx => Double.stod_numeral_ok n hn x hx,
    Double.ofNat_value, by rfl, by rfl⟩
  · intro input e h
    rw [parseText_eq] at h
    refine ⟨_, tokenize_eq_lexGo input, parse_inv D _ e h, ?_⟩
    intro n hn
    obtain ⟨t, ht, rfl⟩ := List.mem_map.mp hn
    obtain ⟨ht1, ht2⟩ := List.mem_filter.mp ht
    exact Spec.lexGo_number_texts input .start (fun _ e => by cases e) t ht1 (by simpa using ht2)
  · intro numerals e h
    obtain ⟨hv, lines, hl⟩ := Expression.Invariant.total D numerals e h
    exact ⟨hv, fun gen => ⟨_, Expression.generateCode_eq D e lines gen hl⟩⟩

end Calc

namespace Calc

/-! ## Operand fields and opcode bits of every accepted line -/

theorem maskBits_lt (x : Int) (bits : Nat) : maskBits x bits < 2 ^ bits := by
  unfold maskBits
  have hpos : (0 : Int) < (2 : Int) ^ bits := by positivity
  have h1 := Int.emod_lt_of_pos x hpos
  have h2 := Int.emod_nonneg x (ne_of_gt hpos)
  have h3 : ((x % (2 : Int) ^ bits).toNat : Int) = x % (2 : Int) ^ bits := Int.toNat_of_nonneg h2
  have h4 : ((x % (2 : Int) ^ bits).toNat : Int) < ((2 ^ bits : Nat) : Int) := by
    rw [h3]; push_cast; exact h1
  exact_mod_cast h4

/-- A value that fits a field does not meet a mask that is clear on the
field. -/
theorem and_shiftLeft_zero (x n s m : Nat) (hx : x < 2 ^ n)
    (hm : m &&& ((2 ^ n - 1) <<< s) = 0) : m &&& (x <<< s) = 0 := by
  apply Nat.eq_of_testBit_eq
  intro i
  have h := congrArg (fun k => Nat.testBit k i) hm
  simp only [Nat.testBit_and, Nat.testBit_shiftLeft, Nat.testBit_two_pow_sub_one,
    Nat.zero_testBit] at h ⊢
  cases hb : x.testBit (i - s) with
  | false => simp
  | true =>
    have hlt : i - s < n := by
      by_contra hge
      have hle : 2 ^ n ≤ 2 ^ (i - s) := Nat.pow_le_pow_right (by omega) (by omega)
      have := Nat.testBit_lt_two_pow (lt_of_lt_of_le hx hle)
      rw [this] at hb
      cases hb
    simp only [hlt, decide_True, Bool.and_true] at h
    simp only [Bool.and_true]
    revert h
    cases m.testBit i <;> cases decide (i ≥ s) <;> simp

/-- The opcode bits of a word built from a base pattern and two fields. -/
theorem opcode_two_fields (mask base a b n s : Nat) (ha : a < 32) (hb : b < 2 ^ n)
    (h0 : mask &&& base = base) (h1 : mask &&& ((2 ^ 5 - 1) <<< 0) = 0)
    (h2 : mask &&& ((2 ^ n - 1) <<< s) = 0) :
    (base ||| a ||| (b <<< s)) &&& mask = base := by
  have ea := and_shiftLeft_zero a 5 0 mask (by simpa using ha) h1
  have eb := and_shiftLeft_zero b n s mask hb h2
  rw [Nat.shiftLeft_zero] at ea
  rw [Nat.and_comm, Nat.and_or_distrib_left, Nat.and_or_distrib_left, h0, ea, eb]
  simp

/-- The opcode bits of a word built from a base pattern and three register
fields. -/
theorem opcode_three_fields (mask base a b c : Nat) (ha : a < 32) (hb : b < 32) (hc : c < 32)
    (h0 : mask &&& base = base) (h1 : mask &&& ((2 ^ 5 - 1) <<< 0) = 0)
    (h2 : mask &&& ((2 ^ 5 - 1) <<< 5) = 0) (h3 : mask &&& ((2 ^ 5 - 1) <<< 16) = 0) :
    (base ||| a ||| (b <<< 5) ||| (c <<< 16)) &&& mask = base := by
  have ea := and_shiftLeft_zero a 5 0 mask (by simpa using ha) h1
  have eb := and_shiftLeft_zero b 5 5 mask (by simpa using hb) h2
  have ec := and_shiftLeft_zero c 5 16 mask (by simpa using hc) h3
  rw [Nat.shiftLeft_zero] at ea
  rw [Nat.and_comm, Nat.and_or_distrib_left, Nat.and_or_distrib_left, Nat.and_or_distrib_left,
    h0, ea, eb, ec]
  simp

/-- The fields of a word built from a base pattern and two fields that fit. -/
theorem AsmInstr.fields_of_lt (i : AsmInstr) :
    i.RegisterFields i.encode ∧ i.ImmediateFields i.encode :=
  ⟨i.encode_registerFields, i.encode_immediateFields⟩

theorem maskBits_five (x : Int) : maskBits x 5 = (x % 32).toNat := by
  unfold maskBits
  norm_num

theorem maskBits_sixteen (x : Int) : maskBits x 16 = (x % 65536).toNat := by
  unfold maskBits
  norm_num

theorem maskBits_nine (x : Int) : maskBits x 9 = (x % 512).toNat := by
  unfold maskBits
  norm_num

/-- Every word that `assembleMov` returns: the operands that `std::stoi`
reads from the match, the opcode bits and the fields. -/
theorem Assembler.assembleMov_fields (line : Str) (w : Nat)
    (h : Assembler.assembleMov line = .ok w) :
    ∃ matched rd imm, regex_search Assembler.movPattern line = some matched ∧
      stoi (matched.getD 0 []) = .ok rd ∧ stoi (matched.getD 1 []) = .ok imm ∧
      w &&& (0xFFFFFFFF ^^^ 0x1FFFFF) = 0xD2800000 ∧
      field w 0 5 = (rd % 32).toNat ∧ field w 5 16 = (imm % 65536).toNat := by
  unfold Assembler.assembleMov at h
  cases hs : regex_search Assembler.movPattern line with
  | none => rw [hs] at h; cases h
  | some m =>
    rw [hs] at h
    simp only [bind, Except.bind, pure, Except.pure] at h
    cases h1 : stoi (m.getD 0 []) with
    | error e => rw [h1] at h; cases h
    | ok rd =>
      cases h2 : stoi (m.getD 1 []) with
      | error e => rw [h1, h2] at h; cases h
      | ok imm =>
        rw [h1, h2] at h
        injection h with h
        have ha := maskBits_lt rd 5
        have hb := maskBits_lt imm 16
        have henc : w = (AsmInstr.mov (maskBits rd 5) (maskBits imm 16)).encode := by
          rw [← h]
          simp only [AsmInstr.encode]
          rw [Nat.mod_eq_of_lt (by simpa using ha), Nat.mod_eq_of_lt (by simpa using hb)]
        have hf := (AsmInstr.mov (maskBits rd 5) (maskBits imm 16)).fields_of_lt
        rw [← henc] at hf
        simp only [AsmInstr.RegisterFields, AsmInstr.ImmediateFields] at hf
        rw [Nat.mod_eq_of_lt (by simpa using ha)] at hf
        rw [Nat.mod_eq_of_lt (by simpa using hb)] at hf
        refine ⟨m, rd, imm, rfl, h1, h2, ?_, ?_, ?_⟩
        · rw [← h]
          exact opcode_two_fields _ _ _ _ 16 5 (by simpa using ha) hb (by decide) (by decide)
            (by decide)
        · rw [hf.1, maskBits_five]
        · rw [hf.2, maskBits_sixteen]

/-- Every word that `assembleLoad` returns. -/
theorem Assembler.assembleLoad_fields (line : Str) (w : Nat)
    (h : Assembler.assembleLoad line = .ok w) :
    ∃ matched rt imm, regex_search Assembler.loadPattern line = some matched ∧
      stoi (matched.getD 0 []) = .ok rt ∧ stoi (matched.getD 1 []) = .ok imm ∧
      w &&& (0xFFFFFFFF ^^^ 0x1FF01F) = 0xF8400400 ∧
      field w 0 5 = (rt % 32).toNat ∧ field w 12 9 = (imm.tdiv 8 % 512).toNat := by
  unfold Assembler.assembleLoad at h
  cases hs : regex_search Assembler.loadPattern line with
  | none => rw [hs] at h; cases h
  | some m =>
    rw [hs] at h
    simp only [bind, Except.bind, pure, Except.pure] at h
    cases h1 : stoi (m.getD 0 []) with
    | error e => rw [h1] at h; cases h
    | ok rt =>
      cases h2 : stoi (m.getD 1 []) with
      | error e => rw [h1, h2] at h; cases h
      | ok imm =>
        rw [h1, h2] at h
        injection h with h
        have ha := maskBits_lt rt 5
        have hb := maskBits_lt (imm.tdiv 8) 9
        have hb8 : 8 * maskBits (imm.tdiv 8) 9 / 8 % 512 = maskBits (imm.tdiv 8) 9 := by
          rw [Nat.mul_div_cancel_left _ (by omega), Nat.mod_eq_of_lt (by simpa using hb)]
        have henc : w = (AsmInstr.ldr (maskBits rt 5) (8 * maskBits (imm.tdiv 8) 9)).encode := by
          rw [← h]
          simp only [AsmInstr.encode]
          rw [Nat.mod_eq_of_lt (by simpa using ha), hb8]
        have hf := (AsmInstr.ldr (maskBits rt 5) (8 * maskBits (imm.tdiv 8) 9)).fields_of_lt
        rw [← henc] at hf
        simp only [AsmInstr.RegisterFields, AsmInstr.ImmediateFields] at hf
        rw [Nat.mod_eq_of_lt (by simpa using ha)] at hf
        rw [hb8] at hf
        refine ⟨m, rt, imm, rfl, h1, h2, ?_, ?_, ?_⟩
        · rw [← h]
          exact opcode_two_fields _ _ _ _ 9 12 (by simpa using ha) hb (by decide) (by decide)
            (by decide)
        · rw [hf.1, maskBits_five]
        · rw [hf.2, maskBits_nine]

/-- Every word that `assembleStore` returns; the number that `std::stoi`
reads is the one written after `#-`. -/
theorem Assembler.assembleStore_fields (line : Str) (w : Nat)
    (h : Assembler.assembleStore line = .ok w) :
    ∃ matched rt imm, regex_search Assembler.storePattern line = some matched ∧
      stoi (matched.getD 0 []) = .ok rt ∧ stoi (matched.getD 1 []) = .ok imm ∧
      w &&& (0xFFFFFFFF ^^^ 0x1FF01F) = 0xF8000C00 ∧
      field w 0 5 = (rt % 32).toNat ∧ field w 12 9 = (imm.tdiv 8 % 512).toNat := by
  unfold Assembler.assembleStore at h
  cases hs : regex_search Assembler.storePattern line with
  | none => rw [hs] at h; cases h
  | some m =>
    rw [hs] at h
    simp only [bind, Except.bind, pure, Except.pure] at h
    cases h1 : stoi (m.getD 0 []) with
    | error e => rw [h1] at h; cases h
    | ok rt =>
      cases h2 : stoi (m.getD 1 []) with
      | error e => rw [h1, h2] at h; cases h
      | ok imm =>
        rw [h1, h2] at h
        injection h with h
        have ha := maskBits_lt rt 5
        have hb := maskBits_lt (imm.tdiv 8) 9
        have hb8 : 8 * maskBits (imm.tdiv 8) 9 / 8 % 512 = maskBits (imm.tdiv 8) 9 := by
          rw [Nat.mul_div_cancel_left _ (by omega), Nat.mod_eq_of_lt (by simpa using hb)]
        have henc : w = (AsmInstr.str (maskBits rt 5) (8 * maskBits (imm.tdiv 8) 9)).encode := by
          rw [← h]
          simp only [AsmInstr.encode]
          rw [Nat.mod_eq_of_lt (by simpa using ha), hb8]
        have hf := (AsmInstr.str (maskBits rt 5) (8 * maskBits (imm.tdiv 8) 9)).fields_of_lt
        rw [← henc] at hf
        simp only [AsmInstr.RegisterFields, AsmInstr.ImmediateFields] at hf
        rw [Nat.mod_eq_of_lt (by simpa using ha)] at hf
        rw [hb8] at hf
        refine ⟨m, rt, imm, rfl, h1, h2, ?_, ?_, ?_⟩
        · rw [← h]
          exact opcode_two_fields _ _ _ _ 9 12 (by simpa using ha) hb (by decide) (by decide)
            (by decide)
        · rw [hf.1, maskBits_five]
        · rw [hf.2, maskBits_nine]

theorem Assembler.arith_word_fields (aop : ArithOp) (rd rn rm : Int) :
    (aop.base ||| maskBits rd 5 ||| (maskBits rn 5 <<< 5) ||| (maskBits rm 5 <<< 16)) &&&
        (0xFFFFFFFF ^^^ 0x1F03FF) = aop.base ∧
      field (aop.base ||| maskBits rd 5 ||| (maskBits rn 5 <<< 5) ||| (maskBits rm 5 <<< 16))
        0 5 = (rd % 32).toNat ∧
      field (aop.base ||| maskBits rd 5 ||| (maskBits rn 5 <<< 5) ||| (maskBits rm 5 <<< 16))
        5 5 = (rn % 32).toNat ∧
      field (aop.base ||| maskBits rd 5 ||| (maskBits rn 5 <<< 5) ||| (maskBits rm 5 <<< 16))
        16 5 = (rm % 32).toNat := by
  have ha : maskBits rd 5 < 32 := by simpa using maskBits_lt rd 5
  have hb : maskBits rn 5 < 32 := by simpa using maskBits_lt rn 5
  have hc : maskBits rm 5 < 32 := by simpa using maskBits_lt rm 5
  have henc : aop.base ||| maskBits rd 5 ||| (maskBits rn 5 <<< 5) ||| (maskBits rm 5 <<< 16) =
      (AsmInstr.arith aop (maskBits rd 5) (maskBits rn 5) (maskBits rm 5)).encode := by
    simp only [AsmInstr.encode]
    rw [Nat.mod_eq_of_lt ha, Nat.mod_eq_of_lt hb, Nat.mod_eq_of_lt hc]
  have hf := (AsmInstr.arith aop (maskBits rd 5) (maskBits rn 5) (maskBits rm 5)).fields_of_lt.1
  rw [← henc] at hf
  simp only [AsmInstr.RegisterFields] at hf
  rw [Nat.mod_eq_of_lt ha, Nat.mod_eq_of_lt hb, Nat.mod_eq_of_lt hc] at hf
  refine ⟨?_, ?_, ?_, ?_⟩
  · cases aop <;>
      exact opcode_three_fields _ _ _ _ _ ha hb hc (by decide) (by decide) (by decide) (by decide)
  · rw [hf.1, maskBits_five]
  · rw [hf.2.1, maskBits_five]
  · rw [hf.2.2, maskBits_five]

/-- Every word that `assembleArithmetic` returns. -/
theorem Assembler.assembleArithmetic_fields (line : Str) (w : Nat)
    (h : Assembler.assembleArithmetic line = .ok w) :
    ∃ (matched : List Str) (aop : ArithOp) (rd rn rm : Int),
        regex_search Assembler.arithmeticPattern line = some matched ∧
      matched.getD 0 [] = aop.mnemonic ∧
      stoi (matched.getD 1 []) = .ok rd ∧ stoi (matched.getD 2 []) = .ok rn ∧
      stoi (matched.getD 3 []) = .ok rm ∧
      w &&& (0xFFFFFFFF ^^^ 0x1F03FF) = aop.base ∧
      field w 0 5 = (rd % 32).toNat ∧ field w 5 5 = (rn % 32).toNat ∧
      field w 16 5 = (rm % 32).toNat := by
  unfold Assembler.assembleArithmetic at h
  cases hs : regex_search Assembler.arithmeticPattern line with
  | none => rw [hs] at h; cases h
  | some m =>
    rw [hs] at h
    simp only [bind, Except.bind, pure, Except.pure] at h
    cases h1 : stoi (m.getD 1 []) with
    | error e => rw [h1] at h; cases h
    | ok rd =>
      cases h2 : stoi (m.getD 2 []) with
      | error e => rw [h1, h2] at h; cases h
      | ok rn =>
        cases h3 : stoi (m.getD 3 []) with
        | error e => rw [h1, h2, h3] at h; cases h
        | ok rm =>
          rw [h1, h2, h3] at h
          simp only at h
          split at h
          · rename_i hop
            injection h with h
            subst h
            exact ⟨m, .add, rd, rn, rm, rfl, hop, h1, h2, h3,
              Assembler.arith_word_fields .add rd rn rm⟩
          · split at h
            · rename_i hop
              injection h with h
              subst h
              exact ⟨m, .sub, rd, rn, rm, rfl, hop, h1, h2, h3,
                Assembler.arith_word_fields .sub rd rn rm⟩
            · split at h
              · rename_i hop
                injection h with h
                subst h
                exact ⟨m, .mul, rd, rn, rm, rfl, hop, h1, h2, h3,
                  Assembler.arith_word_fields .mul rd rn rm⟩
              · split at h
                · rename_i hop
                  injection h with h
                  subst h
                  exact ⟨m, .sdiv, rd, rn, rm, rfl, hop, h1, h2, h3,
                    Assembler.arith_word_fields .sdiv rd rn rm⟩
                · cases h

/-- C27 (the behaviour of the code): for every line that `assembleLine`
accepts as an instruction, with `rd`, `imm`, ... the numbers that `std::stoi`
reads from the match, the word AND-ed with the complement of the field mask
of the family is the base pattern of the family, each register field is the
register index modulo 32, the immediate field of `mov` is the immediate modulo
65536 and the offset field of a load or store is the number read, divided by
8, modulo 512. For the store the number read is the one written after `#-`,
the magnitude of the offset: for `str x0, [sp, #-16]!` the offset is -16 and
the field holds 2, not (-16 / 8) modulo 512 = 510. -/
theorem assembleLine_fields_masked :
    (∀ (line : Str) (w : Nat), Assembler.isSkipped line = false →
      Assembler.assembleLine line = .ok w →
      Assembler.assembleMov line = .ok w ∨ Assembler.assembleArithmetic line = .ok w ∨
        Assembler.assembleLoad line = .ok w ∨ Assembler.assembleStore line = .ok w) ∧
    (∀ (line : Str) (w : Nat), Assembler.assembleMov line = .ok w →
      ∃ matched rd imm, regex_search Assembler.movPattern line = some matched ∧
        stoi (matched.getD 0 []) = .ok rd ∧ stoi (matched.getD 1 []) = .ok imm ∧
        w &&& (0xFFFFFFFF ^^^ 0x1FFFFF) = 0xD2800000 ∧
        field w 0 5 = (rd % 32).toNat ∧ field w 5 16 = (imm % 65536).toNat) ∧
    (∀ (line : Str) (w : Nat), Assembler.assembleArithmetic line = .ok w →
      ∃ (matched : List Str) (aop : ArithOp) (rd rn rm : Int),
        regex_search Assembler.arithmeticPattern line = some matched ∧
        matched.getD 0 [] = aop.mnemonic ∧
        stoi (matched.getD 1 []) = .ok rd ∧ stoi (matched.getD 2 []) = .ok rn ∧
        stoi (matched.getD 3 []) = .ok rm ∧
        w &&& (0xFFFFFFFF ^^^ 0x1F03FF) = aop.base ∧
        field w 0 5 = (rd % 32).toNat ∧ field w 5 5 = (rn % 32).toNat ∧
        field w 16 5 = (rm % 32).toNat) ∧
    (∀ (line : Str) (w : Nat), Assembler.assembleLoad line = .ok w →
      ∃ matched rt imm, regex_search Assembler.loadPattern line = some matched ∧
        stoi (matched.getD 0 []) = .ok rt ∧ stoi (matched.getD 1 []) = .ok imm ∧
        w &&& (0xFFFFFFFF ^^^ 0x1FF01F) = 0xF8400400 ∧
        field w 0 5 = (rt % 32).toNat ∧ field w 12 9 = (imm.tdiv 8 % 512).toNat) ∧
    (∀ (line : Str) (w : Nat), Assembler.assembleStore line = .ok w →
      ∃ matched rt imm, regex_search Assembler.storePattern line = some matched ∧
        stoi (matched.getD 0 []) = .ok rt ∧ stoi (matched.getD 1 []) = .ok imm ∧
        w &&& (0xFFFFFFFF ^^^ 0x1FF01F) = 0xF8000C00 ∧
        field w 0 5 = (rt % 32).toNat ∧ field w 12 9 = (imm.tdiv 8 % 512).toNat) ∧
    regex_search Assembler.storePattern "str x0, [sp, #-16]!".toList =
      some ["0".toList, "16".toList] ∧
    Assembler.assembleLine "str x0, [sp, #-16]!".toList = .ok 0xF8002C00 ∧
    field 0xF8002C00 12 9 = 2 ∧
    ((-16 : Int) / 8 % 512).toNat = 510 ∧
    Assembler.assembleLine "mov x33, #65537".toList = .ok 0xD2800021 ∧
    field 0xD2800021 0 5 = 1 ∧ field 0xD2800021 5 16 = 1 := by
  refine ⟨?_, Assembler.assembleMov_fields, Assembler.assembleArithmetic_fields,
    Assembler.assembleLoad_fields, Assembler.assembleStore_fields, by rfl, by rfl, by decide,
    by decide, by rfl, by decide, by decide⟩
  intro line w hs h
  unfold Assembler.assembleLine at h
  simp only [hs, Bool.false_eq_true, if_false] at h
  split at h
  · exact Or.inl h
  · split at h
    · exact Or.inr (Or.inl h)
    · split at h
      · exact Or.inr (Or.inr (Or.inl h))
      · split at h
        · exact Or.inr (Or.inr (Or.inr h))
        · cases h

end Calc

namespace Calc

/-! ## The number of instructions of a tree and the balance of the stack -/

theorem Spec.mov_line_kind (s : Str) :
    Spec.isMov ("mov x0, #".toList ++ s) = true ∧ Spec.isPush ("mov x0, #".toList ++ s) = false ∧
      Spec.isPop ("mov x0, #".toList ++ s) = false ∧
      Spec.isOperator ("mov x0, #".toList ++ s) = false := by
  refine ⟨?_, ?_, ?_, ?_⟩
  · simp [Spec.isMov]
  · simp [Spec.isPush]
  · simp [Spec.isPop]
  · simp [Spec.isOperator]

theorem Spec.opInstruction_kind (op : TokenType) (o : Str) (h : Spec.opInstruction op = some o) :
    Spec.isMov o = false ∧ Spec.isPush o = false ∧ Spec.isPop o = false ∧
      Spec.isOperator o = true := by
  cases op <;> simp only [Spec.opInstruction, Option.some.injEq] at h <;>
    first
    | (subst h; exact ⟨by decide, by decide, by decide, by decide⟩)
    | cases h

/-- The balance of pushes and pops in front of every position of the
instruction list of a binary node, from the balance of the two subtrees. -/
theorem Spec.balanced_node (push pop : Str → Bool) (r l : List Str) (a b o : Str)
    (ha : push a = true) (ha1 : pop a = false) (ho1 : pop o = false)
    (hr : ∀ k, (r.take k).countP pop ≤ (r.take k).countP push)
    (hrt : r.countP push = r.countP pop)
    (hl : ∀ k, (l.take k).countP pop ≤ (l.take k).countP push) :
    ∀ k, ((r ++ [a] ++ l ++ [b] ++ [o]).take k).countP pop ≤
      ((r ++ [a] ++ l ++ [b] ++ [o]).take k).countP push := by
  intro k
  have hshape : r ++ [a] ++ l ++ [b] ++ [o] = r ++ (a :: (l ++ [b, o])) := by simp
  rw [hshape, List.take_append_eq_append_take, List.countP_append, List.countP_append]
  by_cases hk : k ≤ r.length
  · have h0 : k - r.length = 0 := by omega
    rw [h0]
    simpa using hr k
  · have htk : r.take k = r := List.take_of_length_le (by omega)
    obtain ⟨j, hj⟩ : ∃ j, k - r.length = j + 1 := ⟨k - r.length - 1, by omega⟩
    rw [htk, hj, List.take_succ_cons, List.countP_cons, List.countP_cons,
      List.take_append_eq_append_take, List.countP_append, List.countP_append]
    simp only [ha, ha1, if_true, Bool.false_eq_true, if_false]
    have h1 := hl j
    have h2 : ((List.take (j - l.length) [b, o]).countP pop) ≤ 1 := by
      refine (List.Sublist.countP_le _ (List.take_sublist _ _)).trans ?_
      simp only [List.countP_cons, List.countP_nil, ho1, Bool.false_eq_true, if_false]
      split <;> omega
    omega

/-- The counts of the instruction list of a tree. -/
theorem Spec.instructions_counts {α : Type} (D : DoubleOps α) (e : Expression α) :
    ∀ lines : List Str, Spec.instructions D e = some lines →
      lines.length + 3 = 4 * e.leaves ∧ lines.countP Spec.isMov = e.leaves ∧
      lines.countP Spec.isPush + 1 = e.leaves ∧ lines.countP Spec.isPop + 1 = e.leaves ∧
      lines.countP Spec.isOperator + 1 = e.leaves ∧
      ∀ k, (lines.take k).countP Spec.isPop ≤ (lines.take k).countP Spec.isPush := by
  induction e with
  | NumberExpr value =>
    intro lines h
    simp only [Spec.instructions, Option.some.injEq] at h
    subst h
    obtain ⟨k1, k2, k3, k4⟩ := Spec.mov_line_kind (to_string (D.toInt value))
    generalize "mov x0, #".toList ++ to_string (D.toInt value) = line at k1 k2 k3 k4 ⊢
    refine ⟨rfl, ?_, ?_, ?_, ?_, ?_⟩
    · simp [List.countP_cons, k1, Expression.leaves]
    · simp [List.countP_cons, k2, Expression.leaves]
    · simp [List.countP_cons, k3, Expression.leaves]
    · simp [List.countP_cons, k4, Expression.leaves]
    · intro k
      refine (List.Sublist.countP_le _ (List.take_sublist _ _)).trans ?_
      simp [List.countP_cons, k3]
  | BinaryExpr left op right ihl ihr =>
    intro lines h
    simp only [Spec.instructions, bind, Option.bind] at h
    cases hr : Spec.instructions D right with
    | none => rw [hr] at h; cases h
    | some rl =>
      cases hl : Spec.instructions D left with
      | none => rw [hr, hl] at h; cases h
      | some ll =>
        cases ho : Spec.opInstruction op with
        | none => rw [hr, hl, ho] at h; cases h
        | some o =>
          rw [hr, hl, ho] at h
          simp only [pure, Option.some.injEq] at h
          subst h
          obtain ⟨r1, r2, r3, r4, r5, r6⟩ := ihr rl hr
          obtain ⟨l1, l2, l3, l4, l5, l6⟩ := ihl ll hl
          obtain ⟨o1, o2, o3, o4⟩ := Spec.opInstruction_kind op o ho
          have p1 : Spec.isMov "str x0, [sp, #-16]!".toList = false := by decide
          have p2 : Spec.isPush "str x0, [sp, #-16]!".toList = true := by decide
          have p3 : Spec.isPop "str x0, [sp, #-16]!".toList = false := by decide
          have p4 : Spec.isOperator "str x0, [sp, #-16]!".toList = false := by decide
          have q1 : Spec.isMov "ldr x1, [sp], #16".toList = false := by decide
          have q2 : Spec.isPush "ldr x1, [sp], #16".toList = false := by decide
          have q3 : Spec.isPop "ldr x1, [sp], #16".toList = true := by decide
          have q4 : Spec.isOperator "ldr x1, [sp], #16".toList = false := by decide
          refine ⟨?_, ?_, ?_, ?_, ?_, ?_⟩
          · simp only [List.length_append, List.length_singleton, Expression.leaves]
            omega
          · simp only [List.countP_append, List.countP_cons, List.countP_nil, p1, q1, o1,
              Expression.leaves, Bool.false_eq_true, if_false]
            omega
          · simp only [List.countP_append, List.countP_cons, List.countP_nil, p2, q2, o2,
              Expression.leaves, Bool.false_eq_true, if_false, if_true]
            omega
          · simp only [List.countP_append, List.countP_cons, List.countP_nil, p3, q3, o3,
              Expression.leaves, Bool.false_eq_true, if_false, if_true]
            omega
          · simp only [List.countP_append, List.countP_cons, List.countP_nil, p4, q4, o4,
              Expression.leaves, Bool.false_eq_true, if_false, if_true]
            omega
          · exact Spec.balanced_node Spec.isPush Spec.isPop rl ll _ _ o p2 p3 o3 r6
              (by omega) l6

theorem Expression.binaryNodes_leaves {α : Type} (e : Expression α) :
    e.binaryNodes + 1 = e.leaves := by
  induction e with
  | NumberExpr value => rfl
  | BinaryExpr left op right ihl ihr =>
    simp only [Expression.binaryNodes, Expression.leaves]
    omega

/-- C30: for every tree whose operators are among the four (the instruction
list `Spec.instructions` is defined), with n leaves and n-1 binary nodes,
`generateCode` emits the lines of that list, which are 4n-3: n lines are
`mov`, n-1 are the push, n-1 are the pop and n-1 are operator instructions;
in front of every position of the list there are at least as many pushes as
pops, and the list has as many pushes as pops, each of 16 bytes. -/
theorem generateCode_instruction_counts {α : Type} (D : DoubleOps α) (e : Expression α)
    (lines : List Str) (h : Spec.instructions D e = some lines) :
    (∀ gen : CodeGenerator,
      e.generateCode D gen = .ok { gen with output := gen.output ++ Spec.emitted lines }) ∧
    e.binaryNodes + 1 = e.leaves ∧
    lines.length + 3 = 4 * e.leaves ∧
    lines.countP Spec.isMov = e.leaves ∧
    lines.countP Spec.isPush = e.binaryNodes ∧
    lines.countP Spec.isPop = e.binaryNodes ∧
    lines.countP Spec.isOperator = e.binaryNodes ∧
    (∀ k, (lines.take k).countP Spec.isPop ≤ (lines.take k).countP Spec.isPush) := by
  obtain ⟨c1, c2, c3, c4, c5, c6⟩ := Spec.instructions_counts D e lines h
  have hn := e.binaryNodes_leaves
  exact ⟨fun gen => Expression.generateCode_eq D e lines gen h, hn, c1, c2, by omega, by omega,
    by omega, c6⟩

/-- The tree of 2+3*4 in `double`: three leaves, nine lines. -/
theorem generateCode_instruction_counts_witness :
    Spec.instructions binary64 (Spec.tree (fun n => Double.ofNat (digitsValue n)) "2".toList
        [(.plus, "3".toList), (.times, "4".toList)]) =
      some ["mov x0, #4".toList, "str x0, [sp, #-16]!".toList, "mov x0, #3".toList,
        "ldr x1, [sp], #16".toList, "mul x0, x0, x1".toList, "str x0, [sp, #-16]!".toList,
        "mov x0, #2".toList, "ldr x1, [sp], #16".toList, "add x0, x0, x1".toList] ∧
    ["mov x0, #4".toList, "str x0, [sp, #-16]!".toList, "mov x0, #3".toList,
        "ldr x1, [sp], #16".toList, "mul x0, x0, x1".toList, "str x0, [sp, #-16]!".toList,
        "mov x0, #2".toList, "ldr x1, [sp], #16".toList, "add x0, x0, x1".toList].length + 3 =
      4 * (Spec.tree (fun n => Double.ofNat (digitsValue n)) "2".toList
        [(.plus, "3".toList), (.times, "4".toList)]).leaves :=
  ⟨by rfl, (generateCode_instruction_counts binary64
    (Spec.tree (fun n => Double.ofNat (digitsValue n)) "2".toList
      [(.plus, "3".toList), (.times, "4".toList)])
    ["mov x0, #4".toList, "str x0, [sp, #-16]!".toList, "mov x0, #3".toList,
        "ldr x1, [sp], #16".toList, "mul x0, x0, x1".toList, "str x0, [sp, #-16]!".toList,
        "mov x0, #2".toList, "ldr x1, [sp], #16".toList, "add x0, x0, x1".toList]
    (by rfl)).2.2.1⟩

end Calc

namespace Tiny

open Calc (Str Error isdigit isspace stoi to_string)

/-! ## The parser of the interpreter on an assignment with a subtraction -/

set_option maxRecDepth 100000 in
/-- The tokens that the lexer of the interpreter produces for the example
program of `main`. -/
theorem tokenize_source : (Lexer.new source).tokenize = .ok exampleTokens := by
  rfl

set_option maxRecDepth 100000 in
/-- The parser on the tokens of the example program: the three statements
`x = 5`, `if` and `while` are read, the last assignment of the block ends in
front of the MINUS token, and the next statement fails. -/
theorem parse_exampleTokens :
    (Parser.new exampleTokens).parse = .error (.runtime_error "Expected variable name.") := by
  rfl

/-- The parser in front of its token `t`: it is not at the end, and `check`
compares the type of `t`. -/
theorem Parser.check_front (p : Parser) (t : Token) (rest : List Token)
    (h : p.tokens.drop p.current = t :: rest) (type : TokenType) :
    p.isAtEnd = false ∧ p.peek = t ∧ p.check type = (t.type == type) := by
  obtain ⟨hlt, hget, _⟩ := Calc.drop_eq_cons_getD ({ type := .END } : Token) h
  have hend : p.isAtEnd = false := by
    unfold Parser.isAtEnd
    simp only [ge_iff_le, decide_eq_false_iff_not, not_le]
    exact hlt
  have hpeek : p.peek = t := by
    unfold Parser.peek Parser.tokenAt
    rw [hend, hget]
    rfl
  refine ⟨hend, hpeek, ?_⟩
  unfold Parser.check
  rw [hend, hpeek]
  rfl

theorem Parser.advance_front (p : Parser) (t : Token) (rest : List Token)
    (h : p.tokens.drop p.current = t :: rest) :
    p.advance = (t, { p with current := p.current + 1 }) := by
  obtain ⟨_, hget, _⟩ := Calc.drop_eq_cons_getD ({ type := .END } : Token) h
  obtain ⟨hend, _, _⟩ := Parser.check_front p t rest h .END
  unfold Parser.advance
  simp only [hend, Bool.not_false, if_true]
  show (p.tokens.getD (p.current + 1 - 1) { type := .END }, _) = _
  rw [Nat.add_sub_cancel, hget]

/-- The method `match` on a token of the type asked for: the token is
consumed. -/
theorem Parser.match_front (p : Parser) (t : Token) (rest : List Token)
    (h : p.tokens.drop p.current = t :: rest) (type : TokenType) (ht : t.type = type) :
    p.match_ type = (true, { p with current := p.current + 1 }) := by
  unfold Parser.match_
  rw [(Parser.check_front p t rest h type).2.2, Parser.advance_front p t rest h, ht]
  simp

/-- The method `match` on a token of another type: nothing is consumed. -/
theorem Parser.match_other (p : Parser) (t : Token) (rest : List Token)
    (h : p.tokens.drop p.current = t :: rest) (type : TokenType) (ht : t.type ≠ type) :
    p.match_ type = (false, p) := by
  unfold Parser.match_
  rw [(Parser.check_front p t rest h type).2.2]
  simp [ht]

theorem Parser.consume_front (p : Parser) (t : Token) (rest : List Token)
    (h : p.tokens.drop p.current = t :: rest) (type : TokenType) (ht : t.type = type)
    (message : String) :
    p.consume type message = .ok (t, { p with current := p.current + 1 }) := by
  unfold Parser.consume
  rw [(Parser.check_front p t rest h type).2.2, Parser.advance_front p t rest h, ht]
  simp

theorem Parser.consume_other (p : Parser) (t : Token) (rest : List Token)
    (h : p.tokens.drop p.current = t :: rest) (type : TokenType) (ht : t.type ≠ type)
    (message : String) :
    p.consume type message = .error (.runtime_error message) := by
  unfold Parser.consume
  rw [(Parser.check_front p t rest h type).2.2]
  simp [ht]

theorem Parser.drop_next (p : Parser) (t : Token) (rest : List Token)
    (h : p.tokens.drop p.current = t :: rest) :
    ({ p with current := p.current + 1 } : Parser).tokens.drop
      ({ p with current := p.current + 1 } : Parser).current = rest :=
  (Calc.drop_eq_cons_getD ({ type := .END } : Token) h).2.2

/-- The method `expression` on an IDENTIFIER token: it consumes this one
token. -/
theorem Parser.expression_identifier (p : Parser) (t : Token) (rest : List Token)
    (h : p.tokens.drop p.current = t :: rest) (ht : t.type = .IDENTIFIER) :
    p.expression = .ok (.VariableNode t.value, { p with current := p.current + 1 }) := by
  obtain ⟨_, hget, _⟩ := Calc.drop_eq_cons_getD ({ type := .END } : Token) h
  unfold Parser.expression
  rw [Parser.match_other p t rest h .NUMBER (by rw [ht]; decide)]
  simp only [Bool.false_eq_true, if_false]
  rw [Parser.match_front p t rest h .IDENTIFIER ht]
  simp only [if_true, Nat.add_sub_cancel]
  unfold Parser.tokenAt
  rw [hget]

/-- The method `expression` on a NUMBER token: it consumes this one token. -/
theorem Parser.expression_number (p : Parser) (t : Token) (rest : List Token) (v : Int)
    (h : p.tokens.drop p.current = t :: rest) (ht : t.type = .NUMBER)
    (hv : stoi t.value = .ok v) :
    p.expression = .ok (.NumberNode v, { p with current := p.current + 1 }) := by
  obtain ⟨_, hget, _⟩ := Calc.drop_eq_cons_getD ({ type := .END } : Token) h
  unfold Parser.expression
  rw [Parser.match_front p t rest h .NUMBER ht]
  simp only [if_true, Nat.add_sub_cancel]
  unfold Parser.tokenAt
  rw [hget, hv]
  rfl

/-- The method `assignment` on `name = value` with a single token as the
value: it consumes these three tokens and no more. -/
theorem Parser.assignment_front (p : Parser) (name eq value : Token) (rest : List Token)
    (node : ASTNode) (h : p.tokens.drop p.current = name :: eq :: value :: rest)
    (hname : name.type = .IDENTIFIER) (heq : eq.type = .EQUALS)
    (hvalue : ∀ q : Parser, q.tokens.drop q.current = value :: rest →
      q.expression = .ok (node, { q with current := q.current + 1 })) :
    p.assignment = .ok (.AssignmentNode name.value node, { p with current := p.current + 3 }) := by
  have h1 := Parser.drop_next p name _ h
  have h2 := Parser.drop_next _ eq _ h1
  unfold Parser.assignment
  rw [Parser.consume_front p name _ h .IDENTIFIER hname]
  simp only [bind, Except.bind]
  rw [Parser.consume_front _ eq _ h1 .EQUALS heq]
  simp only []
  rw [hvalue _ h2]
  rfl

/-- The method `statement` on a token that is neither a keyword nor an
IDENTIFIER: `assignment` throws. -/
theorem Parser.statement_other (fuel : Nat) (p : Parser) (t : Token) (rest : List Token)
    (h : p.tokens.drop p.current = t :: rest)
    (ht : t.type ≠ .IF ∧ t.type ≠ .WHILE ∧ t.type ≠ .PRINT ∧ t.type ≠ .IDENTIFIER) :
    Parser.statement (fuel + 1) p = .error (.runtime_error "Expected variable name.") := by
  rw [Parser.statement]
  simp only
  rw [Parser.match_other p t rest h .IF ht.1]
  simp only [Bool.false_eq_true, if_false]
  rw [Parser.match_other p t rest h .WHILE ht.2.1]
  simp only [Bool.false_eq_true, if_false]
  rw [Parser.match_other p t rest h .PRINT ht.2.2.1]
  simp only [Bool.false_eq_true, if_false]
  unfold Parser.assignment
  rw [Parser.consume_other p t rest h .IDENTIFIER ht.2.2.2]
  rfl

/-- The method `statement` on an assignment. -/
theorem Parser.statement_assignment (fuel : Nat) (p : Parser) (name eq value : Token)
    (rest : List Token) (node : ASTNode)
    (h : p.tokens.drop p.current = name :: eq :: value :: rest)
    (hname : name.type = .IDENTIFIER) (heq : eq.type = .EQUALS)
    (hvalue : ∀ q : Parser, q.tokens.drop q.current = value :: rest →
      q.expression = .ok (node, { q with current := q.current + 1 })) :
    Parser.statement (fuel + 1) p =
      .ok (.AssignmentNode name.value node, { p with current := p.current + 3 }) := by
  rw [Parser.statement]
  simp only
  rw [Parser.match_other p name _ h .IF (by rw [hname]; decide)]
  simp only [Bool.false_eq_true, if_false]
  rw [Parser.match_other p name _ h .WHILE (by rw [hname]; decide)]
  simp only [Bool.false_eq_true, if_false]
  rw [Parser.match_other p name _ h .PRINT (by rw [hname]; decide)]
  simp only [Bool.false_eq_true, if_false]
  exact Parser.assignment_front p name eq value rest node h hname heq hvalue

/-- The loop of `parse` in front of a token that cannot start a statement
and is not END: the next statement fails with "Expected variable name.". -/
theorem Parser.parseLoop_other (fuel : Nat) (p : Parser) (statements : List ASTNode)
    (t : Token) (rest : List Token) (h : p.tokens.drop p.current = t :: rest)
    (ht : t.type ≠ .IF ∧ t.type ≠ .WHILE ∧ t.type ≠ .PRINT ∧ t.type ≠ .IDENTIFIER)
    (hend : t.type ≠ .END) :
    Parser.parseLoop (fuel + 1) p statements =
      .error (.runtime_error "Expected variable name.") := by
  obtain ⟨h1, h2, _⟩ := Parser.check_front p t rest h .END
  rw [Parser.parseLoop]
  simp only [h1, h2, hend, ne_eq, not_false_eq_true, decide_True, Bool.not_false, Bool.and_self,
    if_true]
  rw [show 2 * p.tokens.length + 2 = (2 * p.tokens.length + 1) + 1 from rfl,
    Parser.statement_other _ p t rest h ht]
  rfl

/-- The loop of `parse` in front of `name = value` followed by a token that
is not EOL: the assignment is read and the loop goes on at that token. -/
theorem Parser.parseLoop_assignment (fuel : Nat) (p : Parser) (statements : List ASTNode)
    (name eq value next : Token) (rest : List Token) (node : ASTNode)
    (h : p.tokens.drop p.current = name :: eq :: value :: next :: rest)
    (hname : name.type = .IDENTIFIER) (heq : eq.type = .EQUALS)
    (hvalue : ∀ q : Parser, q.tokens.drop q.current = value :: next :: rest →
      q.expression = .ok (node, { q with current := q.current + 1 }))
    (hnext : next.type ≠ .EOL) :
    Parser.parseLoop (fuel + 1) p statements =
      Parser.parseLoop fuel { p with current := p.current + 3 }
        (statements ++ [.AssignmentNode name.value node]) := by
  obtain ⟨h1, h2, _⟩ := Parser.check_front p name _ h .END
  have h3 : ({ p with current := p.current + 3 } : Parser).tokens.drop
      ({ p with current := p.current + 3 } : Parser).current = next :: rest :=
    Parser.drop_next _ value _ (Parser.drop_next _ eq _ (Parser.drop_next p name _ h))
  rw [Parser.parseLoop]
  simp only [h1, h2, hname, ne_eq, not_false_eq_true, decide_True, Bool.not_false, Bool.and_self,
    if_true, reduceCtorEq]
  rw [show 2 * p.tokens.length + 2 = (2 * p.tokens.length + 1) + 1 from rfl,
    Parser.statement_assignment _ p name eq value _ node h hname heq hvalue]
  simp only [bind, Except.bind]
  rw [Parser.match_other _ next rest h3 .EOL hnext]

theorem Parser.expression_value (value : Token) (h : value.IsValue) (rest : List Token) :
    ∃ node, ∀ q : Parser, q.tokens.drop q.current = value :: rest →
      q.expression = .ok (node, { q with current := q.current + 1 }) := by
  rcases h with h | ⟨h, v, hv⟩
  · exact ⟨_, fun q hq => Parser.expression_identifier q value rest hq h⟩
  · exact ⟨_, fun q hq => Parser.expression_number q value rest v hq h hv⟩

/-- The loop of `parse` on `name = value - ...`: the assignment takes the
three tokens, the MINUS token stays, and the next statement fails. -/
theorem Parser.parseLoop_minus (fuel : Nat) (p : Parser) (statements : List ASTNode)
    (name eq value minus : Token) (rest : List Token)
    (h : p.tokens.drop p.current = name :: eq :: value :: minus :: rest)
    (hname : name.type = .IDENTIFIER) (heq : eq.type = .EQUALS) (hvalue : value.IsValue)
    (hminus : minus.type = .MINUS) :
    Parser.parseLoop (fuel + 2) p statements =
      .error (.runtime_error "Expected variable name.") := by
  obtain ⟨node, hnode⟩ := Parser.expression_value value hvalue (minus :: rest)
  have h3 : ({ p with current := p.current + 3 } : Parser).tokens.drop
      ({ p with current := p.current + 3 } : Parser).current = minus :: rest :=
    Parser.drop_next _ value _ (Parser.drop_next _ eq _ (Parser.drop_next p name _ h))
  rw [Parser.parseLoop_assignment (fuel + 1) p statements name eq value minus rest node h hname
    heq hnode (by rw [hminus]; decide)]
  exact Parser.parseLoop_other fuel _ _ minus rest h3
    (by rw [hminus]; exact ⟨by decide, by decide, by decide, by decide⟩) (by rw [hminus]; decide)

set_option maxRecDepth 100000 in
/-- C31: in the interpreter `expression` reads a single NUMBER or IDENTIFIER
token, and `assignment` reads `name = value` with such a value and stops in
front of the next token. In front of a statement like `x = x - 1` the loop of
`parse` therefore reads the assignment `x = x`, leaves the MINUS token, and
fails with "Expected variable name." at the start of the next statement; so
does `parse` on every token sequence that begins that way, and on the tokens
of the text "x = x - 1". For the token sequence that the lexer produces from
the example program of main.cpp, `parse` fails with this error and returns no
statements, and `main` writes nothing to the standard output, writes the
error and returns 1, whatever the fuel of the execution. -/
theorem parse_fails_after_assignment_with_minus :
    (∀ (p : Parser) (t : Token) (rest : List Token), p.tokens.drop p.current = t :: rest →
      t.type = .IDENTIFIER →
      p.expression = .ok (.VariableNode t.value, { p with current := p.current + 1 })) ∧
    (∀ (p : Parser) (t : Token) (rest : List Token) (v : Int),
      p.tokens.drop p.current = t :: rest → t.type = .NUMBER → stoi t.value = .ok v →
      p.expression = .ok (.NumberNode v, { p with current := p.current + 1 })) ∧
    (∀ (p : Parser) (name eq value : Token) (rest : List Token),
      p.tokens.drop p.current = name :: eq :: value :: rest →
      name.type = .IDENTIFIER → eq.type = .EQUALS → value.IsValue →
      ∃ node, p.assignment =
        .ok (.AssignmentNode name.value node, { p with current := p.current + 3 })) ∧
    (∀ (fuel : Nat) (p : Parser) (statements : List ASTNode) (name eq value minus : Token)
      (rest : List Token),
      p.tokens.drop p.current = name :: eq :: value :: minus :: rest →
      name.type = .IDENTIFIER → eq.type = .EQUALS → value.IsValue → minus.type = .MINUS →
      Parser.parseLoop (fuel + 2) p statements =
        .error (.runtime_error "Expected variable name.")) ∧
    (∀ (name eq value minus : Token) (rest : List Token),
      name.type = .IDENTIFIER → eq.type = .EQUALS → value.IsValue → minus.type = .MINUS →
      (Parser.new (name :: eq :: value :: minus :: rest)).parse =
        .error (.runtime_error "Expected variable name.")) ∧
    (Lexer.new "x = x - 1\n".toList).tokenize = .ok
      [{ type := .IDENTIFIER, value := "x".toList, line := 1 },
       { type := .EQUALS, value := "=".toList, line := 1 },
       { type := .IDENTIFIER, value := "x".toList, line := 1 },
       { type := .MINUS, value := "-".toList, line := 1 },
       { type := .NUMBER, value := "1".toList, line := 1 },
       { type := .EOL, value := "\\n".toList, line := 1 },
       { type := .END, value := [], line := 2 }] ∧
    (Lexer.new source).tokenize = .ok exampleTokens ∧
    (Parser.new exampleTokens).parse = .error (.runtime_error "Expected variable name.") ∧
    (∀ fuel : Nat, main fuel =
      { cout := [], cerr := "Error: Expected variable name.\n".toList, status := 1 }) := by
  refine ⟨Parser.expression_identifier, Parser.expression_number, ?_, Parser.parseLoop_minus, ?_,
    by rfl, tokenize_source, parse_exampleTokens, ?_⟩
  · intro p name eq value rest h hname heq hvalue
    obtain ⟨node, hnode⟩ := Parser.expression_value value hvalue rest
    exact ⟨node, Parser.assignment_front p name eq value rest node h hname heq hnode⟩
  · intro name eq value minus rest hname heq hvalue hminus
    unfold Parser.parse
    exact Parser.parseLoop_minus _ _ [] name eq value minus rest rfl hname heq hvalue hminus
  · intro fuel
    unfold main run
    rw [tokenize_source]
    simp only [parse_exampleTokens]
    rfl

end Tiny

namespace Calc

/-! ## Evaluation of well-formed expression strings -/

theorem Spec.tailTokens_append (pre post : List (Op × Str)) :
    Spec.tailTokens (pre ++ post) = Spec.tailTokens pre ++ Spec.tailTokens post := by
  induction pre with
  | nil => rfl
  | cons p pre ih =>
    obtain ⟨o, n⟩ := p
    simp [Spec.tailTokens, ih]

/-- The first pair of a list whose numeral lacks a property that one of the
numerals lacks. -/
theorem Spec.first_numeral (P : Str → Prop) (rest : List (Op × Str))
    (h : ∃ n ∈ Spec.numerals rest, ¬ P n) :
    ∃ (pre : List (Op × Str)) (o : Op) (n : Str) (post : List (Op × Str)),
      rest = pre ++ (o, n) :: post ∧ (∀ m ∈ Spec.numerals pre, P m) ∧ ¬ P n := by
  induction rest with
  | nil =>
    obtain ⟨n, hn, _⟩ := h
    simp [Spec.numerals] at hn
  | cons p rest ih =>
    obtain ⟨o, n⟩ := p
    by_cases hp : P n
    · obtain ⟨m, hm, hPm⟩ := h
      simp only [Spec.numerals, List.map_cons, List.mem_cons] at hm
      have hrest : ∃ n ∈ Spec.numerals rest, ¬ P n := by
        rcases hm with e | hm
        · rw [e] at hPm; exact absurd hp hPm
        · exact ⟨m, hm, hPm⟩
      obtain ⟨pre, o1, n2, post, e, hpre, hn2⟩ := ih hrest
      refine ⟨(o, n) :: pre, o1, n2, post, by rw [e]; rfl, ?_, hn2⟩
      intro m hm
      simp only [Spec.numerals, List.map_cons, List.mem_cons] at hm
      rcases hm with e | hm
      · rw [e]; exact hp
      · exact hpre m hm
    · exact ⟨[], o, n, rest, rfl, by simp [Spec.numerals], hp⟩

/-- On an expression string with a numeral that `std::stod` does not convert,
`parse` ends with `std::out_of_range`. -/
theorem parse_exprTokens_out_of_range (n1 : Str) (rest : List (Op × Str))
    (h1 : IsNumeral n1) (h : ∀ p ∈ rest, IsNumeral p.2)
    (hinf : ¬ ∀ n ∈ n1 :: Spec.numerals rest, (Double.ofNat (digitsValue n)).isFinite = true) :
    parse binary64 ({ type := .NUMBER, value := n1 } :: Spec.tailTokens rest ++
      [{ type := .EOL }]) = .error (.out_of_range "stod") := by
  by_cases hf1 : (Double.ofNat (digitsValue n1)).isFinite = true
  · have hex : ∃ n ∈ Spec.numerals rest, ¬ (Double.ofNat (digitsValue n)).isFinite = true := by
      by_contra hno
      apply hinf
      intro n hn
      rcases List.mem_cons.mp hn with e | hn
      · rw [e]; exact hf1
      · by_contra hc
        exact hno ⟨n, hn, hc⟩
    obtain ⟨pre, o, n, post, e, hpre, hn⟩ :=
      Spec.first_numeral (fun n => (Double.ofNat (digitsValue n)).isFinite = true) rest hex
    have hnum : ∀ p ∈ pre, IsNumeral p.2 := fun p hp => h p (by rw [e]; simp [hp])
    have hnn : IsNumeral n := h (o, n) (by rw [e]; simp)
    have hv : binary64.Reads (fun n => Double.ofNat (digitsValue n))
        (n1 :: Spec.numerals pre) := by
      apply binary64_reads
      · intro m hm
        rcases List.mem_cons.mp hm with e1 | hm
        · rw [e1]; exact h1
        · obtain ⟨p, hp, rfl⟩ := List.mem_map.mp hm
          exact hnum p hp
      · intro m hm
        rcases List.mem_cons.mp hm with e1 | hm
        · rw [e1]; exact hf1
        · exact hpre m hm
    have herr : binary64.stod n = .error (.out_of_range "stod") :=
      (Double.stod_numeral_cases n hnn).2 (by simpa using hn)
    rw [e, Spec.tailTokens_append]
    simp only [Spec.tailTokens, List.append_assoc, List.cons_append]
    exact parse_stod_error binary64 _ n1 pre o n _ _ hv herr
  · exact parse_number_error binary64 n1 _ _
      ((Double.stod_numeral_cases n1 h1).2 (by simpa using hf1))

/-- C1 (as stated, refuted): the numeral 1 followed by 400 zeros is a
non-empty run of decimal digits, an expression string with no operator, and
`evaluate(parse(tokenize(s)))` has no value for it: inside `parse`,
`std::stod` throws `std::out_of_range`. -/
theorem evaluateText_numeral_out_of_range :
    IsNumeral ('1' :: List.replicate 400 '0') ∧
      evaluateText binary64 (Spec.exprText ('1' :: List.replicate 400 '0') []) =
        .error (.out_of_range "stod") := by
  constructor
  · decide!
  · decide!

/-- C1 (amended): for every expression string `n1 op1 n2 ... opk n(k+1)` made
of operators `+ - * /` and of non-empty digit runs that `std::stod` converts
(the `double` nearest to the integer denoted is finite),
`evaluate(parse(tokenize(s)))` returns the value of the string under the usual
rules (`*` and `/` bind tighter than `+` and `-`, chains of one tier associate
to the left) in the arithmetic of `double`: every numeral is read as the
nearest `double`, and every operation is the operation of `double`, so the
statement holds also when a divisor is zero: "1/0" evaluates to the positive
infinity and "0/0" to a NaN. When `std::stod` does not convert one of the
numerals, the composition ends with `std::out_of_range`. "2+3*4" evaluates to
14 = 7 * 2, "10-2-3" to 5, and "9007199254740993" to 9007199254740992 =
2^53. -/
theorem evaluate_parse_tokenize_standard (n1 : Str) (rest : List (Op × Str))
    (h1 : IsNumeral n1) (h : ∀ p ∈ rest, IsNumeral p.2) :
    evaluateText binary64 (Spec.exprText n1 rest) =
        (if ∀ n ∈ n1 :: Spec.numerals rest, (Double.ofNat (digitsValue n)).isFinite = true then
          .ok (Spec.standardValue binary64 (fun n => Double.ofNat (digitsValue n)) n1 rest)
        else .error (.out_of_range "stod")) ∧
      evaluateText binary64 "2+3*4".toList = .ok (.finite false 7 1) ∧
      evaluateText binary64 "10-2-3".toList = .ok (.finite false 5 0) ∧
      evaluateText binary64 "9007199254740993".toList = .ok (.finite false 1 53) ∧
      evaluateText binary64 "1/0".toList = .ok (.inf false) ∧
      evaluateText binary64 "0/0".toList = .ok .nan := by
  refine ⟨?_, by rfl, by rfl, by rfl, by rfl, by rfl⟩
  split
  · rename_i hfin
    apply evaluateText_exprText binary64 _ n1 rest h1 h
    apply binary64_reads _ _ hfin
    intro n hn
    rcases List.mem_cons.mp hn with e | hn
    · rw [e]; exact h1
    · obtain ⟨p, hp, rfl⟩ := List.mem_map.mp hn
      exact h p hp
  · rename_i hinf
    unfold evaluateText
    rw [tokenize_exprText n1 rest h1 h]
    simp only [bind, Except.bind]
    rw [parse_exprTokens_out_of_range n1 rest h1 h hinf]

/-- The string "7/2-1*3" evaluates to `(7 / 2) - (1 * 3)`, which is
1/2 = 1 * 2^-1. -/
theorem evaluate_parse_tokenize_standard_witness :
    IsNumeral "7".toList ∧
      (∀ p ∈ [(Op.divide, "2".toList), (Op.minus, "1".toList), (Op.times, "3".toList)],
        IsNumeral p.2) ∧
      evaluateText binary64 (Spec.exprText "7".toList
          [(.divide, "2".toList), (.minus, "1".toList), (.times, "3".toList)]) =
        .ok (.finite false 1 (-1)) :=
  ⟨by decide, by decide,
    (evaluate_parse_tokenize_standard "7".toList
      [(.divide, "2".toList), (.minus, "1".toList), (.times, "3".toList)]
      (by decide) (by decide)).1⟩

end Calc
